import Mathlib

/-!
Fixed-capacity generational pools: `nonstd::slot_array` and `nonstd::keyed_array`.

A shallow embedding of `include/versioned_key.h`, `include/raw_buffer.h`,
`include/slot_array.h`, `include/keyed_array.h` and `include/packed_array.h`, followed
by theorems about it.

Conventions of the embedding.

* The key type is the default `versioned_key`: `version_type = uint32_t`,
  `index_type = meta_type = uint16_t`.  Machine integers are natural numbers and every
  arithmetic result that is stored back into a fixed-width variable is reduced
  explicitly (`% 4294967296` for 32 bits, `% 65536` for 16 bits,
  `% 18446744073709551616` for `size_t`).
* A `std::array<X, N>` member is a total map `Nat → X`; `a[i] = v` is `store a i v`.
  Only the cells `i < N` belong to the C++ object.  The invariants proved below show
  that the reachable states never touch a cell outside that range.
* A cell of `raw_buffer<T, N>` is an `Option α`: `none` is raw (unconstructed)
  storage, `some v` a constructed element with value `v`.
* A pointer `T*` returned by `try_get` is the position of the cell inside `m_data`
  (`none` is `nullptr`); a `lookup_t*` is the index of the record inside `m_lookups`.
* A call that throws returns the exception next to the state the object is left in.
  `emplace_back` is the call in which the constructor of `T` returns; the call in which
  it may throw is `emplace_back_construct`, which agrees with `emplace_back` when the
  constructor returns.
* An access to a `std::array` with an index that is out of bounds is undefined.  The
  `_checked` variants of the lookup and removal functions make every such access
  explicit (`index_checked`) and return `none` when one is out of bounds.
* The `for` loops over `index_type`/`uint16_t` counters run over `List.range`; the
  `static_assert`s bound `N` so that the counters do not wrap.
-/

namespace nonstd

/-- Array assignment `a[i] = v` on an array modelled as a total map. -/
def store {β : Type} (a : Nat → β) (i : Nat) (v : β) : Nat → β :=
  fun j => if j = i then v else a j

/-- An access `a[i]` to a `std::array<X, N>` (for reading, writing or taking the
address of the element): `none` when the index is out of bounds, which is undefined
behaviour, and the element otherwise. -/
def index_checked {β : Type} (N : Nat) (a : Nat → β) (i : Nat) : Option β :=
  if i < N then some (a i) else none

/-- How a call binds its arguments to the parameters of
`emplace_back(Args&& ... args, meta_type meta = 0)`, the arguments being integers.
The pack `Args` is followed by another parameter, so it is not deduced from the call:
it consists of the `spelled` template arguments written at the call (none written: the
pack is empty).  The first `spelled` arguments are the constructor arguments; one
further argument, when present, is `meta`, converted to the 16-bit `meta_type`; when
absent, `meta` has its default 0.  A call with any other number of arguments does not
compile (`none`).  The result is the constructor arguments and the tag. -/
def bind_arguments (spelled : Nat) (actuals : List Nat) : Option (List Nat × Nat) :=
  if actuals.length = spelled then some (actuals, 0)
  else if actuals.length = spelled + 1 then
    some (actuals.take spelled, (actuals.getD spelled 0) % 65536)
  else none

/-- The exceptions that leave a call: `std::out_of_range` and `std::overflow_error`,
thrown by the pools, and an exception thrown by the constructor of the element type
`T`. -/
inductive error where
  | out_of_range
  | overflow_error
  | element_exception
deriving DecidableEq, Repr

/-- The struct `versioned_key` of `versioned_key.h`. -/
structure versioned_key where
  m_version : Nat
  m_index : Nat
  m_meta : Nat
deriving DecidableEq, Repr

namespace versioned_key

/-- The member `is_null()`. -/
def is_null (k : versioned_key) : Bool := k.m_version == 0

end versioned_key

/-- The class `raw_buffer<T, N>` of `raw_buffer.h`: `N` cells of raw storage. -/
structure raw_buffer (α : Type) (N : Nat) where
  m_data : Nat → Option α

namespace raw_buffer

variable {α : Type} {N : Nat}

/-- The unchecked `operator[]`: the content of cell `pos`. -/
def get (b : raw_buffer α N) (pos : Nat) : Option α := b.m_data pos

/-- The member `emplace(pos, args...)`: placement-constructs an element in cell `pos`. -/
def emplace (b : raw_buffer α N) (pos : Nat) (args : α) : raw_buffer α N :=
  { m_data := store b.m_data pos (some args) }

/-- The member `destroy(pos)`: runs the destructor of the element in cell `pos`. -/
def destroy (b : raw_buffer α N) (pos : Nat) : raw_buffer α N :=
  { m_data := store b.m_data pos none }

/-- The call `swap(m_data[i], m_data[j])` on two cells of the buffer. -/
def swap (b : raw_buffer α N) (i j : Nat) : raw_buffer α N :=
  let x := b.m_data i
  let y := b.m_data j
  { m_data := store (store b.m_data i y) j x }

/-- The checked accessor `at(pos)`: the access `m_data.at(pos)` to the underlying
`std::array` throws `std::out_of_range` when `pos >= N`. -/
def at_ (b : raw_buffer α N) (pos : Nat) : Except error (Option α) :=
  if pos ≥ N then Except.error error.out_of_range
  else Except.ok (b.m_data pos)

/-- The member `emplace_at(pos, args...)`: `m_data.at(pos)` is evaluated first, then the
element is placement-constructed in the cell.  The result is the position of the cell
the returned reference designates. -/
def emplace_at (b : raw_buffer α N) (pos : Nat) (args : α) :
    Except error Nat × raw_buffer α N :=
  if pos ≥ N then (Except.error error.out_of_range, b)
  else (Except.ok pos, { m_data := store b.m_data pos (some args) })

/-- The member `destroy_at(pos)`: `m_data.at(pos)` is evaluated first, then the
destructor of the element in the cell is run. -/
def destroy_at (b : raw_buffer α N) (pos : Nat) : Except error Unit × raw_buffer α N :=
  if pos ≥ N then (Except.error error.out_of_range, b)
  else (Except.ok (), { m_data := store b.m_data pos none })

end raw_buffer

/-- A call of the mutating interface common to both pools. -/
inductive Call (α : Type) where
  | emplace_back (args : α) (meta_data : Nat)
  | try_remove (key : versioned_key)
  | clear

/-- The calls `emplace_back(a.1, a.2)` for each argument pair in turn. -/
def Call.emplace_each {α : Type} (args : List (α × Nat)) : List (Call α) :=
  args.map (fun a => Call.emplace_back a.1 a.2)

/-- A call of the mutating interface common to both pools with the outcome of the
constructor of `T` explicit: `element` is `some v` when `T(args...)` yields `v`, and
`none` when it throws. -/
inductive Invocation (α : Type) where
  | emplace_back (element : Option α) (meta_data : Nat)
  | try_remove (key : versioned_key)
  | clear

/-- The calls `emplace_back` with the outcome `a.1` of the constructor and the tag
`a.2`, for each pair in turn. -/
def Invocation.emplace_each {α : Type} (args : List (Option α × Nat)) :
    List (Invocation α) :=
  args.map (fun a => Invocation.emplace_back a.1 a.2)

/-- A call of the interface common to both pools, `try_get` included. -/
inductive Query (α : Type) where
  | emplace_back (args : α) (meta_data : Nat)
  | try_get (key : versioned_key)
  | try_remove (key : versioned_key)
  | clear

/-- What the caller observes of one call: the key returned or the exception thrown by
`emplace_back`; for `try_get`, `none` for `nullptr` and otherwise the content of the
cell the returned pointer designates; the flag returned by `try_remove`; nothing for
`clear`. -/
inductive Outcome (α : Type) where
  | emplaced (result : Except error versioned_key)
  | got (value : Option (Option α))
  | removed (result : Bool)
  | cleared

/-- A sequence of `n` rounds on a pool of capacity 1, each round an `emplace_back`
followed by `try_remove` of the key that call returns; `start` is the generation of
slot 0 before the first round. -/
def churn (start : Nat) : Nat → List (Call Nat)
  | 0 => []
  | n + 1 =>
    Call.emplace_back 0 0 ::
      Call.try_remove { m_version := start + 1, m_index := 0, m_meta := 0 } ::
        churn (start + 1) n

/-! ## `slot_array.h` -/

/-- The nested struct `slot_array::lookup_t`. -/
structure lookup_t where
  version : Nat
  next_free : Nat
  data_index : Nat
deriving DecidableEq, Repr

namespace lookup_t

/-- The assignment `m_lookups[i].version = v`. -/
def set_version (a : Nat → lookup_t) (i v : Nat) : Nat → lookup_t :=
  store a i { (a i) with version := v }

/-- The assignment `m_lookups[i].next_free = v`. -/
def set_next_free (a : Nat → lookup_t) (i v : Nat) : Nat → lookup_t :=
  store a i { (a i) with next_free := v }

/-- The assignment `m_lookups[i].data_index = v`. -/
def set_data_index (a : Nat → lookup_t) (i v : Nat) : Nat → lookup_t :=
  store a i { (a i) with data_index := v }

end lookup_t

/-- The data members of `slot_array<T, N>`. -/
structure slot_array (α : Type) (N : Nat) where
  m_size : Nat
  m_free_head : Nat
  m_data : raw_buffer α N
  m_lookups : Nat → lookup_t
  m_erase : Nat → Nat

namespace slot_array

variable {α : Type} {N : Nat}

/-- The constant `max_index = std::numeric_limits<index_type>::max()`. -/
def max_index : Nat := 65535

/-- The constant `invalid_index = max_index`. -/
def invalid_index : Nat := max_index

/-- The member `size()`. -/
def size (s : slot_array α N) : Nat := s.m_size

/-- The member `max_size()`. -/
def max_size (_s : slot_array α N) : Nat := N

/-- The member `empty()`. -/
def empty (s : slot_array α N) : Bool := s.m_size == 0

/-- The helper `increment_version(uint32_t& version)`: `return (++version > 0)`.
The second component is the value left in the referenced variable. -/
def increment_version (version : Nat) : Bool × Nat :=
  let version := (version + 1) % 4294967296
  (decide (version > 0), version)

/-- The helper `reset_metadata()`. -/
def reset_metadata (s : slot_array α N) : slot_array α N :=
  if N = 0 then
    { s with m_free_head := invalid_index }
  else
    let s := (List.range N).foldl (fun (s : slot_array α N) idx =>
      let s := { s with m_lookups := lookup_t.set_data_index s.m_lookups idx invalid_index }
      let s := { s with m_lookups := lookup_t.set_next_free s.m_lookups idx ((idx + 1) % 65536) }
      { s with m_erase := store s.m_erase idx invalid_index }) s
    let s := { s with m_lookups := lookup_t.set_next_free s.m_lookups (N - 1) invalid_index }
    { s with m_free_head := 0 }

/-- The helper `destroy_all()`. -/
def destroy_all (s : slot_array α N) : slot_array α N :=
  (List.range s.m_size).foldl (fun (s : slot_array α N) idx =>
    { s with m_data := s.m_data.destroy idx }) s

/-- The constructor `slot_array()`: value-initialised members, then `reset_metadata()`. -/
def ctor : slot_array α N :=
  reset_metadata
    { m_size := 0
      m_free_head := 0
      m_data := { m_data := fun _ => none }
      m_lookups := fun _ => { version := 0, next_free := 0, data_index := 0 }
      m_erase := fun _ => 0 }

/-- The member `emplace_back(args..., meta_data)`, for a call in which the constructor
of `T` returns; `args` is the element it yields. -/
def emplace_back (s : slot_array α N) (args : α) (meta_data : Nat) :
    Except error versioned_key × slot_array α N :=
  if s.m_free_head = invalid_index then
    (Except.error error.out_of_range, s)
  else
    let lookup_index := s.m_free_head
    let r := increment_version (s.m_lookups lookup_index).version
    let s := { s with m_lookups := lookup_t.set_version s.m_lookups lookup_index r.2 }
    if r.1 = false then
      (Except.error error.overflow_error, s)
    else
      let s := { s with m_data := s.m_data.emplace s.m_size args }
      let s := { s with m_erase := store s.m_erase s.m_size lookup_index }
      let s := { s with m_lookups := lookup_t.set_data_index s.m_lookups lookup_index (s.m_size % 65536) }
      let s := { s with m_free_head := (s.m_lookups lookup_index).next_free }
      let s := { s with m_lookups := lookup_t.set_next_free s.m_lookups lookup_index invalid_index }
      let s := { s with m_size := (s.m_size + 1) % 18446744073709551616 }
      (Except.ok
        { m_version := (s.m_lookups lookup_index).version
          m_index := lookup_index
          m_meta := meta_data }, s)

/-- The member `emplace_back(args..., meta_data)` with the outcome of the constructor of
`T` explicit: `element` is `some v` when `T(args...)` yields `v`, and `none` when it
throws.  The exception leaves `m_data.emplace` after `increment_version` has raised the
generation of the slot and before anything else is stored. -/
def emplace_back_construct (s : slot_array α N) (element : Option α) (meta_data : Nat) :
    Except error versioned_key × slot_array α N :=
  if s.m_free_head = invalid_index then
    (Except.error error.out_of_range, s)
  else
    let lookup_index := s.m_free_head
    let r := increment_version (s.m_lookups lookup_index).version
    let s := { s with m_lookups := lookup_t.set_version s.m_lookups lookup_index r.2 }
    if r.1 = false then
      (Except.error error.overflow_error, s)
    else
      match element with
      | none => (Except.error error.element_exception, s)
      | some args =>
        let s := { s with m_data := s.m_data.emplace s.m_size args }
        let s := { s with m_erase := store s.m_erase s.m_size lookup_index }
        let s := { s with m_lookups := lookup_t.set_data_index s.m_lookups lookup_index (s.m_size % 65536) }
        let s := { s with m_free_head := (s.m_lookups lookup_index).next_free }
        let s := { s with m_lookups := lookup_t.set_next_free s.m_lookups lookup_index invalid_index }
        let s := { s with m_size := (s.m_size + 1) % 18446744073709551616 }
        (Except.ok
          { m_version := (s.m_lookups lookup_index).version
            m_index := lookup_index
            m_meta := meta_data }, s)

/-- A call `emplace_back<...>(actuals...)` as it is written, with `spelled` template
arguments and the integer arguments `actuals`, for an element type whose constructor
yields `construct args` from the constructor arguments `args` (`construct []` is the
value-initialised element).  The result is `none` when the call does not compile. -/
def emplace_back_written (construct : List Nat → α) (spelled : Nat) (actuals : List Nat)
    (s : slot_array α N) : Option (Except error versioned_key × slot_array α N) :=
  match bind_arguments spelled actuals with
  | none => none
  | some b => some (emplace_back s (construct b.1) b.2)

/-- The helper `evaluate_index(lookup_index)`. -/
def evaluate_index (_s : slot_array α N) (lookup_index : Nat) : Bool :=
  if lookup_index ≥ N then false else true

/-- The helper `evaluate_lookup(key, lookup)`. -/
def evaluate_lookup (s : slot_array α N) (key : versioned_key) (lookup : lookup_t) : Bool :=
  if lookup.data_index = invalid_index then false
  else if lookup.data_index ≥ s.m_size then false
  else if lookup.version ≠ key.m_version then false
  else true

/-- The helper `resolve_key(key)`; the result is the index of the record in
`m_lookups` that the returned pointer designates. -/
def resolve_key (s : slot_array α N) (key : versioned_key) : Option Nat :=
  let lookup_index := key.m_index
  if evaluate_index s lookup_index = false then none
  else if evaluate_lookup s key (s.m_lookups lookup_index) = false then none
  else some lookup_index

/-- The member `try_get(key)`; the result is the position in `m_data` of the
element the returned pointer designates. -/
def try_get (s : slot_array α N) (key : versioned_key) : Option Nat :=
  match resolve_key s key with
  | some lookup => some (s.m_lookups lookup).data_index
  | none => none

/-- The member `try_remove(key)`. -/
def try_remove (s : slot_array α N) (key : versioned_key) : Bool × slot_array α N :=
  match resolve_key s key with
  | none => (false, s)
  | some lookup_cursor =>
    let data_index_cursor := (s.m_lookups lookup_cursor).data_index
    let lookup_index_cursor := s.m_erase data_index_cursor
    let data_index_tail := ((s.m_size + 18446744073709551615) % 18446744073709551616) % 65536
    let lookup_index_tail := s.m_erase data_index_tail
    let lookup_tail := lookup_index_tail
    let s := { s with m_data := s.m_data.swap data_index_cursor data_index_tail }
    let s := { s with m_data := s.m_data.destroy data_index_tail }
    let s := { s with m_erase := store s.m_erase data_index_cursor (s.m_erase data_index_tail) }
    let s := { s with m_erase := store s.m_erase data_index_tail invalid_index }
    let s := { s with m_lookups := lookup_t.set_data_index s.m_lookups lookup_cursor invalid_index }
    let s := { s with m_lookups := lookup_t.set_data_index s.m_lookups lookup_tail data_index_cursor }
    let s := { s with m_lookups := lookup_t.set_next_free s.m_lookups lookup_cursor s.m_free_head }
    let s := { s with m_free_head := lookup_index_cursor }
    let s := { s with m_size := (s.m_size + 18446744073709551615) % 18446744073709551616 }
    (true, s)

/-- The member `clear()`. -/
def clear (s : slot_array α N) : slot_array α N :=
  let s := destroy_all s
  let s := reset_metadata s
  { s with m_size := 0 }

/-- The iteration `for (auto& val : structure)` over `[begin(), end())`: the cells at
data positions `0 .. m_size - 1`, in order. -/
def iterate (s : slot_array α N) : List (Option α) :=
  (List.range s.m_size).map s.m_data.get

/-- The state after one call of the mutating interface (the returned key, flag or
exception is dropped). -/
def step (s : slot_array α N) : Call α → slot_array α N
  | Call.emplace_back args meta_data => (emplace_back s args meta_data).2
  | Call.try_remove key => (try_remove s key).2
  | Call.clear => clear s

/-- The state after a sequence of calls. -/
def run (s : slot_array α N) (calls : List (Call α)) : slot_array α N :=
  calls.foldl step s

/-- Whether the call makes a slot generation wrap around, that is, whether it is an
`emplace_back` that throws `std::overflow_error`. -/
def wraps (s : slot_array α N) : Call α → Bool
  | Call.emplace_back args meta_data =>
    match (emplace_back s args meta_data).1 with
    | Except.error error.overflow_error => true
    | _ => false
  | _ => false

/-- No call of the sequence, run from `s`, makes a slot generation wrap around. -/
def no_wrap (s : slot_array α N) : List (Call α) → Bool
  | [] => true
  | c :: calls => !wraps s c && no_wrap (step s c) calls

/-- The free list as a ghost list: following `next_free` from `head` visits exactly the
slots of the list, in order, and then reaches `invalid_index`; the slot at depth `i`
of the list has a `data_index` of at least `n + i`. -/
def free_chain (lk : Nat → lookup_t) : Nat → Nat → List Nat → Prop
  | head, _, [] => head = invalid_index
  | head, n, x :: xs =>
    head = x ∧ n ≤ (lk x).data_index ∧ free_chain lk (lk x).next_free (n + 1) xs

/-- The representation invariant of `slot_array<T, N>`, relative to the list `fl` of
the slots on the free list. -/
structure Inv (s : slot_array α N) (fl : List Nat) : Prop where
  size_add : s.m_size + fl.length = N
  chain : free_chain s.m_lookups s.m_free_head s.m_size fl
  fl_lt : ∀ x ∈ fl, x < N
  fl_nodup : fl.Nodup
  erase_ok : ∀ p, p < s.m_size →
    s.m_erase p < N ∧ (s.m_lookups (s.m_erase p)).data_index = p
  occupied : ∀ x, x < N → x ∉ fl →
    (s.m_lookups x).data_index < s.m_size ∧ s.m_erase (s.m_lookups x).data_index = x
  constructed : ∀ p, (s.m_data.m_data p).isSome = true ↔ p < s.m_size
  version_pos : ∀ x, x < N → x ∉ fl → 1 ≤ (s.m_lookups x).version
  version_lt : ∀ x, (s.m_lookups x).version < 4294967296

/-- The key is stale in a state whose free list is `fl`: its slot has moved on to a
later generation, or still has the key's generation and is on the free list. -/
def StaleIn (s : slot_array α N) (fl : List Nat) (k : versioned_key) : Prop :=
  k.m_index < N →
    k.m_version ≤ (s.m_lookups k.m_index).version ∧
    ((s.m_lookups k.m_index).version = k.m_version → k.m_index ∈ fl)

/-- The fill loop of the tests (`keys[idx] = test_emplace(structure, ...)` for each
argument in turn): the result of every call, and the final state. -/
def emplace_all (s : slot_array α N) :
    List (α × Nat) → List (Except error versioned_key) × slot_array α N
  | [] => ([], s)
  | a :: rest =>
    let r := emplace_back s a.1 a.2
    let q := emplace_all r.2 rest
    (r.1 :: q.1, q.2)

/-- The helper `test_remove::clear` of the tests: `result &= structure.try_remove(key)`
for each key in turn, starting from `result = true`. -/
def test_remove_clear (s : slot_array α N) (keys : List versioned_key) :
    Bool × slot_array α N :=
  keys.foldl (fun (r : Bool × slot_array α N) key =>
    let q := try_remove r.2 key
    (r.1 && q.1, q.2)) (true, s)

/-- The keys returned by the successful `emplace_back` calls of a sequence run from
`s`, in the order of the calls. -/
def issued (s : slot_array α N) : List (Call α) → List versioned_key
  | [] => []
  | Call.emplace_back args meta_data :: calls =>
    match (emplace_back s args meta_data).1 with
    | Except.ok key => key :: issued (emplace_back s args meta_data).2 calls
    | Except.error _ => issued (emplace_back s args meta_data).2 calls
  | Call.try_remove key :: calls => issued (try_remove s key).2 calls
  | Call.clear :: calls => issued (clear s) calls

/-- The helper `resolve_key(key)` with every array access checked. -/
def resolve_key_checked (s : slot_array α N) (key : versioned_key) : Option (Option Nat) :=
  let lookup_index := key.m_index
  if evaluate_index s lookup_index = false then some none
  else
    (index_checked N s.m_lookups lookup_index).bind fun lookup =>
      if evaluate_lookup s key lookup = false then some none
      else some (some lookup_index)

/-- The member `try_get(key)` with every array access checked. -/
def try_get_checked (s : slot_array α N) (key : versioned_key) : Option (Option Nat) :=
  (resolve_key_checked s key).bind fun r =>
    match r with
    | none => some none
    | some lookup =>
      (index_checked N s.m_data.m_data (s.m_lookups lookup).data_index).bind fun _ =>
        some (some (s.m_lookups lookup).data_index)

/-- The member `try_remove(key)` with every array access checked, in the order of the
source: the two reads of `m_erase`, the reference into `m_lookups`, the two cells of
`m_data` that are swapped; the writes that follow use the same indices. -/
def try_remove_checked (s : slot_array α N) (key : versioned_key) :
    Option (Bool × slot_array α N) :=
  (resolve_key_checked s key).bind fun r =>
    match r with
    | none => some (false, s)
    | some lookup_cursor =>
      let data_index_cursor := (s.m_lookups lookup_cursor).data_index
      (index_checked N s.m_erase data_index_cursor).bind fun lookup_index_cursor =>
      let data_index_tail := ((s.m_size + 18446744073709551615) % 18446744073709551616) % 65536
      (index_checked N s.m_erase data_index_tail).bind fun lookup_index_tail =>
      (index_checked N s.m_lookups lookup_index_tail).bind fun _ =>
      let lookup_tail := lookup_index_tail
      (index_checked N s.m_data.m_data data_index_cursor).bind fun _ =>
      (index_checked N s.m_data.m_data data_index_tail).bind fun _ =>
      let s := { s with m_data := s.m_data.swap data_index_cursor data_index_tail }
      let s := { s with m_data := s.m_data.destroy data_index_tail }
      let s := { s with m_erase := store s.m_erase data_index_cursor (s.m_erase data_index_tail) }
      let s := { s with m_erase := store s.m_erase data_index_tail invalid_index }
      let s := { s with m_lookups := lookup_t.set_data_index s.m_lookups lookup_cursor invalid_index }
      let s := { s with m_lookups := lookup_t.set_data_index s.m_lookups lookup_tail data_index_cursor }
      let s := { s with m_lookups := lookup_t.set_next_free s.m_lookups lookup_cursor s.m_free_head }
      let s := { s with m_free_head := lookup_index_cursor }
      let s := { s with m_size := (s.m_size + 18446744073709551615) % 18446744073709551616 }
      some (true, s)

/-- The state after one call of the mutating interface, the constructor of `T` being
allowed to throw (the returned key, flag or exception is dropped). -/
def perform (s : slot_array α N) : Invocation α → slot_array α N
  | Invocation.emplace_back element meta_data =>
    (emplace_back_construct s element meta_data).2
  | Invocation.try_remove key => (try_remove s key).2
  | Invocation.clear => clear s

/-- The state after a sequence of calls, the constructor of `T` being allowed to
throw. -/
def perform_all (s : slot_array α N) (calls : List (Invocation α)) : slot_array α N :=
  calls.foldl perform s

/-- The keys returned by the successful `emplace_back` calls of a sequence run from
`s`, in the order of the calls. -/
def granted (s : slot_array α N) : List (Invocation α) → List versioned_key
  | [] => []
  | Invocation.emplace_back element meta_data :: calls =>
    match (emplace_back_construct s element meta_data).1 with
    | Except.ok key => key :: granted (emplace_back_construct s element meta_data).2 calls
    | Except.error _ => granted (emplace_back_construct s element meta_data).2 calls
  | Invocation.try_remove key :: calls => granted (try_remove s key).2 calls
  | Invocation.clear :: calls => granted (clear s) calls

/-- The slots whose generation was written by an `emplace_back` call of a sequence run
from `s`: every call that finds a free slot writes the generation of the slot at the
free-list head, whether it then succeeds or throws. -/
def raised (s : slot_array α N) : List (Invocation α) → List Nat
  | [] => []
  | Invocation.emplace_back element meta_data :: calls =>
    if s.m_free_head = invalid_index then
      raised (emplace_back_construct s element meta_data).2 calls
    else s.m_free_head :: raised (emplace_back_construct s element meta_data).2 calls
  | Invocation.try_remove key :: calls => raised (try_remove s key).2 calls
  | Invocation.clear :: calls => raised (clear s) calls

/-- The slots met by following `next_free` from `head` until `invalid_index` is
reached, at most `fuel` of them. -/
def follow (lk : Nat → lookup_t) : Nat → Nat → List Nat
  | 0, _ => []
  | fuel + 1, head =>
    if head = invalid_index then [] else head :: follow lk fuel (lk head).next_free

/-- The loop `for (uint16_t idx = 0; idx < m_size; ++idx) m_data.destroy(idx);` of
`destroy_all()` with its 16-bit counter explicit, started with the counter at `idx`.
`fuel` bounds the number of evaluations of the loop test and `log` collects the
positions passed to `m_data.destroy`; the result is `none` when the loop has not been
left after `fuel` tests, and otherwise the final counter, the log and the state. -/
def destroy_all_loop :
    Nat → Nat → List Nat → slot_array α N → Option (Nat × List Nat × slot_array α N)
  | 0, _, _, _ => none
  | fuel + 1, idx, log, s =>
    if idx < s.m_size then
      destroy_all_loop fuel ((idx + 1) % 65536) (log ++ [idx])
        { s with m_data := s.m_data.destroy idx }
    else some (idx, log, s)

/-- One call of the common interface: what the caller observes, and the state after
the call. -/
def answer (s : slot_array α N) : Query α → Outcome α × slot_array α N
  | Query.emplace_back args meta_data =>
    (Outcome.emplaced (emplace_back s args meta_data).1, (emplace_back s args meta_data).2)
  | Query.try_get key => (Outcome.got ((try_get s key).map s.m_data.get), s)
  | Query.try_remove key => (Outcome.removed (try_remove s key).1, (try_remove s key).2)
  | Query.clear => (Outcome.cleared, clear s)

/-- What the caller observes of a sequence of calls. -/
def observe (s : slot_array α N) : List (Query α) → List (Outcome α)
  | [] => []
  | q :: qs => (answer s q).1 :: observe (answer s q).2 qs

/-- A caller that chooses each call from what it has observed so far (so that it can
pass the keys returned by earlier calls), for at most `fuel` calls: the observations
made, `history` being those made before. -/
def interact (client : List (Outcome α) → Option (Query α)) :
    Nat → slot_array α N → List (Outcome α) → List (Outcome α)
  | 0, _, history => history
  | fuel + 1, s, history =>
    match client history with
    | none => history
    | some q => interact client fuel (answer s q).2 (history ++ [(answer s q).1])

end slot_array

/-! ## `keyed_array.h` -/

/-- The data members of `keyed_array<T, N>`. -/
structure keyed_array (α : Type) (N : Nat) where
  m_free_head : Nat
  m_data : raw_buffer α N
  m_versions : Nat → Nat
  m_free : Nat → Nat

namespace keyed_array

variable {α : Type} {N : Nat}

/-- The constant `max_index = std::numeric_limits<index_type>::max()`. -/
def max_index : Nat := 65535

/-- The constant `invalid_index = max_index`. -/
def invalid_index : Nat := max_index

/-- The constant `slot_full = max_index - 1`. -/
def slot_full : Nat := max_index - 1

/-- The member `max_size()`. -/
def max_size (_s : keyed_array α N) : Nat := N

/-- The member `full()`. -/
def full (s : keyed_array α N) : Bool := s.m_free_head == invalid_index

/-- The helper `increment_version(version_type& version)`: `return (++version > 0)`.
The second component is the value left in the referenced variable. -/
def increment_version (version : Nat) : Bool × Nat :=
  let version := (version + 1) % 4294967296
  (decide (version > 0), version)

/-- The helper `reset_metadata()`. -/
def reset_metadata (s : keyed_array α N) : keyed_array α N :=
  if N = 0 then
    { s with m_free_head := invalid_index }
  else
    let s := (List.range (N - 1)).foldl (fun (s : keyed_array α N) pos =>
      { s with m_free := store s.m_free pos ((pos + 1) % 65536) }) s
    let s := { s with m_free := store s.m_free (N - 1) invalid_index }
    { s with m_free_head := 0 }

/-- The helper `destroy_at(index)`. -/
def destroy_at (s : keyed_array α N) (index : Nat) : keyed_array α N :=
  let s := { s with m_data := s.m_data.destroy index }
  let s := { s with m_free := store s.m_free index s.m_free_head }
  { s with m_free_head := index }

/-- The helper `destroy_all()`. -/
def destroy_all (s : keyed_array α N) : keyed_array α N :=
  (List.range N).foldl (fun (s : keyed_array α N) idx =>
    if s.m_free idx = slot_full then { s with m_data := s.m_data.destroy idx } else s) s

/-- The constructor `keyed_array()`: value-initialised members, then `reset_metadata()`. -/
def ctor : keyed_array α N :=
  reset_metadata
    { m_free_head := 0
      m_data := { m_data := fun _ => none }
      m_versions := fun _ => 0
      m_free := fun _ => 0 }

/-- The member `emplace_back(args..., meta)`, for a call in which the constructor of
`T` returns; `args` is the element it yields. -/
def emplace_back (s : keyed_array α N) (args : α) (meta_data : Nat) :
    Except error versioned_key × keyed_array α N :=
  if s.m_free_head = invalid_index then
    (Except.error error.out_of_range, s)
  else
    let index := s.m_free_head
    let r := increment_version (s.m_versions index)
    let s := { s with m_versions := store s.m_versions index r.2 }
    if r.1 = false then
      (Except.error error.overflow_error, s)
    else
      let s := { s with m_data := s.m_data.emplace index args }
      let s := { s with m_free_head := s.m_free index }
      let s := { s with m_free := store s.m_free index slot_full }
      (Except.ok
        { m_version := s.m_versions index
          m_index := index
          m_meta := meta_data }, s)

/-- The member `emplace_back(args..., meta)` with the outcome of the constructor of `T`
explicit: `element` is `some v` when `T(args...)` yields `v`, and `none` when it
throws.  The exception leaves `m_data.emplace` after `increment_version` has raised the
generation of the slot and before anything else is stored. -/
def emplace_back_construct (s : keyed_array α N) (element : Option α) (meta_data : Nat) :
    Except error versioned_key × keyed_array α N :=
  if s.m_free_head = invalid_index then
    (Except.error error.out_of_range, s)
  else
    let index := s.m_free_head
    let r := increment_version (s.m_versions index)
    let s := { s with m_versions := store s.m_versions index r.2 }
    if r.1 = false then
      (Except.error error.overflow_error, s)
    else
      match element with
      | none => (Except.error error.element_exception, s)
      | some args =>
        let s := { s with m_data := s.m_data.emplace index args }
        let s := { s with m_free_head := s.m_free index }
        let s := { s with m_free := store s.m_free index slot_full }
        (Except.ok
          { m_version := s.m_versions index
            m_index := index
            m_meta := meta_data }, s)

/-- A call `emplace_back<...>(actuals...)` as it is written, with `spelled` template
arguments and the integer arguments `actuals`, for an element type whose constructor
yields `construct args` from the constructor arguments `args` (`construct []` is the
value-initialised element).  The result is `none` when the call does not compile. -/
def emplace_back_written (construct : List Nat → α) (spelled : Nat) (actuals : List Nat)
    (s : keyed_array α N) : Option (Except error versioned_key × keyed_array α N) :=
  match bind_arguments spelled actuals with
  | none => none
  | some b => some (emplace_back s (construct b.1) b.2)

/-- The helper `evaluate_key(key)`. -/
def evaluate_key (s : keyed_array α N) (key : versioned_key) : Bool :=
  let index := key.m_index
  if index ≥ N then false
  else if s.m_free index ≠ slot_full then false
  else if key.m_version ≠ s.m_versions index then false
  else true

/-- The member `try_get(key)`; the result is the position in `m_data` of the
element the returned pointer designates. -/
def try_get (s : keyed_array α N) (key : versioned_key) : Option Nat :=
  if evaluate_key s key = false then none
  else some key.m_index

/-- The member `try_remove(key)`. -/
def try_remove (s : keyed_array α N) (key : versioned_key) : Bool × keyed_array α N :=
  if evaluate_key s key = false then (false, s)
  else (true, destroy_at s key.m_index)

/-- The member `clear()`. -/
def clear (s : keyed_array α N) : keyed_array α N :=
  reset_metadata (destroy_all s)

/-- The state after one call of the mutating interface (the returned key, flag or
exception is dropped). -/
def step (s : keyed_array α N) : Call α → keyed_array α N
  | Call.emplace_back args meta_data => (emplace_back s args meta_data).2
  | Call.try_remove key => (try_remove s key).2
  | Call.clear => clear s

/-- The state after a sequence of calls. -/
def run (s : keyed_array α N) (calls : List (Call α)) : keyed_array α N :=
  calls.foldl step s

/-- Whether the call makes a slot generation wrap around, that is, whether it is an
`emplace_back` that throws `std::overflow_error`. -/
def wraps (s : keyed_array α N) : Call α → Bool
  | Call.emplace_back args meta_data =>
    match (emplace_back s args meta_data).1 with
    | Except.error error.overflow_error => true
    | _ => false
  | _ => false

/-- No call of the sequence, run from `s`, makes a slot generation wrap around. -/
def no_wrap (s : keyed_array α N) : List (Call α) → Bool
  | [] => true
  | c :: calls => !wraps s c && no_wrap (step s c) calls

/-- The free list as a ghost list: following the `m_free` links from `head` visits
exactly the slots of the list, in order, and then reaches `invalid_index`. -/
def free_chain (next : Nat → Nat) : Nat → List Nat → Prop
  | head, [] => head = invalid_index
  | head, x :: xs => head = x ∧ free_chain next (next x) xs

/-- The representation invariant of `keyed_array<T, N>`, relative to the list `fl` of
the slots on the free list. -/
structure Inv (s : keyed_array α N) (fl : List Nat) : Prop where
  chain : free_chain s.m_free s.m_free_head fl
  fl_lt : ∀ x ∈ fl, x < N
  fl_nodup : fl.Nodup
  occupied : ∀ x, x < N → (s.m_free x = slot_full ↔ x ∉ fl)
  constructed : ∀ p, (s.m_data.m_data p).isSome = true ↔ (p < N ∧ s.m_free p = slot_full)
  version_pos : ∀ x, x < N → x ∉ fl → 1 ≤ s.m_versions x
  version_lt : ∀ x, s.m_versions x < 4294967296

/-- The key is stale in a state whose free list is `fl`: its slot has moved on to a
later generation, or still has the key's generation and is on the free list. -/
def StaleIn (s : keyed_array α N) (fl : List Nat) (k : versioned_key) : Prop :=
  k.m_index < N →
    k.m_version ≤ s.m_versions k.m_index ∧
    (s.m_versions k.m_index = k.m_version → k.m_index ∈ fl)

/-- The fill loop of the tests (`keys[idx] = test_emplace(structure, ...)` for each
argument in turn): the result of every call, and the final state. -/
def emplace_all (s : keyed_array α N) :
    List (α × Nat) → List (Except error versioned_key) × keyed_array α N
  | [] => ([], s)
  | a :: rest =>
    let r := emplace_back s a.1 a.2
    let q := emplace_all r.2 rest
    (r.1 :: q.1, q.2)

/-- The keys returned by the successful `emplace_back` calls of a sequence run from
`s`, in the order of the calls. -/
def issued (s : keyed_array α N) : List (Call α) → List versioned_key
  | [] => []
  | Call.emplace_back args meta_data :: calls =>
    match (emplace_back s args meta_data).1 with
    | Except.ok key => key :: issued (emplace_back s args meta_data).2 calls
    | Except.error _ => issued (emplace_back s args meta_data).2 calls
  | Call.try_remove key :: calls => issued (try_remove s key).2 calls
  | Call.clear :: calls => issued (clear s) calls

/-- The helper `evaluate_key(key)` with every array access checked. -/
def evaluate_key_checked (s : keyed_array α N) (key : versioned_key) : Option Bool :=
  let index := key.m_index
  if index ≥ N then some false
  else
    (index_checked N s.m_free index).bind fun f =>
      if f ≠ slot_full then some false
      else
        (index_checked N s.m_versions index).bind fun v =>
          if key.m_version ≠ v then some false
          else some true

/-- The member `try_get(key)` with every array access checked. -/
def try_get_checked (s : keyed_array α N) (key : versioned_key) : Option (Option Nat) :=
  (evaluate_key_checked s key).bind fun r =>
    if r = false then some none
    else
      (index_checked N s.m_data.m_data key.m_index).bind fun _ =>
        some (some key.m_index)

/-- The helper `destroy_at(index)` with every array access checked. -/
def destroy_at_checked (s : keyed_array α N) (index : Nat) : Option (keyed_array α N) :=
  (index_checked N s.m_data.m_data index).bind fun _ =>
    let s := { s with m_data := s.m_data.destroy index }
    (index_checked N s.m_free index).bind fun _ =>
      let s := { s with m_free := store s.m_free index s.m_free_head }
      some { s with m_free_head := index }

/-- The member `try_remove(key)` with every array access checked. -/
def try_remove_checked (s : keyed_array α N) (key : versioned_key) :
    Option (Bool × keyed_array α N) :=
  (evaluate_key_checked s key).bind fun r =>
    if r = false then some (false, s)
    else (destroy_at_checked s key.m_index).bind fun s => some (true, s)

/-- The state after one call of the mutating interface, the constructor of `T` being
allowed to throw (the returned key, flag or exception is dropped). -/
def perform (s : keyed_array α N) : Invocation α → keyed_array α N
  | Invocation.emplace_back element meta_data =>
    (emplace_back_construct s element meta_data).2
  | Invocation.try_remove key => (try_remove s key).2
  | Invocation.clear => clear s

/-- The state after a sequence of calls, the constructor of `T` being allowed to
throw. -/
def perform_all (s : keyed_array α N) (calls : List (Invocation α)) : keyed_array α N :=
  calls.foldl perform s

/-- The keys returned by the successful `emplace_back` calls of a sequence run from
`s`, in the order of the calls. -/
def granted (s : keyed_array α N) : List (Invocation α) → List versioned_key
  | [] => []
  | Invocation.emplace_back element meta_data :: calls =>
    match (emplace_back_construct s element meta_data).1 with
    | Except.ok key => key :: granted (emplace_back_construct s element meta_data).2 calls
    | Except.error _ => granted (emplace_back_construct s element meta_data).2 calls
  | Invocation.try_remove key :: calls => granted (try_remove s key).2 calls
  | Invocation.clear :: calls => granted (clear s) calls

/-- The slots whose generation was written by an `emplace_back` call of a sequence run
from `s`: every call that finds a free slot writes the generation of the slot at the
free-list head, whether it then succeeds or throws. -/
def raised (s : keyed_array α N) : List (Invocation α) → List Nat
  | [] => []
  | Invocation.emplace_back element meta_data :: calls =>
    if s.m_free_head = invalid_index then
      raised (emplace_back_construct s element meta_data).2 calls
    else s.m_free_head :: raised (emplace_back_construct s element meta_data).2 calls
  | Invocation.try_remove key :: calls => raised (try_remove s key).2 calls
  | Invocation.clear :: calls => raised (clear s) calls

/-- The slots met by following the `m_free` links from `head` until `invalid_index`
is reached, at most `fuel` of them. -/
def follow (next : Nat → Nat) : Nat → Nat → List Nat
  | 0, _ => []
  | fuel + 1, head =>
    if head = invalid_index then [] else head :: follow next fuel (next head)

/-- One call of the common interface: what the caller observes, and the state after
the call. -/
def answer (s : keyed_array α N) : Query α → Outcome α × keyed_array α N
  | Query.emplace_back args meta_data =>
    (Outcome.emplaced (emplace_back s args meta_data).1, (emplace_back s args meta_data).2)
  | Query.try_get key => (Outcome.got ((try_get s key).map s.m_data.get), s)
  | Query.try_remove key => (Outcome.removed (try_remove s key).1, (try_remove s key).2)
  | Query.clear => (Outcome.cleared, clear s)

/-- What the caller observes of a sequence of calls. -/
def observe (s : keyed_array α N) : List (Query α) → List (Outcome α)
  | [] => []
  | q :: qs => (answer s q).1 :: observe (answer s q).2 qs

/-- A caller that chooses each call from what it has observed so far (so that it can
pass the keys returned by earlier calls), for at most `fuel` calls: the observations
made, `history` being those made before. -/
def interact (client : List (Outcome α) → Option (Query α)) :
    Nat → keyed_array α N → List (Outcome α) → List (Outcome α)
  | 0, _, history => history
  | fuel + 1, s, history =>
    match client history with
    | none => history
    | some q => interact client fuel (answer s q).2 (history ++ [(answer s q).1])

end keyed_array

/-- The relation between a `keyed_array` and a `slot_array` of the same capacity that
have been through the same calls: they have the same free list `fl` and the same
generations, and each occupied slot holds the same element in both. -/
structure Sim {α : Type} {N : Nat} (sk : keyed_array α N) (ss : slot_array α N)
    (fl : List Nat) : Prop where
  inv_k : keyed_array.Inv sk fl
  inv_s : slot_array.Inv ss fl
  versions : ∀ x, sk.m_versions x = (ss.m_lookups x).version
  cells : ∀ x, x < N → x ∉ fl →
    sk.m_data.get x = ss.m_data.get (ss.m_lookups x).data_index

/-! ## `packed_array.h` -/

/-- The data members of `packed_array<T, N>`, with the default `Key = size_t`. -/
structure packed_array (α : Type) (N : Nat) where
  m_size : Nat
  m_data : raw_buffer α N

namespace packed_array

variable {α : Type} {N : Nat}

/-- The constant `max_index = std::numeric_limits<index_type>::max()`. -/
def max_index : Nat := 18446744073709551615

/-- The constant `invalid_index = max_index`. -/
def invalid_index : Nat := max_index

/-- The member `size()`. -/
def size (s : packed_array α N) : Nat := s.m_size

/-- The member `max_size()`. -/
def max_size (_s : packed_array α N) : Nat := N

/-- The member `empty()`. -/
def empty (s : packed_array α N) : Bool := s.m_size == 0

/-- The constructor `packed_array()`. -/
def ctor : packed_array α N :=
  { m_size := 0
    m_data := { m_data := fun _ => none } }

/-- The member `emplace_back(args...)`; the result is the position in `m_data` of the
element the returned reference designates. -/
def emplace_back (s : packed_array α N) (args : α) : Except error Nat × packed_array α N :=
  let r := s.m_data.emplace_at s.m_size args
  let s := { s with m_data := r.2 }
  match r.1 with
  | Except.error e => (Except.error e, s)
  | Except.ok result =>
    let s := { s with m_size := (s.m_size + 1) % 18446744073709551616 }
    (Except.ok result, s)

/-- The member `pop_back()`. -/
def pop_back (s : packed_array α N) : Except error Unit × packed_array α N :=
  let r := s.m_data.destroy_at ((s.m_size + 18446744073709551615) % 18446744073709551616)
  let s := { s with m_data := r.2 }
  match r.1 with
  | Except.error e => (Except.error e, s)
  | Except.ok _ =>
    let s := { s with m_size := (s.m_size + 18446744073709551615) % 18446744073709551616 }
    (Except.ok (), s)

/-- The helper `destroy_all()`. -/
def destroy_all (s : packed_array α N) : packed_array α N :=
  (List.range s.m_size).foldl (fun (s : packed_array α N) idx =>
    { s with m_data := s.m_data.destroy idx }) s

/-- The member `clear()`. -/
def clear (s : packed_array α N) : packed_array α N :=
  let s := destroy_all s
  { s with m_size := 0 }

/-- The iteration `for (auto& val : structure)` over `[begin(), end())`: the cells at
positions `0 .. m_size - 1`, in order. -/
def iterate (s : packed_array α N) : List (Option α) :=
  (List.range s.m_size).map s.m_data.get

/-- The fill loop of the tests (`test_emplace(structure, ...)` for each argument in
turn): the result of every call, and the final state. -/
def emplace_all (s : packed_array α N) :
    List α → List (Except error Nat) × packed_array α N
  | [] => ([], s)
  | a :: rest =>
    let r := emplace_back s a
    let q := emplace_all r.2 rest
    (r.1 :: q.1, q.2)

/-- A call of the mutating interface of `packed_array`. -/
inductive Call (α : Type) where
  | emplace_back (args : α)
  | pop_back
  | clear

/-- The state after one call of the mutating interface (the returned reference or
exception is dropped). -/
def step (s : packed_array α N) : packed_array.Call α → packed_array α N
  | Call.emplace_back args => (emplace_back s args).2
  | Call.pop_back => (pop_back s).2
  | Call.clear => clear s

/-- The state after a sequence of calls. -/
def run (s : packed_array α N) (calls : List (packed_array.Call α)) : packed_array α N :=
  calls.foldl step s

end packed_array

end nonstd

/-! ## Lemmas about the embedding -/

namespace nonstd

@[simp] theorem store_same {β : Type} (a : Nat → β) (i : Nat) (v : β) : store a i v i = v := by
  simp [store]

@[simp] theorem store_other {β : Type} (a : Nat → β) (i j : Nat) (v : β) (h : j ≠ i) :
    store a i v j = a j := by
  simp [store, h]

theorem store_apply {β : Type} (a : Nat → β) (i j : Nat) (v : β) :
    store a i v j = if j = i then v else a j := rfl

namespace slot_array

variable {α : Type} {N : Nat}

theorem reset_loop (n : Nat) (s : slot_array α N) :
    (List.range n).foldl (fun (s : slot_array α N) idx =>
      let s := { s with m_lookups := lookup_t.set_data_index s.m_lookups idx invalid_index }
      let s := { s with m_lookups := lookup_t.set_next_free s.m_lookups idx ((idx + 1) % 65536) }
      { s with m_erase := store s.m_erase idx invalid_index }) s
    = { s with
        m_lookups := fun i => if i < n then
          { version := (s.m_lookups i).version, next_free := (i + 1) % 65536,
            data_index := invalid_index } else s.m_lookups i
        m_erase := fun i => if i < n then invalid_index else s.m_erase i } := by
  induction n with
  | zero => simp
  | succ n ih =>
    rw [List.range_succ, List.foldl_append, ih]
    simp only [List.foldl_cons, List.foldl_nil, lookup_t.set_data_index, lookup_t.set_next_free]
    congr 1
    · funext i
      simp only [store_apply]
      by_cases h1 : i = n
      · subst h1; simp
      · by_cases h2 : i < n
        · have : i < n + 1 := by omega
          simp [h1, h2, this]
        · have : ¬ i < n + 1 := by omega
          simp [h1, h2, this]
    · funext i
      simp only [store_apply]
      by_cases h1 : i = n
      · subst h1; simp
      · by_cases h2 : i < n
        · have : i < n + 1 := by omega
          simp [h1, h2, this]
        · have : ¬ i < n + 1 := by omega
          simp [h1, h2, this]

theorem reset_metadata_eq (s : slot_array α N) :
    reset_metadata s = { s with
      m_free_head := if N = 0 then invalid_index else 0
      m_lookups := fun i => if i < N then
          { version := (s.m_lookups i).version,
            next_free := if i + 1 = N then invalid_index else (i + 1) % 65536,
            data_index := invalid_index } else s.m_lookups i
      m_erase := fun i => if i < N then invalid_index else s.m_erase i } := by
  unfold reset_metadata
  by_cases hN : N = 0
  · subst hN; simp
  · simp only [hN, if_false]
    rw [reset_loop]
    simp only [lookup_t.set_next_free]
    congr 1
    funext i
    simp only [store_apply]
    by_cases h1 : i = N - 1
    · have h2 : i < N := by omega
      have h3 : i + 1 = N := by omega
      have h4 : 0 < N := by omega
      have h5 : N - 1 + 1 = N := by omega
      simp [h1, h4, h5]
    · by_cases h2 : i < N
      · have h3 : ¬ i + 1 = N := by omega
        simp [h1, h2, h3]
      · simp [h1, h2]

end slot_array
end nonstd

namespace nonstd

theorem store_store {β : Type} (a : Nat → β) (i : Nat) (v w : β) :
    store (store a i v) i w = store a i w := by
  funext j
  simp only [store_apply]
  split_ifs <;> rfl

namespace slot_array

variable {α : Type} {N : Nat}

theorem destroy_all_eq (s : slot_array α N) :
    destroy_all s = { s with
      m_data := { m_data := fun p => if p < s.m_size then none else s.m_data.m_data p } } := by
  unfold destroy_all
  have key : ∀ (n : Nat) (t : slot_array α N),
      (List.range n).foldl (fun (s : slot_array α N) idx =>
        { s with m_data := s.m_data.destroy idx }) t
      = { t with m_data := { m_data := fun p => if p < n then none else t.m_data.m_data p } } := by
    intro n
    induction n with
    | zero => intro t; simp
    | succ n ih =>
      intro t
      rw [List.range_succ, List.foldl_append, ih]
      simp only [List.foldl_cons, List.foldl_nil, raw_buffer.destroy]
      congr 2
      funext p
      simp only [store_apply]
      by_cases h1 : p = n
      · subst h1; simp
      · by_cases h2 : p < n
        · have : p < n + 1 := by omega
          simp [h1, h2, this]
        · have : ¬ p < n + 1 := by omega
          simp [h1, h2, this]
  exact key s.m_size s

theorem emplace_back_full (s : slot_array α N) (v : α) (m : Nat)
    (h : s.m_free_head = invalid_index) :
    emplace_back s v m = (Except.error error.out_of_range, s) := by
  simp [emplace_back, h]

theorem emplace_back_overflow (s : slot_array α N) (v : α) (m : Nat)
    (h1 : s.m_free_head ≠ invalid_index)
    (h2 : ((s.m_lookups s.m_free_head).version + 1) % 4294967296 = 0) :
    emplace_back s v m = (Except.error error.overflow_error,
      { s with m_lookups := lookup_t.set_version s.m_lookups s.m_free_head 0 }) := by
  simp [emplace_back, h1, h2, increment_version]

theorem emplace_back_ok (s : slot_array α N) (v : α) (m : Nat)
    (h1 : s.m_free_head ≠ invalid_index)
    (h2 : ((s.m_lookups s.m_free_head).version + 1) % 4294967296 ≠ 0) :
    emplace_back s v m = (Except.ok
      { m_version := ((s.m_lookups s.m_free_head).version + 1) % 4294967296
        m_index := s.m_free_head
        m_meta := m },
      { m_size := (s.m_size + 1) % 18446744073709551616
        m_free_head := (s.m_lookups s.m_free_head).next_free
        m_data := s.m_data.emplace s.m_size v
        m_lookups := store s.m_lookups s.m_free_head
          { version := ((s.m_lookups s.m_free_head).version + 1) % 4294967296
            next_free := invalid_index
            data_index := s.m_size % 65536 }
        m_erase := store s.m_erase s.m_size s.m_free_head }) := by
  have h3 : 0 < ((s.m_lookups s.m_free_head).version + 1) % 4294967296 := by omega
  simp [emplace_back, h1, h3, increment_version, lookup_t.set_version, lookup_t.set_data_index,
    lookup_t.set_next_free, store_store]

theorem resolve_key_eq_some (s : slot_array α N) (key : versioned_key) (c : Nat) :
    resolve_key s key = some c ↔
      c = key.m_index ∧ key.m_index < N ∧ (s.m_lookups key.m_index).data_index ≠ invalid_index ∧
      (s.m_lookups key.m_index).data_index < s.m_size ∧
      (s.m_lookups key.m_index).version = key.m_version := by
  unfold resolve_key evaluate_index evaluate_lookup
  by_cases h1 : key.m_index ≥ N
  · simp [h1]
  · by_cases h2 : (s.m_lookups key.m_index).data_index = invalid_index
    · simp [h1, h2]
    · by_cases h3 : (s.m_lookups key.m_index).data_index ≥ s.m_size
      · simp [h1, h2, h3]
      · by_cases h4 : (s.m_lookups key.m_index).version = key.m_version
        · simp [h1, h2, h3, h4]
          constructor
          · intro h; exact ⟨h.symm, by omega, by omega⟩
          · intro h; exact h.1.symm
        · simp [h1, h2, h3, h4]

theorem resolve_key_eq_none (s : slot_array α N) (key : versioned_key) :
    resolve_key s key = none ↔
      ¬ (key.m_index < N ∧ (s.m_lookups key.m_index).data_index ≠ invalid_index ∧
      (s.m_lookups key.m_index).data_index < s.m_size ∧
      (s.m_lookups key.m_index).version = key.m_version) := by
  constructor
  · intro h hc
    have := (resolve_key_eq_some s key key.m_index).mpr ⟨rfl, hc⟩
    rw [h] at this
    cases this
  · intro h
    cases hr : resolve_key s key with
    | none => rfl
    | some c =>
      exact absurd ((resolve_key_eq_some s key c).mp hr).2 h

theorem try_remove_none (s : slot_array α N) (key : versioned_key)
    (h : resolve_key s key = none) : try_remove s key = (false, s) := by
  simp [try_remove, h]

theorem try_remove_some (s : slot_array α N) (key : versioned_key) (c : Nat)
    (h : resolve_key s key = some c) :
    try_remove s key = (true,
      { m_size := (s.m_size + 18446744073709551615) % 18446744073709551616
        m_free_head := s.m_erase (s.m_lookups c).data_index
        m_data := (s.m_data.swap (s.m_lookups c).data_index
            (((s.m_size + 18446744073709551615) % 18446744073709551616) % 65536)).destroy
            (((s.m_size + 18446744073709551615) % 18446744073709551616) % 65536)
        m_lookups :=
          lookup_t.set_next_free
            (lookup_t.set_data_index
              (lookup_t.set_data_index s.m_lookups c invalid_index)
              (s.m_erase (((s.m_size + 18446744073709551615) % 18446744073709551616) % 65536))
              (s.m_lookups c).data_index)
            c s.m_free_head
        m_erase := store
          (store s.m_erase (s.m_lookups c).data_index
            (s.m_erase (((s.m_size + 18446744073709551615) % 18446744073709551616) % 65536)))
          (((s.m_size + 18446744073709551615) % 18446744073709551616) % 65536) invalid_index }) := by
  simp [try_remove, h]

end slot_array
end nonstd

namespace nonstd
namespace slot_array

variable {α : Type} {N : Nat}

theorem invalid_index_eq : invalid_index = 65535 := rfl

theorem free_chain_congr (lk lk' : Nat → lookup_t) (fl : List Nat)
    (h : ∀ x ∈ fl, (lk' x).next_free = (lk x).next_free ∧
      (lk' x).data_index = (lk x).data_index) :
    ∀ head n, free_chain lk head n fl → free_chain lk' head n fl := by
  induction fl with
  | nil => intro head n hc; exact hc
  | cons x xs ih =>
    intro head n hc
    obtain ⟨h1, h2, h3⟩ := hc
    have hx := h x (List.mem_cons_self x xs)
    refine ⟨h1, by rw [hx.2]; exact h2, ?_⟩
    rw [hx.1]
    exact ih (fun y hy => h y (List.mem_cons_of_mem x hy)) _ _ h3

theorem free_chain_mono (lk : Nat → lookup_t) (fl : List Nat) :
    ∀ head n m, m ≤ n → free_chain lk head n fl → free_chain lk head m fl := by
  induction fl with
  | nil => intro head n m _ hc; exact hc
  | cons x xs ih =>
    intro head n m hm hc
    obtain ⟨h1, h2, h3⟩ := hc
    exact ⟨h1, by omega, ih _ (n + 1) (m + 1) (by omega) h3⟩

theorem free_chain_ge (lk : Nat → lookup_t) (fl : List Nat) :
    ∀ head n, free_chain lk head n fl → ∀ x ∈ fl, n ≤ (lk x).data_index := by
  induction fl with
  | nil => intro head n _ x hx; cases hx
  | cons y ys ih =>
    intro head n hc x hx
    obtain ⟨_, h2, h3⟩ := hc
    rcases List.mem_cons.mp hx with rfl | hx
    · exact h2
    · have := ih _ _ h3 x hx
      omega

theorem free_chain_range (lk : Nat → lookup_t) (hN : N ≤ 65535)
    (hlk : ∀ i, i < N → (lk i).next_free = (if i + 1 = N then invalid_index else (i + 1) % 65536)
      ∧ (lk i).data_index = invalid_index) :
    ∀ len a, a + len = N →
      free_chain lk (if len = 0 then invalid_index else a) a (List.range' a len) := by
  intro len
  induction len with
  | zero => intro a _; simp [free_chain]
  | succ len ih =>
    intro a ha
    have h1 := hlk a (by omega)
    simp only [List.range', free_chain, Nat.succ_ne_zero, if_false, true_and]
    refine ⟨by rw [h1.2, invalid_index_eq]; omega, ?_⟩
    have h2 := ih (a + 1) (by omega)
    rw [h1.1]
    by_cases h3 : len = 0
    · subst h3
      have h4 : a + 1 = N := by omega
      simpa [h4] using h2
    · have h4 : ¬ a + 1 = N := by omega
      have h5 : (a + 1) % 65536 = a + 1 := by omega
      simpa [h3, h4, h5] using h2

theorem Inv_reset (hN : N ≤ 65535) (s : slot_array α N)
    (hd : ∀ p, s.m_data.m_data p = none)
    (hv : ∀ x, (s.m_lookups x).version < 4294967296) :
    Inv ({ reset_metadata s with m_size := 0 } : slot_array α N) (List.range N) := by
  rw [reset_metadata_eq]
  refine ⟨by simp, ?_, ?_, List.nodup_range N, ?_, ?_, ?_, ?_, ?_⟩
  · have h := free_chain_range (N := N)
      (fun i => if i < N then
          { version := (s.m_lookups i).version,
            next_free := if i + 1 = N then invalid_index else (i + 1) % 65536,
            data_index := invalid_index } else s.m_lookups i) hN
      (by intro i hi; simp [hi]) N 0 (by omega)
    rw [List.range_eq_range']
    by_cases h0 : N = 0
    · simpa [h0] using h
    · simpa [h0] using h
  · intro x hx; exact List.mem_range.mp hx
  · intro p hp; simp at hp
  · intro x hx hx'; exact absurd (List.mem_range.mpr hx) hx'
  · intro p; simp [hd p]
  · intro x hx hx'; exact absurd (List.mem_range.mpr hx) hx'
  · intro x
    dsimp only
    by_cases hx : x < N
    · simp only [hx, if_true]; exact hv x
    · simp only [hx, if_false]; exact hv x

theorem Inv_ctor (hN : N ≤ 65535) : Inv (ctor : slot_array α N) (List.range N) := by
  have h := Inv_reset (α := α) hN
    { m_size := 0
      m_free_head := 0
      m_data := { m_data := fun _ => none }
      m_lookups := fun _ => { version := 0, next_free := 0, data_index := 0 }
      m_erase := fun _ => 0 } (fun _ => rfl)
      (fun _ => Nat.zero_lt_succ _)
  have e : (ctor : slot_array α N) = { reset_metadata
    ({ m_size := 0
       m_free_head := 0
       m_data := { m_data := fun _ => none }
       m_lookups := fun _ => { version := 0, next_free := 0, data_index := 0 }
       m_erase := fun _ => 0 } : slot_array α N) with m_size := 0 } := by
    unfold ctor
    rw [reset_metadata_eq]
  rw [e]
  exact h

theorem Inv_clear (hN : N ≤ 65535) (s : slot_array α N) (fl : List Nat) (h : Inv s fl) :
    Inv (clear s) (List.range N) := by
  have h1 := Inv_reset hN (destroy_all s) (by
    intro p
    rw [destroy_all_eq]
    by_cases hp : p < s.m_size
    · simp [hp]
    · simp only [hp, if_false]
      have := (h.constructed p)
      cases hq : s.m_data.m_data p with
      | none => rfl
      | some v => rw [hq] at this; simp at this; exact absurd this hp)
    (by intro x; rw [destroy_all_eq]; exact h.version_lt x)
  exact h1

end slot_array
end nonstd

namespace nonstd
namespace slot_array

variable {α : Type} {N : Nat}

theorem free_chain_head (hN : N ≤ 65535) (lk : Nat → lookup_t) (fl : List Nat) (head n : Nat)
    (hfl : ∀ x ∈ fl, x < N) (hc : free_chain lk head n fl) :
    head = invalid_index ↔ fl = [] := by
  cases fl with
  | nil => simp only [free_chain] at hc; simp [hc]
  | cons x xs =>
    obtain ⟨h1, _, _⟩ := hc
    have := hfl x (List.mem_cons_self _ _)
    simp only [invalid_index_eq, reduceCtorEq, iff_false]
    omega

theorem Inv.size_le {s : slot_array α N} {fl : List Nat} (h : Inv s fl) : s.m_size ≤ N := by
  have := h.size_add
  omega

theorem Inv.free_ge {s : slot_array α N} {fl : List Nat} (h : Inv s fl) :
    ∀ x ∈ fl, s.m_size ≤ (s.m_lookups x).data_index :=
  free_chain_ge _ _ _ _ h.chain

theorem Inv_emplace_back_ok (hN : N ≤ 65535) (s : slot_array α N) (x : Nat) (xs : List Nat)
    (h : Inv s (x :: xs)) (v : α) (m : Nat)
    (hv : ((s.m_lookups x).version + 1) % 4294967296 ≠ 0) :
    Inv (emplace_back s v m).2 xs := by
  obtain ⟨hhead, hge, hchain⟩ := h.chain
  have hxN : x < N := h.fl_lt x (List.mem_cons_self _ _)
  have hxs : x ∉ xs := (List.nodup_cons.mp h.fl_nodup).1
  have hsz := h.size_add
  simp only [List.length_cons] at hsz
  have hne : s.m_free_head ≠ invalid_index := by rw [hhead, invalid_index_eq]; omega
  rw [emplace_back_ok s v m hne (by rw [hhead]; exact hv)]
  rw [hhead]
  have e1 : (s.m_size + 1) % 18446744073709551616 = s.m_size + 1 := by omega
  have e2 : s.m_size % 65536 = s.m_size := by omega
  refine ⟨?_, ?_, ?_, ?_, ?_, ?_, ?_, ?_, ?_⟩
  · simp only [e1]; omega
  · simp only [e1]
    refine free_chain_congr s.m_lookups _ xs ?_ _ _ hchain
    intro y hy
    have : y ≠ x := fun hyx => hxs (hyx ▸ hy)
    simp [store_apply, this]
  · intro y hy; exact h.fl_lt y (List.mem_cons_of_mem _ hy)
  · exact (List.nodup_cons.mp h.fl_nodup).2
  · intro p hp
    simp only [e1] at hp
    simp only [store_apply, e2]
    by_cases hps : p = s.m_size
    · subst hps; simp [hxN]
    · have hp' : p < s.m_size := by omega
      obtain ⟨q1, q2⟩ := h.erase_ok p hp'
      have : s.m_erase p ≠ x := by
        intro hc; rw [hc] at q2; omega
      simp [hps, this, q1, q2]
  · intro y hy hyxs
    simp only [store_apply, e1, e2]
    by_cases hyx : y = x
    · subst hyx; simp
    · have hyfl : y ∉ x :: xs := by
        intro hc
        rcases List.mem_cons.mp hc with hc | hc
        · exact hyx hc
        · exact hyxs hc
      obtain ⟨q1, q2⟩ := h.occupied y hy hyfl
      have : (s.m_lookups y).data_index ≠ s.m_size := by omega
      simp only [hyx, if_false, this]
      exact ⟨by omega, q2⟩
  · intro p
    simp only [raw_buffer.emplace, store_apply, e1]
    by_cases hps : p = s.m_size
    · subst hps; simp
    · simp only [hps, if_false]
      rw [h.constructed p]
      omega
  · intro y hy hyxs
    simp only [store_apply]
    by_cases hyx : y = x
    · subst hyx; simp only [if_true]; omega
    · have hyfl : y ∉ x :: xs := by
        intro hc
        rcases List.mem_cons.mp hc with hc | hc
        · exact hyx hc
        · exact hyxs hc
      simp only [hyx, if_false]
      exact h.version_pos y hy hyfl
  · intro y
    simp only [store_apply]
    by_cases hyx : y = x
    · subst hyx; simp only [if_true]; omega
    · simp only [hyx, if_false]; exact h.version_lt y

theorem Inv_set_version (s : slot_array α N) (fl : List Nat) (h : Inv s fl) (x w : Nat)
    (hx : x ∈ fl) (hw : w < 4294967296) :
    Inv ({ s with m_lookups := lookup_t.set_version s.m_lookups x w } : slot_array α N) fl := by
  have hkeep : ∀ y, (lookup_t.set_version s.m_lookups x w y).next_free = (s.m_lookups y).next_free
      ∧ (lookup_t.set_version s.m_lookups x w y).data_index = (s.m_lookups y).data_index := by
    intro y
    simp only [lookup_t.set_version, store_apply]
    by_cases hy : y = x
    · subst hy; simp
    · simp [hy]
  have hver : ∀ y, y ∉ fl →
      (lookup_t.set_version s.m_lookups x w y).version = (s.m_lookups y).version := by
    intro y hy
    have : y ≠ x := fun hc => hy (hc ▸ hx)
    simp [lookup_t.set_version, store_apply, this]
  refine ⟨h.size_add, ?_, h.fl_lt, h.fl_nodup, ?_, ?_, h.constructed, ?_, ?_⟩
  · exact free_chain_congr s.m_lookups _ fl (fun y _ => hkeep y) _ _ h.chain
  · intro p hp
    obtain ⟨q1, q2⟩ := h.erase_ok p hp
    exact ⟨q1, by rw [(hkeep _).2]; exact q2⟩
  · intro y hy hyfl
    obtain ⟨q1, q2⟩ := h.occupied y hy hyfl
    simp only [(hkeep _).2]
    exact ⟨q1, q2⟩
  · intro y hy hyfl
    simp only [hver y hyfl]
    exact h.version_pos y hy hyfl
  · intro y
    simp only [lookup_t.set_version, store_apply]
    by_cases hy : y = x
    · subst hy; simp only [if_true]; exact hw
    · simp only [hy, if_false]; exact h.version_lt y

theorem Inv_emplace_back (hN : N ≤ 65535) (s : slot_array α N) (fl : List Nat)
    (h : Inv s fl) (v : α) (m : Nat) :
    ∃ fl', Inv (emplace_back s v m).2 fl' := by
  cases fl with
  | nil =>
    have : s.m_free_head = invalid_index := h.chain
    rw [emplace_back_full s v m this]
    exact ⟨[], h⟩
  | cons x xs =>
    obtain ⟨hhead, _, _⟩ := h.chain
    have hxN : x < N := h.fl_lt x (List.mem_cons_self _ _)
    have hne : s.m_free_head ≠ invalid_index := by rw [hhead, invalid_index_eq]; omega
    by_cases hv : ((s.m_lookups x).version + 1) % 4294967296 = 0
    · rw [emplace_back_overflow s v m hne (by rw [hhead]; exact hv)]
      exact ⟨x :: xs, Inv_set_version s _ h _ 0 (by rw [hhead]; exact List.mem_cons_self _ _)
        (by decide)⟩
    · exact ⟨xs, Inv_emplace_back_ok hN s x xs h v m hv⟩

end slot_array
end nonstd

namespace nonstd
namespace slot_array

variable {α : Type} {N : Nat}

theorem ext_fields (a b : slot_array α N) (h1 : a.m_size = b.m_size)
    (h2 : a.m_free_head = b.m_free_head) (h3 : a.m_data.m_data = b.m_data.m_data)
    (h4 : a.m_lookups = b.m_lookups) (h5 : a.m_erase = b.m_erase) : a = b := by
  cases a with
  | mk a1 a2 a3 a4 a5 =>
    cases b with
    | mk b1 b2 b3 b4 b5 =>
      cases a3; cases b3
      simp only at h1 h2 h3 h4 h5
      subst h1 h2 h3 h4 h5
      rfl

theorem remove_lookups_apply (lk : Nat → lookup_t) (c ts d head y : Nat) :
    lookup_t.set_next_free
      (lookup_t.set_data_index (lookup_t.set_data_index lk c invalid_index) ts d) c head y
    = if y = c then
        { version := (lk c).version, next_free := head,
          data_index := if ts = c then d else invalid_index }
      else if y = ts then { (lk ts) with data_index := d }
      else lk y := by
  simp only [lookup_t.set_next_free, lookup_t.set_data_index, store_apply]
  by_cases h1 : y = c
  · subst h1
    by_cases h2 : ts = y
    · subst h2; simp
    · have h3 : ¬ y = ts := fun h => h2 h.symm
      simp [h2, h3]
  · by_cases h2 : y = ts
    · subst h2
      have h3 : ¬ c = y := fun h => h1 h.symm
      simp [h1, h3]
    · simp [h1, h2]

/-- The facts that hold about a resolved key in a state satisfying the invariant. -/
theorem Inv.resolved (hN : N ≤ 65535) {s : slot_array α N} {fl : List Nat} (h : Inv s fl)
    {key : versioned_key} {c : Nat} (hr : resolve_key s key = some c) :
    c = key.m_index ∧ c < N ∧ (s.m_lookups c).data_index < s.m_size ∧ c ∉ fl ∧
    s.m_erase (s.m_lookups c).data_index = c ∧
    (s.m_lookups c).version = key.m_version ∧
    ((s.m_size + 18446744073709551615) % 18446744073709551616) % 65536 = s.m_size - 1 ∧
    (s.m_size + 18446744073709551615) % 18446744073709551616 = s.m_size - 1 ∧
    1 ≤ s.m_size ∧
    s.m_erase (s.m_size - 1) < N ∧
    (s.m_lookups (s.m_erase (s.m_size - 1))).data_index = s.m_size - 1 ∧
    s.m_erase (s.m_size - 1) ∉ fl := by
  obtain ⟨h1, h2, _, h4, h5⟩ := (resolve_key_eq_some s key c).mp hr
  rw [← h1] at h2 h4 h5
  have hsz := h.size_le
  have hcfl : c ∉ fl := by
    intro hc
    have := h.free_ge c hc
    omega
  obtain ⟨q1, q2⟩ := h.erase_ok (s.m_size - 1) (by omega)
  have htfl : s.m_erase (s.m_size - 1) ∉ fl := by
    intro hc
    have := h.free_ge _ hc
    omega
  exact ⟨h1, h2, h4, hcfl, (h.occupied c h2 hcfl).2, h5, by omega, by omega, by omega,
    q1, q2, htfl⟩

theorem try_remove_spec (hN : N ≤ 65535) (s : slot_array α N) (fl : List Nat)
    (h : Inv s fl) (key : versioned_key) (c : Nat) (hr : resolve_key s key = some c) :
    try_remove s key = (true,
      { m_size := s.m_size - 1
        m_free_head := c
        m_data := { m_data := fun p =>
          if p = s.m_size - 1 then none
          else if p = (s.m_lookups c).data_index then s.m_data.m_data (s.m_size - 1)
          else s.m_data.m_data p }
        m_lookups := fun y =>
          if y = c then
            { version := (s.m_lookups c).version, next_free := s.m_free_head,
              data_index := if s.m_erase (s.m_size - 1) = c then (s.m_lookups c).data_index
                else invalid_index }
          else if y = s.m_erase (s.m_size - 1) then
            { (s.m_lookups (s.m_erase (s.m_size - 1))) with
              data_index := (s.m_lookups c).data_index }
          else s.m_lookups y
        m_erase := fun p =>
          if p = s.m_size - 1 then invalid_index
          else if p = (s.m_lookups c).data_index then s.m_erase (s.m_size - 1)
          else s.m_erase p }) := by
  obtain ⟨_, hcN, hd, hcfl, hec, _, e1, e2, hpos, htsN, htsd, htsfl⟩ := h.resolved hN hr
  have hsz := h.size_le
  have e3 : (s.m_size - 1) % 65536 = s.m_size - 1 := by omega
  rw [try_remove_some s key c hr]
  simp only [e2, e3, hec]
  refine congrArg (Prod.mk true) (ext_fields _ _ rfl rfl ?_ ?_ ?_)
  · funext p
    simp only [raw_buffer.destroy, raw_buffer.swap, store_apply]
    by_cases h1 : p = s.m_size - 1
    · simp [h1]
    · simp [h1]
  · funext y
    exact remove_lookups_apply _ _ _ _ _ _
  · funext p
    simp only [store_apply]

theorem Inv_try_remove_ok (hN : N ≤ 65535) (s : slot_array α N) (fl : List Nat)
    (h : Inv s fl) (key : versioned_key) (c : Nat) (hr : resolve_key s key = some c) :
    Inv (try_remove s key).2 (c :: fl) := by
  obtain ⟨_, hcN, hd, hcfl, hec, _, e1, e2, hpos, htsN, htsd, htsfl⟩ := h.resolved hN hr
  have hsz := h.size_le
  rw [try_remove_spec hN s fl h key c hr]
  generalize hdd : (s.m_lookups c).data_index = d at *
  generalize hts : s.m_erase (s.m_size - 1) = ts at *
  have hcts : ts = c ↔ d = s.m_size - 1 := by
    constructor
    · intro hc; rw [hc, hdd] at htsd; exact htsd
    · intro hc; rw [hc, hts] at hec; exact hec
  refine ⟨?_, ?_, ?_, ?_, ?_, ?_, ?_, ?_, ?_⟩
  · simp only [List.length_cons]
    have := h.size_add
    omega
  · refine ⟨rfl, ?_, ?_⟩
    · dsimp only
      simp only [if_true]
      by_cases hc : ts = c
      · simp only [hc, if_true]; have := hcts.mp hc; omega
      · simp only [hc, if_false, invalid_index_eq]; omega
    · dsimp only
      simp only [if_true]
      have e3 : s.m_size - 1 + 1 = s.m_size := by omega
      rw [e3]
      refine free_chain_congr s.m_lookups _ fl ?_ _ _ h.chain
      intro y hy
      have hy1 : y ≠ c := fun hc => hcfl (hc ▸ hy)
      have hy2 : y ≠ ts := fun hc => htsfl (hc ▸ hy)
      simp [hy1, hy2]
  · intro y hy
    rcases List.mem_cons.mp hy with rfl | hy
    · exact hcN
    · exact h.fl_lt y hy
  · exact List.nodup_cons.mpr ⟨hcfl, h.fl_nodup⟩
  · intro p hp
    dsimp only at hp ⊢
    have hpt : p ≠ s.m_size - 1 := by omega
    simp only [hpt, if_false]
    by_cases hpd : p = d
    · subst hpd
      have hne : ¬ ts = c := fun hc => hpt (hcts.mp hc)
      simp only [if_true]
      refine ⟨htsN, ?_⟩
      simp [hne]
    · simp only [hpd, if_false]
      obtain ⟨q1, q2⟩ := h.erase_ok p (by omega)
      refine ⟨q1, ?_⟩
      have hy1 : s.m_erase p ≠ c := by
        intro hc; rw [hc, hdd] at q2; exact hpd q2.symm
      have hy2 : s.m_erase p ≠ ts := by
        intro hc; rw [hc, htsd] at q2; exact hpt q2.symm
      simp only [hy1, hy2, if_false]
      exact q2
  · intro y hy hyfl
    have hyc : y ≠ c := fun hc => hyfl (hc ▸ List.mem_cons_self _ _)
    have hyfl' : y ∉ fl := fun hc => hyfl (List.mem_cons_of_mem _ hc)
    obtain ⟨q1, q2⟩ := h.occupied y hy hyfl'
    dsimp only
    simp only [hyc, if_false]
    by_cases hyt : y = ts
    · subst hyt
      simp only [if_true]
      have hne : d ≠ s.m_size - 1 := fun hc => hyc (hcts.mpr hc)
      refine ⟨by omega, ?_⟩
      simp [hne]
    · simp only [hyt, if_false]
      have hq1 : (s.m_lookups y).data_index ≠ s.m_size - 1 := by
        intro hc; rw [hc, hts] at q2; exact hyt q2.symm
      have hq2 : (s.m_lookups y).data_index ≠ d := by
        intro hc; rw [hc, hec] at q2; exact hyc q2.symm
      refine ⟨by omega, ?_⟩
      simp only [hq1, hq2, if_false]
      exact q2
  · intro p
    dsimp only
    by_cases hpt : p = s.m_size - 1
    · subst hpt; simp
    · simp only [hpt, if_false]
      by_cases hpd : p = d
      · subst hpd
        simp only [if_true]
        rw [h.constructed (s.m_size - 1)]
        constructor
        · intro _; omega
        · intro _; omega
      · simp only [hpd, if_false]
        rw [h.constructed p]
        omega
  · intro y hy hyfl
    have hyc : y ≠ c := fun hc => hyfl (hc ▸ List.mem_cons_self _ _)
    have hyfl' : y ∉ fl := fun hc => hyfl (List.mem_cons_of_mem _ hc)
    dsimp only
    simp only [hyc, if_false]
    by_cases hyt : y = ts
    · subst hyt; simp only [if_true]; exact h.version_pos y hy hyfl'
    · simp only [hyt, if_false]; exact h.version_pos y hy hyfl'
  · intro y
    dsimp only
    by_cases hyc : y = c
    · simp only [hyc, if_true]; exact h.version_lt c
    · simp only [hyc, if_false]
      by_cases hyt : y = ts
      · simp only [hyt, if_true]; exact h.version_lt ts
      · simp only [hyt, if_false]; exact h.version_lt y

theorem Inv_try_remove (hN : N ≤ 65535) (s : slot_array α N) (fl : List Nat)
    (h : Inv s fl) (key : versioned_key) :
    ∃ fl', Inv (try_remove s key).2 fl' := by
  cases hr : resolve_key s key with
  | none => rw [try_remove_none s key hr]; exact ⟨fl, h⟩
  | some c => exact ⟨c :: fl, Inv_try_remove_ok hN s fl h key c hr⟩

theorem Inv_step (hN : N ≤ 65535) (s : slot_array α N) (fl : List Nat)
    (h : Inv s fl) (c : Call α) : ∃ fl', Inv (step s c) fl' := by
  cases c with
  | emplace_back v m => exact Inv_emplace_back hN s fl h v m
  | try_remove key => exact Inv_try_remove hN s fl h key
  | clear => exact ⟨_, Inv_clear hN s fl h⟩

theorem Inv_run (hN : N ≤ 65535) (calls : List (Call α)) :
    ∀ (s : slot_array α N) (fl : List Nat), Inv s fl → ∃ fl', Inv (run s calls) fl' := by
  induction calls with
  | nil => intro s fl h; exact ⟨fl, h⟩
  | cons c cs ih =>
    intro s fl h
    obtain ⟨fl1, h1⟩ := Inv_step hN s fl h c
    exact ih (step s c) fl1 h1

theorem Inv_reachable (hN : N ≤ 65535) (calls : List (Call α)) :
    ∃ fl, Inv (run (ctor : slot_array α N) calls) fl :=
  Inv_run hN calls ctor _ (Inv_ctor hN)

end slot_array
end nonstd

namespace nonstd
namespace slot_array

variable {α : Type} {N : Nat}

theorem emplace_back_ok_inv (s : slot_array α N) (v : α) (m : Nat) (k : versioned_key)
    (h : (emplace_back s v m).1 = Except.ok k) :
    s.m_free_head ≠ invalid_index ∧
    ((s.m_lookups s.m_free_head).version + 1) % 4294967296 ≠ 0 := by
  by_cases h1 : s.m_free_head = invalid_index
  · rw [emplace_back_full s v m h1] at h; cases h
  · by_cases h2 : ((s.m_lookups s.m_free_head).version + 1) % 4294967296 = 0
    · rw [emplace_back_overflow s v m h1 h2] at h; cases h
    · exact ⟨h1, h2⟩

theorem try_get_eq_none (s : slot_array α N) (key : versioned_key) :
    try_get s key = none ↔ resolve_key s key = none := by
  unfold try_get
  cases resolve_key s key <;> simp

theorem try_get_eq_some (s : slot_array α N) (key : versioned_key) (p : Nat) :
    try_get s key = some p ↔
      key.m_index < N ∧ (s.m_lookups key.m_index).data_index ≠ invalid_index ∧
      (s.m_lookups key.m_index).data_index < s.m_size ∧
      (s.m_lookups key.m_index).version = key.m_version ∧
      p = (s.m_lookups key.m_index).data_index := by
  unfold try_get
  cases hr : resolve_key s key with
  | none =>
    have := (resolve_key_eq_none s key).mp hr
    simp only [false_iff, reduceCtorEq]
    intro hc
    exact this ⟨hc.1, hc.2.1, hc.2.2.1, hc.2.2.2.1⟩
  | some c =>
    obtain ⟨h1, h2, h3, h4, h5⟩ := (resolve_key_eq_some s key c).mp hr
    subst h1
    simp only [Option.some.injEq]
    constructor
    · intro h; exact ⟨h2, h3, h4, h5, h.symm⟩
    · intro h; exact h.2.2.2.2.symm

theorem try_remove_fst (s : slot_array α N) (key : versioned_key) :
    (try_remove s key).1 = (resolve_key s key).isSome := by
  cases hr : resolve_key s key with
  | none => rw [try_remove_none s key hr]; rfl
  | some c => rw [try_remove_some s key c hr]; rfl

theorem StaleIn.unresolved {s : slot_array α N} {fl : List Nat} {k : versioned_key}
    (h : Inv s fl) (hs : StaleIn s fl k) : resolve_key s k = none := by
  rw [resolve_key_eq_none]
  intro ⟨h1, _, h3, h4⟩
  have := h.free_ge _ ((hs h1).2 h4)
  omega

theorem stale_after_remove (hN : N ≤ 65535) (s : slot_array α N) (fl : List Nat)
    (h : Inv s fl) (k : versioned_key) (hr : (try_remove s k).1 = true) :
    ∃ fl', Inv (try_remove s k).2 fl' ∧ StaleIn (try_remove s k).2 fl' k := by
  rw [try_remove_fst] at hr
  obtain ⟨c, hc⟩ := Option.isSome_iff_exists.mp hr
  obtain ⟨h1, _, _, _, _, h6, _⟩ := h.resolved hN hc
  refine ⟨c :: fl, Inv_try_remove_ok hN s fl h k c hc, ?_⟩
  intro _
  rw [try_remove_spec hN s fl h k c hc]
  dsimp only
  rw [← h1]
  simp only [if_true]
  exact ⟨by omega, fun _ => List.mem_cons_self _ _⟩

theorem stale_step (hN : N ≤ 65535) (s : slot_array α N) (fl : List Nat)
    (h : Inv s fl) (k : versioned_key) (hs : StaleIn s fl k) (c : Call α)
    (hw : wraps s c = false) :
    ∃ fl', Inv (step s c) fl' ∧ StaleIn (step s c) fl' k := by
  cases c with
  | emplace_back v m =>
    cases fl with
    | nil =>
      have : s.m_free_head = invalid_index := h.chain
      simp only [step]
      rw [emplace_back_full s v m this]
      exact ⟨[], h, hs⟩
    | cons x xs =>
      obtain ⟨hhead, _, _⟩ := h.chain
      have hxN : x < N := h.fl_lt x (List.mem_cons_self _ _)
      have hne : s.m_free_head ≠ invalid_index := by rw [hhead, invalid_index_eq]; omega
      by_cases hv : ((s.m_lookups x).version + 1) % 4294967296 = 0
      · simp only [wraps] at hw
        rw [emplace_back_overflow s v m hne (by rw [hhead]; exact hv)] at hw
        simp at hw
      · refine ⟨xs, Inv_emplace_back_ok hN s x xs h v m hv, ?_⟩
        intro hk
        obtain ⟨q1, q2⟩ := hs hk
        simp only [step]
        rw [emplace_back_ok s v m hne (by rw [hhead]; exact hv), hhead]
        dsimp only
        simp only [store_apply]
        have hlt := h.version_lt x
        by_cases hkx : k.m_index = x
        · rw [hkx] at q1
          simp only [hkx, if_true]
          constructor
          · omega
          · intro hc; omega
        · simp only [hkx, if_false]
          refine ⟨q1, fun hc => ?_⟩
          rcases List.mem_cons.mp (q2 hc) with hm | hm
          · exact absurd hm hkx
          · exact hm
  | try_remove key =>
    cases hr : resolve_key s key with
    | none =>
      simp only [step]
      rw [try_remove_none s key hr]
      exact ⟨fl, h, hs⟩
    | some c =>
      refine ⟨c :: fl, Inv_try_remove_ok hN s fl h key c hr, ?_⟩
      intro hk
      obtain ⟨q1, q2⟩ := hs hk
      simp only [step]
      rw [try_remove_spec hN s fl h key c hr]
      dsimp only
      by_cases e1 : k.m_index = c
      · simp only [e1, if_true]
        rw [e1] at q1
        exact ⟨q1, fun _ => List.mem_cons_self _ _⟩
      · by_cases e2 : k.m_index = s.m_erase (s.m_size - 1)
        · rw [← e2]
          simp only [e1, if_false, if_true]
          exact ⟨q1, fun hc => List.mem_cons_of_mem _ (q2 hc)⟩
        · simp only [e1, e2, if_false]
          exact ⟨q1, fun hc => List.mem_cons_of_mem _ (q2 hc)⟩
  | clear =>
    refine ⟨List.range N, Inv_clear hN s fl h, ?_⟩
    intro hk
    obtain ⟨q1, _⟩ := hs hk
    simp only [step, clear]
    rw [reset_metadata_eq, destroy_all_eq]
    dsimp only
    simp only [hk, if_true]
    exact ⟨q1, fun _ => List.mem_range.mpr hk⟩

theorem stale_run (hN : N ≤ 65535) (k : versioned_key) (calls : List (Call α)) :
    ∀ (s : slot_array α N) (fl : List Nat), Inv s fl → StaleIn s fl k →
      no_wrap s calls = true →
      ∃ fl', Inv (run s calls) fl' ∧ StaleIn (run s calls) fl' k := by
  induction calls with
  | nil => intro s fl h hs _; exact ⟨fl, h, hs⟩
  | cons c cs ih =>
    intro s fl h hs hw
    simp only [no_wrap, Bool.and_eq_true, Bool.not_eq_true'] at hw
    obtain ⟨fl1, h1, hs1⟩ := stale_step hN s fl h k hs c hw.1
    exact ih (step s c) fl1 h1 hs1 hw.2

theorem emplace_back_round_trip (hN : N ≤ 65535) (s : slot_array α N) (fl : List Nat)
    (h : Inv s fl) (v : α) (m : Nat) (k : versioned_key)
    (hk : (emplace_back s v m).1 = Except.ok k) :
    try_get (emplace_back s v m).2 k = some s.m_size ∧
    (emplace_back s v m).2.m_data.get s.m_size = some v := by
  obtain ⟨h1, h2⟩ := emplace_back_ok_inv s v m k hk
  rw [emplace_back_ok s v m h1 h2] at hk ⊢
  simp only [Except.ok.injEq] at hk
  subst hk
  have hfl : fl ≠ [] := fun hc => h1 ((free_chain_head hN _ _ _ _ h.fl_lt h.chain).mpr hc)
  obtain ⟨x, xs, rfl⟩ := List.exists_cons_of_ne_nil hfl
  obtain ⟨hhead, _, _⟩ := h.chain
  have hxN : x < N := h.fl_lt x (List.mem_cons_self _ _)
  have hsz := h.size_add
  simp only [List.length_cons] at hsz
  constructor
  · rw [try_get_eq_some]
    dsimp only
    simp only [store_same, invalid_index_eq]
    refine ⟨by omega, by omega, by omega, trivial, by omega⟩
  · simp [raw_buffer.get, raw_buffer.emplace]

end slot_array
end nonstd

namespace nonstd
namespace keyed_array

variable {α : Type} {N : Nat}

theorem ka_invalid_index_eq : invalid_index = 65535 := rfl

theorem ka_slot_full_eq : slot_full = 65534 := rfl

theorem ka_ext_fields (a b : keyed_array α N) (h1 : a.m_free_head = b.m_free_head)
    (h2 : a.m_data.m_data = b.m_data.m_data) (h3 : a.m_versions = b.m_versions)
    (h4 : a.m_free = b.m_free) : a = b := by
  cases a with
  | mk a1 a2 a3 a4 =>
    cases b with
    | mk b1 b2 b3 b4 =>
      cases a2; cases b2
      simp only at h1 h2 h3 h4
      subst h1 h2 h3 h4
      rfl

theorem ka_reset_metadata_eq (s : keyed_array α N) :
    reset_metadata s = { s with
      m_free_head := if N = 0 then invalid_index else 0
      m_free := fun i => if i < N then
          (if i + 1 = N then invalid_index else (i + 1) % 65536) else s.m_free i } := by
  unfold reset_metadata
  by_cases hN : N = 0
  · subst hN; simp
  · simp only [hN, if_false]
    have key : ∀ (n : Nat) (t : keyed_array α N),
        (List.range n).foldl (fun (s : keyed_array α N) pos =>
          { s with m_free := store s.m_free pos ((pos + 1) % 65536) }) t
        = { t with m_free := fun i => if i < n then (i + 1) % 65536 else t.m_free i } := by
      intro n
      induction n with
      | zero => intro t; simp
      | succ n ih =>
        intro t
        rw [List.range_succ, List.foldl_append, ih]
        simp only [List.foldl_cons, List.foldl_nil]
        refine ka_ext_fields _ _ rfl rfl rfl ?_
        funext i
        simp only [store_apply]
        by_cases h1 : i = n
        · subst h1; simp
        · by_cases h2 : i < n
          · have : i < n + 1 := by omega
            simp [h1, h2, this]
          · have : ¬ i < n + 1 := by omega
            simp [h1, h2, this]
    rw [key]
    refine ka_ext_fields _ _ rfl rfl rfl ?_
    funext i
    simp only [store_apply]
    by_cases h1 : i = N - 1
    · have h2 : 0 < N := by omega
      have h3 : N - 1 + 1 = N := by omega
      simp [h1, h2, h3]
    · by_cases h2 : i < N
      · have h3 : ¬ i + 1 = N := by omega
        have h4 : i < N - 1 := by omega
        simp [h1, h2, h3, h4]
      · have h4 : ¬ i < N - 1 := by omega
        simp [h1, h2, h4]

theorem ka_destroy_all_eq (s : keyed_array α N) :
    destroy_all s = { s with
      m_data := { m_data := fun p =>
        if p < N ∧ s.m_free p = slot_full then none else s.m_data.m_data p } } := by
  unfold destroy_all
  have key : ∀ (n : Nat) (t : keyed_array α N),
      (List.range n).foldl (fun (s : keyed_array α N) idx =>
        if s.m_free idx = slot_full then { s with m_data := s.m_data.destroy idx } else s) t
      = { t with m_data := { m_data := fun p =>
          if p < n ∧ t.m_free p = slot_full then none else t.m_data.m_data p } } := by
    intro n
    induction n with
    | zero => intro t; simp
    | succ n ih =>
      intro t
      rw [List.range_succ, List.foldl_append, ih]
      simp only [List.foldl_cons, List.foldl_nil]
      by_cases hf : t.m_free n = slot_full
      · simp only [hf, if_true, raw_buffer.destroy]
        refine ka_ext_fields _ _ rfl ?_ rfl rfl
        funext p
        simp only [store_apply]
        by_cases h1 : p = n
        · subst h1; simp [hf]
        · by_cases h2 : p < n
          · have : p < n + 1 := by omega
            simp [h1, h2, this]
          · have : ¬ p < n + 1 := by omega
            simp [h1, h2, this]
      · simp only [hf, if_false]
        refine ka_ext_fields _ _ rfl ?_ rfl rfl
        funext p
        dsimp only
        by_cases h1 : p = n
        · subst h1; simp [hf]
        · by_cases h2 : p < n
          · have : p < n + 1 := by omega
            simp [h2, this]
          · have : ¬ p < n + 1 := by omega
            simp [h2, this]
  exact key N s

theorem ka_emplace_back_full (s : keyed_array α N) (v : α) (m : Nat)
    (h : s.m_free_head = invalid_index) :
    emplace_back s v m = (Except.error error.out_of_range, s) := by
  simp [emplace_back, h]

theorem ka_emplace_back_overflow (s : keyed_array α N) (v : α) (m : Nat)
    (h1 : s.m_free_head ≠ invalid_index)
    (h2 : (s.m_versions s.m_free_head + 1) % 4294967296 = 0) :
    emplace_back s v m = (Except.error error.overflow_error,
      { s with m_versions := store s.m_versions s.m_free_head 0 }) := by
  simp [emplace_back, h1, h2, increment_version]

theorem ka_emplace_back_ok (s : keyed_array α N) (v : α) (m : Nat)
    (h1 : s.m_free_head ≠ invalid_index)
    (h2 : (s.m_versions s.m_free_head + 1) % 4294967296 ≠ 0) :
    emplace_back s v m = (Except.ok
      { m_version := (s.m_versions s.m_free_head + 1) % 4294967296
        m_index := s.m_free_head
        m_meta := m },
      { m_free_head := s.m_free s.m_free_head
        m_data := s.m_data.emplace s.m_free_head v
        m_versions := store s.m_versions s.m_free_head
          ((s.m_versions s.m_free_head + 1) % 4294967296)
        m_free := store s.m_free s.m_free_head slot_full }) := by
  have h3 : 0 < (s.m_versions s.m_free_head + 1) % 4294967296 := by omega
  simp [emplace_back, h1, h3, increment_version]

theorem ka_emplace_back_ok_inv (s : keyed_array α N) (v : α) (m : Nat) (k : versioned_key)
    (h : (emplace_back s v m).1 = Except.ok k) :
    s.m_free_head ≠ invalid_index ∧ (s.m_versions s.m_free_head + 1) % 4294967296 ≠ 0 := by
  by_cases h1 : s.m_free_head = invalid_index
  · rw [ka_emplace_back_full s v m h1] at h; cases h
  · by_cases h2 : (s.m_versions s.m_free_head + 1) % 4294967296 = 0
    · rw [ka_emplace_back_overflow s v m h1 h2] at h; cases h
    · exact ⟨h1, h2⟩

theorem ka_evaluate_key_iff (s : keyed_array α N) (key : versioned_key) :
    evaluate_key s key = true ↔
      key.m_index < N ∧ s.m_free key.m_index = slot_full ∧
      key.m_version = s.m_versions key.m_index := by
  unfold evaluate_key
  by_cases h1 : key.m_index ≥ N
  · simp [h1]
  · by_cases h2 : s.m_free key.m_index = slot_full
    · by_cases h3 : key.m_version = s.m_versions key.m_index
      · simp [h1, h2, h3]; omega
      · simp [h1, h2, h3]
    · simp [h1, h2]

theorem ka_try_get_eq_none (s : keyed_array α N) (key : versioned_key) :
    try_get s key = none ↔ evaluate_key s key = false := by
  unfold try_get
  cases evaluate_key s key <;> simp

theorem ka_try_get_eq_some (s : keyed_array α N) (key : versioned_key) (p : Nat) :
    try_get s key = some p ↔ evaluate_key s key = true ∧ p = key.m_index := by
  unfold try_get
  cases evaluate_key s key <;> simp [eq_comm]

theorem ka_try_remove_false (s : keyed_array α N) (key : versioned_key)
    (h : evaluate_key s key = false) : try_remove s key = (false, s) := by
  simp [try_remove, h]

theorem ka_try_remove_true (s : keyed_array α N) (key : versioned_key)
    (h : evaluate_key s key = true) :
    try_remove s key = (true,
      { m_free_head := key.m_index
        m_data := s.m_data.destroy key.m_index
        m_versions := s.m_versions
        m_free := store s.m_free key.m_index s.m_free_head }) := by
  simp [try_remove, h, destroy_at]

theorem ka_try_remove_fst (s : keyed_array α N) (key : versioned_key) :
    (try_remove s key).1 = evaluate_key s key := by
  cases h : evaluate_key s key with
  | false => rw [ka_try_remove_false s key h]
  | true => rw [ka_try_remove_true s key h]

end keyed_array
end nonstd

namespace nonstd
namespace keyed_array

variable {α : Type} {N : Nat}

theorem ka_free_chain_congr (next next' : Nat → Nat) (fl : List Nat)
    (h : ∀ x ∈ fl, next' x = next x) :
    ∀ head, free_chain next head fl → free_chain next' head fl := by
  induction fl with
  | nil => intro head hc; exact hc
  | cons x xs ih =>
    intro head hc
    obtain ⟨h1, h2⟩ := hc
    refine ⟨h1, ?_⟩
    rw [h x (List.mem_cons_self x xs)]
    exact ih (fun y hy => h y (List.mem_cons_of_mem x hy)) _ h2

theorem ka_free_chain_range (next : Nat → Nat)
    (hnext : ∀ i, i < N → next i = (if i + 1 = N then invalid_index else (i + 1) % 65536))
    (hN : N ≤ 65534) :
    ∀ len a, a + len = N →
      free_chain next (if len = 0 then invalid_index else a) (List.range' a len) := by
  intro len
  induction len with
  | zero => intro a _; simp [free_chain]
  | succ len ih =>
    intro a ha
    have h1 := hnext a (by omega)
    simp only [List.range', free_chain, Nat.succ_ne_zero, if_false, true_and]
    have h2 := ih (a + 1) (by omega)
    rw [h1]
    by_cases h3 : len = 0
    · subst h3
      have h4 : a + 1 = N := by omega
      simpa [h4] using h2
    · have h4 : ¬ a + 1 = N := by omega
      have h5 : (a + 1) % 65536 = a + 1 := by omega
      simpa [h3, h4, h5] using h2

theorem ka_free_chain_head (hN : N ≤ 65534) (next : Nat → Nat) (fl : List Nat) (head : Nat)
    (hfl : ∀ x ∈ fl, x < N) (hc : free_chain next head fl) :
    head = invalid_index ↔ fl = [] := by
  cases fl with
  | nil => simp only [free_chain] at hc; simp [hc]
  | cons x xs =>
    obtain ⟨h1, _⟩ := hc
    have := hfl x (List.mem_cons_self _ _)
    simp only [ka_invalid_index_eq, reduceCtorEq, iff_false]
    omega

theorem Inv.ka_head_ne_full (hN : N ≤ 65534) {s : keyed_array α N} {fl : List Nat}
    (h : Inv s fl) : s.m_free_head ≠ slot_full := by
  cases fl with
  | nil =>
    have : s.m_free_head = invalid_index := h.chain
    rw [this]; decide
  | cons x xs =>
    obtain ⟨h1, _⟩ := h.chain
    have := h.fl_lt x (List.mem_cons_self _ _)
    rw [h1, ka_slot_full_eq]; omega

theorem ka_Inv_reset (hN : N ≤ 65534) (s : keyed_array α N)
    (hd : ∀ p, s.m_data.m_data p = none)
    (hv : ∀ x, s.m_versions x < 4294967296) :
    Inv (reset_metadata s) (List.range N) := by
  rw [ka_reset_metadata_eq]
  refine ⟨?_, ?_, List.nodup_range N, ?_, ?_, ?_, hv⟩
  · have h := ka_free_chain_range (N := N)
      (fun i => if i < N then
          (if i + 1 = N then invalid_index else (i + 1) % 65536) else s.m_free i)
      (by intro i hi; simp [hi]) hN N 0 (by omega)
    rw [List.range_eq_range']
    by_cases h0 : N = 0
    · simpa [h0] using h
    · simpa [h0] using h
  · intro x hx; exact List.mem_range.mp hx
  · intro x hx
    dsimp only
    simp only [hx, if_true, List.mem_range, not_true_eq_false, iff_false]
    by_cases h1 : x + 1 = N
    · simp only [h1, if_true]; decide
    · simp only [h1, if_false, ka_slot_full_eq]; omega
  · intro p
    dsimp only
    simp only [hd p, Option.isSome_none, Bool.false_eq_true, false_iff, not_and]
    intro hp
    simp only [hp, if_true]
    by_cases h1 : p + 1 = N
    · simp only [h1, if_true]; decide
    · simp only [h1, if_false, ka_slot_full_eq]; omega
  · intro x hx hx'; exact absurd (List.mem_range.mpr hx) hx'

theorem ka_Inv_ctor (hN : N ≤ 65534) : Inv (ctor : keyed_array α N) (List.range N) :=
  ka_Inv_reset hN _ (fun _ => rfl) (fun _ => Nat.zero_lt_succ _)

theorem ka_Inv_clear (hN : N ≤ 65534) (s : keyed_array α N) (fl : List Nat) (h : Inv s fl) :
    Inv (clear s) (List.range N) := by
  refine ka_Inv_reset hN (destroy_all s) ?_ ?_
  · intro p
    rw [ka_destroy_all_eq]
    dsimp only
    by_cases hp : p < N ∧ s.m_free p = slot_full
    · simp [hp]
    · simp only [hp, if_false]
      have := (h.constructed p)
      cases hq : s.m_data.m_data p with
      | none => rfl
      | some v => rw [hq] at this; simp at this; exact absurd this hp
  · intro x; rw [ka_destroy_all_eq]; exact h.version_lt x

theorem ka_Inv_emplace_back_ok (s : keyed_array α N) (x : Nat) (xs : List Nat)
    (h : Inv s (x :: xs)) (v : α) (m : Nat)
    (hv : (s.m_versions x + 1) % 4294967296 ≠ 0) (hne : s.m_free_head ≠ invalid_index) :
    Inv (emplace_back s v m).2 xs := by
  obtain ⟨hhead, hchain⟩ := h.chain
  have hxN : x < N := h.fl_lt x (List.mem_cons_self _ _)
  have hxs : x ∉ xs := (List.nodup_cons.mp h.fl_nodup).1
  rw [ka_emplace_back_ok s v m hne (by rw [hhead]; exact hv)]
  rw [hhead]
  have hmem : ∀ y, y ≠ x → (y ∉ xs ↔ y ∉ x :: xs) := by
    intro y hy
    simp [hy]
  refine ⟨?_, ?_, ?_, ?_, ?_, ?_, ?_⟩
  · refine ka_free_chain_congr s.m_free _ xs ?_ _ hchain
    intro y hy
    have : y ≠ x := fun hyx => hxs (hyx ▸ hy)
    simp [store_apply, this]
  · intro y hy; exact h.fl_lt y (List.mem_cons_of_mem _ hy)
  · exact (List.nodup_cons.mp h.fl_nodup).2
  · intro y hy
    simp only [store_apply]
    by_cases hyx : y = x
    · subst hyx; simp [hxs]
    · simp only [hyx, if_false]
      rw [hmem y hyx]
      exact h.occupied y hy
  · intro p
    simp only [raw_buffer.emplace, store_apply]
    by_cases hpx : p = x
    · subst hpx; simp [hxN]
    · simp only [hpx, if_false]
      exact h.constructed p
  · intro y hy hyxs
    simp only [store_apply]
    by_cases hyx : y = x
    · subst hyx; simp only [if_true]; omega
    · simp only [hyx, if_false]
      exact h.version_pos y hy ((hmem y hyx).mp hyxs)
  · intro y
    simp only [store_apply]
    by_cases hyx : y = x
    · subst hyx; simp only [if_true]; omega
    · simp only [hyx, if_false]; exact h.version_lt y

theorem ka_Inv_set_version (s : keyed_array α N) (fl : List Nat) (h : Inv s fl) (x w : Nat)
    (hx : x ∈ fl) (hw : w < 4294967296) :
    Inv ({ s with m_versions := store s.m_versions x w } : keyed_array α N) fl := by
  refine ⟨h.chain, h.fl_lt, h.fl_nodup, h.occupied, h.constructed, ?_, ?_⟩
  · intro y hy hyfl
    have : y ≠ x := fun hc => hyfl (hc ▸ hx)
    simp only [store_apply, this, if_false]
    exact h.version_pos y hy hyfl
  · intro y
    simp only [store_apply]
    by_cases hy : y = x
    · subst hy; simp only [if_true]; exact hw
    · simp only [hy, if_false]; exact h.version_lt y

theorem ka_Inv_emplace_back (hN : N ≤ 65534) (s : keyed_array α N) (fl : List Nat)
    (h : Inv s fl) (v : α) (m : Nat) :
    ∃ fl', Inv (emplace_back s v m).2 fl' := by
  cases fl with
  | nil =>
    have : s.m_free_head = invalid_index := h.chain
    rw [ka_emplace_back_full s v m this]
    exact ⟨[], h⟩
  | cons x xs =>
    obtain ⟨hhead, _⟩ := h.chain
    have hxN : x < N := h.fl_lt x (List.mem_cons_self _ _)
    have hne : s.m_free_head ≠ invalid_index := by rw [hhead, ka_invalid_index_eq]; omega
    by_cases hv : (s.m_versions x + 1) % 4294967296 = 0
    · rw [ka_emplace_back_overflow s v m hne (by rw [hhead]; exact hv)]
      exact ⟨x :: xs, ka_Inv_set_version s _ h _ 0 (by rw [hhead]; exact List.mem_cons_self _ _)
        (by decide)⟩
    · exact ⟨xs, ka_Inv_emplace_back_ok s x xs h v m hv hne⟩

theorem ka_Inv_try_remove_ok (hN : N ≤ 65534) (s : keyed_array α N) (fl : List Nat)
    (h : Inv s fl) (key : versioned_key) (hr : evaluate_key s key = true) :
    Inv (try_remove s key).2 (key.m_index :: fl) := by
  obtain ⟨h1, h2, h3⟩ := (ka_evaluate_key_iff s key).mp hr
  have hcfl : key.m_index ∉ fl := (h.occupied _ h1).mp h2
  rw [ka_try_remove_true s key hr]
  refine ⟨?_, ?_, ?_, ?_, ?_, ?_, h.version_lt⟩
  · refine ⟨rfl, ?_⟩
    simp only [store_same]
    refine ka_free_chain_congr s.m_free _ fl ?_ _ h.chain
    intro y hy
    have : y ≠ key.m_index := fun hc => hcfl (hc ▸ hy)
    simp [store_apply, this]
  · intro y hy
    rcases List.mem_cons.mp hy with rfl | hy
    · exact h1
    · exact h.fl_lt y hy
  · exact List.nodup_cons.mpr ⟨hcfl, h.fl_nodup⟩
  · intro y hy
    simp only [store_apply]
    by_cases hyc : y = key.m_index
    · simp only [hyc, if_true, List.mem_cons, true_or, not_true_eq_false, iff_false]
      exact h.ka_head_ne_full hN
    · simp only [hyc, if_false, List.mem_cons, false_or]
      exact h.occupied y hy
  · intro p
    simp only [raw_buffer.destroy, store_apply]
    by_cases hpc : p = key.m_index
    · simp only [hpc, if_true, Option.isSome_none, Bool.false_eq_true, false_iff, not_and]
      intro _
      exact h.ka_head_ne_full hN
    · simp only [hpc, if_false]
      exact h.constructed p
  · intro y hy hyfl
    exact h.version_pos y hy (fun hc => hyfl (List.mem_cons_of_mem _ hc))

theorem ka_Inv_try_remove (hN : N ≤ 65534) (s : keyed_array α N) (fl : List Nat)
    (h : Inv s fl) (key : versioned_key) :
    ∃ fl', Inv (try_remove s key).2 fl' := by
  cases hr : evaluate_key s key with
  | false => rw [ka_try_remove_false s key hr]; exact ⟨fl, h⟩
  | true => exact ⟨_, ka_Inv_try_remove_ok hN s fl h key hr⟩

theorem ka_Inv_step (hN : N ≤ 65534) (s : keyed_array α N) (fl : List Nat)
    (h : Inv s fl) (c : Call α) : ∃ fl', Inv (step s c) fl' := by
  cases c with
  | emplace_back v m => exact ka_Inv_emplace_back hN s fl h v m
  | try_remove key => exact ka_Inv_try_remove hN s fl h key
  | clear => exact ⟨_, ka_Inv_clear hN s fl h⟩

theorem ka_Inv_run (hN : N ≤ 65534) (calls : List (Call α)) :
    ∀ (s : keyed_array α N) (fl : List Nat), Inv s fl → ∃ fl', Inv (run s calls) fl' := by
  induction calls with
  | nil => intro s fl h; exact ⟨fl, h⟩
  | cons c cs ih =>
    intro s fl h
    obtain ⟨fl1, h1⟩ := ka_Inv_step hN s fl h c
    exact ih (step s c) fl1 h1

theorem ka_Inv_reachable (hN : N ≤ 65534) (calls : List (Call α)) :
    ∃ fl, Inv (run (ctor : keyed_array α N) calls) fl :=
  ka_Inv_run hN calls ctor _ (ka_Inv_ctor hN)

end keyed_array
end nonstd

namespace nonstd
namespace keyed_array

variable {α : Type} {N : Nat}

theorem StaleIn.ka_unresolved {s : keyed_array α N} {fl : List Nat} {k : versioned_key}
    (h : Inv s fl) (hs : StaleIn s fl k) : evaluate_key s k = false := by
  cases he : evaluate_key s k with
  | false => rfl
  | true =>
    obtain ⟨h1, h2, h3⟩ := (ka_evaluate_key_iff s k).mp he
    exact absurd ((hs h1).2 h3.symm) ((h.occupied _ h1).mp h2)

theorem ka_stale_after_remove (hN : N ≤ 65534) (s : keyed_array α N) (fl : List Nat)
    (h : Inv s fl) (k : versioned_key) (hr : (try_remove s k).1 = true) :
    ∃ fl', Inv (try_remove s k).2 fl' ∧ StaleIn (try_remove s k).2 fl' k := by
  rw [ka_try_remove_fst] at hr
  obtain ⟨_, _, h3⟩ := (ka_evaluate_key_iff s k).mp hr
  refine ⟨_, ka_Inv_try_remove_ok hN s fl h k hr, ?_⟩
  intro _
  rw [ka_try_remove_true s k hr]
  dsimp only
  exact ⟨by omega, fun _ => List.mem_cons_self _ _⟩

theorem ka_stale_step (hN : N ≤ 65534) (s : keyed_array α N) (fl : List Nat)
    (h : Inv s fl) (k : versioned_key) (hs : StaleIn s fl k) (c : Call α)
    (hw : wraps s c = false) :
    ∃ fl', Inv (step s c) fl' ∧ StaleIn (step s c) fl' k := by
  cases c with
  | emplace_back v m =>
    cases fl with
    | nil =>
      have : s.m_free_head = invalid_index := h.chain
      simp only [step]
      rw [ka_emplace_back_full s v m this]
      exact ⟨[], h, hs⟩
    | cons x xs =>
      obtain ⟨hhead, _⟩ := h.chain
      have hxN : x < N := h.fl_lt x (List.mem_cons_self _ _)
      have hne : s.m_free_head ≠ invalid_index := by rw [hhead, ka_invalid_index_eq]; omega
      by_cases hv : (s.m_versions x + 1) % 4294967296 = 0
      · simp only [wraps] at hw
        rw [ka_emplace_back_overflow s v m hne (by rw [hhead]; exact hv)] at hw
        simp at hw
      · refine ⟨xs, ka_Inv_emplace_back_ok s x xs h v m hv hne, ?_⟩
        intro hk
        obtain ⟨q1, q2⟩ := hs hk
        simp only [step]
        rw [ka_emplace_back_ok s v m hne (by rw [hhead]; exact hv), hhead]
        dsimp only
        simp only [store_apply]
        have hlt := h.version_lt x
        by_cases hkx : k.m_index = x
        · rw [hkx] at q1
          simp only [hkx, if_true]
          constructor
          · omega
          · intro hc; omega
        · simp only [hkx, if_false]
          refine ⟨q1, fun hc => ?_⟩
          rcases List.mem_cons.mp (q2 hc) with hm | hm
          · exact absurd hm hkx
          · exact hm
  | try_remove key =>
    cases hr : evaluate_key s key with
    | false =>
      simp only [step]
      rw [ka_try_remove_false s key hr]
      exact ⟨fl, h, hs⟩
    | true =>
      refine ⟨_, ka_Inv_try_remove_ok hN s fl h key hr, ?_⟩
      intro hk
      obtain ⟨q1, q2⟩ := hs hk
      simp only [step]
      rw [ka_try_remove_true s key hr]
      dsimp only
      exact ⟨q1, fun hc => List.mem_cons_of_mem _ (q2 hc)⟩
  | clear =>
    refine ⟨List.range N, ka_Inv_clear hN s fl h, ?_⟩
    intro hk
    obtain ⟨q1, _⟩ := hs hk
    simp only [step, clear]
    rw [ka_reset_metadata_eq, ka_destroy_all_eq]
    dsimp only
    exact ⟨q1, fun _ => List.mem_range.mpr hk⟩

theorem ka_stale_run (hN : N ≤ 65534) (k : versioned_key) (calls : List (Call α)) :
    ∀ (s : keyed_array α N) (fl : List Nat), Inv s fl → StaleIn s fl k →
      no_wrap s calls = true →
      ∃ fl', Inv (run s calls) fl' ∧ StaleIn (run s calls) fl' k := by
  induction calls with
  | nil => intro s fl h hs _; exact ⟨fl, h, hs⟩
  | cons c cs ih =>
    intro s fl h hs hw
    simp only [no_wrap, Bool.and_eq_true, Bool.not_eq_true'] at hw
    obtain ⟨fl1, h1, hs1⟩ := ka_stale_step hN s fl h k hs c hw.1
    exact ih (step s c) fl1 h1 hs1 hw.2

theorem ka_emplace_back_round_trip (hN : N ≤ 65534) (s : keyed_array α N) (fl : List Nat)
    (h : Inv s fl) (v : α) (m : Nat) (k : versioned_key)
    (hk : (emplace_back s v m).1 = Except.ok k) :
    try_get (emplace_back s v m).2 k = some k.m_index ∧
    (emplace_back s v m).2.m_data.get k.m_index = some v := by
  obtain ⟨h1, h2⟩ := ka_emplace_back_ok_inv s v m k hk
  rw [ka_emplace_back_ok s v m h1 h2] at hk ⊢
  simp only [Except.ok.injEq] at hk
  subst hk
  have hfl : fl ≠ [] := fun hc => h1 ((ka_free_chain_head hN _ _ _ h.fl_lt h.chain).mpr hc)
  obtain ⟨x, xs, rfl⟩ := List.exists_cons_of_ne_nil hfl
  obtain ⟨hhead, _⟩ := h.chain
  have hxN : x < N := h.fl_lt x (List.mem_cons_self _ _)
  constructor
  · rw [ka_try_get_eq_some, ka_evaluate_key_iff]
    dsimp only
    simp only [store_same]
    exact ⟨⟨by omega, trivial, trivial⟩, trivial⟩
  · simp [raw_buffer.get, raw_buffer.emplace]

end keyed_array
end nonstd

namespace nonstd
namespace slot_array

variable {α : Type} {N : Nat}

theorem ctor_version (x : Nat) : ((ctor : slot_array α N).m_lookups x).version = 0 := by
  unfold ctor
  rw [reset_metadata_eq]
  dsimp only
  by_cases hx : x < N
  · simp only [hx, if_true]
  · simp only [hx, if_false]

theorem Inv.head_invalid_iff (hN : N ≤ 65535) {s : slot_array α N} {fl : List Nat}
    (h : Inv s fl) : s.m_free_head = invalid_index ↔ s.m_size = N := by
  rw [free_chain_head hN _ _ _ _ h.fl_lt h.chain]
  have := h.size_add
  constructor
  · intro hc; rw [hc] at this; simpa using this
  · intro hc
    have : fl.length = 0 := by omega
    exact List.length_eq_zero.mp this

theorem emplace_back_out_of_range_iff (s : slot_array α N) (v : α) (m : Nat) :
    (emplace_back s v m).1 = Except.error error.out_of_range ↔
      s.m_free_head = invalid_index := by
  by_cases h1 : s.m_free_head = invalid_index
  · rw [emplace_back_full s v m h1]; simp [h1]
  · by_cases h2 : ((s.m_lookups s.m_free_head).version + 1) % 4294967296 = 0
    · rw [emplace_back_overflow s v m h1 h2]; simp [h1]
    · rw [emplace_back_ok s v m h1 h2]; simp [h1]

theorem emplace_all_ok (hN : N ≤ 65535) (args : List (α × Nat)) :
    ∀ (s : slot_array α N) (fl : List Nat), Inv s fl →
      (∀ x ∈ fl, (s.m_lookups x).version + 1 < 4294967296) →
      args.length ≤ fl.length →
      (∀ r ∈ (emplace_all s args).1, ∃ k, r = Except.ok k) ∧
      (emplace_all s args).1.length = args.length ∧
      Inv (emplace_all s args).2 (fl.drop args.length) := by
  induction args with
  | nil => intro s fl h _ _; exact ⟨by simp [emplace_all], rfl, by simpa [emplace_all] using h⟩
  | cons a rest ih =>
    intro s fl h hv hlen
    cases fl with
    | nil => simp at hlen
    | cons x xs =>
      obtain ⟨hhead, _, _⟩ := h.chain
      have hxN : x < N := h.fl_lt x (List.mem_cons_self _ _)
      have hxs : x ∉ xs := (List.nodup_cons.mp h.fl_nodup).1
      have hne : s.m_free_head ≠ invalid_index := by rw [hhead, invalid_index_eq]; omega
      have hvx := hv x (List.mem_cons_self _ _)
      have hv2 : ((s.m_lookups x).version + 1) % 4294967296 ≠ 0 := by omega
      have h1 := Inv_emplace_back_ok hN s x xs h a.1 a.2 hv2
      have hok := emplace_back_ok s a.1 a.2 hne (by rw [hhead]; exact hv2)
      have hv' : ∀ y ∈ xs, ((emplace_back s a.1 a.2).2.m_lookups y).version + 1 < 4294967296 := by
        intro y hy
        have hyx : y ≠ x := fun hc => hxs (hc ▸ hy)
        rw [hok, hhead]
        dsimp only
        simp only [store_apply, hyx, if_false]
        exact hv y (List.mem_cons_of_mem _ hy)
      simp only [List.length_cons] at hlen
      obtain ⟨q1, q2, q3⟩ := ih (emplace_back s a.1 a.2).2 xs h1 hv' (by omega)
      simp only [emplace_all, List.length_cons, List.drop_succ_cons]
      refine ⟨?_, by omega, q3⟩
      intro r hr
      rcases List.mem_cons.mp hr with hr | hr
      · rw [hr, hok]; exact ⟨_, rfl⟩
      · exact q1 r hr

end slot_array

namespace keyed_array

variable {α : Type} {N : Nat}

theorem ka_ctor_version (x : Nat) : (ctor : keyed_array α N).m_versions x = 0 := by
  unfold ctor
  rw [ka_reset_metadata_eq]

theorem Inv.ka_full_iff (hN : N ≤ 65534) {s : keyed_array α N} {fl : List Nat}
    (h : Inv s fl) : full s = true ↔ ∀ i, i < N → s.m_free i = slot_full := by
  unfold full
  rw [beq_iff_eq, ka_free_chain_head hN _ _ _ h.fl_lt h.chain]
  constructor
  · intro hc i hi
    rw [h.occupied i hi, hc]
    simp
  · intro hc
    cases hfl : fl with
    | nil => rfl
    | cons x xs =>
      exfalso
      have hx : x ∈ fl := by rw [hfl]; exact List.mem_cons_self _ _
      exact (h.occupied x (h.fl_lt x hx)).mp (hc x (h.fl_lt x hx)) hx

theorem ka_emplace_back_out_of_range_iff (s : keyed_array α N) (v : α) (m : Nat) :
    (emplace_back s v m).1 = Except.error error.out_of_range ↔ full s = true := by
  unfold full
  rw [beq_iff_eq]
  by_cases h1 : s.m_free_head = invalid_index
  · rw [ka_emplace_back_full s v m h1]; simp [h1]
  · by_cases h2 : (s.m_versions s.m_free_head + 1) % 4294967296 = 0
    · rw [ka_emplace_back_overflow s v m h1 h2]; simp [h1]
    · rw [ka_emplace_back_ok s v m h1 h2]; simp [h1]

theorem ka_emplace_all_ok (hN : N ≤ 65534) (args : List (α × Nat)) :
    ∀ (s : keyed_array α N) (fl : List Nat), Inv s fl →
      (∀ x ∈ fl, s.m_versions x + 1 < 4294967296) →
      args.length ≤ fl.length →
      (∀ r ∈ (emplace_all s args).1, ∃ k, r = Except.ok k) ∧
      (emplace_all s args).1.length = args.length ∧
      Inv (emplace_all s args).2 (fl.drop args.length) := by
  induction args with
  | nil => intro s fl h _ _; exact ⟨by simp [emplace_all], rfl, by simpa [emplace_all] using h⟩
  | cons a rest ih =>
    intro s fl h hv hlen
    cases fl with
    | nil => simp at hlen
    | cons x xs =>
      obtain ⟨hhead, _⟩ := h.chain
      have hxN : x < N := h.fl_lt x (List.mem_cons_self _ _)
      have hxs : x ∉ xs := (List.nodup_cons.mp h.fl_nodup).1
      have hne : s.m_free_head ≠ invalid_index := by rw [hhead, ka_invalid_index_eq]; omega
      have hvx := hv x (List.mem_cons_self _ _)
      have hv2 : (s.m_versions x + 1) % 4294967296 ≠ 0 := by omega
      have h1 := ka_Inv_emplace_back_ok s x xs h a.1 a.2 hv2 hne
      have hok := ka_emplace_back_ok s a.1 a.2 hne (by rw [hhead]; exact hv2)
      have hv' : ∀ y ∈ xs, (emplace_back s a.1 a.2).2.m_versions y + 1 < 4294967296 := by
        intro y hy
        have hyx : y ≠ x := fun hc => hxs (hc ▸ hy)
        rw [hok, hhead]
        dsimp only
        simp only [store_apply, hyx, if_false]
        exact hv y (List.mem_cons_of_mem _ hy)
      simp only [List.length_cons] at hlen
      obtain ⟨q1, q2, q3⟩ := ih (emplace_back s a.1 a.2).2 xs h1 hv' (by omega)
      simp only [emplace_all, List.length_cons, List.drop_succ_cons]
      refine ⟨?_, by omega, q3⟩
      intro r hr
      rcases List.mem_cons.mp hr with hr | hr
      · rw [hr, hok]; exact ⟨_, rfl⟩
      · exact q1 r hr

end keyed_array
end nonstd

namespace nonstd

theorem set_perm {β : Type} (M : List β) (x : β) :
    ∀ (c : Nat) (hc : c < M.length), List.Perm (M[c] :: M.set c x) (x :: M) := by
  induction M with
  | nil => intro c hc; simp at hc
  | cons a M ih =>
    intro c hc
    cases c with
    | zero => simpa using List.Perm.swap x a M
    | succ c =>
      simp only [List.length_cons, Nat.add_lt_add_iff_right] at hc
      simp only [List.getElem_cons_succ, List.set_cons_succ]
      exact (List.Perm.swap a M[c] (M.set c x)).trans
        (((ih c hc).cons a).trans (List.Perm.swap x a M))

namespace slot_array

variable {α : Type} {N : Nat}

theorem iterate_eq (s : slot_array α N) :
    iterate s = (List.range s.m_size).map s.m_data.m_data := rfl

/-- The iteration after a successful removal, in terms of the iteration before. -/
theorem iterate_remove_perm (f g : Nat → Option α) (k c : Nat) (hk : 1 ≤ k) (hc : c < k)
    (hg : ∀ i, i < k - 1 → g i = if i = c then f (k - 1) else f i) :
    List.Perm ((List.range k).map f) (f c :: (List.range (k - 1)).map g) := by
  obtain ⟨n, rfl⟩ : ∃ n, k = n + 1 := ⟨k - 1, by omega⟩
  simp only [Nat.add_sub_cancel] at hg ⊢
  rw [List.range_succ, List.map_append, List.map_singleton]
  by_cases hcn : c = n
  · subst hcn
    have e : (List.range c).map g = (List.range c).map f := by
      apply List.map_congr_left
      intro i hi
      have hi' : i < c := List.mem_range.mp hi
      have : i ≠ c := by omega
      rw [hg i hi']; simp [this]
    rw [e]
    exact List.perm_append_singleton _ _
  · have hcn' : c < n := by omega
    have e : (List.range n).map g = ((List.range n).map f).set c (f n) := by
      apply List.ext_getElem
      · simp
      · intro i h1 h2
        simp only [List.length_map, List.length_range] at h1
        simp only [List.getElem_map, List.getElem_range, List.getElem_set]
        rw [hg i h1]
        by_cases hic : i = c
        · simp [hic]
        · have : ¬ c = i := fun h => hic h.symm
          simp [hic, this]
    rw [e]
    have hlen : c < ((List.range n).map f).length := by simpa using hcn'
    have hp := set_perm ((List.range n).map f) (f n) c hlen
    simp only [List.getElem_map, List.getElem_range] at hp
    exact (List.perm_append_singleton _ _).trans hp.symm

theorem valid_after_remove (hN : N ≤ 65535) (s : slot_array α N) (fl : List Nat)
    (h : Inv s fl) (k : versioned_key) (c : Nat) (hr : resolve_key s k = some c)
    (k' : versioned_key) (p : Nat) (hne : k'.m_index ≠ k.m_index)
    (hp : try_get s k' = some p) :
    try_get (try_remove s k).2 k'
      = some (if p = s.m_size - 1 then (s.m_lookups c).data_index else p) ∧
    (try_remove s k).2.m_data.get (if p = s.m_size - 1 then (s.m_lookups c).data_index else p)
      = s.m_data.get p := by
  obtain ⟨hck, hcN, hd, hcfl, hec, _, e1, e2, hpos, htsN, htsd, htsfl⟩ := h.resolved hN hr
  obtain ⟨g1, g2, g3, g4, g5⟩ := (try_get_eq_some s k' p).mp hp
  have hsz := h.size_le
  have hyc : k'.m_index ≠ c := by rw [hck]; exact hne
  have hyfl : k'.m_index ∉ fl := by
    intro hc
    have := h.free_ge _ hc
    omega
  obtain ⟨o1, o2⟩ := h.occupied _ g1 hyfl
  rw [try_remove_spec hN s fl h k c hr]
  rw [try_get_eq_some]
  dsimp only [raw_buffer.get]
  simp only [hyc, if_false]
  by_cases hyt : k'.m_index = s.m_erase (s.m_size - 1)
  · have hpt : p = s.m_size - 1 := by rw [g5, hyt]; exact htsd
    have hdt : (s.m_lookups c).data_index ≠ s.m_size - 1 := by
      intro hc
      rw [hc] at hec
      exact hyc (hyt.trans hec)
    rw [← hyt]
    simp only [if_true, hpt, hdt, if_false, invalid_index_eq]
    rw [hyt] at g4
    rw [← hyt] at g4
    exact ⟨⟨g1, by omega, by omega, g4, trivial⟩, trivial⟩
  · have hpt : p ≠ s.m_size - 1 := by
      intro hc
      rw [g5] at hc
      rw [hc] at o2
      exact hyt o2.symm
    have hpd : p ≠ (s.m_lookups c).data_index := by
      intro hc
      rw [g5] at hc
      rw [hc, hec] at o2
      exact hyc o2.symm
    simp only [hyt, hpt, hpd, if_false]
    exact ⟨⟨g1, g2, by omega, g4, g5⟩, trivial⟩

theorem test_remove_clear_ok (hN : N ≤ 65535) (keys : List versioned_key) :
    ∀ (s : slot_array α N) (fl : List Nat) (b : Bool), Inv s fl →
      (∀ key ∈ keys, ∃ p, try_get s key = some p) →
      (keys.map versioned_key.m_index).Nodup →
      (keys.foldl (fun (r : Bool × slot_array α N) key =>
        let q := try_remove r.2 key
        (r.1 && q.1, q.2)) (b, s)).1 = b ∧
      (keys.foldl (fun (r : Bool × slot_array α N) key =>
        let q := try_remove r.2 key
        (r.1 && q.1, q.2)) (b, s)).2.m_size + keys.length = s.m_size := by
  induction keys with
  | nil => intro s fl b _ _ _; simp
  | cons key rest ih =>
    intro s fl b h hv hnd
    obtain ⟨p, hp⟩ := hv key (List.mem_cons_self _ _)
    have hr : resolve_key s key = some key.m_index := by
      obtain ⟨g1, g2, g3, g4, _⟩ := (try_get_eq_some s key p).mp hp
      exact (resolve_key_eq_some s key _).mpr ⟨rfl, g1, g2, g3, g4⟩
    have h1 := Inv_try_remove_ok hN s fl h key _ hr
    simp only [List.map_cons, List.nodup_cons] at hnd
    have hv1 : ∀ key' ∈ rest, ∃ p', try_get (try_remove s key).2 key' = some p' := by
      intro key' hk'
      obtain ⟨p', hp'⟩ := hv key' (List.mem_cons_of_mem _ hk')
      have hne : key'.m_index ≠ key.m_index := by
        intro hc
        exact hnd.1 (hc ▸ List.mem_map_of_mem _ hk')
      exact ⟨_, (valid_after_remove hN s fl h key _ hr key' p' hne hp').1⟩
    have hfst : (try_remove s key).1 = true := by rw [try_remove_fst, hr]; rfl
    obtain ⟨q1, q2⟩ := ih (try_remove s key).2 _ (b && (try_remove s key).1) h1 hv1 hnd.2
    simp only [List.foldl_cons, List.length_cons]
    dsimp only at q1 q2 ⊢
    refine ⟨by rw [q1, hfst, Bool.and_true], ?_⟩
    have hsize : (try_remove s key).2.m_size + 1 = s.m_size := by
      have := h1.size_add
      have := h.size_add
      simp only [List.length_cons] at *
      omega
    omega

end slot_array
end nonstd

namespace nonstd
namespace slot_array

variable {α : Type} {N : Nat}

theorem emplace_all_pops (hN : N ≤ 65535) (args : List (α × Nat)) :
    ∀ (s : slot_array α N) (fl : List Nat), Inv s fl →
      (∀ r ∈ (emplace_all s args).1, ∃ k, r = Except.ok k) →
      args.length ≤ fl.length ∧ Inv (emplace_all s args).2 (fl.drop args.length) := by
  induction args with
  | nil => intro s fl h _; exact ⟨Nat.zero_le _, by simpa [emplace_all] using h⟩
  | cons a rest ih =>
    intro s fl h hok
    simp only [emplace_all, List.mem_cons, forall_eq_or_imp] at hok
    obtain ⟨⟨k, hk⟩, hrest⟩ := hok
    obtain ⟨h1, h2⟩ := emplace_back_ok_inv s a.1 a.2 k hk
    have hfl : fl ≠ [] := fun hc => h1 ((free_chain_head hN _ _ _ _ h.fl_lt h.chain).mpr hc)
    obtain ⟨x, xs, rfl⟩ := List.exists_cons_of_ne_nil hfl
    obtain ⟨hhead, _, _⟩ := h.chain
    rw [hhead] at h2
    obtain ⟨q1, q2⟩ := ih _ xs (Inv_emplace_back_ok hN s x xs h a.1 a.2 h2) hrest
    simp only [emplace_all, List.length_cons, List.drop_succ_cons]
    exact ⟨by omega, q2⟩

end slot_array

namespace keyed_array

variable {α : Type} {N : Nat}

theorem Inv.ka_length_le {s : keyed_array α N} {fl : List Nat} (h : Inv s fl) :
    fl.length ≤ N := by
  have hsub : fl ⊆ List.range N := fun x hx => List.mem_range.mpr (h.fl_lt x hx)
  have := (List.subperm_of_subset h.fl_nodup hsub).length_le
  simpa using this

theorem ka_emplace_all_pops (hN : N ≤ 65534) (args : List (α × Nat)) :
    ∀ (s : keyed_array α N) (fl : List Nat), Inv s fl →
      (∀ r ∈ (emplace_all s args).1, ∃ k, r = Except.ok k) →
      args.length ≤ fl.length ∧ Inv (emplace_all s args).2 (fl.drop args.length) := by
  induction args with
  | nil => intro s fl h _; exact ⟨Nat.zero_le _, by simpa [emplace_all] using h⟩
  | cons a rest ih =>
    intro s fl h hok
    simp only [emplace_all, List.mem_cons, forall_eq_or_imp] at hok
    obtain ⟨⟨k, hk⟩, hrest⟩ := hok
    obtain ⟨h1, h2⟩ := ka_emplace_back_ok_inv s a.1 a.2 k hk
    have hfl : fl ≠ [] := fun hc => h1 ((ka_free_chain_head hN _ _ _ h.fl_lt h.chain).mpr hc)
    obtain ⟨x, xs, rfl⟩ := List.exists_cons_of_ne_nil hfl
    obtain ⟨hhead, _⟩ := h.chain
    rw [hhead] at h2
    obtain ⟨q1, q2⟩ := ih _ xs (ka_Inv_emplace_back_ok s x xs h a.1 a.2 h2 h1) hrest
    simp only [emplace_all, List.length_cons, List.drop_succ_cons]
    exact ⟨by omega, q2⟩

end keyed_array
end nonstd

namespace nonstd
namespace slot_array

variable {α : Type} {N : Nat}

theorem version_try_remove (s : slot_array α N) (key : versioned_key) (y : Nat) :
    ((try_remove s key).2.m_lookups y).version = (s.m_lookups y).version := by
  cases hr : resolve_key s key with
  | none => rw [try_remove_none s key hr]
  | some c =>
    rw [try_remove_some s key c hr]
    dsimp only
    rw [remove_lookups_apply]
    by_cases h1 : y = c
    · simp only [h1, if_true]
    · by_cases h2 : y = s.m_erase
          ((s.m_size + 18446744073709551615) % 18446744073709551616 % 65536)
      · rw [if_neg h1, if_pos h2, ← h2]
      · rw [if_neg h1, if_neg h2]

theorem version_clear (s : slot_array α N) (y : Nat) :
    ((clear s).m_lookups y).version = (s.m_lookups y).version := by
  simp only [clear]
  rw [reset_metadata_eq, destroy_all_eq]
  dsimp only
  split_ifs <;> rfl

/-- The effect of a successful `emplace_back` on the generations. -/
theorem version_emplace_back (s : slot_array α N) (v : α) (m : Nat) (k : versioned_key)
    (hv : (s.m_lookups s.m_free_head).version < 4294967296)
    (hk : (emplace_back s v m).1 = Except.ok k) :
    k.m_index = s.m_free_head ∧ k.m_meta = m ∧
    ((emplace_back s v m).2.m_lookups k.m_index).version
      = (s.m_lookups k.m_index).version + 1 ∧
    (∀ y, y ≠ k.m_index →
      ((emplace_back s v m).2.m_lookups y).version = (s.m_lookups y).version) ∧
    k.m_version = ((emplace_back s v m).2.m_lookups k.m_index).version := by
  obtain ⟨h1, h2⟩ := emplace_back_ok_inv s v m k hk
  rw [emplace_back_ok s v m h1 h2] at hk ⊢
  simp only [Except.ok.injEq] at hk
  subst hk
  dsimp only
  refine ⟨rfl, rfl, ?_, ?_, ?_⟩
  · simp only [store_same]; omega
  · intro y hy; simp only [store_apply, hy, if_false]
  · simp only [store_same]

/-- A slot that no key of the sequence was issued for keeps its generation, provided
the generation is below the maximum at the start. -/
theorem version_of_not_issued (calls : List (Call α)) :
    ∀ (s : slot_array α N) (x : Nat), (s.m_lookups x).version + 1 < 4294967296 →
      (∀ k ∈ issued s calls, k.m_index ≠ x) →
      ((run s calls).m_lookups x).version = (s.m_lookups x).version := by
  induction calls with
  | nil => intro s x _ _; rfl
  | cons c cs ih =>
    intro s x hx hni
    cases c with
    | emplace_back v m =>
      have key : ((emplace_back s v m).2.m_lookups x).version = (s.m_lookups x).version ∧
          ∀ k ∈ issued (emplace_back s v m).2 cs, k.m_index ≠ x := by
        by_cases h1 : s.m_free_head = invalid_index
        · simp only [issued, emplace_back_full s v m h1] at hni ⊢
          exact ⟨trivial, hni⟩
        · by_cases h2 : ((s.m_lookups s.m_free_head).version + 1) % 4294967296 = 0
          · have hne : x ≠ s.m_free_head := by
              intro hc; rw [← hc] at h2; omega
            simp only [issued, emplace_back_overflow s v m h1 h2] at hni ⊢
            refine ⟨?_, hni⟩
            simp only [lookup_t.set_version, store_apply, hne, if_false]
          · simp only [issued, emplace_back_ok s v m h1 h2, List.mem_cons,
              forall_eq_or_imp] at hni ⊢
            have hne : x ≠ s.m_free_head := fun hc => hni.1 hc.symm
            refine ⟨?_, hni.2⟩
            simp only [store_apply, hne, if_false]
      have := ih (emplace_back s v m).2 x (by rw [key.1]; exact hx) key.2
      simp only [run, List.foldl_cons, step] at this ⊢
      rw [this, key.1]
    | try_remove key =>
      have := ih (try_remove s key).2 x (by rw [version_try_remove]; exact hx)
        (by simpa [issued] using hni)
      simp only [run, List.foldl_cons, step] at this ⊢
      rw [this, version_try_remove]
    | clear =>
      have := ih (clear s) x (by rw [version_clear]; exact hx) (by simpa [issued] using hni)
      simp only [run, List.foldl_cons, step] at this ⊢
      rw [this, version_clear]

end slot_array

namespace keyed_array

variable {α : Type} {N : Nat}

theorem ka_version_try_remove (s : keyed_array α N) (key : versioned_key) :
    (try_remove s key).2.m_versions = s.m_versions := by
  cases hr : evaluate_key s key with
  | false => rw [ka_try_remove_false s key hr]
  | true => rw [ka_try_remove_true s key hr]

theorem ka_version_clear (s : keyed_array α N) : (clear s).m_versions = s.m_versions := by
  simp only [clear]
  rw [ka_reset_metadata_eq, ka_destroy_all_eq]

/-- The effect of a successful `emplace_back` on the generations. -/
theorem ka_version_emplace_back (s : keyed_array α N) (v : α) (m : Nat) (k : versioned_key)
    (hv : s.m_versions s.m_free_head < 4294967296)
    (hk : (emplace_back s v m).1 = Except.ok k) :
    k.m_index = s.m_free_head ∧ k.m_meta = m ∧
    (emplace_back s v m).2.m_versions k.m_index = s.m_versions k.m_index + 1 ∧
    (∀ y, y ≠ k.m_index → (emplace_back s v m).2.m_versions y = s.m_versions y) ∧
    k.m_version = (emplace_back s v m).2.m_versions k.m_index := by
  obtain ⟨h1, h2⟩ := ka_emplace_back_ok_inv s v m k hk
  rw [ka_emplace_back_ok s v m h1 h2] at hk ⊢
  simp only [Except.ok.injEq] at hk
  subst hk
  dsimp only
  refine ⟨rfl, rfl, ?_, ?_, ?_⟩
  · simp only [store_same]; omega
  · intro y hy; simp only [store_apply, hy, if_false]
  · simp only [store_same]

/-- A slot that no key of the sequence was issued for keeps its generation, provided
the generation is below the maximum at the start. -/
theorem ka_version_of_not_issued (calls : List (Call α)) :
    ∀ (s : keyed_array α N) (x : Nat), s.m_versions x + 1 < 4294967296 →
      (∀ k ∈ issued s calls, k.m_index ≠ x) →
      (run s calls).m_versions x = s.m_versions x := by
  induction calls with
  | nil => intro s x _ _; rfl
  | cons c cs ih =>
    intro s x hx hni
    cases c with
    | emplace_back v m =>
      have key : (emplace_back s v m).2.m_versions x = s.m_versions x ∧
          ∀ k ∈ issued (emplace_back s v m).2 cs, k.m_index ≠ x := by
        by_cases h1 : s.m_free_head = invalid_index
        · simp only [issued, ka_emplace_back_full s v m h1] at hni ⊢
          exact ⟨trivial, hni⟩
        · by_cases h2 : (s.m_versions s.m_free_head + 1) % 4294967296 = 0
          · have hne : x ≠ s.m_free_head := by
              intro hc; rw [← hc] at h2; omega
            simp only [issued, ka_emplace_back_overflow s v m h1 h2] at hni ⊢
            refine ⟨?_, hni⟩
            simp only [store_apply, hne, if_false]
          · simp only [issued, ka_emplace_back_ok s v m h1 h2, List.mem_cons,
              forall_eq_or_imp] at hni ⊢
            have hne : x ≠ s.m_free_head := fun hc => hni.1 hc.symm
            refine ⟨?_, hni.2⟩
            simp only [store_apply, hne, if_false]
      have := ih (emplace_back s v m).2 x (by rw [key.1]; exact hx) key.2
      simp only [run, List.foldl_cons, step] at this ⊢
      rw [this, key.1]
    | try_remove key =>
      have := ih (try_remove s key).2 x (by rw [ka_version_try_remove]; exact hx)
        (by simpa [issued] using hni)
      simp only [run, List.foldl_cons, step] at this ⊢
      rw [this, ka_version_try_remove]
    | clear =>
      have := ih (clear s) x (by rw [ka_version_clear]; exact hx) (by simpa [issued] using hni)
      simp only [run, List.foldl_cons, step] at this ⊢
      rw [this, ka_version_clear]

end keyed_array
end nonstd

namespace nonstd

theorem churn_succ (start n : Nat) :
    churn start (n + 1) =
      Call.emplace_back 0 0 ::
        Call.try_remove { m_version := start + 1, m_index := 0, m_meta := 0 } ::
          churn (start + 1) n := rfl

namespace keyed_array

/-- One round of `churn` on a pool of capacity 1: the slot ends free again, one
generation later. -/
theorem ka_churn_round (start : Nat) (s : keyed_array Nat 1) (h : Inv s [0])
    (hv : s.m_versions 0 = start) (hlt : start + 1 < 4294967296) :
    (emplace_back s 0 0).1 = Except.ok { m_version := start + 1, m_index := 0, m_meta := 0 } ∧
    Inv (try_remove (emplace_back s 0 0).2
      { m_version := start + 1, m_index := 0, m_meta := 0 }).2 [0] ∧
    (try_remove (emplace_back s 0 0).2
      { m_version := start + 1, m_index := 0, m_meta := 0 }).2.m_versions 0 = start + 1 := by
  obtain ⟨hhead, _⟩ := h.chain
  have hne : s.m_free_head ≠ invalid_index := by rw [hhead]; decide
  have hv2 : (s.m_versions 0 + 1) % 4294967296 ≠ 0 := by omega
  have hmod : (s.m_versions 0 + 1) % 4294967296 = start + 1 := by omega
  have hok := ka_emplace_back_ok s 0 0 hne (by rw [hhead]; exact hv2)
  rw [hhead, hmod] at hok
  have h1 : Inv (emplace_back s 0 0).2 [] := ka_Inv_emplace_back_ok s 0 [] h 0 0 hv2 hne
  have hkey : (emplace_back s 0 0).1
      = Except.ok { m_version := start + 1, m_index := 0, m_meta := 0 } := by rw [hok]
  have hres := (ka_emplace_back_round_trip (by decide) s [0] h 0 0 _ hkey).1
  have hev := ((ka_try_get_eq_some _ _ _).mp hres).1
  refine ⟨hkey, ka_Inv_try_remove_ok (by decide) _ [] h1 _ hev, ?_⟩
  rw [ka_version_try_remove, hok]
  simp only [store_same]

theorem ka_churn_run (n : Nat) :
    ∀ (start : Nat) (s : keyed_array Nat 1), Inv s [0] → s.m_versions 0 = start →
      start + n < 4294967296 →
      Inv (run s (churn start n)) [0] ∧ (run s (churn start n)).m_versions 0 = start + n := by
  induction n with
  | zero => intro start s h hv _; exact ⟨h, hv⟩
  | succ n ih =>
    intro start s h hv hlt
    obtain ⟨_, q2, q3⟩ := ka_churn_round start s h hv (by omega)
    obtain ⟨r1, r2⟩ := ih (start + 1) _ q2 q3 (by omega)
    rw [churn_succ]
    simp only [run, List.foldl_cons, step] at r1 r2 ⊢
    exact ⟨r1, by rw [r2]; omega⟩

/-- In a pool of capacity 1 whose only slot is free with generation `2^32 - 1`,
`emplace_back` throws `std::overflow_error` and leaves generation 0 behind; the next
`emplace_back` then succeeds with version 1. -/
theorem ka_overflow_then_retry (s : keyed_array Nat 1) (h : Inv s [0])
    (hv : s.m_versions 0 = 4294967295) :
    (s.emplace_back 0 0).1 = Except.error error.overflow_error ∧
    (s.emplace_back 0 0).2.m_versions 0 = 0 ∧
    ((s.emplace_back 0 0).2.emplace_back 0 0).1
      = Except.ok { m_version := 1, m_index := 0, m_meta := 0 } ∧
    ((s.emplace_back 0 0).2.emplace_back 0 0).2.try_get
      { m_version := 1, m_index := 0, m_meta := 0 } = some 0 := by
  obtain ⟨hhead, _⟩ := h.chain
  have hne : s.m_free_head ≠ invalid_index := by rw [hhead]; decide
  have hov := ka_emplace_back_overflow s 0 0 hne (by rw [hhead, hv])
  have h' : Inv (emplace_back s 0 0).2 [0] := by
    rw [hov]
    exact ka_Inv_set_version s [0] h _ 0 (by rw [hhead]; simp) (by decide)
  have hv' : (emplace_back s 0 0).2.m_versions 0 = 0 := by
    rw [hov]; simp [hhead]
  refine ⟨by rw [hov], hv', ?_⟩
  generalize (emplace_back s 0 0).2 = s' at h' hv'
  obtain ⟨hhead', _⟩ := h'.chain
  have hne' : s'.m_free_head ≠ invalid_index := by rw [hhead']; decide
  have hok := ka_emplace_back_ok s' 0 0 hne' (by rw [hhead', hv']; decide)
  have hkey : (s'.emplace_back 0 0).1
      = Except.ok { m_version := 1, m_index := 0, m_meta := 0 } := by
    rw [hok, hhead', hv']
  exact ⟨hkey, (ka_emplace_back_round_trip (by decide) _ [0] h' 0 0 _ hkey).1⟩

/-- After `2^32 - 1` rounds of `churn` on a fresh pool of capacity 1 the only slot is
free and has generation `2^32 - 1`. -/
theorem ka_churn_max :
    Inv ((keyed_array.ctor : keyed_array Nat 1).run (churn 0 4294967295)) [0] ∧
    ((keyed_array.ctor : keyed_array Nat 1).run (churn 0 4294967295)).m_versions 0
      = 4294967295 := by
  obtain ⟨h, hv⟩ := ka_churn_run 4294967295 0 (keyed_array.ctor : keyed_array Nat 1)
    (ka_Inv_ctor (by decide)) (ka_ctor_version 0) (by decide)
  exact ⟨h, by rw [hv]⟩

end keyed_array

namespace slot_array

/-- One round of `churn` on a pool of capacity 1: the slot ends free again, one
generation later. -/
theorem churn_round (start : Nat) (s : slot_array Nat 1) (h : Inv s [0])
    (hv : (s.m_lookups 0).version = start) (hlt : start + 1 < 4294967296) :
    (emplace_back s 0 0).1 = Except.ok { m_version := start + 1, m_index := 0, m_meta := 0 } ∧
    Inv (try_remove (emplace_back s 0 0).2
      { m_version := start + 1, m_index := 0, m_meta := 0 }).2 [0] ∧
    ((try_remove (emplace_back s 0 0).2
      { m_version := start + 1, m_index := 0, m_meta := 0 }).2.m_lookups 0).version
        = start + 1 := by
  obtain ⟨hhead, _, _⟩ := h.chain
  have hne : s.m_free_head ≠ invalid_index := by rw [hhead]; decide
  have hv2 : ((s.m_lookups 0).version + 1) % 4294967296 ≠ 0 := by omega
  have hmod : ((s.m_lookups 0).version + 1) % 4294967296 = start + 1 := by omega
  have hok := emplace_back_ok s 0 0 hne (by rw [hhead]; exact hv2)
  rw [hhead, hmod] at hok
  have h1 : Inv (emplace_back s 0 0).2 [] := Inv_emplace_back_ok (by decide) s 0 [] h 0 0 hv2
  have hkey : (emplace_back s 0 0).1
      = Except.ok { m_version := start + 1, m_index := 0, m_meta := 0 } := by rw [hok]
  have hres := (emplace_back_round_trip (by decide) s [0] h 0 0 _ hkey).1
  obtain ⟨g1, g2, g3, g4, _⟩ := (try_get_eq_some _ _ _).mp hres
  have hr : resolve_key (emplace_back s 0 0).2
      { m_version := start + 1, m_index := 0, m_meta := 0 } = some 0 :=
    (resolve_key_eq_some _ _ _).mpr ⟨rfl, g1, g2, g3, g4⟩
  refine ⟨hkey, Inv_try_remove_ok (by decide) _ [] h1 _ 0 hr, ?_⟩
  rw [version_try_remove, hok]
  simp only [store_same]

theorem churn_run (n : Nat) :
    ∀ (start : Nat) (s : slot_array Nat 1), Inv s [0] → (s.m_lookups 0).version = start →
      start + n < 4294967296 →
      Inv (run s (churn start n)) [0] ∧
      ((run s (churn start n)).m_lookups 0).version = start + n := by
  induction n with
  | zero => intro start s h hv _; exact ⟨h, hv⟩
  | succ n ih =>
    intro start s h hv hlt
    obtain ⟨_, q2, q3⟩ := churn_round start s h hv (by omega)
    obtain ⟨r1, r2⟩ := ih (start + 1) _ q2 q3 (by omega)
    rw [churn_succ]
    simp only [run, List.foldl_cons, step] at r1 r2 ⊢
    exact ⟨r1, by rw [r2]; omega⟩

/-- In a pool of capacity 1 whose only slot is free with generation `2^32 - 1`,
`emplace_back` throws `std::overflow_error` and leaves generation 0 behind; the next
`emplace_back` then succeeds with version 1. -/
theorem overflow_then_retry (s : slot_array Nat 1) (h : Inv s [0])
    (hv : (s.m_lookups 0).version = 4294967295) :
    (s.emplace_back 0 0).1 = Except.error error.overflow_error ∧
    ((s.emplace_back 0 0).2.m_lookups 0).version = 0 ∧
    ((s.emplace_back 0 0).2.emplace_back 0 0).1
      = Except.ok { m_version := 1, m_index := 0, m_meta := 0 } ∧
    ((s.emplace_back 0 0).2.emplace_back 0 0).2.try_get
      { m_version := 1, m_index := 0, m_meta := 0 } = some 0 := by
  obtain ⟨hhead, _, _⟩ := h.chain
  have hne : s.m_free_head ≠ invalid_index := by rw [hhead]; decide
  have hov := emplace_back_overflow s 0 0 hne (by rw [hhead, hv])
  have h' : Inv (emplace_back s 0 0).2 [0] := by
    rw [hov]
    exact Inv_set_version s [0] h _ 0 (by rw [hhead]; simp) (by decide)
  have hv' : ((emplace_back s 0 0).2.m_lookups 0).version = 0 := by
    rw [hov]; simp [hhead, lookup_t.set_version]
  refine ⟨by rw [hov], hv', ?_⟩
  generalize (emplace_back s 0 0).2 = s' at h' hv'
  obtain ⟨hhead', _, _⟩ := h'.chain
  have hne' : s'.m_free_head ≠ invalid_index := by rw [hhead']; decide
  have hok := emplace_back_ok s' 0 0 hne' (by rw [hhead', hv']; decide)
  have hkey : (s'.emplace_back 0 0).1
      = Except.ok { m_version := 1, m_index := 0, m_meta := 0 } := by
    rw [hok, hhead', hv']
  have hsz : s'.m_size = 0 := by
    have := h'.size_add
    simpa using this
  refine ⟨hkey, ?_⟩
  rw [(emplace_back_round_trip (by decide) _ [0] h' 0 0 _ hkey).1, hsz]

/-- After `2^32 - 1` rounds of `churn` on a fresh pool of capacity 1 the only slot is
free and has generation `2^32 - 1`. -/
theorem churn_max :
    Inv ((slot_array.ctor : slot_array Nat 1).run (churn 0 4294967295)) [0] ∧
    (((slot_array.ctor : slot_array Nat 1).run (churn 0 4294967295)).m_lookups 0).version
      = 4294967295 := by
  obtain ⟨h, hv⟩ := churn_run 4294967295 0 (slot_array.ctor : slot_array Nat 1)
    (Inv_ctor (by decide)) (ctor_version 0) (by decide)
  exact ⟨h, by rw [hv]⟩

end slot_array
end nonstd

namespace nonstd

theorem emplace_each_append {α : Type} (a b : List (α × Nat)) :
    Call.emplace_each (a ++ b) = Call.emplace_each a ++ Call.emplace_each b := by
  simp [Call.emplace_each]

theorem emplace_each_cons {α : Type} (a : α × Nat) (rest : List (α × Nat)) :
    Call.emplace_each (a :: rest) = Call.emplace_back a.1 a.2 :: Call.emplace_each rest := rfl

namespace keyed_array

variable {α : Type} {N : Nat}

theorem ka_run_append (a b : List (Call α)) (s : keyed_array α N) :
    run s (a ++ b) = run (run s a) b := by
  simp [run, List.foldl_append]

theorem ka_no_wrap_append (a b : List (Call α)) :
    ∀ s : keyed_array α N, no_wrap s (a ++ b) = (no_wrap s a && no_wrap (run s a) b) := by
  induction a with
  | nil => intro s; simp [no_wrap, run]
  | cons c cs ih =>
    intro s
    rw [List.cons_append]
    show (!wraps s c && no_wrap (step s c) (cs ++ b))
      = ((!wraps s c && no_wrap (step s c) cs) && no_wrap (run s (c :: cs)) b)
    rw [ih (step s c), Bool.and_assoc]
    rfl

theorem ka_emplace_all_snd (args : List (α × Nat)) :
    ∀ s : keyed_array α N, (emplace_all s args).2 = run s (Call.emplace_each args) := by
  induction args with
  | nil => intro s; rfl
  | cons a rest ih =>
    intro s
    simp only [emplace_all, emplace_each_cons, run, List.foldl_cons, step]
    exact ih _

theorem ka_emplace_all_fst_take (args : List (α × Nat)) :
    ∀ (s : keyed_array α N) (j : Nat),
      (emplace_all s (args.take j)).1 = (emplace_all s args).1.take j := by
  induction args with
  | nil => intro s j; simp [emplace_all]
  | cons a rest ih =>
    intro s j
    cases j with
    | zero => simp [emplace_all]
    | succ j => simp only [List.take_succ_cons, emplace_all, ih]

/-- Without wrap, a call never lowers a generation. -/
theorem ka_version_mono_step (s : keyed_array α N) (fl : List Nat) (h : Inv s fl)
    (c : Call α) (hw : wraps s c = false) (x : Nat) :
    s.m_versions x ≤ (step s c).m_versions x := by
  cases c with
  | emplace_back v m =>
    simp only [step]
    by_cases h1 : s.m_free_head = invalid_index
    · rw [ka_emplace_back_full s v m h1]
    · by_cases h2 : (s.m_versions s.m_free_head + 1) % 4294967296 = 0
      · simp only [wraps, ka_emplace_back_overflow s v m h1 h2] at hw
        cases hw
      · rw [ka_emplace_back_ok s v m h1 h2]
        dsimp only
        simp only [store_apply]
        have := h.version_lt s.m_free_head
        by_cases hx : x = s.m_free_head
        · subst hx; simp only [if_true]; omega
        · simp only [hx, if_false]; exact Nat.le_refl _
  | try_remove key => simp only [step, ka_version_try_remove]; exact Nat.le_refl _
  | clear => simp only [step, ka_version_clear]; exact Nat.le_refl _

theorem ka_version_mono_run (hN : N ≤ 65534) (calls : List (Call α)) :
    ∀ (s : keyed_array α N) (fl : List Nat), Inv s fl → no_wrap s calls = true →
      ∀ x, s.m_versions x ≤ (run s calls).m_versions x := by
  induction calls with
  | nil => intro s fl _ _ x; exact Nat.le_refl _
  | cons c cs ih =>
    intro s fl h hw x
    simp only [no_wrap, Bool.and_eq_true, Bool.not_eq_true'] at hw
    obtain ⟨fl1, h1⟩ := ka_Inv_step hN s fl h c
    have a := ka_version_mono_step s fl h c hw.1 x
    have b := ih (step s c) fl1 h1 hw.2 x
    simp only [run, List.foldl_cons] at b ⊢
    omega

/-- Without wrap, the version of every issued key is at most the current generation of
its slot, and its index is below `N`. -/
theorem ka_issued_version_le (hN : N ≤ 65534) (calls : List (Call α)) :
    ∀ (s : keyed_array α N) (fl : List Nat), Inv s fl → no_wrap s calls = true →
      ∀ k ∈ issued s calls, k.m_version ≤ (run s calls).m_versions k.m_index := by
  induction calls with
  | nil => intro s fl _ _ k hk; simp [issued] at hk
  | cons c cs ih =>
    intro s fl h hw k hk
    simp only [no_wrap, Bool.and_eq_true, Bool.not_eq_true'] at hw
    obtain ⟨fl1, h1⟩ := ka_Inv_step hN s fl h c
    have hrest : ∀ k ∈ issued (step s c) cs,
        k.m_version ≤ (run s (c :: cs)).m_versions k.m_index := by
      intro k hk
      have := ih (step s c) fl1 h1 hw.2 k hk
      simpa [run] using this
    cases c with
    | emplace_back v m =>
      cases hr : (emplace_back s v m).1 with
      | error e =>
        simp only [issued, hr] at hk
        exact hrest k hk
      | ok k0 =>
        simp only [issued, hr, List.mem_cons] at hk
        rcases hk with hk | hk
        · subst hk
          obtain ⟨_, _, _, _, q5⟩ :=
            ka_version_emplace_back s v m k (h.version_lt _) hr
          have := ka_version_mono_run hN cs (step s (Call.emplace_back v m)) fl1 h1 hw.2
            k.m_index
          simp only [run, List.foldl_cons, step] at this ⊢
          omega
        · exact hrest k hk
    | try_remove key =>
      simp only [issued] at hk
      exact hrest k hk
    | clear =>
      simp only [issued] at hk
      exact hrest k hk

/-- After `clear()` every key whose version is at most the generation of its slot is
stale. -/
theorem ka_stale_after_clear (s : keyed_array α N) (k : versioned_key)
    (hk : k.m_version ≤ s.m_versions k.m_index) :
    StaleIn (clear s) (List.range N) k := by
  intro hi
  rw [ka_version_clear]
  exact ⟨hk, fun _ => List.mem_range.mpr hi⟩

theorem ka_try_get_clear (hN : N ≤ 65534) (s : keyed_array α N) (fl : List Nat)
    (h : Inv s fl) (k : versioned_key) : try_get (clear s) k = none := by
  have hc := ka_Inv_clear hN s fl h
  rw [ka_try_get_eq_none, ← Bool.not_eq_true, ka_evaluate_key_iff]
  intro ⟨h1, h2, _⟩
  exact (hc.occupied _ h1).mp h2 (List.mem_range.mpr h1)

theorem ka_full_clear (s : keyed_array α N) : full (clear s) = (N == 0) := by
  simp only [clear, full]
  rw [ka_reset_metadata_eq]
  dsimp only
  by_cases h0 : N = 0
  · simp [h0]
  · simp [h0, ka_invalid_index_eq]

/-- Without wrap, as many inserts succeed as there are free slots. -/
theorem ka_emplace_all_ok_no_wrap (hN : N ≤ 65534) (args : List (α × Nat)) :
    ∀ (s : keyed_array α N) (fl : List Nat), Inv s fl →
      no_wrap s (Call.emplace_each args) = true →
      args.length ≤ fl.length →
      (∀ r ∈ (emplace_all s args).1, ∃ k, r = Except.ok k) ∧
      (emplace_all s args).1.length = args.length ∧
      Inv (emplace_all s args).2 (fl.drop args.length) := by
  induction args with
  | nil => intro s fl h _ _; exact ⟨by simp [emplace_all], rfl, by simpa [emplace_all] using h⟩
  | cons a rest ih =>
    intro s fl h hw hlen
    cases fl with
    | nil => simp at hlen
    | cons x xs =>
      simp only [emplace_each_cons, no_wrap, Bool.and_eq_true, Bool.not_eq_true'] at hw
      obtain ⟨hhead, _⟩ := h.chain
      have hxN : x < N := h.fl_lt x (List.mem_cons_self _ _)
      have hne : s.m_free_head ≠ invalid_index := by rw [hhead, ka_invalid_index_eq]; omega
      have hv2 : (s.m_versions x + 1) % 4294967296 ≠ 0 := by
        intro hc
        have hw1 := hw.1
        simp only [wraps, ka_emplace_back_overflow s a.1 a.2 hne (by rw [hhead]; exact hc)]
          at hw1
        cases hw1
      have h1 := ka_Inv_emplace_back_ok s x xs h a.1 a.2 hv2 hne
      have hok := ka_emplace_back_ok s a.1 a.2 hne (by rw [hhead]; exact hv2)
      simp only [List.length_cons] at hlen
      obtain ⟨q1, q2, q3⟩ := ih (emplace_back s a.1 a.2).2 xs h1 hw.2 (by omega)
      simp only [emplace_all, List.length_cons, List.drop_succ_cons]
      refine ⟨?_, by omega, q3⟩
      intro r hr
      rcases List.mem_cons.mp hr with hr | hr
      · rw [hr, hok]; exact ⟨_, rfl⟩
      · exact q1 r hr

/-- A successful insert keeps every resolving key resolving, to the same cell with the
same content. -/
theorem ka_valid_after_emplace (hN : N ≤ 65534) (s : keyed_array α N) (fl : List Nat)
    (h : Inv s fl) (v : α) (m : Nat) (k : versioned_key)
    (hk : (emplace_back s v m).1 = Except.ok k) (k' : versioned_key) (p : Nat)
    (hp : try_get s k' = some p) :
    try_get (emplace_back s v m).2 k' = some p ∧
    (emplace_back s v m).2.m_data.get p = s.m_data.get p := by
  obtain ⟨h1, h2⟩ := ka_emplace_back_ok_inv s v m k hk
  have hfl : fl ≠ [] := fun hc => h1 ((ka_free_chain_head hN _ _ _ h.fl_lt h.chain).mpr hc)
  obtain ⟨x, xs, rfl⟩ := List.exists_cons_of_ne_nil hfl
  obtain ⟨hhead, _⟩ := h.chain
  obtain ⟨he, hpe⟩ := (ka_try_get_eq_some s k' p).mp hp
  obtain ⟨g1, g2, g3⟩ := (ka_evaluate_key_iff s k').mp he
  have hne : k'.m_index ≠ x := by
    intro hc
    exact (h.occupied _ g1).mp g2 (hc ▸ List.mem_cons_self _ _)
  rw [ka_emplace_back_ok s v m h1 h2, hhead]
  constructor
  · rw [ka_try_get_eq_some, ka_evaluate_key_iff]
    dsimp only
    simp only [store_apply, hne, if_false]
    exact ⟨⟨g1, g2, g3⟩, hpe⟩
  · subst hpe
    simp only [raw_buffer.get, raw_buffer.emplace, store_apply, hne, if_false]

theorem ka_emplace_all_preserves (hN : N ≤ 65534) (args : List (α × Nat)) :
    ∀ (s : keyed_array α N) (fl : List Nat), Inv s fl →
      (∀ r ∈ (emplace_all s args).1, ∃ k, r = Except.ok k) →
      ∀ (k' : versioned_key) (p : Nat), try_get s k' = some p →
        try_get (emplace_all s args).2 k' = some p ∧
        (emplace_all s args).2.m_data.get p = s.m_data.get p := by
  induction args with
  | nil => intro s fl _ _ k' p hp; exact ⟨hp, rfl⟩
  | cons a rest ih =>
    intro s fl h hok k' p hp
    simp only [emplace_all, List.mem_cons, forall_eq_or_imp] at hok
    obtain ⟨⟨k, hk⟩, hrest⟩ := hok
    obtain ⟨q1, q2⟩ := ka_valid_after_emplace hN s fl h a.1 a.2 k hk k' p hp
    obtain ⟨fl1, h1⟩ := ka_Inv_emplace_back hN s fl h a.1 a.2
    obtain ⟨r1, r2⟩ := ih _ fl1 h1 hrest k' p q1
    simp only [emplace_all]
    exact ⟨r1, by rw [r2, q2]⟩

/-- After a run of successful inserts, the key returned by the `i`-th of them resolves
to an element with the `i`-th value. -/
theorem ka_emplace_all_resolves (hN : N ≤ 65534) (args : List (α × Nat)) :
    ∀ (s : keyed_array α N) (fl : List Nat), Inv s fl →
      (∀ r ∈ (emplace_all s args).1, ∃ k, r = Except.ok k) →
      ∀ i, i < args.length → ∃ k p, (emplace_all s args).1[i]? = some (Except.ok k) ∧
        try_get (emplace_all s args).2 k = some p ∧
        (emplace_all s args).2.m_data.get p = (args[i]?).map Prod.fst := by
  induction args with
  | nil => intro s fl _ _ i hi; simp at hi
  | cons a rest ih =>
    intro s fl h hok i hi
    have hok' := hok
    simp only [emplace_all, List.mem_cons, forall_eq_or_imp] at hok'
    obtain ⟨⟨k, hk⟩, hrest⟩ := hok'
    obtain ⟨fl1, h1⟩ := ka_Inv_emplace_back hN s fl h a.1 a.2
    cases i with
    | zero =>
      obtain ⟨q1, q2⟩ := ka_emplace_back_round_trip hN s fl h a.1 a.2 k hk
      obtain ⟨r1, r2⟩ := ka_emplace_all_preserves hN rest _ fl1 h1 hrest k _ q1
      refine ⟨k, k.m_index, ?_, ?_, ?_⟩
      · simp only [emplace_all, List.getElem?_cons_zero, hk]
      · simpa only [emplace_all] using r1
      · simp only [emplace_all, List.getElem?_cons_zero, Option.map_some']
        rw [r2, q2]
    | succ i =>
      simp only [List.length_cons, Nat.add_lt_add_iff_right] at hi
      obtain ⟨k', p, e1, e2, e3⟩ := ih _ fl1 h1 hrest i hi
      exact ⟨k', p, by simpa only [emplace_all, List.getElem?_cons_succ] using e1,
        by simpa only [emplace_all] using e2,
        by simpa only [emplace_all, List.getElem?_cons_succ] using e3⟩

end keyed_array
end nonstd

namespace nonstd
namespace slot_array

variable {α : Type} {N : Nat}

theorem run_append (a b : List (Call α)) (s : slot_array α N) :
    run s (a ++ b) = run (run s a) b := by
  simp [run, List.foldl_append]

theorem no_wrap_append (a b : List (Call α)) :
    ∀ s : slot_array α N, no_wrap s (a ++ b) = (no_wrap s a && no_wrap (run s a) b) := by
  induction a with
  | nil => intro s; simp [no_wrap, run]
  | cons c cs ih =>
    intro s
    rw [List.cons_append]
    show (!wraps s c && no_wrap (step s c) (cs ++ b))
      = ((!wraps s c && no_wrap (step s c) cs) && no_wrap (run s (c :: cs)) b)
    rw [ih (step s c), Bool.and_assoc]
    rfl

theorem emplace_all_snd (args : List (α × Nat)) :
    ∀ s : slot_array α N, (emplace_all s args).2 = run s (Call.emplace_each args) := by
  induction args with
  | nil => intro s; rfl
  | cons a rest ih =>
    intro s
    simp only [emplace_all, emplace_each_cons, run, List.foldl_cons, step]
    exact ih _

theorem emplace_all_fst_take (args : List (α × Nat)) :
    ∀ (s : slot_array α N) (j : Nat),
      (emplace_all s (args.take j)).1 = (emplace_all s args).1.take j := by
  induction args with
  | nil => intro s j; simp [emplace_all]
  | cons a rest ih =>
    intro s j
    cases j with
    | zero => simp [emplace_all]
    | succ j => simp only [List.take_succ_cons, emplace_all, ih]

/-- Without wrap, a call never lowers a generation. -/
theorem version_mono_step (s : slot_array α N) (fl : List Nat) (h : Inv s fl)
    (c : Call α) (hw : wraps s c = false) (x : Nat) :
    (s.m_lookups x).version ≤ ((step s c).m_lookups x).version := by
  cases c with
  | emplace_back v m =>
    simp only [step]
    by_cases h1 : s.m_free_head = invalid_index
    · rw [emplace_back_full s v m h1]
    · by_cases h2 : ((s.m_lookups s.m_free_head).version + 1) % 4294967296 = 0
      · simp only [wraps, emplace_back_overflow s v m h1 h2] at hw
        cases hw
      · rw [emplace_back_ok s v m h1 h2]
        dsimp only
        simp only [store_apply]
        have := h.version_lt s.m_free_head
        by_cases hx : x = s.m_free_head
        · subst hx; simp only [if_true]; omega
        · simp only [hx, if_false]; exact Nat.le_refl _
  | try_remove key => simp only [step, version_try_remove]; exact Nat.le_refl _
  | clear => simp only [step, version_clear]; exact Nat.le_refl _

theorem version_mono_run (hN : N ≤ 65535) (calls : List (Call α)) :
    ∀ (s : slot_array α N) (fl : List Nat), Inv s fl → no_wrap s calls = true →
      ∀ x, (s.m_lookups x).version ≤ ((run s calls).m_lookups x).version := by
  induction calls with
  | nil => intro s fl _ _ x; exact Nat.le_refl _
  | cons c cs ih =>
    intro s fl h hw x
    simp only [no_wrap, Bool.and_eq_true, Bool.not_eq_true'] at hw
    obtain ⟨fl1, h1⟩ := Inv_step hN s fl h c
    have a := version_mono_step s fl h c hw.1 x
    have b := ih (step s c) fl1 h1 hw.2 x
    simp only [run, List.foldl_cons] at b ⊢
    omega

/-- Without wrap, the version of every issued key is at most the current generation of
its slot. -/
theorem issued_version_le (hN : N ≤ 65535) (calls : List (Call α)) :
    ∀ (s : slot_array α N) (fl : List Nat), Inv s fl → no_wrap s calls = true →
      ∀ k ∈ issued s calls, k.m_version ≤ ((run s calls).m_lookups k.m_index).version := by
  induction calls with
  | nil => intro s fl _ _ k hk; simp [issued] at hk
  | cons c cs ih =>
    intro s fl h hw k hk
    simp only [no_wrap, Bool.and_eq_true, Bool.not_eq_true'] at hw
    obtain ⟨fl1, h1⟩ := Inv_step hN s fl h c
    have hrest : ∀ k ∈ issued (step s c) cs,
        k.m_version ≤ ((run s (c :: cs)).m_lookups k.m_index).version := by
      intro k hk
      have := ih (step s c) fl1 h1 hw.2 k hk
      simpa [run] using this
    cases c with
    | emplace_back v m =>
      cases hr : (emplace_back s v m).1 with
      | error e =>
        simp only [issued, hr] at hk
        exact hrest k hk
      | ok k0 =>
        simp only [issued, hr, List.mem_cons] at hk
        rcases hk with hk | hk
        · subst hk
          obtain ⟨_, _, _, _, q5⟩ :=
            version_emplace_back s v m k (h.version_lt _) hr
          have := version_mono_run hN cs (step s (Call.emplace_back v m)) fl1 h1 hw.2
            k.m_index
          simp only [run, List.foldl_cons, step] at this ⊢
          omega
        · exact hrest k hk
    | try_remove key =>
      simp only [issued] at hk
      exact hrest k hk
    | clear =>
      simp only [issued] at hk
      exact hrest k hk

/-- After `clear()` every key whose version is at most the generation of its slot is
stale. -/
theorem stale_after_clear (s : slot_array α N) (k : versioned_key)
    (hk : k.m_version ≤ (s.m_lookups k.m_index).version) :
    StaleIn (clear s) (List.range N) k := by
  intro hi
  rw [version_clear]
  exact ⟨hk, fun _ => List.mem_range.mpr hi⟩

theorem size_clear (s : slot_array α N) : (clear s).m_size = 0 := rfl

theorem iterate_clear (s : slot_array α N) : iterate (clear s) = [] := rfl

theorem try_get_clear (s : slot_array α N) (k : versioned_key) :
    try_get (clear s) k = none := by
  rw [try_get_eq_none, resolve_key_eq_none]
  intro ⟨_, _, h3, _⟩
  rw [size_clear] at h3
  exact Nat.not_lt_zero _ h3

/-- Without wrap, as many inserts succeed as there are free slots. -/
theorem emplace_all_ok_no_wrap (hN : N ≤ 65535) (args : List (α × Nat)) :
    ∀ (s : slot_array α N) (fl : List Nat), Inv s fl →
      no_wrap s (Call.emplace_each args) = true →
      args.length ≤ fl.length →
      (∀ r ∈ (emplace_all s args).1, ∃ k, r = Except.ok k) ∧
      (emplace_all s args).1.length = args.length ∧
      Inv (emplace_all s args).2 (fl.drop args.length) := by
  induction args with
  | nil => intro s fl h _ _; exact ⟨by simp [emplace_all], rfl, by simpa [emplace_all] using h⟩
  | cons a rest ih =>
    intro s fl h hw hlen
    cases fl with
    | nil => simp at hlen
    | cons x xs =>
      simp only [emplace_each_cons, no_wrap, Bool.and_eq_true, Bool.not_eq_true'] at hw
      obtain ⟨hhead, _, _⟩ := h.chain
      have hxN : x < N := h.fl_lt x (List.mem_cons_self _ _)
      have hne : s.m_free_head ≠ invalid_index := by rw [hhead, invalid_index_eq]; omega
      have hv2 : ((s.m_lookups x).version + 1) % 4294967296 ≠ 0 := by
        intro hc
        have hw1 := hw.1
        simp only [wraps, emplace_back_overflow s a.1 a.2 hne (by rw [hhead]; exact hc)]
          at hw1
        cases hw1
      have h1 := Inv_emplace_back_ok hN s x xs h a.1 a.2 hv2
      have hok := emplace_back_ok s a.1 a.2 hne (by rw [hhead]; exact hv2)
      simp only [List.length_cons] at hlen
      obtain ⟨q1, q2, q3⟩ := ih (emplace_back s a.1 a.2).2 xs h1 hw.2 (by omega)
      simp only [emplace_all, List.length_cons, List.drop_succ_cons]
      refine ⟨?_, by omega, q3⟩
      intro r hr
      rcases List.mem_cons.mp hr with hr | hr
      · rw [hr, hok]; exact ⟨_, rfl⟩
      · exact q1 r hr

/-- A successful insert keeps every resolving key resolving, to the same position with
the same content, and appends the new value to the iteration. -/
theorem valid_after_emplace (hN : N ≤ 65535) (s : slot_array α N) (fl : List Nat)
    (h : Inv s fl) (v : α) (m : Nat) (k : versioned_key)
    (hk : (emplace_back s v m).1 = Except.ok k) :
    (∀ (k' : versioned_key) (p : Nat), try_get s k' = some p →
      try_get (emplace_back s v m).2 k' = some p ∧
      (emplace_back s v m).2.m_data.get p = s.m_data.get p) ∧
    iterate (emplace_back s v m).2 = iterate s ++ [some v] := by
  obtain ⟨h1, h2⟩ := emplace_back_ok_inv s v m k hk
  have hfl : fl ≠ [] := fun hc => h1 ((free_chain_head hN _ _ _ _ h.fl_lt h.chain).mpr hc)
  obtain ⟨x, xs, rfl⟩ := List.exists_cons_of_ne_nil hfl
  obtain ⟨hhead, hge, _⟩ := h.chain
  have hsz := h.size_add
  simp only [List.length_cons] at hsz
  have e1 : (s.m_size + 1) % 18446744073709551616 = s.m_size + 1 := by omega
  rw [emplace_back_ok s v m h1 h2, hhead]
  constructor
  · intro k' p hp
    obtain ⟨g1, g2, g3, g4, g5⟩ := (try_get_eq_some s k' p).mp hp
    have hne : k'.m_index ≠ x := by
      intro hc; rw [hc] at g3; omega
    have hps : p ≠ s.m_size := by omega
    constructor
    · rw [try_get_eq_some]
      dsimp only
      simp only [store_apply, hne, if_false, e1]
      exact ⟨g1, g2, by omega, g4, g5⟩
    · simp only [raw_buffer.get, raw_buffer.emplace, store_apply, hps, if_false]
  · simp only [iterate_eq, e1, raw_buffer.emplace]
    rw [List.range_succ, List.map_append, List.map_singleton, store_same]
    congr 1
    apply List.map_congr_left
    intro i hi
    have : i ≠ s.m_size := by
      have := List.mem_range.mp hi
      omega
    simp only [store_apply, this, if_false]

theorem emplace_all_preserves (hN : N ≤ 65535) (args : List (α × Nat)) :
    ∀ (s : slot_array α N) (fl : List Nat), Inv s fl →
      (∀ r ∈ (emplace_all s args).1, ∃ k, r = Except.ok k) →
      (∀ (k' : versioned_key) (p : Nat), try_get s k' = some p →
        try_get (emplace_all s args).2 k' = some p ∧
        (emplace_all s args).2.m_data.get p = s.m_data.get p) ∧
      iterate (emplace_all s args).2 = iterate s ++ args.map (fun a => some a.1) := by
  induction args with
  | nil => intro s fl _ _; exact ⟨fun k' p hp => ⟨hp, rfl⟩, by simp [emplace_all]⟩
  | cons a rest ih =>
    intro s fl h hok
    simp only [emplace_all, List.mem_cons, forall_eq_or_imp] at hok
    obtain ⟨⟨k, hk⟩, hrest⟩ := hok
    obtain ⟨q1, q2⟩ := valid_after_emplace hN s fl h a.1 a.2 k hk
    obtain ⟨fl1, h1⟩ := Inv_emplace_back hN s fl h a.1 a.2
    obtain ⟨r1, r2⟩ := ih _ fl1 h1 hrest
    simp only [emplace_all]
    refine ⟨fun k' p hp => ?_, ?_⟩
    · obtain ⟨a1, a2⟩ := q1 k' p hp
      obtain ⟨b1, b2⟩ := r1 k' p a1
      exact ⟨b1, by rw [b2, a2]⟩
    · rw [r2, q2]
      simp

/-- After a run of successful inserts, the key returned by the `i`-th of them resolves
to an element with the `i`-th value. -/
theorem emplace_all_resolves (hN : N ≤ 65535) (args : List (α × Nat)) :
    ∀ (s : slot_array α N) (fl : List Nat), Inv s fl →
      (∀ r ∈ (emplace_all s args).1, ∃ k, r = Except.ok k) →
      ∀ i, i < args.length → ∃ k p, (emplace_all s args).1[i]? = some (Except.ok k) ∧
        try_get (emplace_all s args).2 k = some p ∧
        (emplace_all s args).2.m_data.get p = (args[i]?).map Prod.fst := by
  induction args with
  | nil => intro s fl _ _ i hi; simp at hi
  | cons a rest ih =>
    intro s fl h hok i hi
    have hok' := hok
    simp only [emplace_all, List.mem_cons, forall_eq_or_imp] at hok'
    obtain ⟨⟨k, hk⟩, hrest⟩ := hok'
    obtain ⟨fl1, h1⟩ := Inv_emplace_back hN s fl h a.1 a.2
    cases i with
    | zero =>
      obtain ⟨q1, q2⟩ := emplace_back_round_trip hN s fl h a.1 a.2 k hk
      obtain ⟨r1, r2⟩ := (emplace_all_preserves hN rest _ fl1 h1 hrest).1 k _ q1
      refine ⟨k, s.m_size, ?_, ?_, ?_⟩
      · simp only [emplace_all, List.getElem?_cons_zero, hk]
      · simpa only [emplace_all] using r1
      · simp only [emplace_all, List.getElem?_cons_zero, Option.map_some']
        rw [r2, q2]
    | succ i =>
      simp only [List.length_cons, Nat.add_lt_add_iff_right] at hi
      obtain ⟨k', p, e1, e2, e3⟩ := ih _ fl1 h1 hrest i hi
      exact ⟨k', p, by simpa only [emplace_all, List.getElem?_cons_succ] using e1,
        by simpa only [emplace_all] using e2,
        by simpa only [emplace_all, List.getElem?_cons_succ] using e3⟩

end slot_array
end nonstd

namespace nonstd
namespace packed_array

variable {α : Type} {N : Nat}

theorem pa_ext_fields (a b : packed_array α N) (h1 : a.m_size = b.m_size)
    (h2 : a.m_data.m_data = b.m_data.m_data) : a = b := by
  cases a with
  | mk s d =>
    cases b with
    | mk s' d' =>
      cases d
      cases d'
      simp only at h1 h2
      subst h1
      subst h2
      rfl

theorem pa_emplace_back_full (s : packed_array α N) (v : α) (h : N ≤ s.m_size) :
    emplace_back s v = (Except.error error.out_of_range, s) := by
  simp [emplace_back, raw_buffer.emplace_at, h]

theorem pa_emplace_back_ok (hN : N ≤ 18446744073709551615) (s : packed_array α N) (v : α)
    (h : s.m_size < N) :
    emplace_back s v
      = (Except.ok s.m_size, { m_size := s.m_size + 1, m_data := s.m_data.emplace s.m_size v }) := by
  have h1 : ¬ N ≤ s.m_size := by omega
  have h2 : (s.m_size + 1) % 18446744073709551616 = s.m_size + 1 := by omega
  simp [emplace_back, raw_buffer.emplace_at, raw_buffer.emplace, h1, h2]

theorem pa_destroy_all_eq (s : packed_array α N) :
    destroy_all s = { s with
      m_data := { m_data := fun p => if p < s.m_size then none else s.m_data.m_data p } } := by
  have key : ∀ (n : Nat) (t : packed_array α N),
      (List.range n).foldl (fun (s : packed_array α N) idx =>
        { s with m_data := s.m_data.destroy idx }) t
      = { t with m_data := { m_data := fun p => if p < n then none else t.m_data.m_data p } } := by
    intro n
    induction n with
    | zero =>
      intro t
      apply pa_ext_fields <;> simp
    | succ n ih =>
      intro t
      rw [List.range_succ, List.foldl_append, ih]
      apply pa_ext_fields
      · rfl
      · funext p
        simp only [List.foldl_cons, List.foldl_nil, raw_buffer.destroy, store]
        by_cases hp : p = n
        · subst hp; simp
        · by_cases hq : p < n
          · have : p < n + 1 := by omega
            simp [hp, hq, this]
          · have : ¬ p < n + 1 := by omega
            simp [hp, hq, this]
  exact key s.m_size s

theorem pa_clear_eq (s : packed_array α N) :
    clear s = { m_size := 0
                m_data := { m_data := fun p => if p < s.m_size then none else s.m_data.m_data p } } := by
  simp [clear, pa_destroy_all_eq]

theorem pa_pop_back_empty (hN : N ≤ 18446744073709551615) (s : packed_array α N)
    (h : s.m_size = 0) : pop_back s = (Except.error error.out_of_range, s) := by
  have h1 : N ≤ (s.m_size + 18446744073709551615) % 18446744073709551616 := by
    rw [h]; omega
  simp [pop_back, raw_buffer.destroy_at, h1]

theorem pa_pop_back_ok (s : packed_array α N) (h1 : 1 ≤ s.m_size) (h2 : s.m_size ≤ N)
    (hN : N ≤ 18446744073709551615) :
    pop_back s
      = (Except.ok (), { m_size := s.m_size - 1, m_data := s.m_data.destroy (s.m_size - 1) }) := by
  have h3 : (s.m_size + 18446744073709551615) % 18446744073709551616 = s.m_size - 1 := by omega
  have h4 : ¬ N ≤ s.m_size - 1 := by omega
  simp [pop_back, raw_buffer.destroy_at, raw_buffer.destroy, h3, h4]

/-- The representation invariant of `packed_array<T, N>`: the constructed cells are
the first `m_size` ones. -/
theorem pa_inv_step (hN : N ≤ 18446744073709551615) (s : packed_array α N)
    (c : packed_array.Call α)
    (h : s.m_size ≤ N ∧ ∀ p, (s.m_data.m_data p).isSome = true ↔ p < s.m_size) :
    (step s c).m_size ≤ N ∧
      ∀ p, ((step s c).m_data.m_data p).isSome = true ↔ p < (step s c).m_size := by
  obtain ⟨h1, h2⟩ := h
  cases c with
  | emplace_back v =>
    by_cases hf : s.m_size < N
    · simp only [step, pa_emplace_back_ok hN s v hf]
      refine ⟨by omega, fun p => ?_⟩
      simp only [raw_buffer.emplace, store]
      by_cases hp : p = s.m_size
      · subst hp; simp
      · simp only [hp, if_false, h2 p]
        omega
    · simp only [step, pa_emplace_back_full s v (by omega)]
      exact ⟨h1, h2⟩
  | pop_back =>
    by_cases he : s.m_size = 0
    · simp only [step, pa_pop_back_empty hN s he]
      exact ⟨h1, h2⟩
    · simp only [step, pa_pop_back_ok s (by omega) h1 hN]
      refine ⟨by omega, fun p => ?_⟩
      simp only [raw_buffer.destroy, store]
      by_cases hp : p = s.m_size - 1
      · subst hp; simp
      · simp only [hp, if_false, h2 p]
        omega
  | clear =>
    simp only [step, pa_clear_eq]
    refine ⟨by omega, fun p => ?_⟩
    by_cases hp : p < s.m_size
    · simp [hp]
    · have := h2 p
      simp only [hp, if_false]
      simp only [hp, iff_false] at this
      simp [this]

theorem pa_inv_run (hN : N ≤ 18446744073709551615) (calls : List (packed_array.Call α)) :
    ∀ s : packed_array α N,
      (s.m_size ≤ N ∧ ∀ p, (s.m_data.m_data p).isSome = true ↔ p < s.m_size) →
      (run s calls).m_size ≤ N ∧
        ∀ p, ((run s calls).m_data.m_data p).isSome = true ↔ p < (run s calls).m_size := by
  induction calls with
  | nil => intro s h; exact h
  | cons c cs ih =>
    intro s h
    exact ih (step s c) (pa_inv_step hN s c h)

theorem pa_inv_reachable (hN : N ≤ 18446744073709551615) (calls : List (packed_array.Call α)) :
    (run (ctor : packed_array α N) calls).m_size ≤ N ∧
      ∀ p, ((run (ctor : packed_array α N) calls).m_data.m_data p).isSome = true ↔
        p < (run (ctor : packed_array α N) calls).m_size := by
  apply pa_inv_run hN calls
  simp [ctor]

theorem pa_emplace_all_ok (hN : N ≤ 18446744073709551615) (args : List α) :
    ∀ s : packed_array α N, s.m_size + args.length ≤ N →
      (emplace_all s args).1
        = (List.range args.length).map (fun i => Except.ok (s.m_size + i)) ∧
      (emplace_all s args).2.m_size = s.m_size + args.length ∧
      (∀ p, p < s.m_size → (emplace_all s args).2.m_data.get p = s.m_data.get p) ∧
      iterate (emplace_all s args).2 = iterate s ++ args.map some := by
  induction args with
  | nil =>
    intro s _
    simp [emplace_all]
  | cons a rest ih =>
    intro s hlen
    simp only [List.length_cons] at hlen
    have hf : s.m_size < N := by omega
    have hstep := pa_emplace_back_ok hN s a hf
    obtain ⟨i1, i2, i3, i4⟩ := ih (emplace_back s a).2 (by rw [hstep]; simp only; omega)
    simp only [emplace_all]
    rw [hstep] at i1 i2 i3 i4
    rw [hstep]
    dsimp only at i1 i2 i3 i4 ⊢
    rw [i1, i2, i4]
    refine ⟨?_, ?_, ?_, ?_⟩
    · rw [List.length_cons, List.range_succ_eq_map, List.map_cons, List.map_map]
      congr 1
      apply List.map_congr_left
      intro i _
      simp only [Function.comp]
      congr 1
      omega
    · simp only [List.length_cons]; omega
    · intro p hp
      rw [i3 p (by omega)]
      simp only [raw_buffer.get, raw_buffer.emplace, store]
      have : p ≠ s.m_size := by omega
      simp [this]
    · simp only [iterate, List.range_succ, List.map_append, List.map_cons, List.map_nil,
        List.append_assoc, List.singleton_append]
      congr 1
      · apply List.map_congr_left
        intro p hp
        have hp' : p < s.m_size := List.mem_range.mp hp
        have : p ≠ s.m_size := by omega
        simp [raw_buffer.get, raw_buffer.emplace, store, this]
      · simp [raw_buffer.get, raw_buffer.emplace, store]

end packed_array
end nonstd

namespace nonstd
namespace keyed_array

variable {α : Type} {N : Nat}

theorem ka_remove_then_emplace (hN : N ≤ 65534) (s : keyed_array α N) (k : versioned_key)
    (hr : (try_remove s k).1 = true) (hv : s.m_versions k.m_index < 4294967295)
    (v : α) (m : Nat) :
    full (try_remove s k).2 = false ∧
    (emplace_back (try_remove s k).2 v m).1
      = Except.ok { m_version := k.m_version + 1, m_index := k.m_index, m_meta := m } ∧
    full (emplace_back (try_remove s k).2 v m).2 = full s := by
  rw [ka_try_remove_fst] at hr
  obtain ⟨g1, g2, g3⟩ := (ka_evaluate_key_iff s k).mp hr
  rw [ka_try_remove_true s k hr]
  have hne : k.m_index ≠ invalid_index := by rw [ka_invalid_index_eq]; omega
  have hv2 : (s.m_versions k.m_index + 1) % 4294967296 ≠ 0 := by omega
  have hv3 : (s.m_versions k.m_index + 1) % 4294967296 = k.m_version + 1 := by omega
  refine ⟨by simp [full, hne], ?_, ?_⟩
  · rw [ka_emplace_back_ok _ v m hne hv2]
    dsimp only
    rw [hv3]
  · rw [ka_emplace_back_ok _ v m hne hv2]
    simp [full]

/-- The cells touched by a successful `emplace_back` and by a successful `try_remove`. -/
theorem ka_cells (hN : N ≤ 65534) (s : keyed_array α N) (fl : List Nat) (h : Inv s fl) :
    (∀ (v : α) (m : Nat) (k : versioned_key), (emplace_back s v m).1 = Except.ok k →
      s.m_data.get s.m_free_head = none ∧
      (emplace_back s v m).2.m_data = s.m_data.emplace s.m_free_head v) ∧
    (∀ k : versioned_key, (try_remove s k).1 = true →
      (s.m_data.get k.m_index).isSome = true ∧
      (try_remove s k).2.m_data = s.m_data.destroy k.m_index) ∧
    (∀ p, (destroy_all s).m_data.get p = none) ∧
    (∀ p, (clear s).m_data.get p = none) := by
  refine ⟨?_, ?_, ?_, ?_⟩
  · intro v m k hk
    obtain ⟨h1, h2⟩ := ka_emplace_back_ok_inv s v m k hk
    have hfl : fl ≠ [] := fun hc => h1 ((ka_free_chain_head hN _ _ _ h.fl_lt h.chain).mpr hc)
    obtain ⟨x, xs, rfl⟩ := List.exists_cons_of_ne_nil hfl
    obtain ⟨hhead, _⟩ := h.chain
    have hxN : x < N := h.fl_lt x (List.mem_cons_self _ _)
    constructor
    · cases hq : s.m_data.m_data s.m_free_head with
      | none => exact hq
      | some w =>
        have hc := (h.constructed s.m_free_head).mp (by rw [hq]; rfl)
        rw [hhead] at hc
        exact absurd (List.mem_cons_self x xs) ((h.occupied x hxN).mp hc.2)
    · rw [ka_emplace_back_ok s v m h1 h2]
  · intro k hr
    rw [ka_try_remove_fst] at hr
    obtain ⟨g1, g2, _⟩ := (ka_evaluate_key_iff s k).mp hr
    exact ⟨(h.constructed _).mpr ⟨g1, g2⟩, by rw [ka_try_remove_true s k hr]⟩
  · intro p
    rw [ka_destroy_all_eq]
    simp only [raw_buffer.get]
    by_cases hp : p < N ∧ s.m_free p = slot_full
    · simp [hp.1, hp.2]
    · have hc := h.constructed p
      have hn : s.m_data.m_data p = none := by
        cases hq : s.m_data.m_data p with
        | none => rfl
        | some w => exact absurd (hc.mp (by rw [hq]; rfl)) hp
      simp [hn]
  · intro p
    have hI := ka_Inv_clear hN s fl h
    cases hq : (clear s).m_data.m_data p with
    | none => exact hq
    | some w =>
      obtain ⟨c1, c2⟩ := (hI.constructed p).mp (by rw [hq]; rfl)
      exact absurd (List.mem_range.mpr c1) ((hI.occupied p c1).mp c2)

end keyed_array

namespace slot_array

variable {α : Type} {N : Nat}

theorem remove_then_emplace (hN : N ≤ 65535) (s : slot_array α N) (fl : List Nat)
    (h : Inv s fl) (k : versioned_key) (hr : (try_remove s k).1 = true)
    (hv : (s.m_lookups k.m_index).version < 4294967295) (v : α) (m : Nat) :
    (try_remove s k).2.m_free_head ≠ invalid_index ∧
    (try_remove s k).2.m_size < N ∧
    (emplace_back (try_remove s k).2 v m).1
      = Except.ok { m_version := k.m_version + 1, m_index := k.m_index, m_meta := m } ∧
    (emplace_back (try_remove s k).2 v m).2.m_size = s.m_size ∧
    (emplace_back (try_remove s k).2 v m).2.m_free_head = s.m_free_head := by
  rw [try_remove_fst] at hr
  obtain ⟨c, hc⟩ := Option.isSome_iff_exists.mp hr
  obtain ⟨q1, q2, q3, q4, q5, q6, q7, q8, q9, q10, q11, q12⟩ := h.resolved hN hc
  have hsz := h.size_le
  subst q1
  rw [try_remove_spec hN s fl h k _ hc]
  have hne : k.m_index ≠ invalid_index := by rw [invalid_index_eq]; omega
  have hv2 : ((s.m_lookups k.m_index).version + 1) % 4294967296 ≠ 0 := by omega
  have hv3 : ((s.m_lookups k.m_index).version + 1) % 4294967296 = k.m_version + 1 := by omega
  have hs1 : (s.m_size - 1 + 1) % 18446744073709551616 = s.m_size := by omega
  refine ⟨hne, by dsimp only; omega, ?_, ?_, ?_⟩
  · rw [emplace_back_ok _ v m hne (by simpa using hv2)]
    simp [hv3]
  · rw [emplace_back_ok _ v m hne (by simpa using hv2)]
    simp [hs1]
  · rw [emplace_back_ok _ v m hne (by simpa using hv2)]
    simp

/-- The cells touched by a successful `emplace_back` and by a successful `try_remove`. -/
theorem cells (hN : N ≤ 65535) (s : slot_array α N) (fl : List Nat) (h : Inv s fl) :
    (∀ (v : α) (m : Nat) (k : versioned_key), (emplace_back s v m).1 = Except.ok k →
      s.m_data.get s.m_size = none ∧
      (emplace_back s v m).2.m_data = s.m_data.emplace s.m_size v ∧
      (emplace_back s v m).2.m_size = s.m_size + 1) ∧
    (∀ k : versioned_key, (try_remove s k).1 = true →
      1 ≤ s.m_size ∧
      (s.m_lookups k.m_index).data_index < s.m_size ∧
      (s.m_data.get (s.m_lookups k.m_index).data_index).isSome = true ∧
      (s.m_data.get (s.m_size - 1)).isSome = true ∧
      (s.m_data.swap (s.m_lookups k.m_index).data_index (s.m_size - 1)).get (s.m_size - 1)
        = s.m_data.get (s.m_lookups k.m_index).data_index ∧
      (try_remove s k).2.m_data
        = (s.m_data.swap (s.m_lookups k.m_index).data_index (s.m_size - 1)).destroy
            (s.m_size - 1) ∧
      (try_remove s k).2.m_size = s.m_size - 1) ∧
    (∀ p, (destroy_all s).m_data.get p = none) ∧
    (∀ p, (clear s).m_data.get p = none) := by
  have hsz := h.size_le
  refine ⟨?_, ?_, ?_, ?_⟩
  · intro v m k hk
    obtain ⟨h1, h2⟩ := emplace_back_ok_inv s v m k hk
    have hlt : s.m_size < N := by
      have := (h.head_invalid_iff hN).not.mp h1
      omega
    refine ⟨?_, by rw [emplace_back_ok s v m h1 h2], ?_⟩
    · cases hq : s.m_data.m_data s.m_size with
      | none => exact hq
      | some w =>
        have hc := (h.constructed s.m_size).mp (by rw [hq]; rfl)
        omega
    · rw [emplace_back_ok s v m h1 h2]
      dsimp only
      omega
  · intro k hr
    rw [try_remove_fst] at hr
    obtain ⟨c, hc⟩ := Option.isSome_iff_exists.mp hr
    obtain ⟨q1, q2, q3, q4, q5, q6, q7, q8, q9, q10, q11, q12⟩ := h.resolved hN hc
    subst q1
    refine ⟨q9, q3, (h.constructed _).mpr q3, (h.constructed _).mpr (by omega), ?_, ?_, ?_⟩
    · simp [raw_buffer.swap, raw_buffer.get]
    · rw [try_remove_some s k _ hc, q7]
    · rw [try_remove_some s k _ hc, q8]
  · intro p
    rw [destroy_all_eq]
    simp only [raw_buffer.get]
    by_cases hp : p < s.m_size
    · simp [hp]
    · have hn : s.m_data.m_data p = none := by
        cases hq : s.m_data.m_data p with
        | none => rfl
        | some w => exact absurd ((h.constructed p).mp (by rw [hq]; rfl)) hp
      simp [hp, hn]
  · intro p
    have hI := Inv_clear hN s fl h
    cases hq : (clear s).m_data.m_data p with
    | none => exact hq
    | some w =>
      have := (hI.constructed p).mp (by rw [hq]; rfl)
      rw [size_clear] at this
      omega

theorem count_not_mem (fl : List Nat) (hnd : fl.Nodup) (hlt : ∀ x ∈ fl, x < N) :
    (List.range N).countP (fun x => decide (x ∉ fl)) + fl.length = N := by
  have hperm : List.Perm ((List.range N).filter (fun x => decide (x ∈ fl))) fl := by
    apply (List.perm_ext_iff_of_nodup ((List.nodup_range N).filter _) hnd).mpr
    intro a
    simp only [List.mem_filter, List.mem_range, decide_eq_true_eq]
    exact ⟨fun q => q.2, fun q => ⟨hlt a q, q⟩⟩
  have h1 := List.length_eq_countP_add_countP (fun x => decide (x ∈ fl)) (List.range N)
  rw [List.length_range, List.countP_eq_length_filter, hperm.length_eq] at h1
  have h2 : List.countP (fun a => decide ¬(fun x => decide (x ∈ fl)) a = true) (List.range N)
      = (List.range N).countP (fun x => decide (x ∉ fl)) := by
    apply List.countP_congr
    intro x _
    simp
  rw [h2] at h1
  omega

theorem size_eq_count (hN : N ≤ 65535) (s : slot_array α N) (fl : List Nat) (h : Inv s fl) :
    (List.range N).countP (fun x => (try_get s
      { m_version := (s.m_lookups x).version, m_index := x, m_meta := 0 }).isSome) = s.m_size := by
  have hc := count_not_mem (N := N) fl h.fl_nodup h.fl_lt
  have hs := h.size_add
  have hsz := h.size_le
  have : (List.range N).countP (fun x => (try_get s
      { m_version := (s.m_lookups x).version, m_index := x, m_meta := 0 }).isSome)
      = (List.range N).countP (fun x => decide (x ∉ fl)) := by
    apply List.countP_congr
    intro x hx
    have hxN : x < N := List.mem_range.mp hx
    simp only [decide_eq_true_eq]
    constructor
    · intro hsome hmem
      obtain ⟨p, hp⟩ := Option.isSome_iff_exists.mp hsome
      obtain ⟨_, _, g3, _⟩ := (try_get_eq_some s _ p).mp hp
      have := h.free_ge x hmem
      dsimp only at g3
      omega
    · intro hnm
      obtain ⟨o1, _⟩ := h.occupied x hxN hnm
      apply Option.isSome_iff_exists.mpr
      refine ⟨(s.m_lookups x).data_index, (try_get_eq_some s _ _).mpr ⟨hxN, ?_, o1, rfl, rfl⟩⟩
      dsimp only
      rw [invalid_index_eq]
      omega
  omega

end slot_array
end nonstd

namespace nonstd
namespace slot_array

variable {α : Type} {N : Nat}

theorem emplace_back_cases (hN : N ≤ 65535) (s : slot_array α N) (fl : List Nat)
    (h : Inv s fl) (v : α) (m : Nat) :
    ((∃ e, (emplace_back s v m).1 = Except.error e) ∧ Inv (emplace_back s v m).2 fl ∧
      ∀ x, (s.m_lookups x).version < 4294967295 →
        ((emplace_back s v m).2.m_lookups x).version = (s.m_lookups x).version) ∨
    (∃ xs, fl = s.m_free_head :: xs ∧
      (emplace_back s v m).1 = Except.ok
        { m_version := (s.m_lookups s.m_free_head).version + 1
          m_index := s.m_free_head
          m_meta := m } ∧
      Inv (emplace_back s v m).2 xs ∧
      ∀ x, x ≠ s.m_free_head →
        ((emplace_back s v m).2.m_lookups x).version = (s.m_lookups x).version) := by
  cases fl with
  | nil =>
    have : s.m_free_head = invalid_index := h.chain
    rw [emplace_back_full s v m this]
    exact Or.inl ⟨⟨_, rfl⟩, h, fun _ _ => rfl⟩
  | cons x xs =>
    obtain ⟨hhead, _, _⟩ := h.chain
    have hxN : x < N := h.fl_lt x (List.mem_cons_self _ _)
    have hne : s.m_free_head ≠ invalid_index := by rw [hhead, invalid_index_eq]; omega
    have hvlt := h.version_lt x
    by_cases hv : ((s.m_lookups x).version + 1) % 4294967296 = 0
    · left
      rw [emplace_back_overflow s v m hne (by rw [hhead]; exact hv)]
      refine ⟨⟨_, rfl⟩, Inv_set_version s _ h _ 0
        (by rw [hhead]; exact List.mem_cons_self _ _) (by decide), fun y hy => ?_⟩
      dsimp only
      simp only [lookup_t.set_version, store_apply]
      by_cases hyx : y = s.m_free_head
      · rw [hyx, hhead] at hy
        omega
      · simp [hyx]
    · right
      have hv' : ((s.m_lookups s.m_free_head).version + 1) % 4294967296 ≠ 0 := by
        rw [hhead]; exact hv
      have hv3 : ((s.m_lookups s.m_free_head).version + 1) % 4294967296
          = (s.m_lookups s.m_free_head).version + 1 := by
        rw [hhead]; omega
      refine ⟨xs, by rw [hhead], ?_, Inv_emplace_back_ok hN s x xs h v m hv, fun y hy => ?_⟩
      · rw [emplace_back_ok s v m hne hv', hv3]
      · rw [emplace_back_ok s v m hne hv']
        simp [store_apply, hy]

theorem alloc_order (hN : N ≤ 65535) (g : Nat → Nat) (pre : List (α × Nat)) :
    ∀ (s : slot_array α N) (c : Nat), c ≤ N → Inv s (List.range' c (N - c)) →
      (∀ x, c ≤ x → g x < 4294967295 → (s.m_lookups x).version = g x) →
      c + (issued s (Call.emplace_each pre)).length ≤ N ∧
      Inv (run s (Call.emplace_each pre))
        (List.range' (c + (issued s (Call.emplace_each pre)).length)
          (N - (c + (issued s (Call.emplace_each pre)).length))) ∧
      (∀ x, c + (issued s (Call.emplace_each pre)).length ≤ x → g x < 4294967295 →
        ((run s (Call.emplace_each pre)).m_lookups x).version = g x) := by
  induction pre with
  | nil =>
    intro s c hc h hg
    simp only [Call.emplace_each, List.map_nil, issued, List.length_nil, Nat.add_zero, run,
      List.foldl_nil]
    exact ⟨hc, h, hg⟩
  | cons a rest ih =>
    intro s c hc h hg
    rw [emplace_each_cons]
    have hrun : run s (Call.emplace_back a.1 a.2 :: Call.emplace_each rest)
        = run (emplace_back s a.1 a.2).2 (Call.emplace_each rest) := rfl
    rw [hrun]
    rcases emplace_back_cases hN s _ h a.1 a.2 with ⟨⟨e, he⟩, hI, hver⟩ | ⟨xs, hfl, hok, hI, hver⟩
    · have hiss : issued s (Call.emplace_back a.1 a.2 :: Call.emplace_each rest)
          = issued (emplace_back s a.1 a.2).2 (Call.emplace_each rest) := by
        simp only [issued, he]
      rw [hiss]
      exact ih _ c hc hI (fun x hx hgx => by rw [hver x (by rw [hg x hx hgx]; exact hgx)]; exact hg x hx hgx)
    · have hiss : issued s (Call.emplace_back a.1 a.2 :: Call.emplace_each rest)
          = { m_version := (s.m_lookups s.m_free_head).version + 1
              m_index := s.m_free_head
              m_meta := a.2 } :: issued (emplace_back s a.1 a.2).2 (Call.emplace_each rest) := by
        simp only [issued, hok]
      rw [hiss]
      have hpos : 0 < N - c := by
        cases hq : N - c with
        | zero => rw [hq] at hfl; cases hfl
        | succ n => omega
      have hsplit : List.range' c (N - c) = c :: List.range' (c + 1) (N - (c + 1)) := by
        have : N - c = (N - (c + 1)) + 1 := by omega
        rw [this, List.range'_succ]
      rw [hsplit] at hfl
      have hhead : s.m_free_head = c := (List.cons.inj hfl).1.symm
      have hxs : xs = List.range' (c + 1) (N - (c + 1)) := (List.cons.inj hfl).2.symm
      rw [hxs] at hI
      obtain ⟨i1, i2, i3⟩ := ih _ (c + 1) (by omega) hI
        (fun x hx hgx => by
          rw [hver x (by rw [hhead]; omega)]
          exact hg x (by omega) hgx)
      simp only [List.length_cons]
      have e1 : c + ((issued (emplace_back s a.1 a.2).2 (Call.emplace_each rest)).length + 1)
          = c + 1 + (issued (emplace_back s a.1 a.2).2 (Call.emplace_each rest)).length := by
        omega
      rw [e1]
      exact ⟨i1, i2, i3⟩

theorem alloc_next (hN : N ≤ 65535) (s0 : slot_array α N) (h0 : Inv s0 (List.range N))
    (pre : List (α × Nat)) (v : α) (m : Nat) (k : versioned_key)
    (hk : (emplace_back (run s0 (Call.emplace_each pre)) v m).1 = Except.ok k) :
    k.m_index = (issued s0 (Call.emplace_each pre)).length ∧
    k.m_index < N ∧
    k.m_meta = m ∧
    k.m_version = ((run s0 (Call.emplace_each pre)).m_lookups k.m_index).version + 1 ∧
    ((s0.m_lookups k.m_index).version < 4294967295 →
      k.m_version = (s0.m_lookups k.m_index).version + 1) ∧
    (run s0 (Call.emplace_each pre)).m_size = k.m_index ∧
    try_get (emplace_back (run s0 (Call.emplace_each pre)) v m).2 k = some k.m_index ∧
    (emplace_back (run s0 (Call.emplace_each pre)) v m).2.m_data.get k.m_index = some v := by
  have h0' : Inv s0 (List.range' 0 (N - 0)) := by
    rw [Nat.sub_zero, ← List.range_eq_range']
    exact h0
  obtain ⟨a1, a2, a3⟩ := alloc_order hN (fun x => (s0.m_lookups x).version) pre s0 0
    (Nat.zero_le _) h0' (fun x _ _ => rfl)
  rw [Nat.zero_add] at a1 a2 a3
  generalize (issued s0 (Call.emplace_each pre)).length = n at a1 a2 a3
  generalize run s0 (Call.emplace_each pre) = s at a2 a3 hk
  obtain ⟨r1, r2⟩ := emplace_back_round_trip hN s _ a2 v m k hk
  rcases emplace_back_cases hN s _ a2 v m with ⟨⟨e, he⟩, _, _⟩ | ⟨xs, hfl, hok, _, _⟩
  · rw [he] at hk
    cases hk
  · have hpos : 0 < N - n := by
      cases hq : N - n with
      | zero => rw [hq] at hfl; cases hfl
      | succ j => omega
    have hsplit : List.range' n (N - n) = n :: List.range' (n + 1) (N - (n + 1)) := by
      have : N - n = (N - (n + 1)) + 1 := by omega
      rw [this, List.range'_succ]
    rw [hsplit] at hfl
    have hhead : s.m_free_head = n := (List.cons.inj hfl).1.symm
    rw [hok] at hk
    cases hk
    dsimp only at r1 r2 ⊢
    have hsize : s.m_size = n := by
      have := a2.size_add
      rw [List.length_range'] at this
      omega
    rw [hsize] at r1 r2
    rw [hhead] at r1 ⊢
    refine ⟨rfl, by omega, rfl, rfl, fun hlt => ?_, hsize, r1, r2⟩
    rw [a3 n (Nat.le_refl _) hlt]

end slot_array

namespace keyed_array

variable {α : Type} {N : Nat}

theorem ka_emplace_back_cases (hN : N ≤ 65534) (s : keyed_array α N) (fl : List Nat)
    (h : Inv s fl) (v : α) (m : Nat) :
    ((∃ e, (emplace_back s v m).1 = Except.error e) ∧ Inv (emplace_back s v m).2 fl ∧
      ∀ x, s.m_versions x < 4294967295 →
        (emplace_back s v m).2.m_versions x = s.m_versions x) ∨
    (∃ xs, fl = s.m_free_head :: xs ∧
      (emplace_back s v m).1 = Except.ok
        { m_version := s.m_versions s.m_free_head + 1
          m_index := s.m_free_head
          m_meta := m } ∧
      Inv (emplace_back s v m).2 xs ∧
      ∀ x, x ≠ s.m_free_head → (emplace_back s v m).2.m_versions x = s.m_versions x) := by
  cases fl with
  | nil =>
    have : s.m_free_head = invalid_index := h.chain
    rw [ka_emplace_back_full s v m this]
    exact Or.inl ⟨⟨_, rfl⟩, h, fun _ _ => rfl⟩
  | cons x xs =>
    obtain ⟨hhead, _⟩ := h.chain
    have hxN : x < N := h.fl_lt x (List.mem_cons_self _ _)
    have hne : s.m_free_head ≠ invalid_index := by rw [hhead, ka_invalid_index_eq]; omega
    have hvlt := h.version_lt x
    by_cases hv : (s.m_versions x + 1) % 4294967296 = 0
    · left
      rw [ka_emplace_back_overflow s v m hne (by rw [hhead]; exact hv)]
      refine ⟨⟨_, rfl⟩, ka_Inv_set_version s _ h _ 0
        (by rw [hhead]; exact List.mem_cons_self _ _) (by decide), fun y hy => ?_⟩
      dsimp only
      simp only [store_apply]
      by_cases hyx : y = s.m_free_head
      · rw [hyx, hhead] at hy
        omega
      · simp [hyx]
    · right
      have hv' : (s.m_versions s.m_free_head + 1) % 4294967296 ≠ 0 := by
        rw [hhead]; exact hv
      have hv3 : (s.m_versions s.m_free_head + 1) % 4294967296
          = s.m_versions s.m_free_head + 1 := by
        rw [hhead]; omega
      refine ⟨xs, by rw [hhead], ?_, ka_Inv_emplace_back_ok s x xs h v m hv hne,
        fun y hy => ?_⟩
      · rw [ka_emplace_back_ok s v m hne hv', hv3]
      · rw [ka_emplace_back_ok s v m hne hv']
        simp [store_apply, hy]

theorem ka_alloc_order (hN : N ≤ 65534) (g : Nat → Nat) (pre : List (α × Nat)) :
    ∀ (s : keyed_array α N) (c : Nat), c ≤ N → Inv s (List.range' c (N - c)) →
      (∀ x, c ≤ x → g x < 4294967295 → s.m_versions x = g x) →
      c + (issued s (Call.emplace_each pre)).length ≤ N ∧
      Inv (run s (Call.emplace_each pre))
        (List.range' (c + (issued s (Call.emplace_each pre)).length)
          (N - (c + (issued s (Call.emplace_each pre)).length))) ∧
      (∀ x, c + (issued s (Call.emplace_each pre)).length ≤ x → g x < 4294967295 →
        (run s (Call.emplace_each pre)).m_versions x = g x) := by
  induction pre with
  | nil =>
    intro s c hc h hg
    simp only [Call.emplace_each, List.map_nil, issued, List.length_nil, Nat.add_zero, run,
      List.foldl_nil]
    exact ⟨hc, h, hg⟩
  | cons a rest ih =>
    intro s c hc h hg
    rw [emplace_each_cons]
    have hrun : run s (Call.emplace_back a.1 a.2 :: Call.emplace_each rest)
        = run (emplace_back s a.1 a.2).2 (Call.emplace_each rest) := rfl
    rw [hrun]
    rcases ka_emplace_back_cases hN s _ h a.1 a.2 with
      ⟨⟨e, he⟩, hI, hver⟩ | ⟨xs, hfl, hok, hI, hver⟩
    · have hiss : issued s (Call.emplace_back a.1 a.2 :: Call.emplace_each rest)
          = issued (emplace_back s a.1 a.2).2 (Call.emplace_each rest) := by
        simp only [issued, he]
      rw [hiss]
      exact ih _ c hc hI (fun x hx hgx => by
        rw [hver x (by rw [hg x hx hgx]; exact hgx)]; exact hg x hx hgx)
    · have hiss : issued s (Call.emplace_back a.1 a.2 :: Call.emplace_each rest)
          = { m_version := s.m_versions s.m_free_head + 1
              m_index := s.m_free_head
              m_meta := a.2 } :: issued (emplace_back s a.1 a.2).2 (Call.emplace_each rest) := by
        simp only [issued, hok]
      rw [hiss]
      have hpos : 0 < N - c := by
        cases hq : N - c with
        | zero => rw [hq] at hfl; cases hfl
        | succ n => omega
      have hsplit : List.range' c (N - c) = c :: List.range' (c + 1) (N - (c + 1)) := by
        have : N - c = (N - (c + 1)) + 1 := by omega
        rw [this, List.range'_succ]
      rw [hsplit] at hfl
      have hhead : s.m_free_head = c := (List.cons.inj hfl).1.symm
      have hxs : xs = List.range' (c + 1) (N - (c + 1)) := (List.cons.inj hfl).2.symm
      rw [hxs] at hI
      obtain ⟨i1, i2, i3⟩ := ih _ (c + 1) (by omega) hI
        (fun x hx hgx => by
          rw [hver x (by rw [hhead]; omega)]
          exact hg x (by omega) hgx)
      simp only [List.length_cons]
      have e1 : c + ((issued (emplace_back s a.1 a.2).2 (Call.emplace_each rest)).length + 1)
          = c + 1 + (issued (emplace_back s a.1 a.2).2 (Call.emplace_each rest)).length := by
        omega
      rw [e1]
      exact ⟨i1, i2, i3⟩

theorem ka_alloc_next (hN : N ≤ 65534) (s0 : keyed_array α N) (h0 : Inv s0 (List.range N))
    (pre : List (α × Nat)) (v : α) (m : Nat) (k : versioned_key)
    (hk : (emplace_back (run s0 (Call.emplace_each pre)) v m).1 = Except.ok k) :
    k.m_index = (issued s0 (Call.emplace_each pre)).length ∧
    k.m_index < N ∧
    k.m_meta = m ∧
    k.m_version = (run s0 (Call.emplace_each pre)).m_versions k.m_index + 1 ∧
    (s0.m_versions k.m_index < 4294967295 →
      k.m_version = s0.m_versions k.m_index + 1) ∧
    try_get (emplace_back (run s0 (Call.emplace_each pre)) v m).2 k = some k.m_index ∧
    (emplace_back (run s0 (Call.emplace_each pre)) v m).2.m_data.get k.m_index = some v := by
  have h0' : Inv s0 (List.range' 0 (N - 0)) := by
    rw [Nat.sub_zero, ← List.range_eq_range']
    exact h0
  obtain ⟨a1, a2, a3⟩ := ka_alloc_order hN (fun x => s0.m_versions x) pre s0 0
    (Nat.zero_le _) h0' (fun x _ _ => rfl)
  rw [Nat.zero_add] at a1 a2 a3
  generalize (issued s0 (Call.emplace_each pre)).length = n at a1 a2 a3
  generalize run s0 (Call.emplace_each pre) = s at a2 a3 hk
  obtain ⟨r1, r2⟩ := ka_emplace_back_round_trip hN s _ a2 v m k hk
  rcases ka_emplace_back_cases hN s _ a2 v m with ⟨⟨e, he⟩, _, _⟩ | ⟨xs, hfl, hok, _, _⟩
  · rw [he] at hk
    cases hk
  · have hpos : 0 < N - n := by
      cases hq : N - n with
      | zero => rw [hq] at hfl; cases hfl
      | succ j => omega
    have hsplit : List.range' n (N - n) = n :: List.range' (n + 1) (N - (n + 1)) := by
      have : N - n = (N - (n + 1)) + 1 := by omega
      rw [this, List.range'_succ]
    rw [hsplit] at hfl
    have hhead : s.m_free_head = n := (List.cons.inj hfl).1.symm
    rw [hok] at hk
    cases hk
    dsimp only at r1 r2 ⊢
    rw [hhead] at r1 r2 ⊢
    refine ⟨rfl, by omega, rfl, rfl, fun hlt => ?_, r1, r2⟩
    rw [a3 n (Nat.le_refl _) hlt]

end keyed_array
end nonstd

namespace nonstd
namespace slot_array

variable {α : Type} {N : Nat}

theorem follow_eq (hN : N ≤ 65535) (lk : Nat → lookup_t) (fl : List Nat) :
    (∀ x ∈ fl, x < N) → ∀ head n fuel, free_chain lk head n fl → fl.length ≤ fuel →
      follow lk fuel head = fl := by
  induction fl with
  | nil =>
    intro _ head n fuel hc _
    have hh : head = invalid_index := hc
    cases fuel with
    | zero => rfl
    | succ f => simp [follow, hh]
  | cons x xs ih =>
    intro hlt head n fuel hc hlen
    obtain ⟨hh, _, hrest⟩ := hc
    have hx : x < N := hlt x (List.mem_cons_self _ _)
    have hne : x ≠ invalid_index := by rw [invalid_index_eq]; omega
    cases fuel with
    | zero => simp at hlen
    | succ f =>
      simp only [List.length_cons] at hlen
      subst hh
      simp only [follow, hne, if_false]
      rw [ih (fun y hy => hlt y (List.mem_cons_of_mem _ hy)) _ _ f hrest (by omega)]

theorem Inv.follow_free (hN : N ≤ 65535) {s : slot_array α N} {fl : List Nat}
    (h : Inv s fl) :
    follow s.m_lookups N s.m_free_head = fl ∧
    follow s.m_lookups (N + 1) s.m_free_head = fl := by
  have hlen : fl.length ≤ N := by
    have := h.size_add
    omega
  exact ⟨follow_eq hN _ fl h.fl_lt _ _ _ h.chain hlen,
    follow_eq hN _ fl h.fl_lt _ _ _ h.chain (by omega)⟩

theorem free_unresolved {s : slot_array α N} {fl : List Nat} (h : Inv s fl) (x : Nat)
    (hx : x ∈ fl) (ver m : Nat) :
    try_get s { m_version := ver, m_index := x, m_meta := m } = none := by
  cases hq : try_get s { m_version := ver, m_index := x, m_meta := m } with
  | none => rfl
  | some p =>
    obtain ⟨_, _, g3, _⟩ := (try_get_eq_some s _ p).mp hq
    have := h.free_ge x hx
    dsimp only at g3
    omega

theorem remove_data_index (hN : N ≤ 65535) (s : slot_array α N) (fl : List Nat) (h : Inv s fl)
    (k : versioned_key) (hr : (try_remove s k).1 = true) :
    ((try_remove s k).2.m_lookups k.m_index).data_index
      = (if (s.m_lookups k.m_index).data_index = s.m_size - 1 then s.m_size - 1
        else invalid_index) ∧
    (try_remove s k).2.m_size = s.m_size - 1 ∧
    (try_remove s k).2.m_free_head = k.m_index := by
  rw [try_remove_fst] at hr
  obtain ⟨c, hc⟩ := Option.isSome_iff_exists.mp hr
  obtain ⟨q1, q2, q3, q4, q5, q6, q7, q8, q9, q10, q11, q12⟩ := h.resolved hN hc
  subst q1
  rw [try_remove_spec hN s fl h k _ hc]
  refine ⟨?_, rfl, rfl⟩
  dsimp only
  simp only [if_true]
  by_cases he : s.m_erase (s.m_size - 1) = k.m_index
  · have : (s.m_lookups k.m_index).data_index = s.m_size - 1 := by
      rw [← he]; exact q11
    simp [he, this]
  · have : (s.m_lookups k.m_index).data_index ≠ s.m_size - 1 := by
      intro hd
      rw [hd] at q5
      exact he q5
    simp [he, this]

end slot_array

namespace keyed_array

variable {α : Type} {N : Nat}

theorem ka_follow_eq (hN : N ≤ 65534) (next : Nat → Nat) (fl : List Nat) :
    (∀ x ∈ fl, x < N) → ∀ head fuel, free_chain next head fl → fl.length ≤ fuel →
      follow next fuel head = fl := by
  induction fl with
  | nil =>
    intro _ head fuel hc _
    have hh : head = invalid_index := hc
    cases fuel with
    | zero => rfl
    | succ f => simp [follow, hh]
  | cons x xs ih =>
    intro hlt head fuel hc hlen
    obtain ⟨hh, hrest⟩ := hc
    have hx : x < N := hlt x (List.mem_cons_self _ _)
    have hne : x ≠ invalid_index := by rw [ka_invalid_index_eq]; omega
    cases fuel with
    | zero => simp at hlen
    | succ f =>
      simp only [List.length_cons] at hlen
      subst hh
      simp only [follow, hne, if_false]
      rw [ih (fun y hy => hlt y (List.mem_cons_of_mem _ hy)) _ f hrest (by omega)]

theorem ka_chain_links (next : Nat → Nat) (fl : List Nat) :
    ∀ head, free_chain next head fl →
      ∀ x ∈ fl, next x = invalid_index ∨ next x ∈ fl := by
  induction fl with
  | nil => intro _ _ x hx; cases hx
  | cons y ys ih =>
    intro head hc x hx
    obtain ⟨_, hrest⟩ := hc
    rcases List.mem_cons.mp hx with rfl | hmem
    · cases ys with
      | nil => exact Or.inl hrest
      | cons z zs =>
        obtain ⟨hz, _⟩ := hrest
        right
        rw [hz]
        exact List.mem_cons_of_mem _ (List.mem_cons_self _ _)
    · rcases ih _ hrest x hmem with h1 | h1
      · exact Or.inl h1
      · exact Or.inr (List.mem_cons_of_mem _ h1)

theorem Inv.ka_follow_free (hN : N ≤ 65534) {s : keyed_array α N} {fl : List Nat}
    (h : Inv s fl) :
    follow s.m_free N s.m_free_head = fl ∧
    follow s.m_free (N + 1) s.m_free_head = fl :=
  ⟨ka_follow_eq hN _ fl h.fl_lt _ _ h.chain h.ka_length_le,
    ka_follow_eq hN _ fl h.fl_lt _ _ h.chain (Nat.le_succ_of_le h.ka_length_le)⟩

theorem Inv.ka_count_full {s : keyed_array α N} {fl : List Nat} (h : Inv s fl) :
    (List.range N).countP (fun i => decide (s.m_free i = slot_full)) + fl.length = N := by
  have hc := slot_array.count_not_mem (N := N) fl h.fl_nodup h.fl_lt
  have : (List.range N).countP (fun i => decide (s.m_free i = slot_full))
      = (List.range N).countP (fun x => decide (x ∉ fl)) := by
    apply List.countP_congr
    intro x hx
    have hxN : x < N := List.mem_range.mp hx
    simp only [decide_eq_true_eq]
    exact h.occupied x hxN
  omega

end keyed_array
end nonstd

namespace nonstd
namespace slot_array

variable {α : Type} {N : Nat}

theorem destroy_all_loop_spec (k : Nat) :
    ∀ (fuel idx : Nat) (log : List Nat) (s : slot_array α N),
      idx + k = s.m_size → s.m_size ≤ 65535 → k < fuel →
      destroy_all_loop fuel idx log s
        = some (s.m_size, log ++ List.range' idx k,
            { s with m_data := { m_data := fun p =>
                if idx ≤ p ∧ p < s.m_size then none else s.m_data.m_data p } }) := by
  induction k with
  | zero =>
    intro fuel idx log s hk _ hf
    cases fuel with
    | zero => omega
    | succ f =>
      have hlt : ¬ idx < s.m_size := by omega
      simp only [destroy_all_loop, hlt, if_false, List.range'_zero, List.append_nil]
      congr 3
      apply ext_fields <;> try rfl
      funext p
      have : ¬ (idx ≤ p ∧ p < s.m_size) := by omega
      simp [this]
  | succ k ih =>
    intro fuel idx log s hk hs hf
    cases fuel with
    | zero => omega
    | succ f =>
      have hlt : idx < s.m_size := by omega
      have hmod : (idx + 1) % 65536 = idx + 1 := by omega
      simp only [destroy_all_loop, hlt, if_true, hmod]
      rw [ih f (idx + 1) (log ++ [idx]) { s with m_data := s.m_data.destroy idx }
        (by show idx + 1 + k = s.m_size; omega) hs (by omega)]
      congr 2
      congr 1
      · simp [List.range'_succ]
      · apply ext_fields <;> try rfl
        funext p
        dsimp only
        simp only [raw_buffer.destroy, store_apply]
        by_cases hp : p = idx
        · subst hp
          simp [hlt]
        · by_cases hq : idx ≤ p ∧ p < s.m_size
          · have : idx + 1 ≤ p ∧ p < s.m_size := by omega
            simp [hq, this]
          · have : ¬ (idx + 1 ≤ p ∧ p < s.m_size) := by omega
            simp [hq, this, hp]

theorem destroy_all_loop_diverges (fuel : Nat) :
    ∀ (idx : Nat) (log : List Nat) (s : slot_array α N),
      65536 ≤ s.m_size → idx < 65536 → destroy_all_loop fuel idx log s = none := by
  induction fuel with
  | zero => intro _ _ _ _ _; rfl
  | succ f ih =>
    intro idx log s hs hi
    have hlt : idx < s.m_size := by omega
    simp only [destroy_all_loop, hlt, if_true]
    exact ih _ _ _ hs (Nat.mod_lt _ (by decide))

end slot_array
end nonstd

namespace nonstd

variable {α : Type} {N : Nat}

theorem sim_head {sk : keyed_array α N} {ss : slot_array α N} {fl : List Nat}
    (h : Sim sk ss fl) : sk.m_free_head = ss.m_free_head := by
  cases fl with
  | nil =>
    have a : sk.m_free_head = keyed_array.invalid_index := h.inv_k.chain
    have b : ss.m_free_head = slot_array.invalid_index := h.inv_s.chain
    rw [a, b]
    rfl
  | cons x xs =>
    obtain ⟨a, _⟩ := h.inv_k.chain
    obtain ⟨b, _⟩ := h.inv_s.chain
    rw [a, b]

theorem sim_resolve (hN : N ≤ 65534) {sk : keyed_array α N} {ss : slot_array α N}
    {fl : List Nat} (h : Sim sk ss fl) (k : versioned_key) :
    (keyed_array.evaluate_key sk k = true ↔ slot_array.resolve_key ss k = some k.m_index) ∧
    (keyed_array.evaluate_key sk k = false ↔ slot_array.resolve_key ss k = none) := by
  have hsz := h.inv_s.size_le
  have key : keyed_array.evaluate_key sk k = true ↔
      slot_array.resolve_key ss k = some k.m_index := by
    rw [keyed_array.ka_evaluate_key_iff, slot_array.resolve_key_eq_some]
    constructor
    · rintro ⟨g1, g2, g3⟩
      have hnf : k.m_index ∉ fl := (h.inv_k.occupied _ g1).mp g2
      obtain ⟨o1, _⟩ := h.inv_s.occupied _ g1 hnf
      refine ⟨rfl, g1, ?_, o1, ?_⟩
      · rw [slot_array.invalid_index_eq]
        omega
      · rw [← h.versions, g3]
    · rintro ⟨_, g1, _, g3, g4⟩
      have hnf : k.m_index ∉ fl := by
        intro hc
        have := h.inv_s.free_ge _ hc
        omega
      refine ⟨g1, (h.inv_k.occupied _ g1).mpr hnf, ?_⟩
      rw [h.versions, g4]
  refine ⟨key, ?_⟩
  constructor
  · intro hf
    cases hr : slot_array.resolve_key ss k with
    | none => rfl
    | some c =>
      have hc := ((slot_array.resolve_key_eq_some ss k c).mp hr).1
      subst hc
      rw [key.mpr hr] at hf
      cases hf
  · intro hn
    cases he : keyed_array.evaluate_key sk k with
    | false => rfl
    | true =>
      rw [key.mp he] at hn
      cases hn

theorem sim_try_get (hN : N ≤ 65534) {sk : keyed_array α N} {ss : slot_array α N}
    {fl : List Nat} (h : Sim sk ss fl) (k : versioned_key) :
    (keyed_array.try_get sk k).map sk.m_data.get
      = (slot_array.try_get ss k).map ss.m_data.get := by
  obtain ⟨r1, r2⟩ := sim_resolve hN h k
  cases he : keyed_array.evaluate_key sk k with
  | false =>
    have hn := r2.mp he
    rw [(keyed_array.ka_try_get_eq_none sk k).mpr he, (slot_array.try_get_eq_none ss k).mpr hn]
    rfl
  | true =>
    have hs := r1.mp he
    obtain ⟨g1, g2, _⟩ := (keyed_array.ka_evaluate_key_iff sk k).mp he
    have hnf : k.m_index ∉ fl := (h.inv_k.occupied _ g1).mp g2
    have e1 : keyed_array.try_get sk k = some k.m_index :=
      (keyed_array.ka_try_get_eq_some sk k _).mpr ⟨he, rfl⟩
    have e2 : slot_array.try_get ss k = some (ss.m_lookups k.m_index).data_index := by
      simp [slot_array.try_get, hs]
    rw [e1, e2, Option.map_some', Option.map_some', h.cells _ g1 hnf]

theorem sim_ctor (hN : N ≤ 65534) :
    Sim (keyed_array.ctor : keyed_array α N) (slot_array.ctor : slot_array α N)
      (List.range N) where
  inv_k := keyed_array.ka_Inv_ctor hN
  inv_s := slot_array.Inv_ctor (by omega)
  versions := fun x => by rw [keyed_array.ka_ctor_version, slot_array.ctor_version]
  cells := fun x hx hnf => absurd (List.mem_range.mpr hx) hnf

theorem sim_clear (hN : N ≤ 65534) {sk : keyed_array α N} {ss : slot_array α N}
    {fl : List Nat} (h : Sim sk ss fl) :
    Sim (keyed_array.clear sk) (slot_array.clear ss) (List.range N) where
  inv_k := keyed_array.ka_Inv_clear hN sk fl h.inv_k
  inv_s := slot_array.Inv_clear (by omega) ss fl h.inv_s
  versions := fun x => by
    rw [keyed_array.ka_version_clear, slot_array.version_clear, h.versions]
  cells := fun x hx hnf => absurd (List.mem_range.mpr hx) hnf

theorem sim_try_remove (hN : N ≤ 65534) {sk : keyed_array α N} {ss : slot_array α N}
    {fl : List Nat} (h : Sim sk ss fl) (k : versioned_key) :
    (keyed_array.try_remove sk k).1 = (slot_array.try_remove ss k).1 ∧
    ∃ fl', Sim (keyed_array.try_remove sk k).2 (slot_array.try_remove ss k).2 fl' := by
  have hM : N ≤ 65535 := by omega
  obtain ⟨r1, r2⟩ := sim_resolve hN h k
  cases he : keyed_array.evaluate_key sk k with
  | false =>
    have hn := r2.mp he
    rw [keyed_array.ka_try_remove_false sk k he, slot_array.try_remove_none ss k hn]
    exact ⟨rfl, fl, h⟩
  | true =>
    have hs := r1.mp he
    refine ⟨?_, k.m_index :: fl, ?_⟩
    · rw [keyed_array.ka_try_remove_fst, slot_array.try_remove_fst, he, hs]
      rfl
    · refine ⟨keyed_array.ka_Inv_try_remove_ok hN sk fl h.inv_k k he,
        slot_array.Inv_try_remove_ok hM ss fl h.inv_s k _ hs, fun x => ?_, fun x hx hnf => ?_⟩
      · rw [keyed_array.ka_version_try_remove, slot_array.version_try_remove, h.versions]
      · have hne : x ≠ k.m_index := fun hc => hnf (hc ▸ List.mem_cons_self _ _)
        have hnf' : x ∉ fl := fun hc => hnf (List.mem_cons_of_mem _ hc)
        obtain ⟨o1, _⟩ := h.inv_s.occupied x hx hnf'
        have hp : slot_array.try_get ss
            { m_version := (ss.m_lookups x).version, m_index := x, m_meta := 0 }
            = some (ss.m_lookups x).data_index := by
          rw [slot_array.try_get_eq_some]
          refine ⟨hx, ?_, o1, rfl, rfl⟩
          have := h.inv_s.size_le
          rw [slot_array.invalid_index_eq]
          dsimp only
          omega
        obtain ⟨v1, v2⟩ := slot_array.valid_after_remove hM ss fl h.inv_s k _ hs
          { m_version := (ss.m_lookups x).version, m_index := x, m_meta := 0 }
          _ hne hp
        obtain ⟨_, _, _, _, v3⟩ := (slot_array.try_get_eq_some _ _ _).mp v1
        dsimp only at v3
        rw [← v3, v2, ← h.cells x hx hnf', keyed_array.ka_try_remove_true sk k he]
        simp [raw_buffer.get, raw_buffer.destroy, store_apply, hne]

theorem sim_emplace_back (hN : N ≤ 65534) {sk : keyed_array α N} {ss : slot_array α N}
    {fl : List Nat} (h : Sim sk ss fl) (v : α) (m : Nat) :
    (keyed_array.emplace_back sk v m).1 = (slot_array.emplace_back ss v m).1 ∧
    ∃ fl', Sim (keyed_array.emplace_back sk v m).2 (slot_array.emplace_back ss v m).2 fl' := by
  have hM : N ≤ 65535 := by omega
  have hhead := sim_head h
  cases fl with
  | nil =>
    have a : sk.m_free_head = keyed_array.invalid_index := h.inv_k.chain
    have b : ss.m_free_head = slot_array.invalid_index := h.inv_s.chain
    rw [keyed_array.ka_emplace_back_full sk v m a, slot_array.emplace_back_full ss v m b]
    exact ⟨rfl, [], h⟩
  | cons x xs =>
    obtain ⟨hk, _⟩ := h.inv_k.chain
    obtain ⟨hs, _, _⟩ := h.inv_s.chain
    have hxN : x < N := h.inv_k.fl_lt x (List.mem_cons_self _ _)
    have hnek : sk.m_free_head ≠ keyed_array.invalid_index := by
      rw [hk, keyed_array.ka_invalid_index_eq]; omega
    have hnes : ss.m_free_head ≠ slot_array.invalid_index := by
      rw [hs, slot_array.invalid_index_eq]; omega
    have hver : sk.m_versions x = (ss.m_lookups x).version := h.versions x
    by_cases hv : (sk.m_versions x + 1) % 4294967296 = 0
    · have hv' : ((ss.m_lookups x).version + 1) % 4294967296 = 0 := by rw [← hver]; exact hv
      rw [keyed_array.ka_emplace_back_overflow sk v m hnek (by rw [hk]; exact hv),
        slot_array.emplace_back_overflow ss v m hnes (by rw [hs]; exact hv')]
      refine ⟨rfl, x :: xs, ?_⟩
      refine ⟨keyed_array.ka_Inv_set_version sk _ h.inv_k _ 0
          (by rw [hk]; exact List.mem_cons_self _ _) (by decide),
        slot_array.Inv_set_version ss _ h.inv_s _ 0
          (by rw [hs]; exact List.mem_cons_self _ _) (by decide), fun y => ?_, fun y hy hnf => ?_⟩
      · dsimp only
        rw [hk, hs]
        simp only [lookup_t.set_version, store_apply]
        by_cases hyx : y = x
        · simp [hyx]
        · simp only [hyx, if_false]
          exact h.versions y
      · dsimp only
        rw [hs]
        have hyx : y ≠ x := fun hc => hnf (hc ▸ List.mem_cons_self _ _)
        simp only [lookup_t.set_version, store_apply, hyx, if_false]
        exact h.cells y hy hnf
    · have hv' : ((ss.m_lookups x).version + 1) % 4294967296 ≠ 0 := by rw [← hver]; exact hv
      have hIk := keyed_array.ka_Inv_emplace_back_ok sk x xs h.inv_k v m hv hnek
      have hIs := slot_array.Inv_emplace_back_ok hM ss x xs h.inv_s v m hv'
      rw [keyed_array.ka_emplace_back_ok sk v m hnek (by rw [hk]; exact hv)] at hIk ⊢
      rw [slot_array.emplace_back_ok ss v m hnes (by rw [hs]; exact hv')] at hIs ⊢
      have hsize : ss.m_size < N := by
        have := h.inv_s.size_add
        simp only [List.length_cons] at this
        omega
      have hmod : ss.m_size % 65536 = ss.m_size := by omega
      refine ⟨?_, xs, hIk, hIs, fun y => ?_, fun y hy hnf => ?_⟩
      · rw [hk, hs, hver]
      · dsimp only
        rw [hk, hs, hver]
        simp only [store_apply]
        by_cases hyx : y = x
        · simp [hyx]
        · simp only [hyx, if_false]
          exact h.versions y
      · dsimp only
        rw [hk, hs, hmod]
        simp only [raw_buffer.get, raw_buffer.emplace, store_apply]
        by_cases hyx : y = x
        · simp [hyx]
        · have hnf' : y ∉ x :: xs := by
            intro hc
            rcases List.mem_cons.mp hc with e | e
            · exact hyx e
            · exact hnf e
          obtain ⟨o1, _⟩ := h.inv_s.occupied y hy hnf'
          have hd : (ss.m_lookups y).data_index ≠ ss.m_size := by omega
          simp only [hyx, if_false, hd]
          exact h.cells y hy hnf'

theorem sim_answer (hN : N ≤ 65534) {sk : keyed_array α N} {ss : slot_array α N}
    {fl : List Nat} (h : Sim sk ss fl) (q : Query α) :
    (keyed_array.answer sk q).1 = (slot_array.answer ss q).1 ∧
    ∃ fl', Sim (keyed_array.answer sk q).2 (slot_array.answer ss q).2 fl' := by
  cases q with
  | emplace_back v m =>
    obtain ⟨a, fl', b⟩ := sim_emplace_back hN h v m
    exact ⟨by simp only [keyed_array.answer, slot_array.answer, a], fl', b⟩
  | try_get k =>
    exact ⟨by simp only [keyed_array.answer, slot_array.answer, sim_try_get hN h k], fl, h⟩
  | try_remove k =>
    obtain ⟨a, fl', b⟩ := sim_try_remove hN h k
    exact ⟨by simp only [keyed_array.answer, slot_array.answer, a], fl', b⟩
  | clear =>
    exact ⟨rfl, List.range N, sim_clear hN h⟩

theorem sim_observe (hN : N ≤ 65534) (qs : List (Query α)) :
    ∀ (sk : keyed_array α N) (ss : slot_array α N) (fl : List Nat), Sim sk ss fl →
      keyed_array.observe sk qs = slot_array.observe ss qs := by
  induction qs with
  | nil => intro _ _ _ _; rfl
  | cons q qs ih =>
    intro sk ss fl h
    obtain ⟨a, fl', b⟩ := sim_answer hN h q
    simp only [keyed_array.observe, slot_array.observe, a, ih _ _ fl' b]

theorem sim_interact (hN : N ≤ 65534) (client : List (Outcome α) → Option (Query α))
    (fuel : Nat) :
    ∀ (sk : keyed_array α N) (ss : slot_array α N) (fl : List Nat)
      (history : List (Outcome α)), Sim sk ss fl →
      keyed_array.interact client fuel sk history
        = slot_array.interact client fuel ss history := by
  induction fuel with
  | zero => intro _ _ _ _ _; rfl
  | succ f ih =>
    intro sk ss fl history h
    simp only [keyed_array.interact, slot_array.interact]
    cases hq : client history with
    | none => rfl
    | some q =>
      obtain ⟨a, fl', b⟩ := sim_answer hN h q
      simp only [a]
      exact ih _ _ fl' _ b

end nonstd

namespace nonstd
namespace slot_array

variable {α : Type} {N : Nat}

theorem construct_some (s : slot_array α N) (v : α) (m : Nat) :
    emplace_back_construct s (some v) m = emplace_back s v m := rfl

theorem construct_full (s : slot_array α N) (e : Option α) (m : Nat)
    (h : s.m_free_head = invalid_index) :
    emplace_back_construct s e m = (Except.error error.out_of_range, s) := by
  simp [emplace_back_construct, h]

theorem construct_overflow (s : slot_array α N) (e : Option α) (m : Nat)
    (h1 : s.m_free_head ≠ invalid_index)
    (h2 : ((s.m_lookups s.m_free_head).version + 1) % 4294967296 = 0) :
    emplace_back_construct s e m = (Except.error error.overflow_error,
      { s with m_lookups := lookup_t.set_version s.m_lookups s.m_free_head 0 }) := by
  simp [emplace_back_construct, h1, h2, increment_version]

theorem construct_none (s : slot_array α N) (m : Nat)
    (h1 : s.m_free_head ≠ invalid_index)
    (h2 : ((s.m_lookups s.m_free_head).version + 1) % 4294967296 ≠ 0) :
    emplace_back_construct s none m = (Except.error error.element_exception,
      { s with m_lookups := lookup_t.set_version s.m_lookups s.m_free_head (((s.m_lookups s.m_free_head).version + 1) % 4294967296) }) := by
  have h3 : 0 < ((s.m_lookups s.m_free_head).version + 1) % 4294967296 := by omega
  simp [emplace_back_construct, h1, h3, increment_version]

theorem construct_ok_some (s : slot_array α N) (e : Option α) (m : Nat) (k : versioned_key)
    (hk : (emplace_back_construct s e m).1 = Except.ok k) :
    ∃ v, e = some v ∧ (emplace_back s v m).1 = Except.ok k ∧
      emplace_back_construct s e m = emplace_back s v m := by
  cases e with
  | some v => exact ⟨v, rfl, hk, rfl⟩
  | none =>
    by_cases h1 : s.m_free_head = invalid_index
    · rw [construct_full s none m h1] at hk
      cases hk
    · by_cases h2 : ((s.m_lookups s.m_free_head).version + 1) % 4294967296 = 0
      · rw [construct_overflow s none m h1 h2] at hk
        cases hk
      · rw [construct_none s m h1 h2] at hk
        cases hk

theorem Inv_construct (hN : N ≤ 65535) (s : slot_array α N) (fl : List Nat)
    (h : Inv s fl) (e : Option α) (m : Nat) :
    ∃ fl', Inv (emplace_back_construct s e m).2 fl' := by
  cases e with
  | some v => exact Inv_emplace_back hN s fl h v m
  | none =>
    by_cases h1 : s.m_free_head = invalid_index
    · rw [construct_full s none m h1]
      exact ⟨fl, h⟩
    · have hfl : fl ≠ [] := fun hc => h1 ((free_chain_head hN _ _ _ _ h.fl_lt h.chain).mpr hc)
      obtain ⟨x, xs, rfl⟩ := List.exists_cons_of_ne_nil hfl
      obtain ⟨hhead, _, _⟩ := h.chain
      have hmem : s.m_free_head ∈ x :: xs := by rw [hhead]; exact List.mem_cons_self _ _
      by_cases h2 : ((s.m_lookups s.m_free_head).version + 1) % 4294967296 = 0
      · rw [construct_overflow s none m h1 h2]
        exact ⟨_, Inv_set_version s _ h _ 0 hmem (by decide)⟩
      · rw [construct_none s m h1 h2]
        exact ⟨_, Inv_set_version s _ h _ _ hmem (Nat.mod_lt _ (by decide))⟩

theorem Inv_perform (hN : N ≤ 65535) (s : slot_array α N) (fl : List Nat)
    (h : Inv s fl) (c : Invocation α) : ∃ fl', Inv (perform s c) fl' := by
  cases c with
  | emplace_back e m => exact Inv_construct hN s fl h e m
  | try_remove key => exact Inv_try_remove hN s fl h key
  | clear => exact ⟨_, Inv_clear hN s fl h⟩

theorem Inv_perform_all (hN : N ≤ 65535) (calls : List (Invocation α)) :
    ∀ (s : slot_array α N) (fl : List Nat), Inv s fl →
      ∃ fl', Inv (perform_all s calls) fl' := by
  induction calls with
  | nil => intro s fl h; exact ⟨fl, h⟩
  | cons c cs ih =>
    intro s fl h
    obtain ⟨fl1, h1⟩ := Inv_perform hN s fl h c
    exact ih (perform s c) fl1 h1

theorem Inv_performed (hN : N ≤ 65535) (calls : List (Invocation α)) :
    ∃ fl, Inv (perform_all (ctor : slot_array α N) calls) fl :=
  Inv_perform_all hN calls _ _ (Inv_ctor hN)

theorem construct_version_other (s : slot_array α N) (e : Option α) (m : Nat) (y : Nat)
    (hy : s.m_free_head = invalid_index ∨ y ≠ s.m_free_head) :
    ((emplace_back_construct s e m).2.m_lookups y).version = (s.m_lookups y).version := by
  by_cases h1 : s.m_free_head = invalid_index
  · rw [construct_full s e m h1]
  · have hy' : y ≠ s.m_free_head := hy.resolve_left h1
    by_cases h2 : ((s.m_lookups s.m_free_head).version + 1) % 4294967296 = 0
    · rw [construct_overflow s e m h1 h2]
      simp [lookup_t.set_version, store_apply, hy']
    · cases e with
      | none =>
        rw [construct_none s m h1 h2]
        simp [lookup_t.set_version, store_apply, hy']
      | some v =>
        rw [construct_some, emplace_back_ok s v m h1 h2]
        simp [store_apply, hy']

theorem version_of_not_raised (calls : List (Invocation α)) :
    ∀ (s : slot_array α N) (x : Nat), x ∉ raised s calls →
      ((perform_all s calls).m_lookups x).version = (s.m_lookups x).version := by
  induction calls with
  | nil => intro s x _; rfl
  | cons c cs ih =>
    intro s x hx
    cases c with
    | emplace_back e m =>
      show ((perform_all (emplace_back_construct s e m).2 cs).m_lookups x).version = _
      simp only [raised] at hx
      by_cases h1 : s.m_free_head = invalid_index
      · simp only [h1, if_true] at hx
        rw [ih _ x hx]
        exact construct_version_other s e m x (Or.inl h1)
      · simp only [h1, if_false, List.mem_cons, not_or] at hx
        rw [ih _ x hx.2]
        exact construct_version_other s e m x (Or.inr hx.1)
    | try_remove key =>
      show ((perform_all (try_remove s key).2 cs).m_lookups x).version = _
      simp only [raised] at hx
      rw [ih _ x hx]
      exact version_try_remove s key x
    | clear =>
      show ((perform_all (clear s) cs).m_lookups x).version = _
      simp only [raised] at hx
      rw [ih _ x hx]
      exact version_clear s x

theorem construct_cases (hN : N ≤ 65535) (s : slot_array α N) (fl : List Nat)
    (h : Inv s fl) (e : Option α) (m : Nat) :
    ((∃ err, (emplace_back_construct s e m).1 = Except.error err) ∧
      Inv (emplace_back_construct s e m).2 fl) ∨
    (∃ xs v, fl = s.m_free_head :: xs ∧ e = some v ∧
      (emplace_back_construct s e m).1 = Except.ok
        { m_version := (s.m_lookups s.m_free_head).version + 1
          m_index := s.m_free_head
          m_meta := m } ∧
      Inv (emplace_back_construct s e m).2 xs) := by
  cases e with
  | some v =>
    rcases emplace_back_cases hN s fl h v m with ⟨he, hI, _⟩ | ⟨xs, hfl, hok, hI, _⟩
    · exact Or.inl ⟨he, hI⟩
    · exact Or.inr ⟨xs, v, hfl, rfl, hok, hI⟩
  | none =>
    left
    by_cases h1 : s.m_free_head = invalid_index
    · rw [construct_full s none m h1]
      exact ⟨⟨_, rfl⟩, h⟩
    · have hfl : fl ≠ [] := fun hc => h1 ((free_chain_head hN _ _ _ _ h.fl_lt h.chain).mpr hc)
      obtain ⟨x, xs, rfl⟩ := List.exists_cons_of_ne_nil hfl
      obtain ⟨hhead, _, _⟩ := h.chain
      have hmem : s.m_free_head ∈ x :: xs := by rw [hhead]; exact List.mem_cons_self _ _
      by_cases h2 : ((s.m_lookups s.m_free_head).version + 1) % 4294967296 = 0
      · rw [construct_overflow s none m h1 h2]
        exact ⟨⟨_, rfl⟩, Inv_set_version s _ h _ 0 hmem (by decide)⟩
      · rw [construct_none s m h1 h2]
        exact ⟨⟨_, rfl⟩, Inv_set_version s _ h _ _ hmem (Nat.mod_lt _ (by decide))⟩

theorem attempts_order (hN : N ≤ 65535) (pre : List (Option α × Nat)) :
    ∀ (s : slot_array α N) (c : Nat), c ≤ N → Inv s (List.range' c (N - c)) →
      c + (granted s (Invocation.emplace_each pre)).length ≤ N ∧
      Inv (perform_all s (Invocation.emplace_each pre))
        (List.range' (c + (granted s (Invocation.emplace_each pre)).length)
          (N - (c + (granted s (Invocation.emplace_each pre)).length))) := by
  induction pre with
  | nil =>
    intro s c hc h
    simp only [Invocation.emplace_each, List.map_nil, granted, List.length_nil, Nat.add_zero,
      perform_all, List.foldl_nil]
    exact ⟨hc, h⟩
  | cons a rest ih =>
    intro s c hc h
    have hcons : Invocation.emplace_each (a :: rest)
        = Invocation.emplace_back a.1 a.2 :: Invocation.emplace_each rest := rfl
    rw [hcons]
    have hrun : perform_all s (Invocation.emplace_back a.1 a.2 :: Invocation.emplace_each rest)
        = perform_all (emplace_back_construct s a.1 a.2).2 (Invocation.emplace_each rest) := rfl
    rw [hrun]
    rcases construct_cases hN s _ h a.1 a.2 with ⟨⟨e, he⟩, hI⟩ | ⟨xs, v, hfl, _, hok, hI⟩
    · have hiss : granted s (Invocation.emplace_back a.1 a.2 :: Invocation.emplace_each rest)
          = granted (emplace_back_construct s a.1 a.2).2 (Invocation.emplace_each rest) := by
        simp only [granted, he]
      rw [hiss]
      exact ih _ c hc hI
    · have hiss : granted s (Invocation.emplace_back a.1 a.2 :: Invocation.emplace_each rest)
          = { m_version := (s.m_lookups s.m_free_head).version + 1
              m_index := s.m_free_head
              m_meta := a.2 } ::
            granted (emplace_back_construct s a.1 a.2).2 (Invocation.emplace_each rest) := by
        simp only [granted, hok]
      rw [hiss]
      have hpos : 0 < N - c := by
        cases hq : N - c with
        | zero => rw [hq] at hfl; cases hfl
        | succ n => omega
      have hsplit : List.range' c (N - c) = c :: List.range' (c + 1) (N - (c + 1)) := by
        have : N - c = (N - (c + 1)) + 1 := by omega
        rw [this, List.range'_succ]
      rw [hsplit] at hfl
      have hxs : xs = List.range' (c + 1) (N - (c + 1)) := (List.cons.inj hfl).2.symm
      rw [hxs] at hI
      obtain ⟨i1, i2⟩ := ih _ (c + 1) (by omega) hI
      simp only [List.length_cons]
      have e1 : c + ((granted (emplace_back_construct s a.1 a.2).2
          (Invocation.emplace_each rest)).length + 1)
          = c + 1 + (granted (emplace_back_construct s a.1 a.2).2
            (Invocation.emplace_each rest)).length := by
        omega
      rw [e1]
      exact ⟨i1, i2⟩

theorem alloc_at (hN : N ≤ 65535) (s : slot_array α N) (n : Nat)
    (h : Inv s (List.range' n (N - n))) (v : α) (m : Nat) (k : versioned_key)
    (hk : (emplace_back s v m).1 = Except.ok k) :
    k.m_index = n ∧ n < N ∧ k.m_meta = m ∧
    k.m_version = (s.m_lookups n).version + 1 ∧
    s.m_size = n ∧
    try_get (emplace_back s v m).2 k = some n ∧
    (emplace_back s v m).2.m_data.get n = some v := by
  obtain ⟨r1, r2⟩ := emplace_back_round_trip hN s _ h v m k hk
  rcases emplace_back_cases hN s _ h v m with ⟨⟨e, he⟩, _, _⟩ | ⟨xs, hfl, hok, _, _⟩
  · rw [he] at hk
    cases hk
  · have hpos : 0 < N - n := by
      cases hq : N - n with
      | zero => rw [hq] at hfl; cases hfl
      | succ j => omega
    have hsplit : List.range' n (N - n) = n :: List.range' (n + 1) (N - (n + 1)) := by
      have : N - n = (N - (n + 1)) + 1 := by omega
      rw [this, List.range'_succ]
    rw [hsplit] at hfl
    have hhead : s.m_free_head = n := (List.cons.inj hfl).1.symm
    rw [hok] at hk
    cases hk
    dsimp only at r1 r2 ⊢
    have hsize : s.m_size = n := by
      have := h.size_add
      rw [List.length_range'] at this
      omega
    rw [hsize] at r1 r2
    rw [hhead] at r1 ⊢
    exact ⟨rfl, by omega, rfl, rfl, hsize, r1, r2⟩

end slot_array

namespace keyed_array

variable {α : Type} {N : Nat}

theorem ka_construct_some (s : keyed_array α N) (v : α) (m : Nat) :
    emplace_back_construct s (some v) m = emplace_back s v m := rfl

theorem ka_construct_full (s : keyed_array α N) (e : Option α) (m : Nat)
    (h : s.m_free_head = invalid_index) :
    emplace_back_construct s e m = (Except.error error.out_of_range, s) := by
  simp [emplace_back_construct, h]

theorem ka_construct_overflow (s : keyed_array α N) (e : Option α) (m : Nat)
    (h1 : s.m_free_head ≠ invalid_index)
    (h2 : (s.m_versions s.m_free_head + 1) % 4294967296 = 0) :
    emplace_back_construct s e m = (Except.error error.overflow_error,
      { s with m_versions := store s.m_versions s.m_free_head 0 }) := by
  simp [emplace_back_construct, h1, h2, increment_version]

theorem ka_construct_none (s : keyed_array α N) (m : Nat)
    (h1 : s.m_free_head ≠ invalid_index)
    (h2 : (s.m_versions s.m_free_head + 1) % 4294967296 ≠ 0) :
    emplace_back_construct s none m = (Except.error error.element_exception,
      { s with m_versions := store s.m_versions s.m_free_head ((s.m_versions s.m_free_head + 1) % 4294967296) }) := by
  have h3 : 0 < (s.m_versions s.m_free_head + 1) % 4294967296 := by omega
  simp [emplace_back_construct, h1, h3, increment_version]

theorem ka_construct_ok_some (s : keyed_array α N) (e : Option α) (m : Nat)
    (k : versioned_key) (hk : (emplace_back_construct s e m).1 = Except.ok k) :
    ∃ v, e = some v ∧ (emplace_back s v m).1 = Except.ok k ∧
      emplace_back_construct s e m = emplace_back s v m := by
  cases e with
  | some v => exact ⟨v, rfl, hk, rfl⟩
  | none =>
    by_cases h1 : s.m_free_head = invalid_index
    · rw [ka_construct_full s none m h1] at hk
      cases hk
    · by_cases h2 : (s.m_versions s.m_free_head + 1) % 4294967296 = 0
      · rw [ka_construct_overflow s none m h1 h2] at hk
        cases hk
      · rw [ka_construct_none s m h1 h2] at hk
        cases hk

theorem ka_Inv_construct (hN : N ≤ 65534) (s : keyed_array α N) (fl : List Nat)
    (h : Inv s fl) (e : Option α) (m : Nat) :
    ∃ fl', Inv (emplace_back_construct s e m).2 fl' := by
  cases e with
  | some v => exact ka_Inv_emplace_back hN s fl h v m
  | none =>
    by_cases h1 : s.m_free_head = invalid_index
    · rw [ka_construct_full s none m h1]
      exact ⟨fl, h⟩
    · have hfl : fl ≠ [] := fun hc => h1 ((ka_free_chain_head hN _ _ _ h.fl_lt h.chain).mpr hc)
      obtain ⟨x, xs, rfl⟩ := List.exists_cons_of_ne_nil hfl
      obtain ⟨hhead, _⟩ := h.chain
      have hmem : s.m_free_head ∈ x :: xs := by rw [hhead]; exact List.mem_cons_self _ _
      by_cases h2 : (s.m_versions s.m_free_head + 1) % 4294967296 = 0
      · rw [ka_construct_overflow s none m h1 h2]
        exact ⟨_, ka_Inv_set_version s _ h _ 0 hmem (by decide)⟩
      · rw [ka_construct_none s m h1 h2]
        exact ⟨_, ka_Inv_set_version s _ h _ _ hmem (Nat.mod_lt _ (by decide))⟩

theorem ka_Inv_perform (hN : N ≤ 65534) (s : keyed_array α N) (fl : List Nat)
    (h : Inv s fl) (c : Invocation α) : ∃ fl', Inv (perform s c) fl' := by
  cases c with
  | emplace_back e m => exact ka_Inv_construct hN s fl h e m
  | try_remove key => exact ka_Inv_try_remove hN s fl h key
  | clear => exact ⟨_, ka_Inv_clear hN s fl h⟩

theorem ka_Inv_perform_all (hN : N ≤ 65534) (calls : List (Invocation α)) :
    ∀ (s : keyed_array α N) (fl : List Nat), Inv s fl →
      ∃ fl', Inv (perform_all s calls) fl' := by
  induction calls with
  | nil => intro s fl h; exact ⟨fl, h⟩
  | cons c cs ih =>
    intro s fl h
    obtain ⟨fl1, h1⟩ := ka_Inv_perform hN s fl h c
    exact ih (perform s c) fl1 h1

theorem ka_Inv_performed (hN : N ≤ 65534) (calls : List (Invocation α)) :
    ∃ fl, Inv (perform_all (ctor : keyed_array α N) calls) fl :=
  ka_Inv_perform_all hN calls _ _ (ka_Inv_ctor hN)

theorem ka_construct_version_other (s : keyed_array α N) (e : Option α) (m : Nat) (y : Nat)
    (hy : s.m_free_head = invalid_index ∨ y ≠ s.m_free_head) :
    (emplace_back_construct s e m).2.m_versions y = s.m_versions y := by
  by_cases h1 : s.m_free_head = invalid_index
  · rw [ka_construct_full s e m h1]
  · have hy' : y ≠ s.m_free_head := hy.resolve_left h1
    by_cases h2 : (s.m_versions s.m_free_head + 1) % 4294967296 = 0
    · rw [ka_construct_overflow s e m h1 h2]
      simp [store_apply, hy']
    · cases e with
      | none =>
        rw [ka_construct_none s m h1 h2]
        simp [store_apply, hy']
      | some v =>
        rw [ka_construct_some, ka_emplace_back_ok s v m h1 h2]
        simp [store_apply, hy']

theorem ka_version_of_not_raised (calls : List (Invocation α)) :
    ∀ (s : keyed_array α N) (x : Nat), x ∉ raised s calls →
      (perform_all s calls).m_versions x = s.m_versions x := by
  induction calls with
  | nil => intro s x _; rfl
  | cons c cs ih =>
    intro s x hx
    cases c with
    | emplace_back e m =>
      show (perform_all (emplace_back_construct s e m).2 cs).m_versions x = _
      simp only [raised] at hx
      by_cases h1 : s.m_free_head = invalid_index
      · simp only [h1, if_true] at hx
        rw [ih _ x hx]
        exact ka_construct_version_other s e m x (Or.inl h1)
      · simp only [h1, if_false, List.mem_cons, not_or] at hx
        rw [ih _ x hx.2]
        exact ka_construct_version_other s e m x (Or.inr hx.1)
    | try_remove key =>
      show (perform_all (try_remove s key).2 cs).m_versions x = _
      simp only [raised] at hx
      rw [ih _ x hx]
      exact congrFun (ka_version_try_remove s key) x
    | clear =>
      show (perform_all (clear s) cs).m_versions x = _
      simp only [raised] at hx
      rw [ih _ x hx]
      exact congrFun (ka_version_clear s) x

theorem ka_construct_cases (hN : N ≤ 65534) (s : keyed_array α N) (fl : List Nat)
    (h : Inv s fl) (e : Option α) (m : Nat) :
    ((∃ err, (emplace_back_construct s e m).1 = Except.error err) ∧
      Inv (emplace_back_construct s e m).2 fl) ∨
    (∃ xs v, fl = s.m_free_head :: xs ∧ e = some v ∧
      (emplace_back_construct s e m).1 = Except.ok
        { m_version := s.m_versions s.m_free_head + 1
          m_index := s.m_free_head
          m_meta := m } ∧
      Inv (emplace_back_construct s e m).2 xs) := by
  cases e with
  | some v =>
    rcases ka_emplace_back_cases hN s fl h v m with ⟨he, hI, _⟩ | ⟨xs, hfl, hok, hI, _⟩
    · exact Or.inl ⟨he, hI⟩
    · exact Or.inr ⟨xs, v, hfl, rfl, hok, hI⟩
  | none =>
    left
    by_cases h1 : s.m_free_head = invalid_index
    · rw [ka_construct_full s none m h1]
      exact ⟨⟨_, rfl⟩, h⟩
    · have hfl : fl ≠ [] := fun hc => h1 ((ka_free_chain_head hN _ _ _ h.fl_lt h.chain).mpr hc)
      obtain ⟨x, xs, rfl⟩ := List.exists_cons_of_ne_nil hfl
      obtain ⟨hhead, _⟩ := h.chain
      have hmem : s.m_free_head ∈ x :: xs := by rw [hhead]; exact List.mem_cons_self _ _
      by_cases h2 : (s.m_versions s.m_free_head + 1) % 4294967296 = 0
      · rw [ka_construct_overflow s none m h1 h2]
        exact ⟨⟨_, rfl⟩, ka_Inv_set_version s _ h _ 0 hmem (by decide)⟩
      · rw [ka_construct_none s m h1 h2]
        exact ⟨⟨_, rfl⟩, ka_Inv_set_version s _ h _ _ hmem (Nat.mod_lt _ (by decide))⟩

theorem ka_attempts_order (hN : N ≤ 65534) (pre : List (Option α × Nat)) :
    ∀ (s : keyed_array α N) (c : Nat), c ≤ N → Inv s (List.range' c (N - c)) →
      c + (granted s (Invocation.emplace_each pre)).length ≤ N ∧
      Inv (perform_all s (Invocation.emplace_each pre))
        (List.range' (c + (granted s (Invocation.emplace_each pre)).length)
          (N - (c + (granted s (Invocation.emplace_each pre)).length))) := by
  induction pre with
  | nil =>
    intro s c hc h
    simp only [Invocation.emplace_each, List.map_nil, granted, List.length_nil, Nat.add_zero,
      perform_all, List.foldl_nil]
    exact ⟨hc, h⟩
  | cons a rest ih =>
    intro s c hc h
    have hcons : Invocation.emplace_each (a :: rest)
        = Invocation.emplace_back a.1 a.2 :: Invocation.emplace_each rest := rfl
    rw [hcons]
    have hrun : perform_all s (Invocation.emplace_back a.1 a.2 :: Invocation.emplace_each rest)
        = perform_all (emplace_back_construct s a.1 a.2).2 (Invocation.emplace_each rest) := rfl
    rw [hrun]
    rcases ka_construct_cases hN s _ h a.1 a.2 with ⟨⟨e, he⟩, hI⟩ | ⟨xs, v, hfl, _, hok, hI⟩
    · have hiss : granted s (Invocation.emplace_back a.1 a.2 :: Invocation.emplace_each rest)
          = granted (emplace_back_construct s a.1 a.2).2 (Invocation.emplace_each rest) := by
        simp only [granted, he]
      rw [hiss]
      exact ih _ c hc hI
    · have hiss : granted s (Invocation.emplace_back a.1 a.2 :: Invocation.emplace_each rest)
          = { m_version := s.m_versions s.m_free_head + 1
              m_index := s.m_free_head
              m_meta := a.2 } ::
            granted (emplace_back_construct s a.1 a.2).2 (Invocation.emplace_each rest) := by
        simp only [granted, hok]
      rw [hiss]
      have hpos : 0 < N - c := by
        cases hq : N - c with
        | zero => rw [hq] at hfl; cases hfl
        | succ n => omega
      have hsplit : List.range' c (N - c) = c :: List.range' (c + 1) (N - (c + 1)) := by
        have : N - c = (N - (c + 1)) + 1 := by omega
        rw [this, List.range'_succ]
      rw [hsplit] at hfl
      have hxs : xs = List.range' (c + 1) (N - (c + 1)) := (List.cons.inj hfl).2.symm
      rw [hxs] at hI
      obtain ⟨i1, i2⟩ := ih _ (c + 1) (by omega) hI
      simp only [List.length_cons]
      have e1 : c + ((granted (emplace_back_construct s a.1 a.2).2
          (Invocation.emplace_each rest)).length + 1)
          = c + 1 + (granted (emplace_back_construct s a.1 a.2).2
            (Invocation.emplace_each rest)).length := by
        omega
      rw [e1]
      exact ⟨i1, i2⟩

theorem ka_alloc_at (hN : N ≤ 65534) (s : keyed_array α N) (n : Nat)
    (h : Inv s (List.range' n (N - n))) (v : α) (m : Nat) (k : versioned_key)
    (hk : (emplace_back s v m).1 = Except.ok k) :
    k.m_index = n ∧ n < N ∧ k.m_meta = m ∧
    k.m_version = s.m_versions n + 1 ∧
    try_get (emplace_back s v m).2 k = some n ∧
    (emplace_back s v m).2.m_data.get n = some v := by
  obtain ⟨r1, r2⟩ := ka_emplace_back_round_trip hN s _ h v m k hk
  rcases ka_emplace_back_cases hN s _ h v m with ⟨⟨e, he⟩, _, _⟩ | ⟨xs, hfl, hok, _, _⟩
  · rw [he] at hk
    cases hk
  · have hpos : 0 < N - n := by
      cases hq : N - n with
      | zero => rw [hq] at hfl; cases hfl
      | succ j => omega
    have hsplit : List.range' n (N - n) = n :: List.range' (n + 1) (N - (n + 1)) := by
      have : N - n = (N - (n + 1)) + 1 := by omega
      rw [this, List.range'_succ]
    rw [hsplit] at hfl
    have hhead : s.m_free_head = n := (List.cons.inj hfl).1.symm
    rw [hok] at hk
    cases hk
    dsimp only at r1 r2 ⊢
    rw [hhead] at r1 r2 ⊢
    exact ⟨rfl, by omega, rfl, rfl, r1, r2⟩

end keyed_array
end nonstd

namespace nonstd
namespace keyed_array

variable {α : Type} {N : Nat}

theorem ka_evaluate_key_checked_eq (s : keyed_array α N) (k : versioned_key) :
    evaluate_key_checked s k = some (evaluate_key s k) := by
  by_cases h : k.m_index ≥ N
  · simp [evaluate_key_checked, evaluate_key, h]
  · have h' : k.m_index < N := by omega
    by_cases h1 : s.m_free k.m_index = slot_full
    · by_cases h2 : k.m_version = s.m_versions k.m_index
      · simp [evaluate_key_checked, evaluate_key, index_checked, h, h', h1, h2]
      · simp [evaluate_key_checked, evaluate_key, index_checked, h, h', h1, h2]
    · simp [evaluate_key_checked, evaluate_key, index_checked, h, h', h1]

theorem ka_try_get_checked_eq (s : keyed_array α N) (k : versioned_key) :
    try_get_checked s k = some (try_get s k) := by
  simp only [try_get_checked, ka_evaluate_key_checked_eq, Option.some_bind]
  cases he : evaluate_key s k with
  | false => simp [try_get, he]
  | true =>
    have hlt : k.m_index < N := ((ka_evaluate_key_iff s k).mp he).1
    simp [try_get, he, index_checked, hlt]

theorem ka_try_remove_checked_eq (s : keyed_array α N) (k : versioned_key) :
    try_remove_checked s k = some (try_remove s k) := by
  simp only [try_remove_checked, ka_evaluate_key_checked_eq, Option.some_bind]
  cases he : evaluate_key s k with
  | false => simp [try_remove, he]
  | true =>
    have hlt : k.m_index < N := ((ka_evaluate_key_iff s k).mp he).1
    simp [try_remove, he, destroy_at_checked, destroy_at, index_checked, hlt]

end keyed_array

namespace slot_array

variable {α : Type} {N : Nat}

theorem resolve_key_checked_eq (s : slot_array α N) (k : versioned_key) :
    resolve_key_checked s k = some (resolve_key s k) := by
  by_cases h : k.m_index ≥ N
  · simp [resolve_key_checked, resolve_key, evaluate_index, h]
  · have h' : k.m_index < N := by omega
    cases he : evaluate_lookup s k (s.m_lookups k.m_index) with
    | false => simp [resolve_key_checked, resolve_key, evaluate_index, index_checked, h, h', he]
    | true => simp [resolve_key_checked, resolve_key, evaluate_index, index_checked, h, h', he]

theorem try_get_checked_eq (s : slot_array α N) (hsz : s.m_size ≤ N) (k : versioned_key) :
    try_get_checked s k = some (try_get s k) := by
  simp only [try_get_checked, resolve_key_checked_eq, Option.some_bind]
  cases hr : resolve_key s k with
  | none => simp [try_get, hr]
  | some c =>
    obtain ⟨hc, _, _, g3, _⟩ := (resolve_key_eq_some s k c).mp hr
    subst hc
    have hlt : (s.m_lookups k.m_index).data_index < N := by omega
    simp [try_get, hr, index_checked, hlt]

theorem try_remove_checked_eq (hN : N ≤ 65535) (s : slot_array α N) (fl : List Nat)
    (h : Inv s fl) (k : versioned_key) :
    try_remove_checked s k = some (try_remove s k) := by
  simp only [try_remove_checked, resolve_key_checked_eq, Option.some_bind]
  cases hr : resolve_key s k with
  | none => simp [try_remove, hr]
  | some c =>
    obtain ⟨q1, q2, q3, q4, q5, q6, q7, q8, q9, q10, q11, q12⟩ := h.resolved hN hr
    have hsz := h.size_le
    have a1 : (s.m_lookups c).data_index < N := by omega
    have a2 : s.m_size - 1 < N := by omega
    have a3 : s.m_erase (s.m_size - 1) < N := q10
    simp only [try_remove, hr, q7, index_checked, a1, a2, a3, if_true, Option.some_bind]

theorem out_of_range_checked (s : slot_array α N) (k : versioned_key) (h : N ≤ k.m_index) :
    resolve_key_checked s k = some none ∧ try_get_checked s k = some none ∧
    try_remove_checked s k = some (false, s) := by
  have hr : resolve_key_checked s k = some none := by
    simp [resolve_key_checked, evaluate_index, h]
  refine ⟨hr, ?_, ?_⟩
  · simp [try_get_checked, hr]
  · simp [try_remove_checked, hr]

end slot_array

namespace keyed_array

variable {α : Type} {N : Nat}

theorem ka_out_of_range_checked (s : keyed_array α N) (k : versioned_key)
    (h : N ≤ k.m_index) :
    evaluate_key_checked s k = some false ∧ try_get_checked s k = some none ∧
    try_remove_checked s k = some (false, s) := by
  have hr : evaluate_key_checked s k = some false := by
    simp [evaluate_key_checked, h]
  refine ⟨hr, ?_, ?_⟩
  · simp [try_get_checked, hr]
  · simp [try_remove_checked, hr]

end keyed_array
end nonstd
namespace nonstd
namespace slot_array

variable {α : Type} {N : Nat}

theorem granted_length_le (calls : List (Invocation α)) :
    ∀ (s : slot_array α N), (granted s calls).length ≤ calls.length := by
  induction calls with
  | nil => intro s; exact Nat.le_refl _
  | cons c cs ih =>
    intro s
    cases c with
    | emplace_back e m =>
      simp only [granted]
      cases hq : (emplace_back_construct s e m).1 with
      | ok k =>
        simp only [List.length_cons]
        exact Nat.succ_le_succ (ih _)
      | error err =>
        simp only [List.length_cons]
        exact Nat.le_succ_of_le (ih _)
    | try_remove key =>
      simp only [granted, List.length_cons]
      exact Nat.le_succ_of_le (ih _)
    | clear =>
      simp only [granted, List.length_cons]
      exact Nat.le_succ_of_le (ih _)

theorem iterate_attempts (hN : N ≤ 65535) (pre : List (Option α × Nat)) :
    ∀ (s : slot_array α N) (fl : List Nat), Inv s fl →
      (granted s (Invocation.emplace_each pre)).length = pre.length →
      iterate (perform_all s (Invocation.emplace_each pre))
        = iterate s ++ pre.map (fun a => a.1) := by
  induction pre with
  | nil => intro s fl _ _; simp [Invocation.emplace_each, perform_all]
  | cons a rest ih =>
    intro s fl h hlen
    have hcons : Invocation.emplace_each (a :: rest)
        = Invocation.emplace_back a.1 a.2 :: Invocation.emplace_each rest := rfl
    have hrest : (Invocation.emplace_each rest).length = rest.length := by
      simp [Invocation.emplace_each]
    rw [hcons] at hlen ⊢
    have hrun : perform_all s (Invocation.emplace_back a.1 a.2 :: Invocation.emplace_each rest)
        = perform_all (emplace_back_construct s a.1 a.2).2 (Invocation.emplace_each rest) := rfl
    rw [hrun]
    have hle := granted_length_le (Invocation.emplace_each rest)
      (emplace_back_construct s a.1 a.2).2
    rw [hrest] at hle
    cases hq : (emplace_back_construct s a.1 a.2).1 with
    | error err =>
      simp only [granted, hq, List.length_cons] at hlen
      omega
    | ok k =>
      simp only [granted, hq, List.length_cons] at hlen
      obtain ⟨v, hv, hok, heq⟩ := construct_ok_some s a.1 a.2 k hq
      obtain ⟨fl1, h1⟩ := Inv_construct hN s fl h a.1 a.2
      rw [ih _ fl1 h1 (by omega), heq, (valid_after_emplace hN s fl h v a.2 k hok).2]
      simp [hv]

end slot_array
end nonstd

/-! ## The claims -/

namespace nonstd

/-- C1: stale-key detection of `slot_array`.  Let a key `k` be removed successfully
from a state reached from a fresh pool by any calls, and let any further calls follow
in which no slot generation wraps around.  Then `try_get(k)` is null right after the
removal and after the further calls, `try_remove(k)` returns false there and changes
nothing, and when a later `emplace_back` succeeds with a new key (in particular one
that reuses the slot of `k`), the new key resolves and `k` still does not. -/
theorem C1_slot_array_stale_key {α : Type} {N : Nat} (hN : N ≤ 65535)
    (calls₁ calls₂ : List (Call α)) (k : versioned_key)
    (hrem : (((slot_array.ctor : slot_array α N).run calls₁).try_remove k).1 = true)
    (hnw : (((slot_array.ctor : slot_array α N).run calls₁).try_remove k).2.no_wrap calls₂
      = true) :
    (((slot_array.ctor : slot_array α N).run calls₁).try_remove k).2.try_get k = none ∧
    ((((slot_array.ctor : slot_array α N).run calls₁).try_remove k).2.run calls₂).try_get k
      = none ∧
    ((((slot_array.ctor : slot_array α N).run calls₁).try_remove k).2.run calls₂).try_remove k
      = (false, (((slot_array.ctor : slot_array α N).run calls₁).try_remove k).2.run calls₂) ∧
    ∀ (v : α) (m : Nat) (k' : versioned_key),
      (((((slot_array.ctor : slot_array α N).run calls₁).try_remove k).2.run
        calls₂).emplace_back v m).1 = Except.ok k' →
      (∃ p, (((((slot_array.ctor : slot_array α N).run calls₁).try_remove k).2.run
        calls₂).emplace_back v m).2.try_get k' = some p) ∧
      (((((slot_array.ctor : slot_array α N).run calls₁).try_remove k).2.run
        calls₂).emplace_back v m).2.try_get k = none := by
  obtain ⟨fl0, h0⟩ := slot_array.Inv_reachable (α := α) hN calls₁
  obtain ⟨fl1, h1, s1⟩ := slot_array.stale_after_remove hN _ fl0 h0 k hrem
  obtain ⟨fl2, h2, s2⟩ := slot_array.stale_run hN k calls₂ _ fl1 h1 s1 hnw
  refine ⟨?_, ?_, ?_, ?_⟩
  · exact (slot_array.try_get_eq_none _ _).mpr (s1.unresolved h1)
  · exact (slot_array.try_get_eq_none _ _).mpr (s2.unresolved h2)
  · exact slot_array.try_remove_none _ _ (s2.unresolved h2)
  · intro v m k' hk
    refine ⟨⟨_, (slot_array.emplace_back_round_trip hN _ fl2 h2 v m k' hk).1⟩, ?_⟩
    have hw : slot_array.wraps ((((slot_array.ctor : slot_array α N).run calls₁).try_remove
        k).2.run calls₂) (Call.emplace_back v m) = false := by
      simp only [slot_array.wraps, hk]
    obtain ⟨fl3, h3, s3⟩ := slot_array.stale_step hN _ fl2 h2 k s2 (Call.emplace_back v m) hw
    exact (slot_array.try_get_eq_none _ _).mpr (s3.unresolved h3)

/-- Witness of C1: capacity 1, key A from the first insert, remove A, a second insert
reuses the slot; A stays unresolved. -/
theorem C1_slot_array_stale_key_witness :
    ((((slot_array.ctor : slot_array Nat 1).run [Call.emplace_back 10 0]).try_remove
      { m_version := 1, m_index := 0, m_meta := 0 }).2.run
        [Call.emplace_back 20 0]).try_get { m_version := 1, m_index := 0, m_meta := 0 }
      = none :=
  (C1_slot_array_stale_key (α := Nat) (N := 1) (by decide) [Call.emplace_back 10 0]
    [Call.emplace_back 20 0] { m_version := 1, m_index := 0, m_meta := 0 }
    (by decide) (by decide)).2.1

/-- C2: stale-key detection of `keyed_array`.  Let a key `k` be removed successfully
from a state reached from a fresh pool by any calls, and let any further calls follow
in which no slot generation wraps around.  Then `try_get(k)` is null right after the
removal and after the further calls, `try_remove(k)` returns false there and changes
nothing, and when a later `emplace_back` succeeds with a new key (in particular one
that reuses the slot of `k`), the new key resolves and `k` does not: the two are never
both valid. -/
theorem C2_keyed_array_stale_key {α : Type} {N : Nat} (hN : N ≤ 65534)
    (calls₁ calls₂ : List (Call α)) (k : versioned_key)
    (hrem : (((keyed_array.ctor : keyed_array α N).run calls₁).try_remove k).1 = true)
    (hnw : (((keyed_array.ctor : keyed_array α N).run calls₁).try_remove k).2.no_wrap calls₂
      = true) :
    (((keyed_array.ctor : keyed_array α N).run calls₁).try_remove k).2.try_get k = none ∧
    ((((keyed_array.ctor : keyed_array α N).run calls₁).try_remove k).2.run calls₂).try_get k
      = none ∧
    ((((keyed_array.ctor : keyed_array α N).run calls₁).try_remove k).2.run calls₂).try_remove k
      = (false, (((keyed_array.ctor : keyed_array α N).run calls₁).try_remove k).2.run calls₂) ∧
    ∀ (v : α) (m : Nat) (k' : versioned_key),
      (((((keyed_array.ctor : keyed_array α N).run calls₁).try_remove k).2.run
        calls₂).emplace_back v m).1 = Except.ok k' →
      (∃ p, (((((keyed_array.ctor : keyed_array α N).run calls₁).try_remove k).2.run
        calls₂).emplace_back v m).2.try_get k' = some p) ∧
      (((((keyed_array.ctor : keyed_array α N).run calls₁).try_remove k).2.run
        calls₂).emplace_back v m).2.try_get k = none := by
  obtain ⟨fl0, h0⟩ := keyed_array.ka_Inv_reachable (α := α) hN calls₁
  obtain ⟨fl1, h1, s1⟩ := keyed_array.ka_stale_after_remove hN _ fl0 h0 k hrem
  obtain ⟨fl2, h2, s2⟩ := keyed_array.ka_stale_run hN k calls₂ _ fl1 h1 s1 hnw
  refine ⟨?_, ?_, ?_, ?_⟩
  · exact (keyed_array.ka_try_get_eq_none _ _).mpr (s1.ka_unresolved h1)
  · exact (keyed_array.ka_try_get_eq_none _ _).mpr (s2.ka_unresolved h2)
  · exact keyed_array.ka_try_remove_false _ _ (s2.ka_unresolved h2)
  · intro v m k' hk
    refine ⟨⟨_, (keyed_array.ka_emplace_back_round_trip hN _ fl2 h2 v m k' hk).1⟩, ?_⟩
    have hw : keyed_array.wraps ((((keyed_array.ctor : keyed_array α N).run calls₁).try_remove
        k).2.run calls₂) (Call.emplace_back v m) = false := by
      simp only [keyed_array.wraps, hk]
    obtain ⟨fl3, h3, s3⟩ := keyed_array.ka_stale_step hN _ fl2 h2 k s2 (Call.emplace_back v m) hw
    exact (keyed_array.ka_try_get_eq_none _ _).mpr (s3.ka_unresolved h3)

/-- Witness of C2: capacity 1, key A from the first insert, remove A, a second insert
reuses the slot; A stays unresolved. -/
theorem C2_keyed_array_stale_key_witness :
    ((((keyed_array.ctor : keyed_array Nat 1).run [Call.emplace_back 10 0]).try_remove
      { m_version := 1, m_index := 0, m_meta := 0 }).2.run
        [Call.emplace_back 20 0]).try_get { m_version := 1, m_index := 0, m_meta := 0 }
      = none :=
  (C2_keyed_array_stale_key (α := Nat) (N := 1) (by decide) [Call.emplace_back 10 0]
    [Call.emplace_back 20 0] { m_version := 1, m_index := 0, m_meta := 0 }
    (by decide) (by decide)).2.1

/-- C6: insert/lookup round trip of `slot_array`.  In every reachable state in which
`emplace_back(v, meta)` succeeds with key `k`, `try_get(k)` in the resulting state is
non-null, designates the data position equal to the size before the call, and the
element stored there is `v`. -/
theorem C6_slot_array_round_trip {α : Type} {N : Nat} (hN : N ≤ 65535)
    (calls : List (Call α)) (v : α) (m : Nat) (k : versioned_key)
    (hk : (((slot_array.ctor : slot_array α N).run calls).emplace_back v m).1 = Except.ok k) :
    (((slot_array.ctor : slot_array α N).run calls).emplace_back v m).2.try_get k
      = some ((slot_array.ctor : slot_array α N).run calls).size ∧
    (((slot_array.ctor : slot_array α N).run calls).emplace_back v m).2.m_data.get
      ((slot_array.ctor : slot_array α N).run calls).size = some v := by
  obtain ⟨fl, h⟩ := slot_array.Inv_reachable (α := α) hN calls
  exact slot_array.emplace_back_round_trip hN _ fl h v m k hk

/-- Witness of C6: the third insert into a pool of capacity 3. -/
theorem C6_slot_array_round_trip_witness :
    (((slot_array.ctor : slot_array Nat 3).run
      [Call.emplace_back 10 0, Call.emplace_back 20 0]).emplace_back 30 7).2.try_get
        { m_version := 1, m_index := 2, m_meta := 7 } = some 2 :=
  (C6_slot_array_round_trip (α := Nat) (N := 3) (by decide)
    [Call.emplace_back 10 0, Call.emplace_back 20 0] 30 7
    { m_version := 1, m_index := 2, m_meta := 7 } rfl).1

/-- C7: insert/lookup round trip of `keyed_array`.  In every reachable state in which
`emplace_back(v, meta)` succeeds with key `k`, `try_get(k)` in the resulting state is
non-null (it designates the cell of the key's slot) and the element stored there is
`v`. -/
theorem C7_keyed_array_round_trip {α : Type} {N : Nat} (hN : N ≤ 65534)
    (calls : List (Call α)) (v : α) (m : Nat) (k : versioned_key)
    (hk : (((keyed_array.ctor : keyed_array α N).run calls).emplace_back v m).1 = Except.ok k) :
    (((keyed_array.ctor : keyed_array α N).run calls).emplace_back v m).2.try_get k
      = some k.m_index ∧
    (((keyed_array.ctor : keyed_array α N).run calls).emplace_back v m).2.m_data.get
      k.m_index = some v := by
  obtain ⟨fl, h⟩ := keyed_array.ka_Inv_reachable (α := α) hN calls
  exact keyed_array.ka_emplace_back_round_trip hN _ fl h v m k hk

/-- Witness of C7: the third insert into a pool of capacity 3. -/
theorem C7_keyed_array_round_trip_witness :
    (((keyed_array.ctor : keyed_array Nat 3).run
      [Call.emplace_back 10 0, Call.emplace_back 20 0]).emplace_back 30 7).2.m_data.get 2
        = some 30 :=
  (C7_keyed_array_round_trip (α := Nat) (N := 3) (by decide)
    [Call.emplace_back 10 0, Call.emplace_back 20 0] 30 7
    { m_version := 1, m_index := 2, m_meta := 7 } rfl).2

end nonstd

namespace nonstd

/-- C8: capacity of `keyed_array`.  In every reachable state `full()` is true exactly
when all `N` slots are occupied, and `emplace_back` throws `std::out_of_range` exactly
when `full()` is true.  After `N` successive successful inserts, from any reachable
state, the pool is full and a further insert throws `std::out_of_range`.  `N` inserts
into a fresh pool do all succeed; for `N = 0` the fresh pool is already full. -/
theorem C8_keyed_array_capacity {α : Type} {N : Nat} (hN : N ≤ 65534) :
    (∀ calls : List (Call α),
      (((keyed_array.ctor : keyed_array α N).run calls).full = true ↔
        ∀ i, i < N →
          ((keyed_array.ctor : keyed_array α N).run calls).m_free i = keyed_array.slot_full) ∧
      ∀ (v : α) (m : Nat),
        ((((keyed_array.ctor : keyed_array α N).run calls).emplace_back v m).1
            = Except.error error.out_of_range ↔
          ((keyed_array.ctor : keyed_array α N).run calls).full = true)) ∧
    (∀ (calls : List (Call α)) (args : List (α × Nat)), args.length = N →
      (∀ r ∈ (((keyed_array.ctor : keyed_array α N).run calls).emplace_all args).1,
        ∃ k, r = Except.ok k) →
      (((keyed_array.ctor : keyed_array α N).run calls).emplace_all args).2.full = true ∧
      ∀ (v : α) (m : Nat),
        ((((keyed_array.ctor : keyed_array α N).run calls).emplace_all args).2.emplace_back
          v m).1 = Except.error error.out_of_range) ∧
    (∀ args : List (α × Nat), args.length = N →
      (∀ r ∈ ((keyed_array.ctor : keyed_array α N).emplace_all args).1, ∃ k, r = Except.ok k) ∧
      ((keyed_array.ctor : keyed_array α N).emplace_all args).1.length = N ∧
      ((keyed_array.ctor : keyed_array α N).emplace_all args).2.full = true ∧
      ∀ (v : α) (m : Nat),
        (((keyed_array.ctor : keyed_array α N).emplace_all args).2.emplace_back v m).1
          = Except.error error.out_of_range) ∧
    (N = 0 → (keyed_array.ctor : keyed_array α N).full = true) := by
  refine ⟨?_, ?_, ?_, ?_⟩
  · intro calls
    obtain ⟨fl, h⟩ := keyed_array.ka_Inv_reachable (α := α) hN calls
    exact ⟨h.ka_full_iff hN, fun v m => keyed_array.ka_emplace_back_out_of_range_iff _ v m⟩
  · intro calls args hlen hok
    obtain ⟨fl, h⟩ := keyed_array.ka_Inv_reachable (α := α) hN calls
    obtain ⟨q1, q2⟩ := keyed_array.ka_emplace_all_pops hN args _ fl h hok
    have hle := h.ka_length_le
    have hnil : fl.drop args.length = [] := List.drop_eq_nil_of_le (by omega)
    rw [hnil] at q2
    have hfull : (((keyed_array.ctor : keyed_array α N).run calls).emplace_all args).2.full
        = true := by
      unfold keyed_array.full
      rw [beq_iff_eq]
      exact q2.chain
    exact ⟨hfull, fun v m => (keyed_array.ka_emplace_back_out_of_range_iff _ v m).mpr hfull⟩
  · intro args hlen
    obtain ⟨q1, q2, q3⟩ := keyed_array.ka_emplace_all_ok hN args (keyed_array.ctor : keyed_array α N)
      (List.range N) (keyed_array.ka_Inv_ctor hN)
      (by intro x _; rw [keyed_array.ka_ctor_version]; decide) (by simp [hlen])
    have hnil : (List.range N).drop args.length = [] := by simp [hlen]
    rw [hnil] at q3
    have hfull : ((keyed_array.ctor : keyed_array α N).emplace_all args).2.full = true := by
      unfold keyed_array.full
      rw [beq_iff_eq]
      exact q3.chain
    refine ⟨q1, by omega, hfull, fun v m => ?_⟩
    exact (keyed_array.ka_emplace_back_out_of_range_iff _ v m).mpr hfull
  · intro h0
    subst h0
    rfl

/-- Witness of C8: capacity 2; after two inserts a third throws `std::out_of_range`. -/
theorem C8_keyed_array_capacity_witness :
    (((keyed_array.ctor : keyed_array Nat 2).emplace_all [(10, 0), (20, 0)]).2.emplace_back
      30 0).1 = Except.error error.out_of_range :=
  ((C8_keyed_array_capacity (α := Nat) (N := 2) (by decide)).2.2.1 [(10, 0), (20, 0)]
    rfl).2.2.2 30 0

/-- C9: capacity of `slot_array`.  In every reachable state the free-list head is
`invalid_index` exactly when `size() == N`, and `emplace_back` throws
`std::out_of_range` exactly when `size() == N`.  After `N` successive successful
inserts, from any reachable state, `size() == N` and a further insert throws
`std::out_of_range`.  `N` inserts into a fresh pool do all succeed. -/
theorem C9_slot_array_capacity {α : Type} {N : Nat} (hN : N ≤ 65535) :
    (∀ calls : List (Call α),
      (((slot_array.ctor : slot_array α N).run calls).m_free_head = slot_array.invalid_index ↔
        ((slot_array.ctor : slot_array α N).run calls).size = N) ∧
      ∀ (v : α) (m : Nat),
        ((((slot_array.ctor : slot_array α N).run calls).emplace_back v m).1
            = Except.error error.out_of_range ↔
          ((slot_array.ctor : slot_array α N).run calls).size = N)) ∧
    (∀ (calls : List (Call α)) (args : List (α × Nat)), args.length = N →
      (∀ r ∈ (((slot_array.ctor : slot_array α N).run calls).emplace_all args).1,
        ∃ k, r = Except.ok k) →
      (((slot_array.ctor : slot_array α N).run calls).emplace_all args).2.size = N ∧
      ∀ (v : α) (m : Nat),
        ((((slot_array.ctor : slot_array α N).run calls).emplace_all args).2.emplace_back
          v m).1 = Except.error error.out_of_range) ∧
    (∀ args : List (α × Nat), args.length = N →
      (∀ r ∈ ((slot_array.ctor : slot_array α N).emplace_all args).1, ∃ k, r = Except.ok k) ∧
      ((slot_array.ctor : slot_array α N).emplace_all args).1.length = N ∧
      ((slot_array.ctor : slot_array α N).emplace_all args).2.size = N ∧
      ∀ (v : α) (m : Nat),
        (((slot_array.ctor : slot_array α N).emplace_all args).2.emplace_back v m).1
          = Except.error error.out_of_range) := by
  refine ⟨?_, ?_, ?_⟩
  · intro calls
    obtain ⟨fl, h⟩ := slot_array.Inv_reachable (α := α) hN calls
    refine ⟨h.head_invalid_iff hN, fun v m => ?_⟩
    rw [slot_array.emplace_back_out_of_range_iff]
    exact h.head_invalid_iff hN
  · intro calls args hlen hok
    obtain ⟨fl, h⟩ := slot_array.Inv_reachable (α := α) hN calls
    obtain ⟨q1, q2⟩ := slot_array.emplace_all_pops hN args _ fl h hok
    have hle := h.size_add
    have hnil : fl.drop args.length = [] := List.drop_eq_nil_of_le (by omega)
    rw [hnil] at q2
    have hsize : (((slot_array.ctor : slot_array α N).run calls).emplace_all args).2.size
        = N := by
      have := q2.size_add
      simpa [slot_array.size] using this
    refine ⟨hsize, fun v m => ?_⟩
    rw [slot_array.emplace_back_out_of_range_iff]
    exact (q2.head_invalid_iff hN).mpr hsize
  · intro args hlen
    obtain ⟨q1, q2, q3⟩ := slot_array.emplace_all_ok hN args (slot_array.ctor : slot_array α N)
      (List.range N) (slot_array.Inv_ctor hN)
      (by intro x _; rw [slot_array.ctor_version]; decide) (by simp [hlen])
    have hnil : (List.range N).drop args.length = [] := by simp [hlen]
    rw [hnil] at q3
    have hsize : ((slot_array.ctor : slot_array α N).emplace_all args).2.size = N := by
      have := q3.size_add
      simpa [slot_array.size] using this
    refine ⟨q1, by omega, hsize, fun v m => ?_⟩
    rw [slot_array.emplace_back_out_of_range_iff]
    exact (q3.head_invalid_iff hN).mpr hsize

/-- Witness of C9: capacity 2; after two inserts a third throws `std::out_of_range`. -/
theorem C9_slot_array_capacity_witness :
    (((slot_array.ctor : slot_array Nat 2).emplace_all [(10, 0), (20, 0)]).2.emplace_back
      30 0).1 = Except.error error.out_of_range :=
  ((C9_slot_array_capacity (α := Nat) (N := 2) (by decide)).2.2 [(10, 0), (20, 0)]
    rfl).2.2.2 30 0

/-- C10: the null key is never valid.  In every reachable state of `keyed_array` and of
`slot_array`, a key whose version is 0 (any index, any meta) does not resolve:
`try_get` returns null and `try_remove` returns false and changes nothing.
Equivalently, every key that resolves has version at least 1, equal to the generation
of its slot. -/
theorem C10_null_key_never_valid {α : Type} {N M : Nat} (hN : N ≤ 65534) (hM : M ≤ 65535)
    (calls : List (Call α)) :
    (∀ key : versioned_key, key.is_null = true →
      ((keyed_array.ctor : keyed_array α N).run calls).try_get key = none ∧
      ((keyed_array.ctor : keyed_array α N).run calls).try_remove key
        = (false, (keyed_array.ctor : keyed_array α N).run calls) ∧
      ((slot_array.ctor : slot_array α M).run calls).try_get key = none ∧
      ((slot_array.ctor : slot_array α M).run calls).try_remove key
        = (false, (slot_array.ctor : slot_array α M).run calls)) ∧
    (∀ (key : versioned_key) (p : Nat),
      ((keyed_array.ctor : keyed_array α N).run calls).try_get key = some p →
        1 ≤ key.m_version ∧
        ((keyed_array.ctor : keyed_array α N).run calls).m_versions key.m_index
          = key.m_version) ∧
    (∀ (key : versioned_key) (p : Nat),
      ((slot_array.ctor : slot_array α M).run calls).try_get key = some p →
        1 ≤ key.m_version ∧
        (((slot_array.ctor : slot_array α M).run calls).m_lookups key.m_index).version
          = key.m_version) := by
  obtain ⟨flk, hk⟩ := keyed_array.ka_Inv_reachable (α := α) hN calls
  obtain ⟨fls, hs⟩ := slot_array.Inv_reachable (α := α) hM calls
  have keyed : ∀ (key : versioned_key) (p : Nat),
      ((keyed_array.ctor : keyed_array α N).run calls).try_get key = some p →
        1 ≤ key.m_version ∧
        ((keyed_array.ctor : keyed_array α N).run calls).m_versions key.m_index
          = key.m_version := by
    intro key p hp
    obtain ⟨he, _⟩ := (keyed_array.ka_try_get_eq_some _ key p).mp hp
    obtain ⟨h1, h2, h3⟩ := (keyed_array.ka_evaluate_key_iff _ key).mp he
    have := hk.version_pos key.m_index h1 ((hk.occupied _ h1).mp h2)
    exact ⟨by omega, h3.symm⟩
  have slot : ∀ (key : versioned_key) (p : Nat),
      ((slot_array.ctor : slot_array α M).run calls).try_get key = some p →
        1 ≤ key.m_version ∧
        (((slot_array.ctor : slot_array α M).run calls).m_lookups key.m_index).version
          = key.m_version := by
    intro key p hp
    obtain ⟨h1, _, h3, h4, _⟩ := (slot_array.try_get_eq_some _ key p).mp hp
    have hfl : key.m_index ∉ fls := by
      intro hc
      have := hs.free_ge _ hc
      omega
    have := hs.version_pos key.m_index h1 hfl
    exact ⟨by omega, h4⟩
  refine ⟨?_, keyed, slot⟩
  intro key hnull
  have hv : key.m_version = 0 := by simpa [versioned_key.is_null] using hnull
  have e1 : ((keyed_array.ctor : keyed_array α N).run calls).try_get key = none := by
    cases hg : ((keyed_array.ctor : keyed_array α N).run calls).try_get key with
    | none => rfl
    | some p => have := (keyed _ _ hg).1; omega
  have e2 : ((slot_array.ctor : slot_array α M).run calls).try_get key = none := by
    cases hg : ((slot_array.ctor : slot_array α M).run calls).try_get key with
    | none => rfl
    | some p => have := (slot _ _ hg).1; omega
  exact ⟨e1, keyed_array.ka_try_remove_false _ _ ((keyed_array.ka_try_get_eq_none _ _).mp e1),
    e2, slot_array.try_remove_none _ _ ((slot_array.try_get_eq_none _ _).mp e2)⟩

/-- Witness of C10: the default key does not resolve in populated pools of capacity 2. -/
theorem C10_null_key_never_valid_witness :
    ((slot_array.ctor : slot_array Nat 2).run
      [Call.emplace_back 10 0, Call.emplace_back 20 0]).try_get
        { m_version := 0, m_index := 0, m_meta := 0 } = none :=
  ((C10_null_key_never_valid (α := Nat) (N := 2) (M := 2) (by decide) (by decide)
    [Call.emplace_back 10 0, Call.emplace_back 20 0]).1
      { m_version := 0, m_index := 0, m_meta := 0 } rfl).2.2.1

end nonstd

namespace nonstd

/-- C3: dense packing invariant of `slot_array`.  In every reachable state, with
`size() = k <= N`: the iteration range yields exactly the `k` cells at data positions
`0 .. k-1`, each of them constructed, and no cell at a position `>= k` is constructed;
for every position `p < k`, `m_erase[p]` is a slot `s < N` with
`m_lookups[s].data_index = p`, and the key of that slot with its current generation
resolves to `p`; every key that resolves, resolves to a position `p < k` whose
`m_erase[p]` is the key's slot; and two keys that resolve to the same position have
the same slot index and the same version (they differ at most in the opaque meta
tag). -/
theorem C3_slot_array_dense_packing {α : Type} {N : Nat} (hN : N ≤ 65535)
    (calls : List (Call α)) :
    ((slot_array.ctor : slot_array α N).run calls).size ≤ N ∧
    ((slot_array.ctor : slot_array α N).run calls).iterate.length
      = ((slot_array.ctor : slot_array α N).run calls).size ∧
    (∀ p, p < ((slot_array.ctor : slot_array α N).run calls).size →
      ∃ v, ((slot_array.ctor : slot_array α N).run calls).m_data.get p = some v ∧
        ((slot_array.ctor : slot_array α N).run calls).iterate[p]? = some (some v)) ∧
    (∀ p, ((slot_array.ctor : slot_array α N).run calls).size ≤ p →
      ((slot_array.ctor : slot_array α N).run calls).m_data.get p = none) ∧
    (∀ p, p < ((slot_array.ctor : slot_array α N).run calls).size →
      ((slot_array.ctor : slot_array α N).run calls).m_erase p < N ∧
      (((slot_array.ctor : slot_array α N).run calls).m_lookups
        (((slot_array.ctor : slot_array α N).run calls).m_erase p)).data_index = p ∧
      ∀ m, ((slot_array.ctor : slot_array α N).run calls).try_get
        { m_version := (((slot_array.ctor : slot_array α N).run calls).m_lookups
            (((slot_array.ctor : slot_array α N).run calls).m_erase p)).version
          m_index := ((slot_array.ctor : slot_array α N).run calls).m_erase p
          m_meta := m } = some p) ∧
    (∀ (key : versioned_key) (p : Nat),
      ((slot_array.ctor : slot_array α N).run calls).try_get key = some p →
        p < ((slot_array.ctor : slot_array α N).run calls).size ∧
        ((slot_array.ctor : slot_array α N).run calls).m_erase p = key.m_index) ∧
    (∀ (k₁ k₂ : versioned_key) (p : Nat),
      ((slot_array.ctor : slot_array α N).run calls).try_get k₁ = some p →
      ((slot_array.ctor : slot_array α N).run calls).try_get k₂ = some p →
        k₁.m_index = k₂.m_index ∧ k₁.m_version = k₂.m_version) := by
  obtain ⟨fl, h⟩ := slot_array.Inv_reachable (α := α) hN calls
  generalize (slot_array.ctor : slot_array α N).run calls = s at h
  have hsz := h.size_le
  have hkey : ∀ (key : versioned_key) (p : Nat), s.try_get key = some p →
      p < s.size ∧ s.m_erase p = key.m_index ∧
      (s.m_lookups key.m_index).version = key.m_version := by
    intro key p hp
    obtain ⟨g1, _, g3, g4, g5⟩ := (slot_array.try_get_eq_some s key p).mp hp
    have hfl : key.m_index ∉ fl := by
      intro hc
      have := h.free_ge _ hc
      omega
    obtain ⟨_, o2⟩ := h.occupied _ g1 hfl
    rw [g5]
    exact ⟨g3, o2, g4⟩
  refine ⟨hsz, by simp [slot_array.iterate, slot_array.size], ?_, ?_, ?_, ?_, ?_⟩
  · intro p hp
    have hc := (h.constructed p).mpr hp
    obtain ⟨v, hv⟩ := Option.isSome_iff_exists.mp hc
    refine ⟨v, hv, ?_⟩
    simp only [slot_array.size] at hp
    simp [slot_array.iterate, List.getElem?_range hp, raw_buffer.get, hv]
  · intro p hp
    simp only [slot_array.size] at hp
    cases hq : s.m_data.m_data p with
    | none => exact hq
    | some v =>
      have := (h.constructed p).mp (by rw [hq]; rfl)
      omega
  · intro p hp
    obtain ⟨q1, q2⟩ := h.erase_ok p hp
    refine ⟨q1, q2, fun m => ?_⟩
    rw [slot_array.try_get_eq_some]
    simp only [slot_array.size] at hp
    dsimp only
    rw [q2, slot_array.invalid_index_eq]
    exact ⟨q1, by omega, hp, rfl, rfl⟩
  · intro key p hp
    exact ⟨(hkey key p hp).1, (hkey key p hp).2.1⟩
  · intro k₁ k₂ p h1 h2
    obtain ⟨_, a2, a3⟩ := hkey k₁ p h1
    obtain ⟨_, b2, b3⟩ := hkey k₂ p h2
    have e : k₁.m_index = k₂.m_index := a2.symm.trans b2
    refine ⟨e, ?_⟩
    rw [← a3, ← b3, e]

/-- Witness of C3: a pool of capacity 3 after three inserts and the removal of the
first key. -/
theorem C3_slot_array_dense_packing_witness :
    ((slot_array.ctor : slot_array Nat 3).run
      [Call.emplace_back 10 0, Call.emplace_back 20 0, Call.emplace_back 30 0,
        Call.try_remove { m_version := 1, m_index := 0, m_meta := 0 }]).iterate.length
    = ((slot_array.ctor : slot_array Nat 3).run
      [Call.emplace_back 10 0, Call.emplace_back 20 0, Call.emplace_back 30 0,
        Call.try_remove { m_version := 1, m_index := 0, m_meta := 0 }]).size :=
  (C3_slot_array_dense_packing (α := Nat) (N := 3) (by decide)
    [Call.emplace_back 10 0, Call.emplace_back 20 0, Call.emplace_back 30 0,
      Call.try_remove { m_version := 1, m_index := 0, m_meta := 0 }]).2.1

/-- C4: effect of swap-remove on the packed sequence.  Let a reachable `slot_array`
hold `d_0 .. d_{k-1}` at data positions `0 .. k-1` and let `key` resolve to position
`c`.  Then `try_remove(key)` returns true, the size becomes `k-1`, every position
`i < k-1` holds `d_{k-1}` if `i = c` and `d_i` otherwise (so for `c = k-1` the
sequence is `d_0 .. d_{k-2}`), the old tail cell `k-1` held an element and is the one
cell that is destroyed while every other cell keeps its construction state, and the
iterated values before the call are a permutation of the removed value followed by
the iterated values after it. -/
theorem C4_slot_array_swap_remove {α : Type} {N : Nat} (hN : N ≤ 65535)
    (calls : List (Call α)) (key : versioned_key) (c : Nat)
    (hres : ((slot_array.ctor : slot_array α N).run calls).try_get key = some c) :
    (((slot_array.ctor : slot_array α N).run calls).try_remove key).1 = true ∧
    (((slot_array.ctor : slot_array α N).run calls).try_remove key).2.size + 1
      = ((slot_array.ctor : slot_array α N).run calls).size ∧
    (∀ i, i < ((slot_array.ctor : slot_array α N).run calls).size - 1 →
      (((slot_array.ctor : slot_array α N).run calls).try_remove key).2.m_data.get i
        = if i = c then ((slot_array.ctor : slot_array α N).run calls).m_data.get
            (((slot_array.ctor : slot_array α N).run calls).size - 1)
          else ((slot_array.ctor : slot_array α N).run calls).m_data.get i) ∧
    (∃ v, ((slot_array.ctor : slot_array α N).run calls).m_data.get
      (((slot_array.ctor : slot_array α N).run calls).size - 1) = some v) ∧
    (((slot_array.ctor : slot_array α N).run calls).try_remove key).2.m_data.get
      (((slot_array.ctor : slot_array α N).run calls).size - 1) = none ∧
    (∀ i, i ≠ ((slot_array.ctor : slot_array α N).run calls).size - 1 →
      ((((slot_array.ctor : slot_array α N).run calls).try_remove key).2.m_data.get i).isSome
        = (((slot_array.ctor : slot_array α N).run calls).m_data.get i).isSome) ∧
    List.Perm ((slot_array.ctor : slot_array α N).run calls).iterate
      (((slot_array.ctor : slot_array α N).run calls).m_data.get c ::
        (((slot_array.ctor : slot_array α N).run calls).try_remove key).2.iterate) := by
  obtain ⟨fl, h⟩ := slot_array.Inv_reachable (α := α) hN calls
  generalize (slot_array.ctor : slot_array α N).run calls = s at h hres
  obtain ⟨g1, g2, g3, g4, g5⟩ := (slot_array.try_get_eq_some s key c).mp hres
  have hr : s.resolve_key key = some key.m_index :=
    (slot_array.resolve_key_eq_some s key _).mpr ⟨rfl, g1, g2, g3, g4⟩
  have hsz := h.size_le
  have hcell : ∀ i, (s.try_remove key).2.m_data.get i
      = if i = s.m_size - 1 then none
        else if i = c then s.m_data.get (s.m_size - 1) else s.m_data.get i := by
    intro i
    rw [slot_array.try_remove_spec hN s fl h key _ hr, g5]
    rfl
  have hsize : (s.try_remove key).2.m_size = s.m_size - 1 := by
    rw [slot_array.try_remove_spec hN s fl h key _ hr]
  have hlow : ∀ i, i < s.m_size - 1 → (s.try_remove key).2.m_data.get i
      = if i = c then s.m_data.get (s.m_size - 1) else s.m_data.get i := by
    intro i hi
    have : i ≠ s.m_size - 1 := by omega
    rw [hcell i]
    simp only [this, if_false]
  have htail : (s.m_data.m_data (s.m_size - 1)).isSome = true :=
    (h.constructed _).mpr (by omega)
  have hcc : (s.m_data.m_data c).isSome = true := (h.constructed _).mpr (by omega)
  simp only [slot_array.size]
  refine ⟨?_, ?_, hlow, Option.isSome_iff_exists.mp htail, ?_, ?_, ?_⟩
  · rw [slot_array.try_remove_fst, hr]; rfl
  · rw [hsize]; omega
  · rw [hcell]; simp
  · intro i hi
    rw [hcell i]
    simp only [hi, if_false]
    by_cases hic : i = c
    · simp only [hic, if_true, raw_buffer.get]
      rw [htail, hcc]
    · simp only [hic, if_false]
  · rw [slot_array.iterate_eq, slot_array.iterate_eq, hsize]
    exact slot_array.iterate_remove_perm _ _ s.m_size c (by omega) (by omega) hlow

/-- Witness of C4 (scenario B): a pool of capacity 3 holding `[10, 20, 30]`; removing
the key of `10` leaves `[30, 20]`, whose sum is 50. -/
theorem C4_slot_array_swap_remove_witness :
    List.Perm [some 10, some 20, some 30]
      (some 10 :: (((slot_array.ctor : slot_array Nat 3).run
        [Call.emplace_back 10 0, Call.emplace_back 20 0, Call.emplace_back 30 0]).try_remove
          { m_version := 1, m_index := 0, m_meta := 0 }).2.iterate) ∧
    (((slot_array.ctor : slot_array Nat 3).run
      [Call.emplace_back 10 0, Call.emplace_back 20 0, Call.emplace_back 30 0]).try_remove
        { m_version := 1, m_index := 0, m_meta := 0 }).2.iterate = [some 30, some 20] ∧
    ((((slot_array.ctor : slot_array Nat 3).run
      [Call.emplace_back 10 0, Call.emplace_back 20 0, Call.emplace_back 30 0]).try_remove
        { m_version := 1, m_index := 0, m_meta := 0 }).2.iterate.map
          (fun o => o.getD 0)).sum = 50 :=
  ⟨(C4_slot_array_swap_remove (α := Nat) (N := 3) (by decide)
    [Call.emplace_back 10 0, Call.emplace_back 20 0, Call.emplace_back 30 0]
    { m_version := 1, m_index := 0, m_meta := 0 } 0 (by decide)).2.2.2.2.2.2, by decide,
    by decide⟩

/-- C5: removal preserves all other keys of `slot_array`.  In every reachable state,
for a key `k` that resolves to position `c`, `try_remove(k)` returns true and every key
`k'` of a different slot that resolved before, to position `p`, still resolves
afterwards: to `c` when its element was the tail (it has been moved to the former
position of `k`), to `p` otherwise; in both cases the element it designates has the
same value as before.  Consequently, removing in turn any keys that all resolve and
belong to pairwise different slots returns true every time and lowers the size by
their number; for `N` such keys the final size is 0. -/
theorem C5_slot_array_remove_preserves_others {α : Type} {N : Nat} (hN : N ≤ 65535)
    (calls : List (Call α)) :
    (∀ (k k' : versioned_key) (c p : Nat),
      ((slot_array.ctor : slot_array α N).run calls).try_get k = some c →
      k'.m_index ≠ k.m_index →
      ((slot_array.ctor : slot_array α N).run calls).try_get k' = some p →
      (((slot_array.ctor : slot_array α N).run calls).try_remove k).1 = true ∧
      (((slot_array.ctor : slot_array α N).run calls).try_remove k).2.try_get k'
        = some (if p = ((slot_array.ctor : slot_array α N).run calls).size - 1 then c else p) ∧
      (((slot_array.ctor : slot_array α N).run calls).try_remove k).2.m_data.get
          (if p = ((slot_array.ctor : slot_array α N).run calls).size - 1 then c else p)
        = ((slot_array.ctor : slot_array α N).run calls).m_data.get p) ∧
    (∀ keys : List versioned_key,
      (∀ key ∈ keys,
        (((slot_array.ctor : slot_array α N).run calls).try_get key).isSome = true) →
      (keys.map versioned_key.m_index).Nodup →
      (((slot_array.ctor : slot_array α N).run calls).test_remove_clear keys).1 = true ∧
      (((slot_array.ctor : slot_array α N).run calls).test_remove_clear keys).2.size
        + keys.length = ((slot_array.ctor : slot_array α N).run calls).size ∧
      (keys.length = N →
        (((slot_array.ctor : slot_array α N).run calls).test_remove_clear keys).2.size = 0)) := by
  obtain ⟨fl, h⟩ := slot_array.Inv_reachable (α := α) hN calls
  generalize (slot_array.ctor : slot_array α N).run calls = s at h
  refine ⟨?_, ?_⟩
  · intro k k' c p hk hne hp
    obtain ⟨g1, g2, g3, g4, g5⟩ := (slot_array.try_get_eq_some s k c).mp hk
    have hr : s.resolve_key k = some k.m_index :=
      (slot_array.resolve_key_eq_some s k _).mpr ⟨rfl, g1, g2, g3, g4⟩
    have hv := slot_array.valid_after_remove hN s fl h k _ hr k' p hne hp
    rw [← g5] at hv
    exact ⟨by rw [slot_array.try_remove_fst, hr]; rfl, hv⟩
  · intro keys hv hnd
    obtain ⟨q1, q2⟩ := slot_array.test_remove_clear_ok hN keys s fl true h
      (fun key hkey => Option.isSome_iff_exists.mp (hv key hkey)) hnd
    have hsz := h.size_le
    refine ⟨q1, q2, fun hlen => ?_⟩
    simp only [slot_array.size, slot_array.test_remove_clear] at *
    omega

/-- Witness of C5: a full pool of capacity 3; its three keys are removed in insertion
order, every removal succeeds and the pool ends empty. -/
theorem C5_slot_array_remove_preserves_others_witness :
    (((slot_array.ctor : slot_array Nat 3).run
      [Call.emplace_back 10 0, Call.emplace_back 20 0, Call.emplace_back 30 0]).test_remove_clear
        [{ m_version := 1, m_index := 0, m_meta := 0 },
          { m_version := 1, m_index := 1, m_meta := 0 },
          { m_version := 1, m_index := 2, m_meta := 0 }]).2.size = 0 :=
  (((C5_slot_array_remove_preserves_others (α := Nat) (N := 3) (by decide)
    [Call.emplace_back 10 0, Call.emplace_back 20 0, Call.emplace_back 30 0]).2
      [{ m_version := 1, m_index := 0, m_meta := 0 },
        { m_version := 1, m_index := 1, m_meta := 0 },
        { m_version := 1, m_index := 2, m_meta := 0 }]
      (by decide) (by decide)).2.2) rfl

end nonstd

namespace nonstd

/-- C14: a failed insert on capacity exhaustion is atomic.  In any state of
`keyed_array` or `slot_array`, when `emplace_back` throws `std::out_of_range` the whole
pool state after the call is the state before it, so every key resolves exactly as
before. -/
theorem C14_capacity_failure_atomic {α : Type} {N M : Nat}
    (sk : keyed_array α N) (ss : slot_array α M) (v : α) (m : Nat) :
    ((sk.emplace_back v m).1 = Except.error error.out_of_range →
      (sk.emplace_back v m).2 = sk ∧
      ∀ key, (sk.emplace_back v m).2.try_get key = sk.try_get key) ∧
    ((ss.emplace_back v m).1 = Except.error error.out_of_range →
      (ss.emplace_back v m).2 = ss ∧
      ∀ key, (ss.emplace_back v m).2.try_get key = ss.try_get key) := by
  constructor
  · intro h
    have h1 := (keyed_array.ka_emplace_back_out_of_range_iff sk v m).mp h
    have h2 : sk.m_free_head = keyed_array.invalid_index := by
      simpa [keyed_array.full] using h1
    rw [keyed_array.ka_emplace_back_full sk v m h2]
    exact ⟨rfl, fun _ => rfl⟩
  · intro h
    have h2 := (slot_array.emplace_back_out_of_range_iff ss v m).mp h
    rw [slot_array.emplace_back_full ss v m h2]
    exact ⟨rfl, fun _ => rfl⟩

/-- Witness of C14: a full `keyed_array` of capacity 1 is left as it was by an insert
that throws `std::out_of_range`. -/
theorem C14_capacity_failure_atomic_witness :
    (((keyed_array.ctor : keyed_array Nat 1).run [Call.emplace_back 10 0]).emplace_back
      20 0).2 = (keyed_array.ctor : keyed_array Nat 1).run [Call.emplace_back 10 0] :=
  ((C14_capacity_failure_atomic (α := Nat) (N := 1) (M := 1)
    ((keyed_array.ctor : keyed_array Nat 1).run [Call.emplace_back 10 0])
    (slot_array.ctor : slot_array Nat 1) 20 0).1 rfl).1

/-- C15: removal with an invalid key has no effect.  In every reachable state of
`keyed_array` and of `slot_array`, `try_remove(k)` returns false exactly when
`try_get(k)` is null, that is when the index is out of range, the slot is not occupied
or its generation differs from the key's version; in that case the pool state is
unchanged.  When `try_get(k)` is non-null, `try_remove(k)` returns true.  A second
`try_remove` of the same key returns false. -/
theorem C15_invalid_removal_no_effect {α : Type} {N M : Nat} (hN : N ≤ 65534)
    (hM : M ≤ 65535) (calls : List (Call α)) (k : versioned_key) :
    ((((keyed_array.ctor : keyed_array α N).run calls).try_remove k).1 = false ↔
      ((keyed_array.ctor : keyed_array α N).run calls).try_get k = none) ∧
    (((keyed_array.ctor : keyed_array α N).run calls).try_get k = none ↔
      (N ≤ k.m_index ∨
        ((keyed_array.ctor : keyed_array α N).run calls).m_free k.m_index
          ≠ keyed_array.slot_full ∨
        ((keyed_array.ctor : keyed_array α N).run calls).m_versions k.m_index
          ≠ k.m_version)) ∧
    (((keyed_array.ctor : keyed_array α N).run calls).try_get k = none →
      ((keyed_array.ctor : keyed_array α N).run calls).try_remove k
        = (false, (keyed_array.ctor : keyed_array α N).run calls)) ∧
    ((((keyed_array.ctor : keyed_array α N).run calls).try_get k).isSome = true →
      (((keyed_array.ctor : keyed_array α N).run calls).try_remove k).1 = true) ∧
    ((((keyed_array.ctor : keyed_array α N).run calls).try_remove k).2.try_remove k).1
      = false ∧
    ((((slot_array.ctor : slot_array α M).run calls).try_remove k).1 = false ↔
      ((slot_array.ctor : slot_array α M).run calls).try_get k = none) ∧
    (((slot_array.ctor : slot_array α M).run calls).try_get k = none ↔
      (M ≤ k.m_index ∨
        (((slot_array.ctor : slot_array α M).run calls).m_lookups k.m_index).data_index
          = slot_array.invalid_index ∨
        ((slot_array.ctor : slot_array α M).run calls).size
          ≤ (((slot_array.ctor : slot_array α M).run calls).m_lookups k.m_index).data_index ∨
        (((slot_array.ctor : slot_array α M).run calls).m_lookups k.m_index).version
          ≠ k.m_version)) ∧
    (((slot_array.ctor : slot_array α M).run calls).try_get k = none →
      ((slot_array.ctor : slot_array α M).run calls).try_remove k
        = (false, (slot_array.ctor : slot_array α M).run calls)) ∧
    ((((slot_array.ctor : slot_array α M).run calls).try_get k).isSome = true →
      (((slot_array.ctor : slot_array α M).run calls).try_remove k).1 = true) ∧
    ((((slot_array.ctor : slot_array α M).run calls).try_remove k).2.try_remove k).1
      = false := by
  obtain ⟨flk, hk⟩ := keyed_array.ka_Inv_reachable (α := α) hN calls
  obtain ⟨fls, hs⟩ := slot_array.Inv_reachable (α := α) hM calls
  generalize (keyed_array.ctor : keyed_array α N).run calls = sk at hk
  generalize (slot_array.ctor : slot_array α M).run calls = ss at hs
  refine ⟨?_, ?_, ?_, ?_, ?_, ?_, ?_, ?_, ?_, ?_⟩
  · rw [keyed_array.ka_try_remove_fst, keyed_array.ka_try_get_eq_none]
  · rw [keyed_array.ka_try_get_eq_none, ← Bool.not_eq_true, keyed_array.ka_evaluate_key_iff]
    constructor
    · intro h
      by_cases h1 : N ≤ k.m_index
      · exact Or.inl h1
      · by_cases h2 : sk.m_free k.m_index = keyed_array.slot_full
        · exact Or.inr (Or.inr (fun hc => h ⟨by omega, h2, hc.symm⟩))
        · exact Or.inr (Or.inl h2)
    · rintro (h | h | h) ⟨g1, g2, g3⟩
      · omega
      · exact h g2
      · exact h g3.symm
  · intro h
    exact keyed_array.ka_try_remove_false _ _ ((keyed_array.ka_try_get_eq_none _ _).mp h)
  · intro h
    rw [keyed_array.ka_try_remove_fst]
    cases he : sk.evaluate_key k with
    | true => rfl
    | false =>
      rw [(keyed_array.ka_try_get_eq_none _ _).mpr he] at h
      cases h
  · cases he : (sk.try_remove k).1 with
    | false =>
      rw [keyed_array.ka_try_remove_fst] at he
      rw [keyed_array.ka_try_remove_false _ _ he, keyed_array.ka_try_remove_fst]
      exact he
    | true =>
      obtain ⟨fl1, h1, s1⟩ := keyed_array.ka_stale_after_remove hN sk flk hk k he
      rw [keyed_array.ka_try_remove_fst]
      exact s1.ka_unresolved h1
  · rw [slot_array.try_remove_fst, slot_array.try_get_eq_none]
    cases ss.resolve_key k <;> simp
  · rw [slot_array.try_get_eq_none, slot_array.resolve_key_eq_none]
    constructor
    · intro h
      by_cases h1 : M ≤ k.m_index
      · exact Or.inl h1
      · by_cases h2 : (ss.m_lookups k.m_index).data_index = slot_array.invalid_index
        · exact Or.inr (Or.inl h2)
        · by_cases h3 : ss.size ≤ (ss.m_lookups k.m_index).data_index
          · exact Or.inr (Or.inr (Or.inl h3))
          · refine Or.inr (Or.inr (Or.inr (fun hc => h ⟨by omega, h2, ?_, hc⟩)))
            simp only [slot_array.size] at h3
            omega
    · rintro (h | h | h | h) ⟨g1, g2, g3, g4⟩
      · omega
      · exact g2 h
      · simp only [slot_array.size] at h; omega
      · exact h g4
  · intro h
    exact slot_array.try_remove_none _ _ ((slot_array.try_get_eq_none _ _).mp h)
  · intro h
    rw [slot_array.try_remove_fst]
    cases he : ss.resolve_key k with
    | some c => rfl
    | none =>
      rw [(slot_array.try_get_eq_none _ _).mpr he] at h
      cases h
  · cases he : (ss.try_remove k).1 with
    | false =>
      have he' := he
      rw [slot_array.try_remove_fst] at he'
      have hn : ss.resolve_key k = none := by
        cases hr : ss.resolve_key k with
        | none => rfl
        | some c => rw [hr] at he'; cases he'
      rw [slot_array.try_remove_none _ _ hn]
      exact he
    | true =>
      obtain ⟨fl1, h1, s1⟩ := slot_array.stale_after_remove hM ss fls hs k he
      rw [slot_array.try_remove_fst, s1.unresolved h1]
      rfl

/-- Witness of C15: in a pool of capacity 2 holding two elements, removing the key of
the first twice returns false the second time. -/
theorem C15_invalid_removal_no_effect_witness :
    ((((slot_array.ctor : slot_array Nat 2).run
      [Call.emplace_back 10 0, Call.emplace_back 20 0]).try_remove
        { m_version := 1, m_index := 0, m_meta := 0 }).2.try_remove
          { m_version := 1, m_index := 0, m_meta := 0 }).1 = false :=
  (C15_invalid_removal_no_effect (α := Nat) (N := 2) (M := 2) (by decide) (by decide)
    [Call.emplace_back 10 0, Call.emplace_back 20 0]
    { m_version := 1, m_index := 0, m_meta := 0 }).2.2.2.2.2.2.2.2.2

/-- C20 (counterexample): the first allocation of a slot on a fresh pool need not yield
version 1.  On a fresh pool of capacity 1, a first `emplace_back` in which the
constructor of `T` throws returns no key, and the next `emplace_back`, which is the
first allocation of slot 0, returns the key with version 2.  The same holds for
`keyed_array` and `slot_array`. -/
theorem C20_first_allocation_counterexample :
    ((keyed_array.ctor : keyed_array Nat 1).emplace_back_construct none 0).1
      = Except.error error.element_exception ∧
    (keyed_array.ctor : keyed_array Nat 1).granted [Invocation.emplace_back none 0] = [] ∧
    (((keyed_array.ctor : keyed_array Nat 1).perform_all
      [Invocation.emplace_back none 0]).emplace_back_construct (some 10) 0).1
      = Except.ok { m_version := 2, m_index := 0, m_meta := 0 } ∧
    ((slot_array.ctor : slot_array Nat 1).emplace_back_construct none 0).1
      = Except.error error.element_exception ∧
    (slot_array.ctor : slot_array Nat 1).granted [Invocation.emplace_back none 0] = [] ∧
    (((slot_array.ctor : slot_array Nat 1).perform_all
      [Invocation.emplace_back none 0]).emplace_back_construct (some 10) 0).1
      = Except.ok { m_version := 2, m_index := 0, m_meta := 0 } :=
  ⟨rfl, rfl, rfl, rfl, rfl, rfl⟩

/-- C20 (amended): generation bookkeeping.  In every state of `keyed_array` and of
`slot_array` reached from a fresh pool by calls in which the constructor of `T` may
throw: `try_remove` (successful or not) and `clear` leave every slot's generation
unchanged; a successful `emplace_back` allocates the slot at the free-list head, raises
the generation of that slot by exactly one, leaves all other generations unchanged and
returns a key whose version is the new generation of the slot; an `emplace_back` in
which the constructor of `T` throws also raises the generation of the slot at the
free-list head by one, and changes nothing else; and the version of the key returned
by a successful `emplace_back` is 1 when no earlier `emplace_back` since construction
has written the generation of that slot. -/
theorem C20_generation_bookkeeping_amended {α : Type} {N M : Nat} (hN : N ≤ 65534)
    (hM : M ≤ 65535) (calls : List (Invocation α)) :
    (∀ key, (((keyed_array.ctor : keyed_array α N).perform_all calls).try_remove
        key).2.m_versions
      = ((keyed_array.ctor : keyed_array α N).perform_all calls).m_versions) ∧
    ((keyed_array.ctor : keyed_array α N).perform_all calls).clear.m_versions
      = ((keyed_array.ctor : keyed_array α N).perform_all calls).m_versions ∧
    (∀ (e : Option α) (m : Nat) (k : versioned_key),
      (((keyed_array.ctor : keyed_array α N).perform_all calls).emplace_back_construct
        e m).1 = Except.ok k →
      k.m_index = ((keyed_array.ctor : keyed_array α N).perform_all calls).m_free_head ∧
      (((keyed_array.ctor : keyed_array α N).perform_all calls).emplace_back_construct
          e m).2.m_versions k.m_index
        = ((keyed_array.ctor : keyed_array α N).perform_all calls).m_versions k.m_index + 1 ∧
      (∀ y, y ≠ k.m_index →
        (((keyed_array.ctor : keyed_array α N).perform_all calls).emplace_back_construct
            e m).2.m_versions y
          = ((keyed_array.ctor : keyed_array α N).perform_all calls).m_versions y) ∧
      k.m_version
        = (((keyed_array.ctor : keyed_array α N).perform_all calls).emplace_back_construct
            e m).2.m_versions k.m_index ∧
      (k.m_index ∉ (keyed_array.ctor : keyed_array α N).raised calls → k.m_version = 1)) ∧
    (∀ m : Nat,
      (((keyed_array.ctor : keyed_array α N).perform_all calls).emplace_back_construct
        none m).1 = Except.error error.element_exception →
      (((keyed_array.ctor : keyed_array α N).perform_all calls).emplace_back_construct
          none m).2.m_versions
          ((keyed_array.ctor : keyed_array α N).perform_all calls).m_free_head
        = ((keyed_array.ctor : keyed_array α N).perform_all calls).m_versions
            ((keyed_array.ctor : keyed_array α N).perform_all calls).m_free_head + 1 ∧
      (∀ y, y ≠ ((keyed_array.ctor : keyed_array α N).perform_all calls).m_free_head →
        (((keyed_array.ctor : keyed_array α N).perform_all calls).emplace_back_construct
            none m).2.m_versions y
          = ((keyed_array.ctor : keyed_array α N).perform_all calls).m_versions y) ∧
      (((keyed_array.ctor : keyed_array α N).perform_all calls).emplace_back_construct
          none m).2.m_free_head
        = ((keyed_array.ctor : keyed_array α N).perform_all calls).m_free_head ∧
      (((keyed_array.ctor : keyed_array α N).perform_all calls).emplace_back_construct
          none m).2.m_free
        = ((keyed_array.ctor : keyed_array α N).perform_all calls).m_free ∧
      (((keyed_array.ctor : keyed_array α N).perform_all calls).emplace_back_construct
          none m).2.m_data
        = ((keyed_array.ctor : keyed_array α N).perform_all calls).m_data) ∧
    (∀ key y, ((((slot_array.ctor : slot_array α M).perform_all calls).try_remove
        key).2.m_lookups y).version
      = (((slot_array.ctor : slot_array α M).perform_all calls).m_lookups y).version) ∧
    (∀ y, (((slot_array.ctor : slot_array α M).perform_all calls).clear.m_lookups y).version
      = (((slot_array.ctor : slot_array α M).perform_all calls).m_lookups y).version) ∧
    (∀ (e : Option α) (m : Nat) (k : versioned_key),
      (((slot_array.ctor : slot_array α M).perform_all calls).emplace_back_construct
        e m).1 = Except.ok k →
      k.m_index = ((slot_array.ctor : slot_array α M).perform_all calls).m_free_head ∧
      ((((slot_array.ctor : slot_array α M).perform_all calls).emplace_back_construct
          e m).2.m_lookups k.m_index).version
        = (((slot_array.ctor : slot_array α M).perform_all calls).m_lookups
            k.m_index).version + 1 ∧
      (∀ y, y ≠ k.m_index →
        ((((slot_array.ctor : slot_array α M).perform_all calls).emplace_back_construct
            e m).2.m_lookups y).version
          = (((slot_array.ctor : slot_array α M).perform_all calls).m_lookups y).version) ∧
      k.m_version
        = ((((slot_array.ctor : slot_array α M).perform_all calls).emplace_back_construct
            e m).2.m_lookups k.m_index).version ∧
      (k.m_index ∉ (slot_array.ctor : slot_array α M).raised calls → k.m_version = 1)) ∧
    (∀ m : Nat,
      (((slot_array.ctor : slot_array α M).perform_all calls).emplace_back_construct
        none m).1 = Except.error error.element_exception →
      ((((slot_array.ctor : slot_array α M).perform_all calls).emplace_back_construct
          none m).2.m_lookups
          ((slot_array.ctor : slot_array α M).perform_all calls).m_free_head).version
        = (((slot_array.ctor : slot_array α M).perform_all calls).m_lookups
            ((slot_array.ctor : slot_array α M).perform_all calls).m_free_head).version + 1 ∧
      (∀ y, y ≠ ((slot_array.ctor : slot_array α M).perform_all calls).m_free_head →
        (((slot_array.ctor : slot_array α M).perform_all calls).emplace_back_construct
            none m).2.m_lookups y
          = ((slot_array.ctor : slot_array α M).perform_all calls).m_lookups y) ∧
      (((slot_array.ctor : slot_array α M).perform_all calls).emplace_back_construct
          none m).2.m_free_head
        = ((slot_array.ctor : slot_array α M).perform_all calls).m_free_head ∧
      (((slot_array.ctor : slot_array α M).perform_all calls).emplace_back_construct
          none m).2.m_size
        = ((slot_array.ctor : slot_array α M).perform_all calls).m_size ∧
      (((slot_array.ctor : slot_array α M).perform_all calls).emplace_back_construct
          none m).2.m_erase
        = ((slot_array.ctor : slot_array α M).perform_all calls).m_erase ∧
      (((slot_array.ctor : slot_array α M).perform_all calls).emplace_back_construct
          none m).2.m_data
        = ((slot_array.ctor : slot_array α M).perform_all calls).m_data) := by
  obtain ⟨flk, hk⟩ := keyed_array.ka_Inv_performed (α := α) hN calls
  obtain ⟨fls, hs⟩ := slot_array.Inv_performed (α := α) hM calls
  have hk0 := keyed_array.ka_version_of_not_raised calls (keyed_array.ctor : keyed_array α N)
  have hs0 := slot_array.version_of_not_raised calls (slot_array.ctor : slot_array α M)
  generalize (keyed_array.ctor : keyed_array α N).perform_all calls = sk at hk hk0
  generalize (slot_array.ctor : slot_array α M).perform_all calls = ss at hs hs0
  refine ⟨fun key => keyed_array.ka_version_try_remove _ key, keyed_array.ka_version_clear _,
    ?_, ?_, fun key y => slot_array.version_try_remove _ key y,
    fun y => slot_array.version_clear _ y, ?_, ?_⟩
  · intro e m k hok
    obtain ⟨v, _, hok', heq⟩ := keyed_array.ka_construct_ok_some sk e m k hok
    rw [heq]
    obtain ⟨q1, _, q3, q4, q5⟩ :=
      keyed_array.ka_version_emplace_back sk v m k (hk.version_lt _) hok'
    refine ⟨q1, q3, q4, q5, fun hni => ?_⟩
    have h0 := hk0 k.m_index hni
    rw [keyed_array.ka_ctor_version] at h0
    rw [q5, q3, h0]
  · intro m herr
    by_cases h1 : sk.m_free_head = keyed_array.invalid_index
    · rw [keyed_array.ka_construct_full sk none m h1] at herr
      cases herr
    · by_cases h2 : (sk.m_versions sk.m_free_head + 1) % 4294967296 = 0
      · rw [keyed_array.ka_construct_overflow sk none m h1 h2] at herr
        cases herr
      · rw [keyed_array.ka_construct_none sk m h1 h2]
        have hlt := hk.version_lt sk.m_free_head
        refine ⟨?_, fun y hy => ?_, rfl, rfl, rfl⟩
        · simp only [store_apply, if_true]
          omega
        · simp only [store_apply, hy, if_false]
  · intro e m k hok
    obtain ⟨v, _, hok', heq⟩ := slot_array.construct_ok_some ss e m k hok
    rw [heq]
    obtain ⟨q1, _, q3, q4, q5⟩ :=
      slot_array.version_emplace_back ss v m k (hs.version_lt _) hok'
    refine ⟨q1, q3, q4, q5, fun hni => ?_⟩
    have h0 := hs0 k.m_index hni
    rw [slot_array.ctor_version] at h0
    rw [q5, q3, h0]
  · intro m herr
    by_cases h1 : ss.m_free_head = slot_array.invalid_index
    · rw [slot_array.construct_full ss none m h1] at herr
      cases herr
    · by_cases h2 : ((ss.m_lookups ss.m_free_head).version + 1) % 4294967296 = 0
      · rw [slot_array.construct_overflow ss none m h1 h2] at herr
        cases herr
      · rw [slot_array.construct_none ss m h1 h2]
        have hlt := hs.version_lt ss.m_free_head
        refine ⟨?_, fun y hy => ?_, rfl, rfl, rfl, rfl⟩
        · simp only [lookup_t.set_version, store_apply, if_true]
          omega
        · simp only [lookup_t.set_version, store_apply, hy, if_false]

/-- Witness of C20 (amended): in pools of capacity 2, after the first slot was allocated,
the first allocation of the second slot, whose generation no earlier call has written,
yields version 1; this is exercised on `keyed_array` and on `slot_array`. -/
theorem C20_generation_bookkeeping_amended_witness :
    ((((keyed_array.ctor : keyed_array Nat 2).perform_all
        [Invocation.emplace_back (some 10) 0]).emplace_back_construct (some 20) 0).1
      = Except.ok { m_version := 1, m_index := 1, m_meta := 0 } ∧
      ({ m_version := 1, m_index := 1, m_meta := 0 } : versioned_key).m_index
        ∉ (keyed_array.ctor : keyed_array Nat 2).raised
          [Invocation.emplace_back (some 10) 0] ∧
      ({ m_version := 1, m_index := 1, m_meta := 0 } : versioned_key).m_version = 1) ∧
    ((((slot_array.ctor : slot_array Nat 2).perform_all
        [Invocation.emplace_back (some 10) 0]).emplace_back_construct (some 20) 0).1
      = Except.ok { m_version := 1, m_index := 1, m_meta := 0 } ∧
      ({ m_version := 1, m_index := 1, m_meta := 0 } : versioned_key).m_index
        ∉ (slot_array.ctor : slot_array Nat 2).raised
          [Invocation.emplace_back (some 10) 0] ∧
      ((((slot_array.ctor : slot_array Nat 2).perform_all
          [Invocation.emplace_back (some 10) 0]).emplace_back_construct
            (some 20) 0).2.m_lookups 1).version
        = (((slot_array.ctor : slot_array Nat 2).perform_all
          [Invocation.emplace_back (some 10) 0]).m_lookups 1).version + 1 ∧
      ({ m_version := 1, m_index := 1, m_meta := 0 } : versioned_key).m_version = 1) :=
  ⟨⟨rfl, by decide,
      ((C20_generation_bookkeeping_amended (α := Nat) (N := 2) (M := 2) (by decide) (by decide)
        [Invocation.emplace_back (some 10) 0]).2.2.1 (some 20) 0
          { m_version := 1, m_index := 1, m_meta := 0 } rfl).2.2.2.2 (by decide)⟩,
    ⟨rfl, by decide,
      ((C20_generation_bookkeeping_amended (α := Nat) (N := 2) (M := 2) (by decide) (by decide)
        [Invocation.emplace_back (some 10) 0]).2.2.2.2.2.2.1 (some 20) 0
          { m_version := 1, m_index := 1, m_meta := 0 } rfl).2.1,
      ((C20_generation_bookkeeping_amended (α := Nat) (N := 2) (M := 2) (by decide) (by decide)
        [Invocation.emplace_back (some 10) 0]).2.2.2.2.2.2.1 (some 20) 0
          { m_version := 1, m_index := 1, m_meta := 0 } rfl).2.2.2.2 (by decide)⟩⟩

end nonstd

namespace nonstd

/-- C11 (the code at the failing input): a failed insert on generation overflow is not
atomic.  On a pool of capacity 1, after `2^32 - 1` rounds of `emplace_back` followed
by `try_remove` of the returned key, the only slot has generation `2^32 - 1`; the next
`emplace_back` throws `std::overflow_error` and leaves the generation of that slot at
0, so the state after the failed call differs from the state before it, and a retry in
the state left behind succeeds.  The same holds for `keyed_array` and `slot_array`. -/
theorem C11_overflow_failure_not_atomic :
    (((keyed_array.ctor : keyed_array Nat 1).run (churn 0 4294967295)).emplace_back 0 0).1
      = Except.error error.overflow_error ∧
    ((keyed_array.ctor : keyed_array Nat 1).run (churn 0 4294967295)).m_versions 0
      = 4294967295 ∧
    (((keyed_array.ctor : keyed_array Nat 1).run (churn 0 4294967295)).emplace_back
      0 0).2.m_versions 0 = 0 ∧
    (((keyed_array.ctor : keyed_array Nat 1).run (churn 0 4294967295)).emplace_back 0 0).2
      ≠ (keyed_array.ctor : keyed_array Nat 1).run (churn 0 4294967295) ∧
    ((((keyed_array.ctor : keyed_array Nat 1).run (churn 0 4294967295)).emplace_back
      0 0).2.emplace_back 0 0).1
      = Except.ok { m_version := 1, m_index := 0, m_meta := 0 } ∧
    (((slot_array.ctor : slot_array Nat 1).run (churn 0 4294967295)).emplace_back 0 0).1
      = Except.error error.overflow_error ∧
    (((slot_array.ctor : slot_array Nat 1).run (churn 0 4294967295)).m_lookups 0).version
      = 4294967295 ∧
    ((((slot_array.ctor : slot_array Nat 1).run (churn 0 4294967295)).emplace_back
      0 0).2.m_lookups 0).version = 0 ∧
    (((slot_array.ctor : slot_array Nat 1).run (churn 0 4294967295)).emplace_back 0 0).2
      ≠ (slot_array.ctor : slot_array Nat 1).run (churn 0 4294967295) ∧
    ((((slot_array.ctor : slot_array Nat 1).run (churn 0 4294967295)).emplace_back
      0 0).2.emplace_back 0 0).1
      = Except.ok { m_version := 1, m_index := 0, m_meta := 0 } := by
  obtain ⟨hk, hkv⟩ := keyed_array.ka_churn_max
  obtain ⟨hs, hsv⟩ := slot_array.churn_max
  generalize (keyed_array.ctor : keyed_array Nat 1).run (churn 0 4294967295) = sk at hk hkv
  generalize (slot_array.ctor : slot_array Nat 1).run (churn 0 4294967295) = ss at hs hsv
  obtain ⟨a1, a2, a3, _⟩ := keyed_array.ka_overflow_then_retry sk hk hkv
  obtain ⟨b1, b2, b3, _⟩ := slot_array.overflow_then_retry ss hs hsv
  refine ⟨a1, hkv, a2, ?_, a3, b1, hsv, b2, ?_, b3⟩
  · intro hc
    rw [hc, hkv] at a2
    exact absurd a2 (by decide)
  · intro hc
    rw [hc, hsv] at b2
    exact absurd b2 (by decide)

/-- C12 (the code at the failing input): a wrapped generation is reused.  On a fresh
pool of capacity 1 the first `emplace_back` returns the key with version 1 and index 0.
After `2^32 - 1` rounds of `emplace_back` followed by `try_remove` of the returned key
(the first of which is that call), the next `emplace_back` throws
`std::overflow_error`; retried, it succeeds, reallocates the same slot and returns a
key with version 1 and index 0 again, and the key issued by the very first call
resolves again.  The same holds for `keyed_array` and `slot_array`. -/
theorem C12_wrapped_generation_reused :
    ((keyed_array.ctor : keyed_array Nat 1).emplace_back 0 0).1
      = Except.ok { m_version := 1, m_index := 0, m_meta := 0 } ∧
    ((slot_array.ctor : slot_array Nat 1).emplace_back 0 0).1
      = Except.ok { m_version := 1, m_index := 0, m_meta := 0 } ∧
    churn 0 4294967295 =
      Call.emplace_back 0 0 ::
        Call.try_remove { m_version := 1, m_index := 0, m_meta := 0 } ::
          churn 1 4294967294 ∧
    (((keyed_array.ctor : keyed_array Nat 1).run (churn 0 4294967295)).emplace_back 0 0).1
      = Except.error error.overflow_error ∧
    ((((keyed_array.ctor : keyed_array Nat 1).run (churn 0 4294967295)).emplace_back
      0 0).2.emplace_back 0 0).1
      = Except.ok { m_version := 1, m_index := 0, m_meta := 0 } ∧
    ((((keyed_array.ctor : keyed_array Nat 1).run (churn 0 4294967295)).emplace_back
      0 0).2.emplace_back 0 0).2.try_get { m_version := 1, m_index := 0, m_meta := 0 }
      = some 0 ∧
    (((slot_array.ctor : slot_array Nat 1).run (churn 0 4294967295)).emplace_back 0 0).1
      = Except.error error.overflow_error ∧
    ((((slot_array.ctor : slot_array Nat 1).run (churn 0 4294967295)).emplace_back
      0 0).2.emplace_back 0 0).1
      = Except.ok { m_version := 1, m_index := 0, m_meta := 0 } ∧
    ((((slot_array.ctor : slot_array Nat 1).run (churn 0 4294967295)).emplace_back
      0 0).2.emplace_back 0 0).2.try_get { m_version := 1, m_index := 0, m_meta := 0 }
      = some 0 := by
  have e1 : ((keyed_array.ctor : keyed_array Nat 1).emplace_back 0 0).1
      = Except.ok { m_version := 1, m_index := 0, m_meta := 0 } := rfl
  have e2 : ((slot_array.ctor : slot_array Nat 1).emplace_back 0 0).1
      = Except.ok { m_version := 1, m_index := 0, m_meta := 0 } := rfl
  have e3 := churn_succ 0 4294967294
  obtain ⟨hk, hkv⟩ := keyed_array.ka_churn_max
  obtain ⟨hs, hsv⟩ := slot_array.churn_max
  obtain ⟨a1, _, a3, a4⟩ := keyed_array.ka_overflow_then_retry _ hk hkv
  obtain ⟨b1, _, b3, b4⟩ := slot_array.overflow_then_retry _ hs hsv
  exact ⟨e1, e2, e3, a1, a3, a4, b1, b3, b4⟩

/-- C16 (the code at the failing input): removing the tail element does not vacate the
Lookup record.  In a `slot_array` of capacity 3 holding `[10, 20, 30]`, `try_remove` of
the key of `30` (slot 2, data position 2, the tail) returns true and leaves
`m_lookups[2].data_index` at 2, not at `invalid_index`; the other effects are as
claimed: `next_free` is the old free-list head, the free-list head is 2, the Erase
entry at the old tail position is `invalid_index` and the size is 2. -/
theorem C16_tail_removal_keeps_data_index :
    (((slot_array.ctor : slot_array Nat 3).run
      [Call.emplace_back 10 0, Call.emplace_back 20 0, Call.emplace_back 30 0]).try_remove
        { m_version := 1, m_index := 2, m_meta := 0 }).1 = true ∧
    ((((slot_array.ctor : slot_array Nat 3).run
      [Call.emplace_back 10 0, Call.emplace_back 20 0, Call.emplace_back 30 0]).try_remove
        { m_version := 1, m_index := 2, m_meta := 0 }).2.m_lookups 2).data_index = 2 ∧
    slot_array.invalid_index = 65535 ∧
    ((((slot_array.ctor : slot_array Nat 3).run
      [Call.emplace_back 10 0, Call.emplace_back 20 0, Call.emplace_back 30 0]).try_remove
        { m_version := 1, m_index := 2, m_meta := 0 }).2.m_lookups 2).next_free
      = ((slot_array.ctor : slot_array Nat 3).run
        [Call.emplace_back 10 0, Call.emplace_back 20 0, Call.emplace_back 30 0]).m_free_head ∧
    (((slot_array.ctor : slot_array Nat 3).run
      [Call.emplace_back 10 0, Call.emplace_back 20 0, Call.emplace_back 30 0]).try_remove
        { m_version := 1, m_index := 2, m_meta := 0 }).2.m_free_head = 2 ∧
    (((slot_array.ctor : slot_array Nat 3).run
      [Call.emplace_back 10 0, Call.emplace_back 20 0, Call.emplace_back 30 0]).try_remove
        { m_version := 1, m_index := 2, m_meta := 0 }).2.m_erase 2
      = slot_array.invalid_index ∧
    (((slot_array.ctor : slot_array Nat 3).run
      [Call.emplace_back 10 0, Call.emplace_back 20 0, Call.emplace_back 30 0]).try_remove
        { m_version := 1, m_index := 2, m_meta := 0 }).2.size = 2 := by
  decide

/-- C17 (counterexample): a key minted by one pool validates in another.  Pool A, a
fresh pool of capacity 1, mints the key with version 1 and index 0 by
`emplace_back(10)`; pool B, another pool of capacity 1 that holds `20`, resolves that
key to its own element and removes it.  The same holds for `keyed_array` and
`slot_array`. -/
theorem C17_cross_pool_counterexample :
    ((keyed_array.ctor : keyed_array Nat 1).emplace_back 10 0).1
      = Except.ok { m_version := 1, m_index := 0, m_meta := 0 } ∧
    ((keyed_array.ctor : keyed_array Nat 1).run [Call.emplace_back 20 0]).try_get
      { m_version := 1, m_index := 0, m_meta := 0 } = some 0 ∧
    ((keyed_array.ctor : keyed_array Nat 1).run [Call.emplace_back 20 0]).m_data.get 0
      = some 20 ∧
    (((keyed_array.ctor : keyed_array Nat 1).run [Call.emplace_back 20 0]).try_remove
      { m_version := 1, m_index := 0, m_meta := 0 }).1 = true ∧
    ((slot_array.ctor : slot_array Nat 1).emplace_back 10 0).1
      = Except.ok { m_version := 1, m_index := 0, m_meta := 0 } ∧
    ((slot_array.ctor : slot_array Nat 1).run [Call.emplace_back 20 0]).try_get
      { m_version := 1, m_index := 0, m_meta := 0 } = some 0 ∧
    ((slot_array.ctor : slot_array Nat 1).run [Call.emplace_back 20 0]).m_data.get 0
      = some 20 ∧
    (((slot_array.ctor : slot_array Nat 1).run [Call.emplace_back 20 0]).try_remove
      { m_version := 1, m_index := 0, m_meta := 0 }).1 = true :=
  ⟨rfl, by decide, by decide, by decide, rfl, by decide, by decide, by decide⟩

/-- C17 (amended): a key carries no pool identity.  For pools A and B of the same type
in any states and any key `k` returned by `A.emplace_back`, `B.try_get(k)` is null and
`B.try_remove(k)` is false (leaving B unchanged) exactly when B has no occupied slot
with index `k.index` whose generation equals `k.version`; otherwise the key resolves in
B and `B.try_remove(k)` returns true. -/
theorem C17_cross_pool_amended {α : Type} {N M : Nat}
    (ak bk : keyed_array α N) (as bs : slot_array α M) (v : α) (m : Nat) (k : versioned_key) :
    ((ak.emplace_back v m).1 = Except.ok k →
      (bk.try_get k = none ↔
        ¬ (k.m_index < N ∧ bk.m_free k.m_index = keyed_array.slot_full ∧
          bk.m_versions k.m_index = k.m_version)) ∧
      ((bk.try_remove k).1 = false ↔ bk.try_get k = none) ∧
      (bk.try_get k = none → bk.try_remove k = (false, bk))) ∧
    ((as.emplace_back v m).1 = Except.ok k →
      (bs.try_get k = none ↔
        ¬ (k.m_index < M ∧
          (bs.m_lookups k.m_index).data_index ≠ slot_array.invalid_index ∧
          (bs.m_lookups k.m_index).data_index < bs.size ∧
          (bs.m_lookups k.m_index).version = k.m_version)) ∧
      ((bs.try_remove k).1 = false ↔ bs.try_get k = none) ∧
      (bs.try_get k = none → bs.try_remove k = (false, bs))) := by
  constructor
  · intro _
    refine ⟨?_, ?_, ?_⟩
    · rw [keyed_array.ka_try_get_eq_none, ← Bool.not_eq_true, keyed_array.ka_evaluate_key_iff]
      constructor
      · intro h hc; exact h ⟨hc.1, hc.2.1, hc.2.2.symm⟩
      · intro h hc; exact h ⟨hc.1, hc.2.1, hc.2.2.symm⟩
    · rw [keyed_array.ka_try_remove_fst, keyed_array.ka_try_get_eq_none]
    · intro h
      exact keyed_array.ka_try_remove_false _ _ ((keyed_array.ka_try_get_eq_none _ _).mp h)
  · intro _
    refine ⟨?_, ?_, ?_⟩
    · rw [slot_array.try_get_eq_none, slot_array.resolve_key_eq_none]
      rfl
    · rw [slot_array.try_remove_fst, slot_array.try_get_eq_none]
      cases bs.resolve_key k <;> simp
    · intro h
      exact slot_array.try_remove_none _ _ ((slot_array.try_get_eq_none _ _).mp h)

/-- Witness of C17 (amended): the key minted by a fresh pool A of capacity 1 is
rejected by an empty pool B, which has no occupied slot. -/
theorem C17_cross_pool_amended_witness :
    (keyed_array.ctor : keyed_array Nat 1).try_get
      { m_version := 1, m_index := 0, m_meta := 0 } = none :=
  (((C17_cross_pool_amended (α := Nat) (N := 1) (M := 1)
    (keyed_array.ctor : keyed_array Nat 1) (keyed_array.ctor : keyed_array Nat 1)
    (slot_array.ctor : slot_array Nat 1) (slot_array.ctor : slot_array Nat 1) 10 0
    { m_version := 1, m_index := 0, m_meta := 0 }).1 rfl).1).mpr (by decide)

end nonstd

namespace nonstd

/-- C18: `keyed_array` clear then repopulate.  Take any sequence of calls on a fresh
pool, then `clear()`, then `N` calls of `emplace_back`, with no generation wrap along
the way.  After the `clear()` no key resolves (in particular no key issued before it)
and `full()` equals `N == 0`.  All `N` inserts succeed, after them `full()` is true and
a further insert throws `std::out_of_range`.  From its insertion on, each new key
resolves to an element with its new value, and every key issued before the `clear()`
stays unresolved after every one of the inserts. -/
theorem C18_keyed_array_clear_repopulate {α : Type} {N : Nat} (hN : N ≤ 65534)
    (calls : List (Call α)) (args : List (α × Nat)) (hlen : args.length = N)
    (hnw : (keyed_array.ctor : keyed_array α N).no_wrap
      (calls ++ Call.clear :: Call.emplace_each args) = true) :
    (∀ k, ((keyed_array.ctor : keyed_array α N).run calls).clear.try_get k = none) ∧
    ((keyed_array.ctor : keyed_array α N).run calls).clear.full = (N == 0) ∧
    (∀ r ∈ (((keyed_array.ctor : keyed_array α N).run calls).clear.emplace_all args).1,
      ∃ k, r = Except.ok k) ∧
    (((keyed_array.ctor : keyed_array α N).run calls).clear.emplace_all args).1.length = N ∧
    (((keyed_array.ctor : keyed_array α N).run calls).clear.emplace_all args).2.full = true ∧
    (∀ (v : α) (m : Nat),
      ((((keyed_array.ctor : keyed_array α N).run calls).clear.emplace_all
        args).2.emplace_back v m).1 = Except.error error.out_of_range) ∧
    (∀ i j, i < j → j ≤ N → ∃ k p,
      (((keyed_array.ctor : keyed_array α N).run calls).clear.emplace_all args).1[i]?
        = some (Except.ok k) ∧
      (((keyed_array.ctor : keyed_array α N).run calls).clear.emplace_all
        (args.take j)).2.try_get k = some p ∧
      (((keyed_array.ctor : keyed_array α N).run calls).clear.emplace_all
        (args.take j)).2.m_data.get p = (args[i]?).map Prod.fst) ∧
    (∀ k ∈ (keyed_array.ctor : keyed_array α N).issued calls, ∀ j, j ≤ N →
      (((keyed_array.ctor : keyed_array α N).run calls).clear.emplace_all
        (args.take j)).2.try_get k = none) := by
  obtain ⟨fl0, h0⟩ := keyed_array.ka_Inv_reachable (α := α) hN calls
  rw [keyed_array.ka_no_wrap_append, Bool.and_eq_true] at hnw
  obtain ⟨hnw1, hnw2⟩ := hnw
  have hnw3 : ((keyed_array.ctor : keyed_array α N).run calls).clear.no_wrap
      (Call.emplace_each args) = true := by
    simpa [keyed_array.no_wrap, keyed_array.wraps, keyed_array.step] using hnw2
  have hstale : ∀ k ∈ (keyed_array.ctor : keyed_array α N).issued calls,
      k.m_version ≤ ((keyed_array.ctor : keyed_array α N).run calls).m_versions k.m_index :=
    keyed_array.ka_issued_version_le hN calls _ _ (keyed_array.ka_Inv_ctor hN) hnw1
  have hC := keyed_array.ka_Inv_clear hN _ fl0 h0
  have hclear := fun k => keyed_array.ka_try_get_clear hN _ fl0 h0 k
  have hfullc := keyed_array.ka_full_clear ((keyed_array.ctor : keyed_array α N).run calls)
  generalize (keyed_array.ctor : keyed_array α N).issued calls = iss at hstale
  generalize (keyed_array.ctor : keyed_array α N).run calls = S at *
  have hpre : ∀ j, S.clear.no_wrap (Call.emplace_each (args.take j)) = true := by
    intro j
    have e : Call.emplace_each args
        = Call.emplace_each (args.take j) ++ Call.emplace_each (args.drop j) := by
      rw [← emplace_each_append, List.take_append_drop]
    rw [e, keyed_array.ka_no_wrap_append, Bool.and_eq_true] at hnw3
    exact hnw3.1
  have hokj : ∀ j, j ≤ N →
      (∀ r ∈ (S.clear.emplace_all (args.take j)).1, ∃ k, r = Except.ok k) := by
    intro j hj
    exact (keyed_array.ka_emplace_all_ok_no_wrap hN (args.take j) S.clear (List.range N) hC
      (hpre j) (by simp; omega)).1
  obtain ⟨q1, q2, q3⟩ := keyed_array.ka_emplace_all_ok_no_wrap hN args S.clear (List.range N)
    hC hnw3 (by simp [hlen])
  have hnil : (List.range N).drop args.length = [] := by simp [hlen]
  rw [hnil] at q3
  have hfull : (S.clear.emplace_all args).2.full = true := by
    unfold keyed_array.full
    rw [beq_iff_eq]
    exact q3.chain
  refine ⟨hclear, hfullc, q1, by omega, hfull,
    fun v m => (keyed_array.ka_emplace_back_out_of_range_iff _ v m).mpr hfull, ?_, ?_⟩
  · intro i j hij hj
    obtain ⟨k, p, e1, e2, e3⟩ := keyed_array.ka_emplace_all_resolves hN (args.take j) S.clear
      (List.range N) hC (hokj j hj) i (by simp; omega)
    refine ⟨k, p, ?_, e2, ?_⟩
    · rw [keyed_array.ka_emplace_all_fst_take, List.getElem?_take_of_lt hij] at e1
      exact e1
    · rw [e3, List.getElem?_take_of_lt hij]
  · intro k hk j hj
    have hs := keyed_array.ka_stale_after_clear S k (hstale k hk)
    obtain ⟨fl', h', s'⟩ := keyed_array.ka_stale_run hN k (Call.emplace_each (args.take j))
      S.clear (List.range N) hC hs (hpre j)
    rw [keyed_array.ka_emplace_all_snd]
    exact (keyed_array.ka_try_get_eq_none _ _).mpr (s'.ka_unresolved h')

/-- Witness of C18: a pool of capacity 2 is filled, cleared and filled again; the key
of the first element issued before the `clear()` is still unresolved at the end. -/
theorem C18_keyed_array_clear_repopulate_witness :
    (((keyed_array.ctor : keyed_array Nat 2).run
      [Call.emplace_back 10 0, Call.emplace_back 20 0]).clear.emplace_all
        (List.take 2 [(30, 0), (40, 0)])).2.try_get
          { m_version := 1, m_index := 0, m_meta := 0 } = none :=
  (C18_keyed_array_clear_repopulate (α := Nat) (N := 2) (by decide)
    [Call.emplace_back 10 0, Call.emplace_back 20 0] [(30, 0), (40, 0)] rfl
    (by decide)).2.2.2.2.2.2.2 { m_version := 1, m_index := 0, m_meta := 0 } (by decide) 2
      (by decide)

end nonstd

namespace nonstd

/-- C19: `slot_array` clear then repopulate.  Take any sequence of calls on a fresh
pool, then `clear()`, then `N` calls of `emplace_back`, with no generation wrap along
the way.  After the `clear()` the size is 0, the iteration is empty and no key resolves
(in particular no key issued before it).  All `N` inserts succeed and bring the size to
`N`, a further insert throws `std::out_of_range`, and the iteration then yields exactly
the `N` new values, in insertion order.  From its insertion on, each new key resolves
to an element with its new value, and every key issued before the `clear()` stays
unresolved after every one of the inserts. -/
theorem C19_slot_array_clear_repopulate {α : Type} {N : Nat} (hN : N ≤ 65535)
    (calls : List (Call α)) (args : List (α × Nat)) (hlen : args.length = N)
    (hnw : (slot_array.ctor : slot_array α N).no_wrap
      (calls ++ Call.clear :: Call.emplace_each args) = true) :
    ((slot_array.ctor : slot_array α N).run calls).clear.size = 0 ∧
    ((slot_array.ctor : slot_array α N).run calls).clear.iterate = [] ∧
    (∀ k, ((slot_array.ctor : slot_array α N).run calls).clear.try_get k = none) ∧
    (∀ r ∈ (((slot_array.ctor : slot_array α N).run calls).clear.emplace_all args).1,
      ∃ k, r = Except.ok k) ∧
    (((slot_array.ctor : slot_array α N).run calls).clear.emplace_all args).1.length = N ∧
    (((slot_array.ctor : slot_array α N).run calls).clear.emplace_all args).2.size = N ∧
    (∀ (v : α) (m : Nat),
      ((((slot_array.ctor : slot_array α N).run calls).clear.emplace_all
        args).2.emplace_back v m).1 = Except.error error.out_of_range) ∧
    (((slot_array.ctor : slot_array α N).run calls).clear.emplace_all args).2.iterate
      = args.map (fun a => some a.1) ∧
    (∀ i j, i < j → j ≤ N → ∃ k p,
      (((slot_array.ctor : slot_array α N).run calls).clear.emplace_all args).1[i]?
        = some (Except.ok k) ∧
      (((slot_array.ctor : slot_array α N).run calls).clear.emplace_all
        (args.take j)).2.try_get k = some p ∧
      (((slot_array.ctor : slot_array α N).run calls).clear.emplace_all
        (args.take j)).2.m_data.get p = (args[i]?).map Prod.fst) ∧
    (∀ k ∈ (slot_array.ctor : slot_array α N).issued calls, ∀ j, j ≤ N →
      (((slot_array.ctor : slot_array α N).run calls).clear.emplace_all
        (args.take j)).2.try_get k = none) := by
  obtain ⟨fl0, h0⟩ := slot_array.Inv_reachable (α := α) hN calls
  rw [slot_array.no_wrap_append, Bool.and_eq_true] at hnw
  obtain ⟨hnw1, hnw2⟩ := hnw
  have hnw3 : ((slot_array.ctor : slot_array α N).run calls).clear.no_wrap
      (Call.emplace_each args) = true := by
    simpa [slot_array.no_wrap, slot_array.wraps, slot_array.step] using hnw2
  have hstale : ∀ k ∈ (slot_array.ctor : slot_array α N).issued calls,
      k.m_version
        ≤ (((slot_array.ctor : slot_array α N).run calls).m_lookups k.m_index).version :=
    slot_array.issued_version_le hN calls _ _ (slot_array.Inv_ctor hN) hnw1
  have hC := slot_array.Inv_clear hN _ fl0 h0
  generalize (slot_array.ctor : slot_array α N).issued calls = iss at hstale
  generalize (slot_array.ctor : slot_array α N).run calls = S at *
  have hpre : ∀ j, S.clear.no_wrap (Call.emplace_each (args.take j)) = true := by
    intro j
    have e : Call.emplace_each args
        = Call.emplace_each (args.take j) ++ Call.emplace_each (args.drop j) := by
      rw [← emplace_each_append, List.take_append_drop]
    rw [e, slot_array.no_wrap_append, Bool.and_eq_true] at hnw3
    exact hnw3.1
  have hokj : ∀ j, j ≤ N →
      (∀ r ∈ (S.clear.emplace_all (args.take j)).1, ∃ k, r = Except.ok k) := by
    intro j hj
    exact (slot_array.emplace_all_ok_no_wrap hN (args.take j) S.clear (List.range N) hC
      (hpre j) (by simp; omega)).1
  obtain ⟨q1, q2, q3⟩ := slot_array.emplace_all_ok_no_wrap hN args S.clear (List.range N)
    hC hnw3 (by simp [hlen])
  have hnil : (List.range N).drop args.length = [] := by simp [hlen]
  rw [hnil] at q3
  have hsize : (S.clear.emplace_all args).2.size = N := by
    have := q3.size_add
    simpa [slot_array.size] using this
  have hiter := (slot_array.emplace_all_preserves hN args S.clear (List.range N) hC q1).2
  rw [slot_array.iterate_clear, List.nil_append] at hiter
  refine ⟨rfl, rfl, fun k => slot_array.try_get_clear S k, q1, by omega, hsize, ?_, hiter,
    ?_, ?_⟩
  · intro v m
    rw [slot_array.emplace_back_out_of_range_iff]
    exact (q3.head_invalid_iff hN).mpr hsize
  · intro i j hij hj
    obtain ⟨k, p, e1, e2, e3⟩ := slot_array.emplace_all_resolves hN (args.take j) S.clear
      (List.range N) hC (hokj j hj) i (by simp; omega)
    refine ⟨k, p, ?_, e2, ?_⟩
    · rw [slot_array.emplace_all_fst_take, List.getElem?_take_of_lt hij] at e1
      exact e1
    · rw [e3, List.getElem?_take_of_lt hij]
  · intro k hk j hj
    have hs := slot_array.stale_after_clear S k (hstale k hk)
    obtain ⟨fl', h', s'⟩ := slot_array.stale_run hN k (Call.emplace_each (args.take j))
      S.clear (List.range N) hC hs (hpre j)
    rw [slot_array.emplace_all_snd]
    exact (slot_array.try_get_eq_none _ _).mpr (s'.unresolved h')

/-- Witness of C19: a pool of capacity 2 is filled, cleared and filled again; the
iteration then yields the two new values. -/
theorem C19_slot_array_clear_repopulate_witness :
    (((slot_array.ctor : slot_array Nat 2).run
      [Call.emplace_back 10 0, Call.emplace_back 20 0]).clear.emplace_all
        [(30, 0), (40, 0)]).2.iterate = [some 30, some 40] :=
  (C19_slot_array_clear_repopulate (α := Nat) (N := 2) (by decide)
    [Call.emplace_back 10 0, Call.emplace_back 20 0] [(30, 0), (40, 0)] rfl
    (by decide)).2.2.2.2.2.2.2.1

end nonstd
namespace nonstd

/-- C22: keys with an out-of-range index are rejected silently.  For `keyed_array<T,N>`
and `slot_array<T,N>` in any state and every key whose index is `>= N` (any version,
any meta): with every array access checked, `try_get` and `try_remove` (and the helpers
`evaluate_key`, `resolve_key`) run without an out-of-bounds access and return null and
false, and the pool state is unchanged.  The checked functions are the unchecked ones:
for `keyed_array` in any state, for `slot_array` in any state with `size() <= N`
(`try_get`) and in every state reached from a fresh pool (`try_get`, `try_remove`),
they return what the unchecked functions return, for every key. -/
theorem C22_out_of_range_index_rejected {α : Type} {N M : Nat}
    (sk : keyed_array α N) (ss : slot_array α M) (k : versioned_key)
    (calls : List (Invocation α)) :
    (N ≤ k.m_index →
      sk.evaluate_key_checked k = some false ∧
      sk.try_get_checked k = some none ∧
      sk.try_remove_checked k = some (false, sk) ∧
      sk.try_get k = none ∧ sk.try_remove k = (false, sk)) ∧
    (M ≤ k.m_index →
      ss.evaluate_index k.m_index = false ∧
      ss.resolve_key_checked k = some none ∧
      ss.try_get_checked k = some none ∧
      ss.try_remove_checked k = some (false, ss) ∧
      ss.try_get k = none ∧ ss.try_remove k = (false, ss)) ∧
    (∀ key : versioned_key,
      sk.evaluate_key_checked key = some (sk.evaluate_key key) ∧
      sk.try_get_checked key = some (sk.try_get key) ∧
      sk.try_remove_checked key = some (sk.try_remove key)) ∧
    (∀ key : versioned_key,
      ss.resolve_key_checked key = some (ss.resolve_key key) ∧
      (ss.size ≤ M → ss.try_get_checked key = some (ss.try_get key))) ∧
    (M ≤ 65535 → ∀ key : versioned_key,
      ((slot_array.ctor : slot_array α M).perform_all calls).try_get_checked key
        = some (((slot_array.ctor : slot_array α M).perform_all calls).try_get key) ∧
      ((slot_array.ctor : slot_array α M).perform_all calls).try_remove_checked key
        = some (((slot_array.ctor : slot_array α M).perform_all calls).try_remove key)) := by
  refine ⟨?_, ?_, ?_, ?_, ?_⟩
  · intro h
    obtain ⟨a1, a2, a3⟩ := keyed_array.ka_out_of_range_checked sk k h
    have he : sk.evaluate_key k = false := by
      simp [keyed_array.evaluate_key, h]
    exact ⟨a1, a2, a3, (keyed_array.ka_try_get_eq_none _ _).mpr he,
      keyed_array.ka_try_remove_false _ _ he⟩
  · intro h
    obtain ⟨a1, a2, a3⟩ := slot_array.out_of_range_checked ss k h
    have he : ss.resolve_key k = none := by
      simp [slot_array.resolve_key, slot_array.evaluate_index, h]
    refine ⟨?_, a1, a2, a3, (slot_array.try_get_eq_none _ _).mpr he,
      slot_array.try_remove_none _ _ he⟩
    simp [slot_array.evaluate_index, h]
  · intro key
    exact ⟨keyed_array.ka_evaluate_key_checked_eq sk key,
      keyed_array.ka_try_get_checked_eq sk key, keyed_array.ka_try_remove_checked_eq sk key⟩
  · intro key
    exact ⟨slot_array.resolve_key_checked_eq ss key,
      fun hsz => slot_array.try_get_checked_eq ss hsz key⟩
  · intro hM key
    obtain ⟨fl, h⟩ := slot_array.Inv_performed (α := α) hM calls
    exact ⟨slot_array.try_get_checked_eq _ h.size_le key,
      slot_array.try_remove_checked_eq hM _ fl h key⟩

/-- Witness of C22: pools of capacity 2 holding one element reject a key with index 2
and the current generation of slot 0, without an out-of-bounds access. -/
theorem C22_out_of_range_index_rejected_witness :
    ((keyed_array.ctor : keyed_array Nat 2).run [Call.emplace_back 10 0]).try_remove_checked
      { m_version := 1, m_index := 2, m_meta := 0 }
    = some (false, (keyed_array.ctor : keyed_array Nat 2).run [Call.emplace_back 10 0]) ∧
    ((slot_array.ctor : slot_array Nat 2).run [Call.emplace_back 10 0]).try_remove_checked
      { m_version := 1, m_index := 2, m_meta := 0 }
    = some (false, (slot_array.ctor : slot_array Nat 2).run [Call.emplace_back 10 0]) :=
  ⟨((C22_out_of_range_index_rejected (α := Nat) (N := 2) (M := 2)
    ((keyed_array.ctor : keyed_array Nat 2).run [Call.emplace_back 10 0])
    ((slot_array.ctor : slot_array Nat 2).run [Call.emplace_back 10 0])
    { m_version := 1, m_index := 2, m_meta := 0 } []).1 (by decide)).2.2.1,
   ((C22_out_of_range_index_rejected (α := Nat) (N := 2) (M := 2)
    ((keyed_array.ctor : keyed_array Nat 2).run [Call.emplace_back 10 0])
    ((slot_array.ctor : slot_array Nat 2).run [Call.emplace_back 10 0])
    { m_version := 1, m_index := 2, m_meta := 0 } []).2.1 (by decide)).2.2.2.1⟩

/-- C23 (counterexample): the tag is not 0 whenever it is omitted.  On a fresh pool of
capacity 1 whose element is an integer (value-initialised to 0), the call
`emplace_back(10)`, written without template arguments and without a tag, returns a
key whose `meta()` is 10, and the element stored is 0: the pack of constructor
arguments is empty and the one argument is bound to the tag.  The call
`emplace_back<int64_t>(10)`, with the template argument spelled out, returns a key
whose `meta()` is 0 and stores 10.  The same holds for `keyed_array` and
`slot_array`. -/
theorem C23_omitted_tag_counterexample :
    bind_arguments 0 [10] = some ([], 10) ∧
    ((keyed_array.ctor : keyed_array Nat 1).emplace_back_written
      (fun args => args.headD 0) 0 [10]).map Prod.fst
      = some (Except.ok { m_version := 1, m_index := 0, m_meta := 10 }) ∧
    ((keyed_array.ctor : keyed_array Nat 1).emplace_back_written
      (fun args => args.headD 0) 0 [10]).map (fun r => r.2.m_data.get 0)
      = some (some 0) ∧
    ((keyed_array.ctor : keyed_array Nat 1).emplace_back_written
      (fun args => args.headD 0) 1 [10]).map Prod.fst
      = some (Except.ok { m_version := 1, m_index := 0, m_meta := 0 }) ∧
    ((keyed_array.ctor : keyed_array Nat 1).emplace_back_written
      (fun args => args.headD 0) 1 [10]).map (fun r => r.2.m_data.get 0)
      = some (some 10) ∧
    ((slot_array.ctor : slot_array Nat 1).emplace_back_written
      (fun args => args.headD 0) 0 [10]).map Prod.fst
      = some (Except.ok { m_version := 1, m_index := 0, m_meta := 10 }) ∧
    ((slot_array.ctor : slot_array Nat 1).emplace_back_written
      (fun args => args.headD 0) 0 [10]).map (fun r => r.2.m_data.get 0)
      = some (some 0) ∧
    ((slot_array.ctor : slot_array Nat 1).emplace_back_written
      (fun args => args.headD 0) 1 [10]).map Prod.fst
      = some (Except.ok { m_version := 1, m_index := 0, m_meta := 0 }) ∧
    ((slot_array.ctor : slot_array Nat 1).emplace_back_written
      (fun args => args.headD 0) 1 [10]).map (fun r => r.2.m_data.get 0)
      = some (some 10) :=
  ⟨rfl, rfl, rfl, rfl, rfl, rfl, rfl, rfl, rfl⟩

/-- C23 (amended): the meta tag is carried unmodified.  For `keyed_array` and
`slot_array` in any state: the key returned by a successful `emplace_back(args...,
meta)` has `meta()` equal to `meta`.  For a call as it is written, with `spelled`
template arguments: when the call has exactly `spelled` arguments (the tag is omitted
and the template arguments account for every argument), `meta()` is 0 and the
arguments construct the element; when it has one more, that last argument, converted
to `meta_type`, is `meta()` and the first `spelled` arguments construct the element,
so that a call without template arguments takes its only argument as the tag.
Calling with another tag gives the same outcome (the same exception, or the same key
up to its tag) and leaves the pool in the same state, so the tag has no influence on
the slot allocated or on the version; and `try_get` and `try_remove` in any state give
the same results for two keys that differ only in the tag. -/
theorem C23_meta_carried_amended {α : Type} {N M : Nat}
    (sk : keyed_array α N) (ss : slot_array α M) (v : α) (m m' : Nat)
    (construct : List Nat → α) (spelled : Nat) (actuals : List Nat) :
    (∀ k, (sk.emplace_back v m).1 = Except.ok k → k.m_meta = m) ∧
    (∀ r k, sk.emplace_back_written construct spelled actuals = some r →
      r.1 = Except.ok k →
      (actuals.length = spelled →
        k.m_meta = 0 ∧ r = sk.emplace_back (construct actuals) 0) ∧
      (actuals.length = spelled + 1 →
        k.m_meta = actuals.getD spelled 0 % 65536 ∧
        r = sk.emplace_back (construct (actuals.take spelled))
          (actuals.getD spelled 0 % 65536))) ∧
    (sk.emplace_back_written construct spelled actuals = none ↔
      (actuals.length ≠ spelled ∧ actuals.length ≠ spelled + 1)) ∧
    (sk.emplace_back v m').1
      = Except.map (fun k => { k with m_meta := m' }) (sk.emplace_back v m).1 ∧
    (sk.emplace_back v m').2 = (sk.emplace_back v m).2 ∧
    (∀ (s : keyed_array α N) (key : versioned_key),
      s.try_get { key with m_meta := m' } = s.try_get key ∧
      s.try_remove { key with m_meta := m' } = s.try_remove key) ∧
    (∀ k, (ss.emplace_back v m).1 = Except.ok k → k.m_meta = m) ∧
    (∀ r k, ss.emplace_back_written construct spelled actuals = some r →
      r.1 = Except.ok k →
      (actuals.length = spelled →
        k.m_meta = 0 ∧ r = ss.emplace_back (construct actuals) 0) ∧
      (actuals.length = spelled + 1 →
        k.m_meta = actuals.getD spelled 0 % 65536 ∧
        r = ss.emplace_back (construct (actuals.take spelled))
          (actuals.getD spelled 0 % 65536))) ∧
    (ss.emplace_back_written construct spelled actuals = none ↔
      (actuals.length ≠ spelled ∧ actuals.length ≠ spelled + 1)) ∧
    (ss.emplace_back v m').1
      = Except.map (fun k => { k with m_meta := m' }) (ss.emplace_back v m).1 ∧
    (ss.emplace_back v m').2 = (ss.emplace_back v m).2 ∧
    (∀ (s : slot_array α M) (key : versioned_key),
      s.try_get { key with m_meta := m' } = s.try_get key ∧
      s.try_remove { key with m_meta := m' } = s.try_remove key) := by
  have hk : ∀ (w : α) (n : Nat) k, (sk.emplace_back w n).1 = Except.ok k → k.m_meta = n := by
    intro w n k h
    obtain ⟨h1, h2⟩ := keyed_array.ka_emplace_back_ok_inv sk w n k h
    rw [keyed_array.ka_emplace_back_ok sk w n h1 h2] at h
    cases h
    rfl
  have hs : ∀ (w : α) (n : Nat) k, (ss.emplace_back w n).1 = Except.ok k → k.m_meta = n := by
    intro w n k h
    obtain ⟨h1, h2⟩ := slot_array.emplace_back_ok_inv ss w n k h
    rw [slot_array.emplace_back_ok ss w n h1 h2] at h
    cases h
    rfl
  have hbind1 : actuals.length = spelled → bind_arguments spelled actuals = some (actuals, 0) := by
    intro h
    simp [bind_arguments, h]
  have hbind2 : actuals.length = spelled + 1 → bind_arguments spelled actuals
      = some (actuals.take spelled, actuals.getD spelled 0 % 65536) := by
    intro h
    have : ¬ actuals.length = spelled := by omega
    simp [bind_arguments, h]
  have hbind3 : bind_arguments spelled actuals = none ↔
      (actuals.length ≠ spelled ∧ actuals.length ≠ spelled + 1) := by
    by_cases h1 : actuals.length = spelled
    · simp [bind_arguments, h1]
    · by_cases h2 : actuals.length = spelled + 1
      · simp [bind_arguments, h2]
      · simp [bind_arguments, h1, h2]
  refine ⟨hk v m, ?_, ?_, ?_, ?_, ?_, hs v m, ?_, ?_, ?_, ?_, ?_⟩
  · intro r k hr hok
    constructor
    · intro hlen
      simp only [keyed_array.emplace_back_written, hbind1 hlen] at hr
      cases hr
      exact ⟨hk _ _ k hok, rfl⟩
    · intro hlen
      simp only [keyed_array.emplace_back_written, hbind2 hlen] at hr
      cases hr
      exact ⟨hk _ _ k hok, rfl⟩
  · rw [← hbind3]
    simp only [keyed_array.emplace_back_written]
    cases bind_arguments spelled actuals <;> simp
  · by_cases h1 : sk.m_free_head = keyed_array.invalid_index
    · rw [keyed_array.ka_emplace_back_full sk v m h1, keyed_array.ka_emplace_back_full sk v m' h1]
      rfl
    · by_cases h2 : (sk.m_versions sk.m_free_head + 1) % 4294967296 = 0
      · rw [keyed_array.ka_emplace_back_overflow sk v m h1 h2,
          keyed_array.ka_emplace_back_overflow sk v m' h1 h2]
        rfl
      · rw [keyed_array.ka_emplace_back_ok sk v m h1 h2,
          keyed_array.ka_emplace_back_ok sk v m' h1 h2]
        rfl
  · by_cases h1 : sk.m_free_head = keyed_array.invalid_index
    · rw [keyed_array.ka_emplace_back_full sk v m h1, keyed_array.ka_emplace_back_full sk v m' h1]
    · by_cases h2 : (sk.m_versions sk.m_free_head + 1) % 4294967296 = 0
      · rw [keyed_array.ka_emplace_back_overflow sk v m h1 h2,
          keyed_array.ka_emplace_back_overflow sk v m' h1 h2]
      · rw [keyed_array.ka_emplace_back_ok sk v m h1 h2,
          keyed_array.ka_emplace_back_ok sk v m' h1 h2]
  · intro s key
    exact ⟨rfl, rfl⟩
  · intro r k hr hok
    constructor
    · intro hlen
      simp only [slot_array.emplace_back_written, hbind1 hlen] at hr
      cases hr
      exact ⟨hs _ _ k hok, rfl⟩
    · intro hlen
      simp only [slot_array.emplace_back_written, hbind2 hlen] at hr
      cases hr
      exact ⟨hs _ _ k hok, rfl⟩
  · rw [← hbind3]
    simp only [slot_array.emplace_back_written]
    cases bind_arguments spelled actuals <;> simp
  · by_cases h1 : ss.m_free_head = slot_array.invalid_index
    · rw [slot_array.emplace_back_full ss v m h1, slot_array.emplace_back_full ss v m' h1]
      rfl
    · by_cases h2 : ((ss.m_lookups ss.m_free_head).version + 1) % 4294967296 = 0
      · rw [slot_array.emplace_back_overflow ss v m h1 h2,
          slot_array.emplace_back_overflow ss v m' h1 h2]
        rfl
      · rw [slot_array.emplace_back_ok ss v m h1 h2,
          slot_array.emplace_back_ok ss v m' h1 h2]
        rfl
  · by_cases h1 : ss.m_free_head = slot_array.invalid_index
    · rw [slot_array.emplace_back_full ss v m h1, slot_array.emplace_back_full ss v m' h1]
    · by_cases h2 : ((ss.m_lookups ss.m_free_head).version + 1) % 4294967296 = 0
      · rw [slot_array.emplace_back_overflow ss v m h1 h2,
          slot_array.emplace_back_overflow ss v m' h1 h2]
      · rw [slot_array.emplace_back_ok ss v m h1 h2,
          slot_array.emplace_back_ok ss v m' h1 h2]
  · intro s key
    exact ⟨rfl, rfl⟩

/-- Witness of C23 (amended): on fresh pools of capacity 1 with integer elements,
`emplace_back(10, 24)` returns a key with tag 24; the written call
`emplace_back<int64_t>(10)` returns a key with tag 0 on `keyed_array`, and the written
call `emplace_back<int64_t>(10, 24)` a key with tag 24 on `slot_array`. -/
theorem C23_meta_carried_amended_witness :
    (((keyed_array.ctor : keyed_array Nat 1).emplace_back 10 24).1
      = Except.ok { m_version := 1, m_index := 0, m_meta := 24 } ∧
    ({ m_version := 1, m_index := 0, m_meta := 24 } : versioned_key).m_meta = 24) ∧
    ((keyed_array.ctor : keyed_array Nat 1).emplace_back_written
        (fun args => args.headD 0) 1 [10]
      = some ((keyed_array.ctor : keyed_array Nat 1).emplace_back 10 0) ∧
    ({ m_version := 1, m_index := 0, m_meta := 0 } : versioned_key).m_meta = 0) ∧
    ((slot_array.ctor : slot_array Nat 1).emplace_back_written
        (fun args => args.headD 0) 1 [10, 24]
      = some ((slot_array.ctor : slot_array Nat 1).emplace_back 10 24) ∧
    ({ m_version := 1, m_index := 0, m_meta := 24 } : versioned_key).m_meta = [10, 24].getD 1 0 % 65536) :=
  ⟨⟨rfl, (C23_meta_carried_amended (α := Nat) (N := 1) (M := 1)
      (keyed_array.ctor : keyed_array Nat 1) (slot_array.ctor : slot_array Nat 1) 10 24 0
      (fun args => args.headD 0) 1 [10]).1
      { m_version := 1, m_index := 0, m_meta := 24 } rfl⟩,
    ⟨rfl, (((C23_meta_carried_amended (α := Nat) (N := 1) (M := 1)
      (keyed_array.ctor : keyed_array Nat 1) (slot_array.ctor : slot_array Nat 1) 10 24 0
      (fun args => args.headD 0) 1 [10]).2.1
      ((keyed_array.ctor : keyed_array Nat 1).emplace_back 10 0)
      { m_version := 1, m_index := 0, m_meta := 0 } rfl rfl).1 rfl).1⟩,
    ⟨rfl, (((C23_meta_carried_amended (α := Nat) (N := 1) (M := 1)
      (keyed_array.ctor : keyed_array Nat 1) (slot_array.ctor : slot_array Nat 1) 10 24 0
      (fun args => args.headD 0) 1 [10, 24]).2.2.2.2.2.2.2.1
      ((slot_array.ctor : slot_array Nat 1).emplace_back 10 24)
      { m_version := 1, m_index := 0, m_meta := 24 } rfl rfl).2 rfl).1⟩⟩

end nonstd
namespace nonstd

/-- C26: bounds-checked operations of `raw_buffer<T,N>`.  For every buffer and every
position `pos`: `at(pos)`, `emplace_at(pos, ...)` and `destroy_at(pos)` throw
`std::out_of_range` if and only if `pos >= N` (hence always when `N = 0`), and then
leave every cell as it was; when `pos < N` they behave exactly like the unchecked
`operator[]`, `emplace` and `destroy`; and reading cell `pos` after `emplace(pos, v)`
yields `v`, while every other cell is unchanged. -/
theorem C26_raw_buffer_checked_operations {α : Type} {N : Nat} (b : raw_buffer α N)
    (pos : Nat) (v : α) :
    (b.at_ pos = Except.error error.out_of_range ↔ N ≤ pos) ∧
    ((b.emplace_at pos v).1 = Except.error error.out_of_range ↔ N ≤ pos) ∧
    ((b.destroy_at pos).1 = Except.error error.out_of_range ↔ N ≤ pos) ∧
    (N ≤ pos → (b.emplace_at pos v).2 = b ∧ (b.destroy_at pos).2 = b) ∧
    (N = 0 → b.at_ pos = Except.error error.out_of_range ∧
      b.emplace_at pos v = (Except.error error.out_of_range, b) ∧
      b.destroy_at pos = (Except.error error.out_of_range, b)) ∧
    (pos < N → b.at_ pos = Except.ok (b.get pos) ∧
      b.emplace_at pos v = (Except.ok pos, b.emplace pos v) ∧
      b.destroy_at pos = (Except.ok (), b.destroy pos)) ∧
    (b.emplace pos v).get pos = some v ∧
    (∀ q, q ≠ pos → (b.emplace pos v).get q = b.get q) := by
  refine ⟨?_, ?_, ?_, ?_, ?_, ?_, ?_, ?_⟩
  · by_cases h : N ≤ pos <;> simp [raw_buffer.at_, h]
  · by_cases h : N ≤ pos <;> simp [raw_buffer.emplace_at, h]
  · by_cases h : N ≤ pos <;> simp [raw_buffer.destroy_at, h]
  · intro h
    simp [raw_buffer.emplace_at, raw_buffer.destroy_at, h]
  · intro h
    have h' : N ≤ pos := by omega
    simp [raw_buffer.at_, raw_buffer.emplace_at, raw_buffer.destroy_at, h']
  · intro h
    have h' : ¬ N ≤ pos := by omega
    simp [raw_buffer.at_, raw_buffer.emplace_at, raw_buffer.destroy_at, raw_buffer.get,
      raw_buffer.emplace, raw_buffer.destroy, h']
  · simp [raw_buffer.emplace, raw_buffer.get]
  · intro q hq
    simp [raw_buffer.emplace, raw_buffer.get, store, hq]

/-- Witness of C26: in a buffer of 2 cells, `emplace_at(2, 7)` throws and leaves the
buffer as it was, and `emplace_at(1, 7)` is `emplace(1, 7)`. -/
theorem C26_raw_buffer_checked_operations_witness :
    (({ m_data := fun _ => none } : raw_buffer Nat 2).emplace_at 2 7).2
      = ({ m_data := fun _ => none } : raw_buffer Nat 2) ∧
    ({ m_data := fun _ => none } : raw_buffer Nat 2).emplace_at 1 7
      = (Except.ok 1, ({ m_data := fun _ => none } : raw_buffer Nat 2).emplace 1 7) :=
  ⟨((C26_raw_buffer_checked_operations
      ({ m_data := fun _ => none } : raw_buffer Nat 2) 2 7).2.2.2.1 (by decide)).1,
    ((C26_raw_buffer_checked_operations
      ({ m_data := fun _ => none } : raw_buffer Nat 2) 1 7).2.2.2.2.2.1 (by decide)).2.1⟩

/-- C27: append and capacity of `packed_array<T,N>`.  In every reachable state:
`emplace_back` with `size() == N` throws `std::out_of_range` and leaves size and
contents unchanged; with `size() < N` it stores the element at position `size()` and
then increments the size by one.  After `m <= N` appends since construction or since a
`clear()`, every append has succeeded, the `i`-th one at position `i`, `size() == m`
and the elements iterate in insertion order.  `clear()` destroys exactly the cells at
the first `size()` positions, which are the constructed ones, and resets the size to 0;
after it `N` appends succeed again and a further one throws `std::out_of_range`. -/
theorem C27_packed_array_append_capacity {α : Type} {N : Nat}
    (hN : N ≤ 18446744073709551615) (calls : List (packed_array.Call α)) (v : α)
    (args : List α) :
    (((packed_array.ctor : packed_array α N).run calls).size = N →
      ((packed_array.ctor : packed_array α N).run calls).emplace_back v
        = (Except.error error.out_of_range, (packed_array.ctor : packed_array α N).run calls)) ∧
    (((packed_array.ctor : packed_array α N).run calls).size < N →
      ((packed_array.ctor : packed_array α N).run calls).emplace_back v
        = (Except.ok ((packed_array.ctor : packed_array α N).run calls).size,
            { m_size := ((packed_array.ctor : packed_array α N).run calls).size + 1
              m_data := ((packed_array.ctor : packed_array α N).run calls).m_data.emplace
                ((packed_array.ctor : packed_array α N).run calls).size v })) ∧
    (args.length ≤ N →
      ((packed_array.ctor : packed_array α N).emplace_all args).1
        = (List.range args.length).map (fun i => Except.ok i) ∧
      ((packed_array.ctor : packed_array α N).emplace_all args).2.size = args.length ∧
      ((packed_array.ctor : packed_array α N).emplace_all args).2.iterate = args.map some) ∧
    (args.length ≤ N →
      (((packed_array.ctor : packed_array α N).run calls).clear.emplace_all args).1
        = (List.range args.length).map (fun i => Except.ok i) ∧
      (((packed_array.ctor : packed_array α N).run calls).clear.emplace_all args).2.size
        = args.length ∧
      (((packed_array.ctor : packed_array α N).run calls).clear.emplace_all args).2.iterate
        = args.map some) ∧
    ((packed_array.ctor : packed_array α N).run calls).clear.size = 0 ∧
    (∀ p, ((packed_array.ctor : packed_array α N).run calls).clear.m_data.get p
      = if p < ((packed_array.ctor : packed_array α N).run calls).size then none
        else ((packed_array.ctor : packed_array α N).run calls).m_data.get p) ∧
    (∀ p, (((packed_array.ctor : packed_array α N).run calls).m_data.get p).isSome = true ↔
      p < ((packed_array.ctor : packed_array α N).run calls).size) ∧
    (∀ p, ((packed_array.ctor : packed_array α N).run calls).clear.m_data.get p = none) ∧
    (args.length = N →
      ((((packed_array.ctor : packed_array α N).run calls).clear.emplace_all
        args).2.emplace_back v).1 = Except.error error.out_of_range) := by
  obtain ⟨h1, h2⟩ := packed_array.pa_inv_reachable (α := α) hN calls
  generalize (packed_array.ctor : packed_array α N).run calls = s at h1 h2
  have hclear : ∀ p, s.clear.m_data.get p = if p < s.size then none else s.m_data.get p := by
    intro p
    rw [packed_array.pa_clear_eq]
    rfl
  have hfresh : ∀ s0 : packed_array α N, s0.m_size = 0 → args.length ≤ N →
      (s0.emplace_all args).1 = (List.range args.length).map (fun i => Except.ok i) ∧
      (s0.emplace_all args).2.size = args.length ∧
      (s0.emplace_all args).2.iterate = args.map some := by
    intro s0 h0 hlen
    obtain ⟨q1, q2, _, q4⟩ := packed_array.pa_emplace_all_ok hN args s0 (by omega)
    refine ⟨?_, ?_, ?_⟩
    · rw [q1, h0]
      simp
    · simp only [packed_array.size]
      omega
    · rw [q4]
      simp [packed_array.iterate, h0]
  have hc0 : s.clear.m_size = 0 := by
    rw [packed_array.pa_clear_eq]
  refine ⟨?_, ?_, hfresh _ rfl, hfresh _ hc0, hc0, hclear, h2, ?_, ?_⟩
  · intro h
    exact packed_array.pa_emplace_back_full s v (by simp only [packed_array.size] at h; omega)
  · intro h
    exact packed_array.pa_emplace_back_ok hN s v h
  · intro p
    rw [hclear]
    by_cases hp : p < s.size
    · simp [hp]
    · simp only [hp, if_false]
      have := h2 p
      simp only [packed_array.size] at hp
      simp only [hp, iff_false] at this
      simpa [raw_buffer.get] using this
  · intro h
    obtain ⟨_, q2, _⟩ := hfresh s.clear hc0 (by omega)
    rw [packed_array.pa_emplace_back_full _ v (by simp only [packed_array.size] at q2; omega)]

/-- Witness of C27: a `packed_array` of capacity 2 holding two elements rejects a third
one and is left unchanged. -/
theorem C27_packed_array_append_capacity_witness :
    ((packed_array.ctor : packed_array Nat 2).run
      [packed_array.Call.emplace_back 10, packed_array.Call.emplace_back 20]).size = 2 ∧
    ((packed_array.ctor : packed_array Nat 2).run
      [packed_array.Call.emplace_back 10, packed_array.Call.emplace_back 20]).emplace_back 30
      = (Except.error error.out_of_range, (packed_array.ctor : packed_array Nat 2).run
          [packed_array.Call.emplace_back 10, packed_array.Call.emplace_back 20]) :=
  ⟨by decide, (C27_packed_array_append_capacity (α := Nat) (N := 2) (by decide)
    [packed_array.Call.emplace_back 10, packed_array.Call.emplace_back 20] 30 []).1
      (by decide)⟩

end nonstd
namespace nonstd

/-- C21: storage occupancy discipline and resource cleanup.  In every reachable state
the constructed cells of the underlying `raw_buffer` are exactly the occupied ones
(`keyed_array`: the slots `i < N` with `m_free[i] == slot_full`; `slot_array`: the data
positions `0 .. size-1`).  A successful `emplace_back` applies `emplace` once, to a
cell that is not constructed; a successful `try_remove` applies `destroy` once, to a
constructed cell, which holds the removed element (in `slot_array` after the swap with
the tail); a failed call touches no cell.  After `destroy_all()` (teardown), after
`clear()`, and in every reachable state in which no slot is occupied, no constructed
cell remains. -/
theorem C21_occupancy_and_cleanup {α : Type} {N M : Nat} (hN : N ≤ 65534) (hM : M ≤ 65535)
    (calls : List (Call α)) :
    (∀ p, (((keyed_array.ctor : keyed_array α N).run calls).m_data.get p).isSome = true ↔
      (p < N ∧ ((keyed_array.ctor : keyed_array α N).run calls).m_free p
        = keyed_array.slot_full)) ∧
    (∀ (v : α) (m : Nat) (k : versioned_key),
      (((keyed_array.ctor : keyed_array α N).run calls).emplace_back v m).1 = Except.ok k →
      ((keyed_array.ctor : keyed_array α N).run calls).m_data.get
        ((keyed_array.ctor : keyed_array α N).run calls).m_free_head = none ∧
      (((keyed_array.ctor : keyed_array α N).run calls).emplace_back v m).2.m_data
        = ((keyed_array.ctor : keyed_array α N).run calls).m_data.emplace
            ((keyed_array.ctor : keyed_array α N).run calls).m_free_head v) ∧
    (∀ (v : α) (m : Nat) (e : error),
      (((keyed_array.ctor : keyed_array α N).run calls).emplace_back v m).1
        = Except.error e →
      (((keyed_array.ctor : keyed_array α N).run calls).emplace_back v m).2.m_data
        = ((keyed_array.ctor : keyed_array α N).run calls).m_data) ∧
    (∀ k : versioned_key,
      (((keyed_array.ctor : keyed_array α N).run calls).try_remove k).1 = true →
      (((keyed_array.ctor : keyed_array α N).run calls).m_data.get k.m_index).isSome = true ∧
      (((keyed_array.ctor : keyed_array α N).run calls).try_remove k).2.m_data
        = ((keyed_array.ctor : keyed_array α N).run calls).m_data.destroy k.m_index) ∧
    (∀ k : versioned_key,
      (((keyed_array.ctor : keyed_array α N).run calls).try_remove k).1 = false →
      (((keyed_array.ctor : keyed_array α N).run calls).try_remove k).2.m_data
        = ((keyed_array.ctor : keyed_array α N).run calls).m_data) ∧
    (∀ p, ((keyed_array.ctor : keyed_array α N).run calls).destroy_all.m_data.get p = none) ∧
    (∀ p, ((keyed_array.ctor : keyed_array α N).run calls).clear.m_data.get p = none) ∧
    ((∀ i, i < N → ((keyed_array.ctor : keyed_array α N).run calls).m_free i
        ≠ keyed_array.slot_full) →
      ∀ p, ((keyed_array.ctor : keyed_array α N).run calls).m_data.get p = none) ∧
    (∀ p, (((slot_array.ctor : slot_array α M).run calls).m_data.get p).isSome = true ↔
      p < ((slot_array.ctor : slot_array α M).run calls).size) ∧
    (∀ (v : α) (m : Nat) (k : versioned_key),
      (((slot_array.ctor : slot_array α M).run calls).emplace_back v m).1 = Except.ok k →
      ((slot_array.ctor : slot_array α M).run calls).m_data.get
        ((slot_array.ctor : slot_array α M).run calls).size = none ∧
      (((slot_array.ctor : slot_array α M).run calls).emplace_back v m).2.m_data
        = ((slot_array.ctor : slot_array α M).run calls).m_data.emplace
            ((slot_array.ctor : slot_array α M).run calls).size v) ∧
    (∀ (v : α) (m : Nat) (e : error),
      (((slot_array.ctor : slot_array α M).run calls).emplace_back v m).1
        = Except.error e →
      (((slot_array.ctor : slot_array α M).run calls).emplace_back v m).2.m_data
        = ((slot_array.ctor : slot_array α M).run calls).m_data) ∧
    (∀ k : versioned_key,
      (((slot_array.ctor : slot_array α M).run calls).try_remove k).1 = true →
      ((((slot_array.ctor : slot_array α M).run calls).m_data.swap
        (((slot_array.ctor : slot_array α M).run calls).m_lookups k.m_index).data_index
        (((slot_array.ctor : slot_array α M).run calls).size - 1)).get
          (((slot_array.ctor : slot_array α M).run calls).size - 1)).isSome = true ∧
      (((slot_array.ctor : slot_array α M).run calls).m_data.swap
        (((slot_array.ctor : slot_array α M).run calls).m_lookups k.m_index).data_index
        (((slot_array.ctor : slot_array α M).run calls).size - 1)).get
          (((slot_array.ctor : slot_array α M).run calls).size - 1)
        = ((slot_array.ctor : slot_array α M).run calls).m_data.get
            (((slot_array.ctor : slot_array α M).run calls).m_lookups k.m_index).data_index ∧
      (((slot_array.ctor : slot_array α M).run calls).try_remove k).2.m_data
        = (((slot_array.ctor : slot_array α M).run calls).m_data.swap
            (((slot_array.ctor : slot_array α M).run calls).m_lookups k.m_index).data_index
            (((slot_array.ctor : slot_array α M).run calls).size - 1)).destroy
              (((slot_array.ctor : slot_array α M).run calls).size - 1)) ∧
    (∀ k : versioned_key,
      (((slot_array.ctor : slot_array α M).run calls).try_remove k).1 = false →
      (((slot_array.ctor : slot_array α M).run calls).try_remove k).2.m_data
        = ((slot_array.ctor : slot_array α M).run calls).m_data) ∧
    (∀ p, ((slot_array.ctor : slot_array α M).run calls).destroy_all.m_data.get p = none) ∧
    (∀ p, ((slot_array.ctor : slot_array α M).run calls).clear.m_data.get p = none) ∧
    (((slot_array.ctor : slot_array α M).run calls).size = 0 →
      ∀ p, ((slot_array.ctor : slot_array α M).run calls).m_data.get p = none) := by
  obtain ⟨flk, hk⟩ := keyed_array.ka_Inv_reachable (α := α) hN calls
  obtain ⟨fls, hs⟩ := slot_array.Inv_reachable (α := α) hM calls
  generalize (keyed_array.ctor : keyed_array α N).run calls = sk at hk
  generalize (slot_array.ctor : slot_array α M).run calls = ss at hs
  obtain ⟨k1, k2, k3, k4⟩ := keyed_array.ka_cells hN sk flk hk
  obtain ⟨s1, s2, s3, s4⟩ := slot_array.cells hM ss fls hs
  have hnone : ∀ {β : Type} (o : Option β), ¬ (o.isSome = true) → o = none := by
    intro β o h
    cases o with
    | none => rfl
    | some w => exact absurd rfl h
  refine ⟨hk.constructed, k1, ?_, k2, ?_, k3, k4, ?_, hs.constructed, ?_, ?_, ?_, ?_, s3, s4, ?_⟩
  · intro v m e he
    by_cases h1 : sk.m_free_head = keyed_array.invalid_index
    · rw [keyed_array.ka_emplace_back_full sk v m h1]
    · by_cases h2 : (sk.m_versions sk.m_free_head + 1) % 4294967296 = 0
      · rw [keyed_array.ka_emplace_back_overflow sk v m h1 h2]
      · rw [keyed_array.ka_emplace_back_ok sk v m h1 h2] at he
        cases he
  · intro k hf
    rw [keyed_array.ka_try_remove_fst] at hf
    rw [keyed_array.ka_try_remove_false sk k hf]
  · intro hfree p
    apply hnone
    intro hc
    obtain ⟨c1, c2⟩ := (hk.constructed p).mp hc
    exact hfree p c1 c2
  · intro v m k hok
    obtain ⟨a1, a2, _⟩ := s1 v m k hok
    exact ⟨a1, a2⟩
  · intro v m e he
    by_cases h1 : ss.m_free_head = slot_array.invalid_index
    · rw [slot_array.emplace_back_full ss v m h1]
    · by_cases h2 : ((ss.m_lookups ss.m_free_head).version + 1) % 4294967296 = 0
      · rw [slot_array.emplace_back_overflow ss v m h1 h2]
      · rw [slot_array.emplace_back_ok ss v m h1 h2] at he
        cases he
  · intro k hr
    obtain ⟨_, _, b3, _, b5, b6, _⟩ := s2 k hr
    refine ⟨?_, b5, b6⟩
    simp only [slot_array.size]
    rw [b5]
    exact b3
  · intro k hf
    rw [slot_array.try_remove_fst] at hf
    have hn : ss.resolve_key k = none := by
      cases hr : ss.resolve_key k with
      | none => rfl
      | some c => rw [hr] at hf; cases hf
    rw [slot_array.try_remove_none ss k hn]
  · intro h0 p
    apply hnone
    intro hc
    have := (hs.constructed p).mp hc
    simp only [slot_array.size] at h0
    omega

/-- Witness of C21: in a `slot_array` of capacity 2 holding two elements, the removal
of the first one destroys the tail cell after the swap, which holds the removed
element. -/
theorem C21_occupancy_and_cleanup_witness :
    (((slot_array.ctor : slot_array Nat 2).run
      [Call.emplace_back 10 0, Call.emplace_back 20 0]).try_remove
        { m_version := 1, m_index := 0, m_meta := 0 }).1 = true ∧
    (((slot_array.ctor : slot_array Nat 2).run
      [Call.emplace_back 10 0, Call.emplace_back 20 0]).try_remove
        { m_version := 1, m_index := 0, m_meta := 0 }).2.m_data
      = (((slot_array.ctor : slot_array Nat 2).run
          [Call.emplace_back 10 0, Call.emplace_back 20 0]).m_data.swap
            (((slot_array.ctor : slot_array Nat 2).run
              [Call.emplace_back 10 0, Call.emplace_back 20 0]).m_lookups 0).data_index
            (((slot_array.ctor : slot_array Nat 2).run
              [Call.emplace_back 10 0, Call.emplace_back 20 0]).size - 1)).destroy
          (((slot_array.ctor : slot_array Nat 2).run
            [Call.emplace_back 10 0, Call.emplace_back 20 0]).size - 1) :=
  ⟨by decide, ((C21_occupancy_and_cleanup (α := Nat) (N := 2) (M := 2) (by decide) (by decide)
    [Call.emplace_back 10 0, Call.emplace_back 20 0]).2.2.2.2.2.2.2.2.2.2.2.1
      { m_version := 1, m_index := 0, m_meta := 0 } (by decide)).2.2⟩

/-- C25: size accounting of `slot_array`.  In every reachable state: a successful
`emplace_back` increases `size()` by exactly one, a successful `try_remove` decreases it
by exactly one, a failed `emplace_back` or `try_remove` leaves it unchanged, and
`clear()` sets it to 0; `size() <= N`, `empty()` holds if and only if `size() == 0`,
and `size()` is the number of slots whose key (the slot index with the current
generation of the slot) resolves. -/
theorem C25_slot_array_size_accounting {α : Type} {N : Nat} (hN : N ≤ 65535)
    (calls : List (Call α)) :
    (∀ (v : α) (m : Nat) (k : versioned_key),
      (((slot_array.ctor : slot_array α N).run calls).emplace_back v m).1 = Except.ok k →
      (((slot_array.ctor : slot_array α N).run calls).emplace_back v m).2.size
        = ((slot_array.ctor : slot_array α N).run calls).size + 1) ∧
    (∀ (v : α) (m : Nat) (e : error),
      (((slot_array.ctor : slot_array α N).run calls).emplace_back v m).1
        = Except.error e →
      (((slot_array.ctor : slot_array α N).run calls).emplace_back v m).2.size
        = ((slot_array.ctor : slot_array α N).run calls).size) ∧
    (∀ key : versioned_key,
      (((slot_array.ctor : slot_array α N).run calls).try_remove key).1 = true →
      1 ≤ ((slot_array.ctor : slot_array α N).run calls).size ∧
      (((slot_array.ctor : slot_array α N).run calls).try_remove key).2.size
        = ((slot_array.ctor : slot_array α N).run calls).size - 1) ∧
    (∀ key : versioned_key,
      (((slot_array.ctor : slot_array α N).run calls).try_remove key).1 = false →
      (((slot_array.ctor : slot_array α N).run calls).try_remove key).2.size
        = ((slot_array.ctor : slot_array α N).run calls).size) ∧
    ((slot_array.ctor : slot_array α N).run calls).clear.size = 0 ∧
    ((slot_array.ctor : slot_array α N).run calls).size ≤ N ∧
    (((slot_array.ctor : slot_array α N).run calls).empty = true ↔
      ((slot_array.ctor : slot_array α N).run calls).size = 0) ∧
    (List.range N).countP (fun x =>
      (((slot_array.ctor : slot_array α N).run calls).try_get
        { m_version := (((slot_array.ctor : slot_array α N).run calls).m_lookups x).version
          m_index := x
          m_meta := 0 }).isSome)
      = ((slot_array.ctor : slot_array α N).run calls).size := by
  obtain ⟨fl, h⟩ := slot_array.Inv_reachable (α := α) hN calls
  generalize (slot_array.ctor : slot_array α N).run calls = s at h
  obtain ⟨s1, s2, _, _⟩ := slot_array.cells hN s fl h
  refine ⟨fun v m k hok => (s1 v m k hok).2.2, ?_, ?_, ?_, slot_array.size_clear s, h.size_le,
    by simp [slot_array.empty, slot_array.size], slot_array.size_eq_count hN s fl h⟩
  · intro v m e he
    by_cases h1 : s.m_free_head = slot_array.invalid_index
    · rw [slot_array.emplace_back_full s v m h1]
    · by_cases h2 : ((s.m_lookups s.m_free_head).version + 1) % 4294967296 = 0
      · rw [slot_array.emplace_back_overflow s v m h1 h2]
        rfl
      · rw [slot_array.emplace_back_ok s v m h1 h2] at he
        cases he
  · intro key hr
    obtain ⟨b1, _, _, _, _, _, b7⟩ := s2 key hr
    exact ⟨b1, b7⟩
  · intro key hf
    rw [slot_array.try_remove_fst] at hf
    have hn : s.resolve_key key = none := by
      cases hr : s.resolve_key key with
      | none => rfl
      | some c => rw [hr] at hf; cases hf
    rw [slot_array.try_remove_none s key hn]

/-- Witness of C25: in a pool of capacity 2 holding two elements, removing the key of
the first one takes the size from 2 to 1. -/
theorem C25_slot_array_size_accounting_witness :
    (((slot_array.ctor : slot_array Nat 2).run
      [Call.emplace_back 10 0, Call.emplace_back 20 0]).try_remove
        { m_version := 1, m_index := 0, m_meta := 0 }).1 = true ∧
    (((slot_array.ctor : slot_array Nat 2).run
      [Call.emplace_back 10 0, Call.emplace_back 20 0]).try_remove
        { m_version := 1, m_index := 0, m_meta := 0 }).2.size
      = ((slot_array.ctor : slot_array Nat 2).run
        [Call.emplace_back 10 0, Call.emplace_back 20 0]).size - 1 :=
  ⟨by decide, ((C25_slot_array_size_accounting (α := Nat) (N := 2) (by decide)
    [Call.emplace_back 10 0, Call.emplace_back 20 0]).2.2.1
      { m_version := 1, m_index := 0, m_meta := 0 } (by decide)).2⟩

end nonstd
namespace nonstd

/-- C28: LIFO slot reuse.  In every reachable state of `keyed_array` and of
`slot_array`, if `try_remove(k)` returns true and the generation of slot `k.index` is
below the maximum `2^32 - 1`, then the pool is not full after the removal, and the next
`emplace_back` succeeds and returns a key with index `k.index` and version
`k.version + 1` (and the tag passed to it); after it the pool is full if and only if
it was full before the removal (`slot_array`: the size is what it was). -/
theorem C28_lifo_slot_reuse {α : Type} {N M : Nat} (hN : N ≤ 65534) (hM : M ≤ 65535)
    (calls : List (Call α)) (k : versioned_key) (v : α) (m : Nat) :
    ((((keyed_array.ctor : keyed_array α N).run calls).try_remove k).1 = true →
      ((keyed_array.ctor : keyed_array α N).run calls).m_versions k.m_index < 4294967295 →
      (((keyed_array.ctor : keyed_array α N).run calls).try_remove k).2.full = false ∧
      ((((keyed_array.ctor : keyed_array α N).run calls).try_remove k).2.emplace_back v m).1
        = Except.ok { m_version := k.m_version + 1, m_index := k.m_index, m_meta := m } ∧
      ((((keyed_array.ctor : keyed_array α N).run calls).try_remove k).2.emplace_back
        v m).2.full = ((keyed_array.ctor : keyed_array α N).run calls).full) ∧
    ((((slot_array.ctor : slot_array α M).run calls).try_remove k).1 = true →
      (((slot_array.ctor : slot_array α M).run calls).m_lookups k.m_index).version
        < 4294967295 →
      (((slot_array.ctor : slot_array α M).run calls).try_remove k).2.m_free_head
        ≠ slot_array.invalid_index ∧
      (((slot_array.ctor : slot_array α M).run calls).try_remove k).2.size
        < (((slot_array.ctor : slot_array α M).run calls).try_remove k).2.max_size ∧
      ((((slot_array.ctor : slot_array α M).run calls).try_remove k).2.emplace_back v m).1
        = Except.ok { m_version := k.m_version + 1, m_index := k.m_index, m_meta := m } ∧
      ((((slot_array.ctor : slot_array α M).run calls).try_remove k).2.emplace_back
        v m).2.size = ((slot_array.ctor : slot_array α M).run calls).size) := by
  obtain ⟨fls, hs⟩ := slot_array.Inv_reachable (α := α) hM calls
  constructor
  · intro hr hv
    exact keyed_array.ka_remove_then_emplace hN _ k hr hv v m
  · intro hr hv
    obtain ⟨a1, a2, a3, a4, _⟩ := slot_array.remove_then_emplace hM _ fls hs k hr hv v m
    exact ⟨a1, a2, a3, a4⟩

/-- Witness of C28: in a full `keyed_array` of capacity 20, after the removal of the
key of slot 2 the next `emplace_back` gets slot 2 with version 2, and the pool is full
again; in a `slot_array` of capacity 5 holding 5 elements, after the removal of the
key of slot 2 the free-list head is a slot, the next `emplace_back` gets slot 2 with
version 2, and the size is 5 again. -/
theorem C28_lifo_slot_reuse_witness :
    ((((keyed_array.ctor : keyed_array Nat 20).run
      (Call.emplace_each ((List.range 20).map (fun i => (i, 0))))).try_remove
        { m_version := 1, m_index := 2, m_meta := 0 }).1 = true ∧
    ((keyed_array.ctor : keyed_array Nat 20).run
      (Call.emplace_each ((List.range 20).map (fun i => (i, 0))))).full = true ∧
    ((((keyed_array.ctor : keyed_array Nat 20).run
      (Call.emplace_each ((List.range 20).map (fun i => (i, 0))))).try_remove
        { m_version := 1, m_index := 2, m_meta := 0 }).2.emplace_back 20 24).1
      = Except.ok { m_version := 1 + 1, m_index := 2, m_meta := 24 } ∧
    ((((keyed_array.ctor : keyed_array Nat 20).run
      (Call.emplace_each ((List.range 20).map (fun i => (i, 0))))).try_remove
        { m_version := 1, m_index := 2, m_meta := 0 }).2.emplace_back 20 24).2.full
      = ((keyed_array.ctor : keyed_array Nat 20).run
        (Call.emplace_each ((List.range 20).map (fun i => (i, 0))))).full) ∧
    ((((slot_array.ctor : slot_array Nat 5).run
      (Call.emplace_each ((List.range 5).map (fun i => (i, 0))))).try_remove
        { m_version := 1, m_index := 2, m_meta := 0 }).1 = true ∧
    ((slot_array.ctor : slot_array Nat 5).run
      (Call.emplace_each ((List.range 5).map (fun i => (i, 0))))).size = 5 ∧
    (((slot_array.ctor : slot_array Nat 5).run
      (Call.emplace_each ((List.range 5).map (fun i => (i, 0))))).try_remove
        { m_version := 1, m_index := 2, m_meta := 0 }).2.m_free_head
      ≠ slot_array.invalid_index ∧
    (((slot_array.ctor : slot_array Nat 5).run
      (Call.emplace_each ((List.range 5).map (fun i => (i, 0))))).try_remove
        { m_version := 1, m_index := 2, m_meta := 0 }).2.size
      < (((slot_array.ctor : slot_array Nat 5).run
        (Call.emplace_each ((List.range 5).map (fun i => (i, 0))))).try_remove
          { m_version := 1, m_index := 2, m_meta := 0 }).2.max_size ∧
    ((((slot_array.ctor : slot_array Nat 5).run
      (Call.emplace_each ((List.range 5).map (fun i => (i, 0))))).try_remove
        { m_version := 1, m_index := 2, m_meta := 0 }).2.emplace_back 20 24).1
      = Except.ok { m_version := 1 + 1, m_index := 2, m_meta := 24 } ∧
    ((((slot_array.ctor : slot_array Nat 5).run
      (Call.emplace_each ((List.range 5).map (fun i => (i, 0))))).try_remove
        { m_version := 1, m_index := 2, m_meta := 0 }).2.emplace_back 20 24).2.size
      = ((slot_array.ctor : slot_array Nat 5).run
        (Call.emplace_each ((List.range 5).map (fun i => (i, 0))))).size) :=
  ⟨⟨by decide, by decide,
    ((C28_lifo_slot_reuse (α := Nat) (N := 20) (M := 5) (by decide) (by decide)
      (Call.emplace_each ((List.range 20).map (fun i => (i, 0))))
      { m_version := 1, m_index := 2, m_meta := 0 } 20 24).1 (by decide) (by decide)).2⟩,
   ⟨by decide, by decide,
    (C28_lifo_slot_reuse (α := Nat) (N := 20) (M := 5) (by decide) (by decide)
      (Call.emplace_each ((List.range 5).map (fun i => (i, 0))))
      { m_version := 1, m_index := 2, m_meta := 0 } 20 24).2 (by decide) (by decide)⟩⟩

/-- C29 (counterexample): the first successful `emplace_back` on a fresh pool need not
get version 1, nor after a `clear()` the generation the slot had at the `clear()` plus
one.  On a fresh pool of capacity 1, an `emplace_back` in which the constructor of the
element throws issues no key and raises the generation of slot 0 to 1; the next
`emplace_back` is the first successful one and returns slot 0 with version 2.  After
one insertion and a `clear()` (generation of slot 0 is 1), an `emplace_back` with a
throwing constructor followed by a successful one returns slot 0 with version 3.  The
same holds for `keyed_array` and `slot_array`. -/
theorem C29_allocation_order_counterexample :
    (keyed_array.ctor : keyed_array Nat 1).granted (Invocation.emplace_each [(none, 0)]) = [] ∧
    (((keyed_array.ctor : keyed_array Nat 1).perform_all
      (Invocation.emplace_each [(none, 0)])).emplace_back_construct (some 10) 0).1
      = Except.ok { m_version := 2, m_index := 0, m_meta := 0 } ∧
    (((keyed_array.ctor : keyed_array Nat 1).perform_all
      [Invocation.emplace_back (some 10) 0]).clear.m_versions 0 = 1 ∧
    ((keyed_array.ctor : keyed_array Nat 1).perform_all
      [Invocation.emplace_back (some 10) 0]).clear.granted
        (Invocation.emplace_each [(none, 0)]) = [] ∧
    ((((keyed_array.ctor : keyed_array Nat 1).perform_all
      [Invocation.emplace_back (some 10) 0]).clear.perform_all
        (Invocation.emplace_each [(none, 0)])).emplace_back_construct (some 20) 0).1
      = Except.ok { m_version := 3, m_index := 0, m_meta := 0 }) ∧
    (slot_array.ctor : slot_array Nat 1).granted (Invocation.emplace_each [(none, 0)]) = [] ∧
    (((slot_array.ctor : slot_array Nat 1).perform_all
      (Invocation.emplace_each [(none, 0)])).emplace_back_construct (some 10) 0).1
      = Except.ok { m_version := 2, m_index := 0, m_meta := 0 } ∧
    ((((slot_array.ctor : slot_array Nat 1).perform_all
      [Invocation.emplace_back (some 10) 0]).clear.m_lookups 0).version = 1 ∧
    ((slot_array.ctor : slot_array Nat 1).perform_all
      [Invocation.emplace_back (some 10) 0]).clear.granted
        (Invocation.emplace_each [(none, 0)]) = [] ∧
    ((((slot_array.ctor : slot_array Nat 1).perform_all
      [Invocation.emplace_back (some 10) 0]).clear.perform_all
        (Invocation.emplace_each [(none, 0)])).emplace_back_construct (some 20) 0).1
      = Except.ok { m_version := 3, m_index := 0, m_meta := 0 }) :=
  ⟨rfl, rfl, ⟨rfl, rfl, rfl⟩, rfl, rfl, ⟨rfl, rfl, rfl⟩⟩

/-- C29 (amended): allocation order after construction or `clear()`.  Start from a
fresh pool, or from the state right after `clear()` in any reachable state, and make
`emplace_back` calls only, each of which may succeed, find the pool full, overflow the
generation, or fail in the constructor of the element.  A call that succeeds after `i`
earlier successful ones allocates slot index `i < N`; the version of its key is the
generation the slot had before the call plus one, and when no earlier call of the
sequence was attempted on that slot it is 1 on a fresh pool and, after a `clear()`, the
generation the slot had at the `clear()` plus one; in `slot_array` the element is
stored at data position `i`, and when all calls succeed the iteration order is the
insertion order. -/
theorem C29_allocation_order_amended {α : Type} {N M : Nat} (hN : N ≤ 65534)
    (hM : M ≤ 65535) (calls : List (Invocation α)) (pre : List (Option α × Nat))
    (e : Option α) (m : Nat) (k : versioned_key) :
    ((((keyed_array.ctor : keyed_array α N).perform_all
        (Invocation.emplace_each pre)).emplace_back_construct e m).1 = Except.ok k →
      k.m_index = ((keyed_array.ctor : keyed_array α N).granted
        (Invocation.emplace_each pre)).length ∧
      k.m_index < N ∧
      k.m_version = ((keyed_array.ctor : keyed_array α N).perform_all
        (Invocation.emplace_each pre)).m_versions k.m_index + 1 ∧
      (k.m_index ∉ (keyed_array.ctor : keyed_array α N).raised
        (Invocation.emplace_each pre) → k.m_version = 1) ∧
      (((keyed_array.ctor : keyed_array α N).perform_all
        (Invocation.emplace_each pre)).emplace_back_construct e m).2.try_get k
          = some k.m_index) ∧
    (((((keyed_array.ctor : keyed_array α N).perform_all calls).clear.perform_all
        (Invocation.emplace_each pre)).emplace_back_construct e m).1 = Except.ok k →
      k.m_index = (((keyed_array.ctor : keyed_array α N).perform_all calls).clear.granted
        (Invocation.emplace_each pre)).length ∧
      k.m_index < N ∧
      k.m_version = (((keyed_array.ctor : keyed_array α N).perform_all calls).clear.perform_all
        (Invocation.emplace_each pre)).m_versions k.m_index + 1 ∧
      (k.m_index ∉ ((keyed_array.ctor : keyed_array α N).perform_all calls).clear.raised
          (Invocation.emplace_each pre) →
        k.m_version
          = ((keyed_array.ctor : keyed_array α N).perform_all calls).m_versions k.m_index
            + 1) ∧
      ((((keyed_array.ctor : keyed_array α N).perform_all calls).clear.perform_all
        (Invocation.emplace_each pre)).emplace_back_construct e m).2.try_get k
          = some k.m_index) ∧
    ((((slot_array.ctor : slot_array α M).perform_all
        (Invocation.emplace_each pre)).emplace_back_construct e m).1 = Except.ok k →
      k.m_index = ((slot_array.ctor : slot_array α M).granted
        (Invocation.emplace_each pre)).length ∧
      k.m_index < M ∧
      k.m_version = (((slot_array.ctor : slot_array α M).perform_all
        (Invocation.emplace_each pre)).m_lookups k.m_index).version + 1 ∧
      (k.m_index ∉ (slot_array.ctor : slot_array α M).raised
        (Invocation.emplace_each pre) → k.m_version = 1) ∧
      (((slot_array.ctor : slot_array α M).perform_all
        (Invocation.emplace_each pre)).emplace_back_construct e m).2.try_get k
          = some k.m_index ∧
      (∃ v, e = some v) ∧
      (((slot_array.ctor : slot_array α M).perform_all
        (Invocation.emplace_each pre)).emplace_back_construct e m).2.m_data.get k.m_index
          = e) ∧
    (((((slot_array.ctor : slot_array α M).perform_all calls).clear.perform_all
        (Invocation.emplace_each pre)).emplace_back_construct e m).1 = Except.ok k →
      k.m_index = (((slot_array.ctor : slot_array α M).perform_all calls).clear.granted
        (Invocation.emplace_each pre)).length ∧
      k.m_index < M ∧
      k.m_version = ((((slot_array.ctor : slot_array α M).perform_all calls).clear.perform_all
        (Invocation.emplace_each pre)).m_lookups k.m_index).version + 1 ∧
      (k.m_index ∉ ((slot_array.ctor : slot_array α M).perform_all calls).clear.raised
          (Invocation.emplace_each pre) →
        k.m_version
          = (((slot_array.ctor : slot_array α M).perform_all calls).m_lookups
              k.m_index).version + 1) ∧
      ((((slot_array.ctor : slot_array α M).perform_all calls).clear.perform_all
        (Invocation.emplace_each pre)).emplace_back_construct e m).2.try_get k
          = some k.m_index ∧
      (∃ v, e = some v) ∧
      ((((slot_array.ctor : slot_array α M).perform_all calls).clear.perform_all
        (Invocation.emplace_each pre)).emplace_back_construct e m).2.m_data.get k.m_index
          = e) ∧
    (((slot_array.ctor : slot_array α M).granted (Invocation.emplace_each pre)).length
        = pre.length →
      ((slot_array.ctor : slot_array α M).perform_all (Invocation.emplace_each pre)).iterate
        = pre.map (fun a => a.1)) ∧
    ((((slot_array.ctor : slot_array α M).perform_all calls).clear.granted
        (Invocation.emplace_each pre)).length = pre.length →
      (((slot_array.ctor : slot_array α M).perform_all calls).clear.perform_all
        (Invocation.emplace_each pre)).iterate = pre.map (fun a => a.1)) := by
  obtain ⟨flk, hk⟩ := keyed_array.ka_Inv_performed (α := α) hN calls
  obtain ⟨fls, hs⟩ := slot_array.Inv_performed (α := α) hM calls
  have hkc := keyed_array.ka_Inv_clear hN _ flk hk
  have hsc := slot_array.Inv_clear hM _ fls hs
  have keyed : ∀ s0 : keyed_array α N, keyed_array.Inv s0 (List.range N) →
      ((s0.perform_all (Invocation.emplace_each pre)).emplace_back_construct e m).1
        = Except.ok k →
      k.m_index = (s0.granted (Invocation.emplace_each pre)).length ∧
      k.m_index < N ∧
      k.m_version = (s0.perform_all (Invocation.emplace_each pre)).m_versions k.m_index + 1 ∧
      (k.m_index ∉ s0.raised (Invocation.emplace_each pre) →
        k.m_version = s0.m_versions k.m_index + 1) ∧
      ((s0.perform_all (Invocation.emplace_each pre)).emplace_back_construct e m).2.try_get k
        = some k.m_index := by
    intro s0 h0 hok
    obtain ⟨v, _, hok', heq⟩ := keyed_array.ka_construct_ok_some _ e m k hok
    have h0' : keyed_array.Inv s0 (List.range' 0 (N - 0)) := by
      rw [Nat.sub_zero, ← List.range_eq_range']
      exact h0
    obtain ⟨_, i2⟩ := keyed_array.ka_attempts_order hN pre s0 0 (Nat.zero_le _) h0'
    rw [Nat.zero_add] at i2
    obtain ⟨a1, a2, _, a4, a5, _⟩ := keyed_array.ka_alloc_at hN _ _ i2 v m k hok'
    rw [heq, ← a1] at *
    refine ⟨rfl, a2, a4, ?_, a5⟩
    intro hnr
    rw [a4, keyed_array.ka_version_of_not_raised _ s0 _ hnr]
  have slot : ∀ s0 : slot_array α M, slot_array.Inv s0 (List.range M) →
      ((s0.perform_all (Invocation.emplace_each pre)).emplace_back_construct e m).1
        = Except.ok k →
      k.m_index = (s0.granted (Invocation.emplace_each pre)).length ∧
      k.m_index < M ∧
      k.m_version
        = ((s0.perform_all (Invocation.emplace_each pre)).m_lookups k.m_index).version + 1 ∧
      (k.m_index ∉ s0.raised (Invocation.emplace_each pre) →
        k.m_version = (s0.m_lookups k.m_index).version + 1) ∧
      ((s0.perform_all (Invocation.emplace_each pre)).emplace_back_construct e m).2.try_get k
        = some k.m_index ∧
      (∃ v, e = some v) ∧
      ((s0.perform_all (Invocation.emplace_each pre)).emplace_back_construct
        e m).2.m_data.get k.m_index = e := by
    intro s0 h0 hok
    obtain ⟨v, hv, hok', heq⟩ := slot_array.construct_ok_some _ e m k hok
    have h0' : slot_array.Inv s0 (List.range' 0 (M - 0)) := by
      rw [Nat.sub_zero, ← List.range_eq_range']
      exact h0
    obtain ⟨_, i2⟩ := slot_array.attempts_order hM pre s0 0 (Nat.zero_le _) h0'
    rw [Nat.zero_add] at i2
    obtain ⟨a1, a2, _, a4, _, a6, a7⟩ := slot_array.alloc_at hM _ _ i2 v m k hok'
    rw [heq, ← a1] at *
    refine ⟨rfl, a2, a4, ?_, a6, ⟨v, hv⟩, ?_⟩
    · intro hnr
      rw [a4, slot_array.version_of_not_raised _ s0 _ hnr]
    · rw [a7, hv]
  refine ⟨?_, ?_, ?_, ?_, ?_, ?_⟩
  · intro hok
    obtain ⟨b1, b2, b3, b4, b5⟩ := keyed (keyed_array.ctor) (keyed_array.ka_Inv_ctor hN) hok
    refine ⟨b1, b2, b3, ?_, b5⟩
    intro hnr
    rw [b4 hnr, keyed_array.ka_ctor_version]
  · intro hok
    obtain ⟨b1, b2, b3, b4, b5⟩ := keyed _ hkc hok
    refine ⟨b1, b2, b3, ?_, b5⟩
    intro hnr
    rw [b4 hnr, keyed_array.ka_version_clear]
  · intro hok
    obtain ⟨b1, b2, b3, b4, b5, b6, b7⟩ := slot (slot_array.ctor) (slot_array.Inv_ctor hM) hok
    refine ⟨b1, b2, b3, ?_, b5, b6, b7⟩
    intro hnr
    rw [b4 hnr, slot_array.ctor_version]
  · intro hok
    obtain ⟨b1, b2, b3, b4, b5, b6, b7⟩ := slot _ hsc hok
    refine ⟨b1, b2, b3, ?_, b5, b6, b7⟩
    intro hnr
    rw [b4 hnr, slot_array.version_clear]
  · intro hall
    rw [slot_array.iterate_attempts hM pre _ _ (slot_array.Inv_ctor hM) hall]
    simp [slot_array.iterate, slot_array.ctor, slot_array.reset_metadata_eq]
  · intro hall
    rw [slot_array.iterate_attempts hM pre _ _ hsc hall, slot_array.iterate_clear]
    rfl

/-- Witness of C29 (amended): on a fresh `slot_array` of capacity 2, the `emplace_back`
after one earlier successful call allocates slot 1 with version 1; on a fresh
`keyed_array` of capacity 2, the `emplace_back` after one call that threw in the
constructor and one successful call (slot 0, version 2) allocates slot 1 with
version 1. -/
theorem C29_allocation_order_amended_witness :
    ((((slot_array.ctor : slot_array Nat 2).perform_all
      (Invocation.emplace_each [(some 10, 0)])).emplace_back_construct (some 20) 0).1
      = Except.ok { m_version := 1, m_index := 1, m_meta := 0 } ∧
    ({ m_version := 1, m_index := 1, m_meta := 0 } : versioned_key).m_index
      = ((slot_array.ctor : slot_array Nat 2).granted
        (Invocation.emplace_each [(some 10, 0)])).length ∧
    ({ m_version := 1, m_index := 1, m_meta := 0 } : versioned_key).m_version = 1) ∧
    ((keyed_array.ctor : keyed_array Nat 2).granted
      (Invocation.emplace_each [(none, 0), (some 10, 0)])
      = [{ m_version := 2, m_index := 0, m_meta := 0 }] ∧
    (((keyed_array.ctor : keyed_array Nat 2).perform_all
      (Invocation.emplace_each [(none, 0), (some 10, 0)])).emplace_back_construct
        (some 20) 0).1
      = Except.ok { m_version := 1, m_index := 1, m_meta := 0 } ∧
    ({ m_version := 1, m_index := 1, m_meta := 0 } : versioned_key).m_index
      = ((keyed_array.ctor : keyed_array Nat 2).granted
        (Invocation.emplace_each [(none, 0), (some 10, 0)])).length ∧
    ({ m_version := 1, m_index := 1, m_meta := 0 } : versioned_key).m_version = 1) :=
  ⟨⟨rfl,
    ((C29_allocation_order_amended (α := Nat) (N := 2) (M := 2) (by decide) (by decide)
      [] [(some 10, 0)] (some 20) 0 { m_version := 1, m_index := 1, m_meta := 0 }).2.2.1
        rfl).1,
    ((C29_allocation_order_amended (α := Nat) (N := 2) (M := 2) (by decide) (by decide)
      [] [(some 10, 0)] (some 20) 0 { m_version := 1, m_index := 1, m_meta := 0 }).2.2.1
        rfl).2.2.2.1 (by decide)⟩,
   ⟨rfl, rfl,
    ((C29_allocation_order_amended (α := Nat) (N := 2) (M := 2) (by decide) (by decide)
      [] [(none, 0), (some 10, 0)] (some 20) 0
      { m_version := 1, m_index := 1, m_meta := 0 }).1 rfl).1,
    ((C29_allocation_order_amended (α := Nat) (N := 2) (M := 2) (by decide) (by decide)
      [] [(none, 0), (some 10, 0)] (some 20) 0
      { m_version := 1, m_index := 1, m_meta := 0 }).1 rfl).2.2.2.1 (by decide)⟩⟩

/-- C30: insertion preserves all existing keys.  In every reachable state of
`keyed_array` and of `slot_array`, a successful `emplace_back` leaves every key that
resolved before resolving to the same cell, which holds the same value as before; in
`slot_array` the cells at the data positions `0 .. size-1` (old size) are unchanged
and the new element is appended to the iteration. -/
theorem C30_insertion_preserves_keys {α : Type} {N M : Nat} (hN : N ≤ 65534)
    (hM : M ≤ 65535) (calls : List (Call α)) (v : α) (m : Nat) (k : versioned_key) :
    ((((keyed_array.ctor : keyed_array α N).run calls).emplace_back v m).1 = Except.ok k →
      ∀ (k' : versioned_key) (p : Nat),
        ((keyed_array.ctor : keyed_array α N).run calls).try_get k' = some p →
        (((keyed_array.ctor : keyed_array α N).run calls).emplace_back v m).2.try_get k'
          = some p ∧
        (((keyed_array.ctor : keyed_array α N).run calls).emplace_back v m).2.m_data.get p
          = ((keyed_array.ctor : keyed_array α N).run calls).m_data.get p) ∧
    ((((slot_array.ctor : slot_array α M).run calls).emplace_back v m).1 = Except.ok k →
      (∀ (k' : versioned_key) (p : Nat),
        ((slot_array.ctor : slot_array α M).run calls).try_get k' = some p →
        (((slot_array.ctor : slot_array α M).run calls).emplace_back v m).2.try_get k'
          = some p ∧
        (((slot_array.ctor : slot_array α M).run calls).emplace_back v m).2.m_data.get p
          = ((slot_array.ctor : slot_array α M).run calls).m_data.get p) ∧
      (∀ p, p < ((slot_array.ctor : slot_array α M).run calls).size →
        (((slot_array.ctor : slot_array α M).run calls).emplace_back v m).2.m_data.get p
          = ((slot_array.ctor : slot_array α M).run calls).m_data.get p) ∧
      (((slot_array.ctor : slot_array α M).run calls).emplace_back v m).2.iterate
        = ((slot_array.ctor : slot_array α M).run calls).iterate ++ [some v]) := by
  obtain ⟨flk, hk⟩ := keyed_array.ka_Inv_reachable (α := α) hN calls
  obtain ⟨fls, hs⟩ := slot_array.Inv_reachable (α := α) hM calls
  generalize (keyed_array.ctor : keyed_array α N).run calls = sk at hk
  generalize (slot_array.ctor : slot_array α M).run calls = ss at hs
  constructor
  · intro hok k' p hp
    exact keyed_array.ka_valid_after_emplace hN sk flk hk v m k hok k' p hp
  · intro hok
    obtain ⟨a1, a2⟩ := slot_array.valid_after_emplace hM ss fls hs v m k hok
    refine ⟨a1, fun p hp => ?_, a2⟩
    obtain ⟨_, b2, _⟩ := (slot_array.cells hM ss fls hs).1 v m k hok
    rw [b2]
    simp only [slot_array.size] at hp
    have : p ≠ ss.m_size := by omega
    simp [raw_buffer.get, raw_buffer.emplace, store, this]

/-- Witness of C30: in a `keyed_array` of capacity 2 holding one element, the second
insert leaves the key of the first resolving to cell 0. -/
theorem C30_insertion_preserves_keys_witness :
    (((keyed_array.ctor : keyed_array Nat 2).run [Call.emplace_back 10 0]).emplace_back
      20 0).1 = Except.ok { m_version := 1, m_index := 1, m_meta := 0 } ∧
    ((keyed_array.ctor : keyed_array Nat 2).run [Call.emplace_back 10 0]).try_get
      { m_version := 1, m_index := 0, m_meta := 0 } = some 0 ∧
    (((keyed_array.ctor : keyed_array Nat 2).run [Call.emplace_back 10 0]).emplace_back
      20 0).2.try_get { m_version := 1, m_index := 0, m_meta := 0 } = some 0 :=
  ⟨rfl, by decide, ((C30_insertion_preserves_keys (α := Nat) (N := 2) (M := 2) (by decide)
    (by decide) [Call.emplace_back 10 0] 20 0
    { m_version := 1, m_index := 1, m_meta := 0 }).1 rfl
      { m_version := 1, m_index := 0, m_meta := 0 } 0 (by decide)).1⟩

end nonstd
namespace nonstd

/-- C31: free slots of `slot_array` never pass the lookup check.  In every reachable
state, following `next_free` from `m_free_head` reaches `invalid_index` after at most
`N` slots; the slots met are distinct (the list is acyclic), there are exactly
`N - size()` of them, each is a slot index below `N` whose `data_index` is
`invalid_index` or `>= size()`, and no key with the index of such a slot resolves,
whatever its version.  A successful `try_remove` that removes the tail element leaves
the old position `size() - 1`, which is the new size, in the freed record (any other
successful removal leaves `invalid_index`), and the freed slot is on the free list
afterwards. -/
theorem C31_free_slots_never_resolve {α : Type} {N : Nat} (hN : N ≤ 65535)
    (calls : List (Call α)) :
    slot_array.free_chain ((slot_array.ctor : slot_array α N).run calls).m_lookups
      ((slot_array.ctor : slot_array α N).run calls).m_free_head
      ((slot_array.ctor : slot_array α N).run calls).size
      (slot_array.follow ((slot_array.ctor : slot_array α N).run calls).m_lookups N
        ((slot_array.ctor : slot_array α N).run calls).m_free_head) ∧
    slot_array.follow ((slot_array.ctor : slot_array α N).run calls).m_lookups (N + 1)
        ((slot_array.ctor : slot_array α N).run calls).m_free_head
      = slot_array.follow ((slot_array.ctor : slot_array α N).run calls).m_lookups N
        ((slot_array.ctor : slot_array α N).run calls).m_free_head ∧
    (slot_array.follow ((slot_array.ctor : slot_array α N).run calls).m_lookups N
      ((slot_array.ctor : slot_array α N).run calls).m_free_head).Nodup ∧
    (slot_array.follow ((slot_array.ctor : slot_array α N).run calls).m_lookups N
      ((slot_array.ctor : slot_array α N).run calls).m_free_head).length
      = N - ((slot_array.ctor : slot_array α N).run calls).size ∧
    ((slot_array.ctor : slot_array α N).run calls).size ≤ N ∧
    (∀ x ∈ slot_array.follow ((slot_array.ctor : slot_array α N).run calls).m_lookups N
        ((slot_array.ctor : slot_array α N).run calls).m_free_head,
      x < N ∧
      ((((slot_array.ctor : slot_array α N).run calls).m_lookups x).data_index
          = slot_array.invalid_index ∨
        ((slot_array.ctor : slot_array α N).run calls).size
          ≤ (((slot_array.ctor : slot_array α N).run calls).m_lookups x).data_index) ∧
      ∀ ver m, ((slot_array.ctor : slot_array α N).run calls).try_get
        { m_version := ver, m_index := x, m_meta := m } = none) ∧
    (∀ k : versioned_key,
      (((slot_array.ctor : slot_array α N).run calls).try_remove k).1 = true →
      ((((slot_array.ctor : slot_array α N).run calls).try_remove k).2.m_lookups
          k.m_index).data_index
        = (if (((slot_array.ctor : slot_array α N).run calls).m_lookups k.m_index).data_index
              = ((slot_array.ctor : slot_array α N).run calls).size - 1
          then ((slot_array.ctor : slot_array α N).run calls).size - 1
          else slot_array.invalid_index) ∧
      (((slot_array.ctor : slot_array α N).run calls).try_remove k).2.size
        = ((slot_array.ctor : slot_array α N).run calls).size - 1 ∧
      k.m_index ∈ slot_array.follow
        (((slot_array.ctor : slot_array α N).run calls).try_remove k).2.m_lookups N
        (((slot_array.ctor : slot_array α N).run calls).try_remove k).2.m_free_head) := by
  obtain ⟨fl, h⟩ := slot_array.Inv_reachable (α := α) hN calls
  generalize (slot_array.ctor : slot_array α N).run calls = s at h
  obtain ⟨f1, f2⟩ := h.follow_free hN
  rw [f1, f2]
  have hsz := h.size_le
  have hadd := h.size_add
  refine ⟨h.chain, rfl, h.fl_nodup, by simp only [slot_array.size]; omega, hsz, ?_, ?_⟩
  · intro x hx
    exact ⟨h.fl_lt x hx, Or.inr (h.free_ge x hx), fun ver m =>
      slot_array.free_unresolved h x hx ver m⟩
  · intro k hr
    obtain ⟨d1, d2, _⟩ := slot_array.remove_data_index hN s fl h k hr
    refine ⟨d1, d2, ?_⟩
    have hr' := hr
    rw [slot_array.try_remove_fst] at hr'
    obtain ⟨c, hc⟩ := Option.isSome_iff_exists.mp hr'
    have hI := slot_array.Inv_try_remove_ok hN s fl h k c hc
    have hck := ((slot_array.resolve_key_eq_some s k c).mp hc).1
    rw [(hI.follow_free hN).1, hck]
    exact List.mem_cons_self _ _

/-- Witness of C31: in a pool of capacity 3 holding three elements, the removal of the
tail element leaves data position 2, the old position and more than the new size, in
the freed record. -/
theorem C31_free_slots_never_resolve_witness :
    (((slot_array.ctor : slot_array Nat 3).run
      [Call.emplace_back 10 0, Call.emplace_back 20 0, Call.emplace_back 30 0]).try_remove
        { m_version := 1, m_index := 2, m_meta := 0 }).1 = true ∧
    ((((slot_array.ctor : slot_array Nat 3).run
      [Call.emplace_back 10 0, Call.emplace_back 20 0, Call.emplace_back 30 0]).try_remove
        { m_version := 1, m_index := 2, m_meta := 0 }).2.m_lookups 2).data_index
      = (if (((slot_array.ctor : slot_array Nat 3).run
          [Call.emplace_back 10 0, Call.emplace_back 20 0,
            Call.emplace_back 30 0]).m_lookups 2).data_index
            = ((slot_array.ctor : slot_array Nat 3).run
              [Call.emplace_back 10 0, Call.emplace_back 20 0,
                Call.emplace_back 30 0]).size - 1
        then ((slot_array.ctor : slot_array Nat 3).run
          [Call.emplace_back 10 0, Call.emplace_back 20 0, Call.emplace_back 30 0]).size - 1
        else slot_array.invalid_index) :=
  ⟨by decide, ((C31_free_slots_never_resolve (α := Nat) (N := 3) (by decide)
    [Call.emplace_back 10 0, Call.emplace_back 20 0, Call.emplace_back 30 0]).2.2.2.2.2.2
      { m_version := 1, m_index := 2, m_meta := 0 } (by decide)).1⟩

/-- C32: free-list well-formedness of `keyed_array`.  In every reachable state: every
`m_free` entry of a slot `i < N` is `slot_full`, `invalid_index` or an index below `N`;
following the `m_free` links from `m_free_head` reaches `invalid_index` after at most
`N` slots, the slots met are distinct (no cycle) and are exactly the slots below `N`
that are not marked `slot_full`, so that their number is `N` minus the number of
occupied slots; and `slot_full` is never a link value: it is neither the head nor the
entry of a slot on the list. -/
theorem C32_keyed_array_free_list {α : Type} {N : Nat} (hN : N ≤ 65534)
    (calls : List (Call α)) :
    (∀ i, i < N →
      ((keyed_array.ctor : keyed_array α N).run calls).m_free i = keyed_array.slot_full ∨
      ((keyed_array.ctor : keyed_array α N).run calls).m_free i = keyed_array.invalid_index ∨
      ((keyed_array.ctor : keyed_array α N).run calls).m_free i < N) ∧
    keyed_array.free_chain ((keyed_array.ctor : keyed_array α N).run calls).m_free
      ((keyed_array.ctor : keyed_array α N).run calls).m_free_head
      (keyed_array.follow ((keyed_array.ctor : keyed_array α N).run calls).m_free N
        ((keyed_array.ctor : keyed_array α N).run calls).m_free_head) ∧
    keyed_array.follow ((keyed_array.ctor : keyed_array α N).run calls).m_free (N + 1)
        ((keyed_array.ctor : keyed_array α N).run calls).m_free_head
      = keyed_array.follow ((keyed_array.ctor : keyed_array α N).run calls).m_free N
        ((keyed_array.ctor : keyed_array α N).run calls).m_free_head ∧
    (keyed_array.follow ((keyed_array.ctor : keyed_array α N).run calls).m_free N
      ((keyed_array.ctor : keyed_array α N).run calls).m_free_head).Nodup ∧
    (∀ i, i ∈ keyed_array.follow ((keyed_array.ctor : keyed_array α N).run calls).m_free N
        ((keyed_array.ctor : keyed_array α N).run calls).m_free_head ↔
      (i < N ∧ ((keyed_array.ctor : keyed_array α N).run calls).m_free i
        ≠ keyed_array.slot_full)) ∧
    (List.range N).countP (fun i =>
        decide (((keyed_array.ctor : keyed_array α N).run calls).m_free i
          = keyed_array.slot_full))
      + (keyed_array.follow ((keyed_array.ctor : keyed_array α N).run calls).m_free N
        ((keyed_array.ctor : keyed_array α N).run calls).m_free_head).length = N ∧
    ((keyed_array.ctor : keyed_array α N).run calls).m_free_head ≠ keyed_array.slot_full ∧
    (∀ i ∈ keyed_array.follow ((keyed_array.ctor : keyed_array α N).run calls).m_free N
        ((keyed_array.ctor : keyed_array α N).run calls).m_free_head,
      ((keyed_array.ctor : keyed_array α N).run calls).m_free i ≠ keyed_array.slot_full ∧
      (((keyed_array.ctor : keyed_array α N).run calls).m_free i
          = keyed_array.invalid_index ∨
        ((keyed_array.ctor : keyed_array α N).run calls).m_free i
          ∈ keyed_array.follow ((keyed_array.ctor : keyed_array α N).run calls).m_free N
            ((keyed_array.ctor : keyed_array α N).run calls).m_free_head)) := by
  obtain ⟨fl, h⟩ := keyed_array.ka_Inv_reachable (α := α) hN calls
  generalize (keyed_array.ctor : keyed_array α N).run calls = s at h
  obtain ⟨f1, f2⟩ := h.ka_follow_free hN
  rw [f1, f2]
  have hlinks := keyed_array.ka_chain_links s.m_free fl _ h.chain
  have hmem : ∀ i, i ∈ fl ↔ (i < N ∧ s.m_free i ≠ keyed_array.slot_full) := by
    intro i
    constructor
    · intro hi
      have hiN := h.fl_lt i hi
      exact ⟨hiN, fun hc => (h.occupied i hiN).mp hc hi⟩
    · rintro ⟨hiN, hne⟩
      by_cases hi : i ∈ fl
      · exact hi
      · exact absurd ((h.occupied i hiN).mpr hi) hne
  refine ⟨?_, h.chain, rfl, h.fl_nodup, hmem, h.ka_count_full, h.ka_head_ne_full hN, ?_⟩
  · intro i hi
    by_cases hf : s.m_free i = keyed_array.slot_full
    · exact Or.inl hf
    · have him : i ∈ fl := (hmem i).mpr ⟨hi, hf⟩
      rcases hlinks i him with h1 | h1
      · exact Or.inr (Or.inl h1)
      · exact Or.inr (Or.inr (h.fl_lt _ h1))
  · intro i hi
    exact ⟨((hmem i).mp hi).2, hlinks i hi⟩

/-- Witness of C32: in a pool of capacity 3 after three inserts and the removal of the
keys of slots 1 and 0, the free list is slot 0, then slot 1. -/
theorem C32_keyed_array_free_list_witness :
    keyed_array.follow ((keyed_array.ctor : keyed_array Nat 3).run
      [Call.emplace_back 10 0, Call.emplace_back 20 0, Call.emplace_back 30 0,
        Call.try_remove { m_version := 1, m_index := 1, m_meta := 0 },
        Call.try_remove { m_version := 1, m_index := 0, m_meta := 0 }]).m_free 3
      ((keyed_array.ctor : keyed_array Nat 3).run
        [Call.emplace_back 10 0, Call.emplace_back 20 0, Call.emplace_back 30 0,
          Call.try_remove { m_version := 1, m_index := 1, m_meta := 0 },
          Call.try_remove { m_version := 1, m_index := 0, m_meta := 0 }]).m_free_head
      = [0, 1] ∧
    (keyed_array.follow ((keyed_array.ctor : keyed_array Nat 3).run
      [Call.emplace_back 10 0, Call.emplace_back 20 0, Call.emplace_back 30 0,
        Call.try_remove { m_version := 1, m_index := 1, m_meta := 0 },
        Call.try_remove { m_version := 1, m_index := 0, m_meta := 0 }]).m_free 3
      ((keyed_array.ctor : keyed_array Nat 3).run
        [Call.emplace_back 10 0, Call.emplace_back 20 0, Call.emplace_back 30 0,
          Call.try_remove { m_version := 1, m_index := 1, m_meta := 0 },
          Call.try_remove { m_version := 1, m_index := 0, m_meta := 0 }]).m_free_head).Nodup :=
  ⟨by decide, (C32_keyed_array_free_list (α := Nat) (N := 3) (by decide)
    [Call.emplace_back 10 0, Call.emplace_back 20 0, Call.emplace_back 30 0,
      Call.try_remove { m_version := 1, m_index := 1, m_meta := 0 },
      Call.try_remove { m_version := 1, m_index := 0, m_meta := 0 }]).2.2.2.1⟩

/-- C33: `keyed_array` and `slot_array` are observationally equivalent on their common
interface.  For the same `N` (within the bound of `keyed_array`) and every finite
sequence of `emplace_back(value, meta)`, `try_get(key)`, `try_remove(key)` and
`clear()` calls applied to a fresh instance of each, the callers observe the same: the
same returned keys (version, index, meta) or the same exception, the same `try_remove`
results, and `try_get` null in both or pointing at the same value in both.  This holds
for calls fixed in advance with arbitrary keys, and for a caller that chooses each call
from the results of the earlier ones. -/
theorem C33_pools_observationally_equivalent {α : Type} {N : Nat} (hN : N ≤ 65534)
    (qs : List (Query α)) (client : List (Outcome α) → Option (Query α)) (fuel : Nat) :
    (keyed_array.ctor : keyed_array α N).observe qs
      = (slot_array.ctor : slot_array α N).observe qs ∧
    keyed_array.interact client fuel (keyed_array.ctor : keyed_array α N) []
      = slot_array.interact client fuel (slot_array.ctor : slot_array α N) [] :=
  ⟨sim_observe hN qs _ _ _ (sim_ctor hN), sim_interact hN client fuel _ _ _ [] (sim_ctor hN)⟩

/-- Witness of C33: on pools of capacity 2, two inserts, the removal of the first key, a
lookup of each key, a third insert and a fourth one. -/
theorem C33_pools_observationally_equivalent_witness :
    (keyed_array.ctor : keyed_array Nat 2).observe
      [Query.emplace_back 10 0, Query.emplace_back 20 7,
        Query.try_remove { m_version := 1, m_index := 0, m_meta := 0 },
        Query.try_get { m_version := 1, m_index := 0, m_meta := 0 },
        Query.try_get { m_version := 1, m_index := 1, m_meta := 7 },
        Query.emplace_back 30 0, Query.emplace_back 40 0]
    = (slot_array.ctor : slot_array Nat 2).observe
      [Query.emplace_back 10 0, Query.emplace_back 20 7,
        Query.try_remove { m_version := 1, m_index := 0, m_meta := 0 },
        Query.try_get { m_version := 1, m_index := 0, m_meta := 0 },
        Query.try_get { m_version := 1, m_index := 1, m_meta := 7 },
        Query.emplace_back 30 0, Query.emplace_back 40 0] ∧
    (slot_array.ctor : slot_array Nat 2).observe
      [Query.emplace_back 10 0, Query.emplace_back 20 7,
        Query.try_remove { m_version := 1, m_index := 0, m_meta := 0 },
        Query.try_get { m_version := 1, m_index := 0, m_meta := 0 },
        Query.try_get { m_version := 1, m_index := 1, m_meta := 7 },
        Query.emplace_back 30 0, Query.emplace_back 40 0]
    = [Outcome.emplaced (Except.ok { m_version := 1, m_index := 0, m_meta := 0 }),
        Outcome.emplaced (Except.ok { m_version := 1, m_index := 1, m_meta := 7 }),
        Outcome.removed true, Outcome.got none, Outcome.got (some (some 20)),
        Outcome.emplaced (Except.ok { m_version := 2, m_index := 0, m_meta := 0 }),
        Outcome.emplaced (Except.error error.out_of_range)] :=
  ⟨(C33_pools_observationally_equivalent (α := Nat) (N := 2) (by decide)
    [Query.emplace_back 10 0, Query.emplace_back 20 7,
      Query.try_remove { m_version := 1, m_index := 0, m_meta := 0 },
      Query.try_get { m_version := 1, m_index := 0, m_meta := 0 },
      Query.try_get { m_version := 1, m_index := 1, m_meta := 7 },
      Query.emplace_back 30 0, Query.emplace_back 40 0] (fun _ => none) 0).1, rfl⟩

/-- C34: `slot_array::try_remove` never indexes out of bounds.  In every reachable
state, whenever `resolve_key(key)` succeeds: the record it designates is the one of the
key's slot, which is below `N`; `size() >= 1` and `size() <= N`; the cursor position
(the `data_index` of that record) and the tail position (`size() - 1`, which is what
the cast to `index_type` yields) are both below `size()`; `m_erase` holds a slot index
below `N` at both positions; `m_erase` at the cursor position is the key's own index;
and the slot pushed onto the free list is the key's slot. -/
theorem C34_try_remove_in_range {α : Type} {N : Nat} (hN : N ≤ 65535)
    (calls : List (Call α)) (key : versioned_key) (c : Nat)
    (hres : ((slot_array.ctor : slot_array α N).run calls).resolve_key key = some c) :
    c = key.m_index ∧ c < N ∧
    1 ≤ ((slot_array.ctor : slot_array α N).run calls).size ∧
    ((slot_array.ctor : slot_array α N).run calls).size ≤ N ∧
    (((slot_array.ctor : slot_array α N).run calls).m_lookups c).data_index
      < ((slot_array.ctor : slot_array α N).run calls).size ∧
    ((((slot_array.ctor : slot_array α N).run calls).m_size + 18446744073709551615)
        % 18446744073709551616) % 65536
      = ((slot_array.ctor : slot_array α N).run calls).size - 1 ∧
    ((slot_array.ctor : slot_array α N).run calls).size - 1
      < ((slot_array.ctor : slot_array α N).run calls).size ∧
    ((slot_array.ctor : slot_array α N).run calls).m_erase
      (((slot_array.ctor : slot_array α N).run calls).m_lookups c).data_index < N ∧
    ((slot_array.ctor : slot_array α N).run calls).m_erase
      (((slot_array.ctor : slot_array α N).run calls).size - 1) < N ∧
    ((slot_array.ctor : slot_array α N).run calls).m_erase
      (((slot_array.ctor : slot_array α N).run calls).m_lookups c).data_index
      = key.m_index ∧
    (((slot_array.ctor : slot_array α N).run calls).try_remove key).1 = true ∧
    (((slot_array.ctor : slot_array α N).run calls).try_remove key).2.m_free_head
      = key.m_index := by
  obtain ⟨fl, h⟩ := slot_array.Inv_reachable (α := α) hN calls
  generalize (slot_array.ctor : slot_array α N).run calls = s at h hres
  obtain ⟨q1, q2, q3, q4, q5, q6, q7, q8, q9, q10, q11, q12⟩ := h.resolved hN hres
  have hsz := h.size_le
  have hr : (s.try_remove key).1 = true := by
    rw [slot_array.try_remove_fst, hres]
    rfl
  obtain ⟨_, _, d3⟩ := slot_array.remove_data_index hN s fl h key hr
  refine ⟨q1, q2, q9, hsz, q3, q7, ?_, ?_, q10, ?_, hr, d3⟩
  · simp only [slot_array.size]
    omega
  · rw [q5]
    exact q2
  · rw [q5]
    exact q1

/-- Witness of C34: in a pool of capacity 2 holding two elements, the key of the first
one resolves and `m_erase` at its data position is slot 0. -/
theorem C34_try_remove_in_range_witness :
    ((slot_array.ctor : slot_array Nat 2).run
      [Call.emplace_back 10 0, Call.emplace_back 20 0]).resolve_key
        { m_version := 1, m_index := 0, m_meta := 0 } = some 0 ∧
    ((slot_array.ctor : slot_array Nat 2).run
      [Call.emplace_back 10 0, Call.emplace_back 20 0]).m_erase
        (((slot_array.ctor : slot_array Nat 2).run
          [Call.emplace_back 10 0, Call.emplace_back 20 0]).m_lookups 0).data_index
      = ({ m_version := 1, m_index := 0, m_meta := 0 } : versioned_key).m_index :=
  ⟨by decide, (C34_try_remove_in_range (α := Nat) (N := 2) (by decide)
    [Call.emplace_back 10 0, Call.emplace_back 20 0]
    { m_version := 1, m_index := 0, m_meta := 0 } 0 (by decide)).2.2.2.2.2.2.2.2.2.1⟩

/-- C35: `packed_array::pop_back` on an empty array is rejected.  For every `N` (a
`size_t`), in every reachable state: when `size() == 0`, the position `size() - 1`
computed by `pop_back` is the wrapped value `2^64 - 1`, the bounds-checked `destroy_at`
throws `std::out_of_range` there, and `pop_back` throws it and leaves the array as it
was, with size 0; when `size() >= 1`, `pop_back` destroys exactly the cell of the last
element, which is constructed, decrements the size by one and leaves every other cell
unchanged. -/
theorem C35_packed_array_pop_back {α : Type} {N : Nat} (hN : N ≤ 18446744073709551615)
    (calls : List (packed_array.Call α)) :
    (((packed_array.ctor : packed_array α N).run calls).size = 0 →
      (((packed_array.ctor : packed_array α N).run calls).m_size + 18446744073709551615)
        % 18446744073709551616 = 18446744073709551615 ∧
      (((packed_array.ctor : packed_array α N).run calls).m_data.destroy_at
        18446744073709551615).1 = Except.error error.out_of_range ∧
      ((packed_array.ctor : packed_array α N).run calls).pop_back
        = (Except.error error.out_of_range, (packed_array.ctor : packed_array α N).run calls) ∧
      ((packed_array.ctor : packed_array α N).run calls).pop_back.2.size = 0) ∧
    (1 ≤ ((packed_array.ctor : packed_array α N).run calls).size →
      ((packed_array.ctor : packed_array α N).run calls).pop_back.1 = Except.ok () ∧
      ((packed_array.ctor : packed_array α N).run calls).pop_back.2.size
        = ((packed_array.ctor : packed_array α N).run calls).size - 1 ∧
      ((packed_array.ctor : packed_array α N).run calls).pop_back.2.m_data
        = ((packed_array.ctor : packed_array α N).run calls).m_data.destroy
            (((packed_array.ctor : packed_array α N).run calls).size - 1) ∧
      (((packed_array.ctor : packed_array α N).run calls).m_data.get
        (((packed_array.ctor : packed_array α N).run calls).size - 1)).isSome = true ∧
      ((packed_array.ctor : packed_array α N).run calls).pop_back.2.m_data.get
        (((packed_array.ctor : packed_array α N).run calls).size - 1) = none ∧
      (∀ p, p ≠ ((packed_array.ctor : packed_array α N).run calls).size - 1 →
        ((packed_array.ctor : packed_array α N).run calls).pop_back.2.m_data.get p
          = ((packed_array.ctor : packed_array α N).run calls).m_data.get p) ∧
      ((packed_array.ctor : packed_array α N).run calls).pop_back.2.iterate
        = ((packed_array.ctor : packed_array α N).run calls).iterate.dropLast) := by
  obtain ⟨h1, h2⟩ := packed_array.pa_inv_reachable (α := α) hN calls
  generalize (packed_array.ctor : packed_array α N).run calls = s at h1 h2
  constructor
  · intro h0
    simp only [packed_array.size] at h0
    have hpop := packed_array.pa_pop_back_empty hN s h0
    refine ⟨by rw [h0], ?_, hpop, by rw [hpop]; exact h0⟩
    have : N ≤ 18446744073709551615 := hN
    simp [raw_buffer.destroy_at, this]
  · intro hpos
    simp only [packed_array.size] at hpos
    have hpop := packed_array.pa_pop_back_ok s hpos h1 hN
    rw [hpop]
    refine ⟨rfl, rfl, rfl, (h2 _).mpr (by simp only [packed_array.size]; omega), ?_, ?_, ?_⟩
    · simp [packed_array.size, raw_buffer.get, raw_buffer.destroy]
    · intro p hp
      simp only [packed_array.size] at hp
      simp [raw_buffer.get, raw_buffer.destroy, store_apply, hp]
    · simp only [packed_array.iterate]
      have hsplit : s.m_size = (s.m_size - 1) + 1 := by omega
      conv_rhs => rw [hsplit, List.range_succ, List.map_append]
      simp only [List.map_cons, List.map_nil, List.dropLast_concat]
      apply List.map_congr_left
      intro p hp
      have hp' : p < s.m_size - 1 := List.mem_range.mp hp
      have : p ≠ s.m_size - 1 := by omega
      simp [raw_buffer.get, raw_buffer.destroy, store_apply, this]

/-- Witness of C35: `pop_back` on a fresh `packed_array` of capacity 2 throws and leaves
it as it was. -/
theorem C35_packed_array_pop_back_witness :
    ((packed_array.ctor : packed_array Nat 2).run []).size = 0 ∧
    ((packed_array.ctor : packed_array Nat 2).run []).pop_back
      = (Except.error error.out_of_range, (packed_array.ctor : packed_array Nat 2).run []) :=
  ⟨rfl, ((C35_packed_array_pop_back (α := Nat) (N := 2) (by decide) []).1 rfl).2.2.1⟩

/-- C36: `slot_array::destroy_all` terminates.  For every state with
`size() <= N <= 65535`, the loop with its 16-bit counter is left after `size() + 1`
evaluations of its test (more fuel changes nothing), with the counter at `size()`,
after `m_data.destroy` was applied to the positions `0 .. size()-1` once each, in
order; the state it leaves is the one of `destroy_all`, in which exactly the cells
below `size()` have been destroyed.  This includes `size() = N = 65535`, where the
counter reaches 65535.  With `size() >= 65536`, which the `static_assert` excludes,
the counter would wrap and the loop would never be left. -/
theorem C36_destroy_all_terminates {α : Type} {N : Nat} (hN : N ≤ 65535)
    (s : slot_array α N) (hs : s.size ≤ N) (extra : Nat) :
    slot_array.destroy_all_loop (s.size + 1 + extra) 0 [] s
      = some (s.size, List.range s.size, s.destroy_all) ∧
    (∀ p, s.destroy_all.m_data.get p = if p < s.size then none else s.m_data.get p) ∧
    (s.size = 65535 →
      slot_array.destroy_all_loop 65536 0 [] s
        = some (65535, List.range s.size, s.destroy_all)) ∧
    (∀ (t : slot_array α N) (fuel : Nat), 65536 ≤ t.size →
      slot_array.destroy_all_loop fuel 0 [] t = none) := by
  simp only [slot_array.size] at hs ⊢
  have hspec := slot_array.destroy_all_loop_spec s.m_size (s.m_size + 1 + extra) 0 [] s
    (by omega) (by omega) (by omega)
  have hstate : ({ s with m_data := { m_data := fun p =>
      if 0 ≤ p ∧ p < s.m_size then none else s.m_data.m_data p } } : slot_array α N)
      = s.destroy_all := by
    rw [slot_array.destroy_all_eq]
    apply slot_array.ext_fields <;> try rfl
    funext p
    simp
  rw [hstate, List.nil_append, ← List.range_eq_range'] at hspec
  refine ⟨hspec, ?_, ?_, ?_⟩
  · intro p
    rw [slot_array.destroy_all_eq]
    rfl
  · intro h
    have hspec0 := slot_array.destroy_all_loop_spec s.m_size 65536 0 [] s
      (by omega) (by omega) (by omega)
    rw [hstate, List.nil_append, ← List.range_eq_range'] at hspec0
    rw [hspec0, h]
  · intro t fuel ht
    exact slot_array.destroy_all_loop_diverges fuel 0 [] t ht (by decide)

/-- Witness of C36: in a pool of capacity 3 holding three elements, the loop destroys
positions 0, 1 and 2 and is left with the counter at 3. -/
theorem C36_destroy_all_terminates_witness :
    ((slot_array.ctor : slot_array Nat 3).run
      [Call.emplace_back 10 0, Call.emplace_back 20 0, Call.emplace_back 30 0]).size ≤ 3 ∧
    slot_array.destroy_all_loop
      (((slot_array.ctor : slot_array Nat 3).run
        [Call.emplace_back 10 0, Call.emplace_back 20 0, Call.emplace_back 30 0]).size + 1 + 0)
      0 []
      ((slot_array.ctor : slot_array Nat 3).run
        [Call.emplace_back 10 0, Call.emplace_back 20 0, Call.emplace_back 30 0])
    = some (((slot_array.ctor : slot_array Nat 3).run
        [Call.emplace_back 10 0, Call.emplace_back 20 0, Call.emplace_back 30 0]).size,
      List.range ((slot_array.ctor : slot_array Nat 3).run
        [Call.emplace_back 10 0, Call.emplace_back 20 0, Call.emplace_back 30 0]).size,
      ((slot_array.ctor : slot_array Nat 3).run
        [Call.emplace_back 10 0, Call.emplace_back 20 0,
          Call.emplace_back 30 0]).destroy_all) :=
  ⟨by decide, (C36_destroy_all_terminates (α := Nat) (N := 3) (by decide)
    ((slot_array.ctor : slot_array Nat 3).run
      [Call.emplace_back 10 0, Call.emplace_back 20 0, Call.emplace_back 30 0])
    (by decide) 0).1⟩

end nonstd
